import Mathlib

/-!
Minesweeper Text: the minefield and its deduction engine.

A shallow embedding of `minefield.h`, `minefield.cpp`, `mineprob.h` and
`mineprob.cpp`, followed by theorems about it.

Conventions of the embedding.

* C++ `int` values are `Int`; no count in this program leaves the range of a
  machine integer (every count is bounded by the number of cells).
* `std::vector< std::vector<T> >` indexed as `m[r][c]` is a total function
  `Int → Int → T`; the sizes of the vectors are the fields `height` and
  `width`.  The code reads and writes such a map only at coordinates it has
  checked to be inside the map.
* An assignment `m[r][c] = v` is `setCell m r c v`.
* `assert(...)` aborts the program when it fails; the embedding follows the
  computation itself, and the asserted conditions appear as hypotheses of the
  theorems that need them.  For the search of `findAnotherSquare` the accesses
  to the two maps are followed a second time with the bounds of the vectors
  (`readExpMap`, `readProbMap` and the functions named `...Checked`), where an
  access outside the vectors gives no result.
* Recursion, `while` and `do ... while` loops take a fuel argument and return
  `none` when the fuel runs out; the entry points supply a fuel that is proved
  to be enough (`explore_some`, `update_spec`).  A `for` loop over the map is a
  fold over the list of its squares.
* Output to `std::cout` is not modelled.
-/

namespace minesweeper

/-- Class `square`: a pair of coordinates, compared by value. -/
structure square where
  row : Int
  col : Int
deriving DecidableEq, Repr

/-- Class `mineField`: `height` and `width` are the sizes of the two vectors
`map` and `expMap`. -/
structure mineField where
  height : Nat
  width : Nat
  n_mines : Int
  expMap : Int → Int → Int
  map : Int → Int → Bool
  squaresExplored : Int

/-- Assignment `m[r][c] = v` to a two-dimensional map. -/
def setCell {α : Type} (m : Int → Int → α) (r c : Int) (v : α) : Int → Int → α :=
  fun r1 c1 => if r1 = r ∧ c1 = c then v else m r1 c1

namespace mineField

def getHeight (M : mineField) : Int := M.height

def getWidth (M : mineField) : Int := M.width

def getNmines (M : mineField) : Int := M.n_mines

def gameWon (M : mineField) : Bool :=
  M.squaresExplored == M.getWidth * M.getHeight - M.getNmines

def squareInsideMap (M : mineField) (s : square) : Bool :=
  decide (0 ≤ s.row) && decide (s.row < M.getHeight) &&
    decide (0 ≤ s.col) && decide (s.col < M.getWidth)

def squareFlagged (M : mineField) (s : square) : Bool :=
  M.expMap s.row s.col == -2

def squareExplored (M : mineField) (s : square) : Bool :=
  decide (M.expMap s.row s.col ≥ 0)

def n_minedNbours (M : mineField) (s : square) : Int :=
  M.expMap s.row s.col

def flagSquare (M : mineField) (s : square) : mineField :=
  { M with expMap := setCell M.expMap s.row s.col (-2) }

def squareMined (M : mineField) (s : square) : Bool :=
  M.map s.row s.col

/-- The eight guarded neighbour positions that `countMinedNbours`,
`exploreNbours`, `n_knownMinedNbours`, `n_unknownNbours`,
`setProbsOfUnknownNbours` and `setProbsOfUnknownNboursNotShared` each spell
out: top left, top middle, top right, middle left, middle right, bottom left,
bottom middle, bottom right, every one with the conjunction of the `tSafe`,
`bSafe`, `lSafe`, `rSafe` tests that guard its statement in the source. -/
def nbourSlots (M : mineField) (s : square) : List (Bool × square) :=
  let t := s.row - 1
  let tSafe := decide (s.row > 0)
  let b := s.row + 1
  let bSafe := decide (s.row < M.getHeight - 1)
  let l := s.col - 1
  let lSafe := decide (s.col > 0)
  let r := s.col + 1
  let rSafe := decide (s.col < M.getWidth - 1)
  [ (tSafe && lSafe, ⟨t, l⟩), (tSafe, ⟨t, s.col⟩), (tSafe && rSafe, ⟨t, r⟩),
    (lSafe, ⟨s.row, l⟩), (rSafe, ⟨s.row, r⟩),
    (bSafe && lSafe, ⟨b, l⟩), (bSafe, ⟨b, s.col⟩), (bSafe && rSafe, ⟨b, r⟩) ]

/-- Sum of the values in the eight squares surrounding `s`:
`count += squareMined(...)` for each guarded neighbour. -/
def countMinedNbours (M : mineField) (s : square) : Int :=
  (M.nbourSlots s).foldl
    (fun count gs => if gs.1 then count + (if M.squareMined gs.2 then 1 else 0) else count) 0

/-- Body of `exploreNbours`: the eight guarded calls `explore(...)` in source
order, the result of each call being dropped; `exploreRec` is the function
`explore` it calls back. -/
def exploreNboursWith (exploreRec : mineField → square → Option (Bool × mineField))
    (M : mineField) (s : square) : Option mineField :=
  (M.nbourSlots s).foldlM
    (fun M1 gs => if gs.1 then (exploreRec M1 gs.2).map Prod.snd else some M1) M

/-- Function `explore` with a bound `fuel` on the depth of the recursion
through `exploreNbours`. -/
def exploreFuel : Nat → mineField → square → Option (Bool × mineField)
  | 0, _, _ => none
  | fuel + 1, M, s =>
    if M.squareMined s then some (false, M)
    else if !M.squareExplored s && !M.squareFlagged s then
      let M1 := { M with squaresExplored := M.squaresExplored + 1 }
      let M2 := { M1 with expMap := setCell M1.expMap s.row s.col (M1.countMinedNbours s) }
      if M2.n_minedNbours s == 0 then
        (exploreNboursWith (exploreFuel fuel) M2 s).map (fun M3 => (true, M3))
      else some (true, M2)
    else some (true, M)

/-- Function `explore`: the recursion is at most one deeper than the number
of cells, as every call that recurses has first explored a new cell. -/
def explore (M : mineField) (s : square) : Option (Bool × mineField) :=
  exploreFuel (M.height * M.width + 1) M s

/-- Function `exploreNbours`. -/
def exploreNbours (M : mineField) (s : square) : Option mineField :=
  exploreNboursWith (exploreFuel (M.height * M.width + 1)) M s

end mineField

/-- Class `unknownNboursSharedRec`: `list` is the `std::bitset<8>`, held as the
set of the bit positions that are set. -/
structure unknownNboursSharedRec where
  minMines : Int
  maxMines : Int
  list : Finset (Fin 8)

namespace unknownNboursSharedRec

def reset (_u : unknownNboursSharedRec) : unknownNboursSharedRec :=
  { minMines := 0, maxMines := 0, list := ∅ }

def getMinMines (u : unknownNboursSharedRec) : Int := u.minMines

def getMaxMines (u : unknownNboursSharedRec) : Int := u.maxMines

def getCount (u : unknownNboursSharedRec) : Int := u.list.card

def getList (u : unknownNboursSharedRec) : Finset (Fin 8) := u.list

def addToMinMines (u : unknownNboursSharedRec) (n : Int) : unknownNboursSharedRec :=
  { u with minMines := u.minMines + n }

def addToMaxMines (u : unknownNboursSharedRec) (n : Int) : unknownNboursSharedRec :=
  { u with maxMines := u.maxMines + n }

/-- The nested `switch` of `convertSquareToBitPos`.  A `case` of the outer
switch whose inner switch matches no label has no `break` and falls through
to the next `case`; `caseZero` and `caseOne` are the statements reached
that way. -/
def convertSquareToBitPos (s : square) : Int :=
  let caseOne : Int :=
    if s.col = -1 then 5 else if s.col = 0 then 6 else if s.col = 1 then 7 else -999
  let caseZero : Int :=
    if s.col = -1 then 3 else if s.col = 1 then 4 else caseOne
  let caseMinusOne : Int :=
    if s.col = -1 then 0 else if s.col = 0 then 1 else if s.col = 1 then 2 else caseZero
  if s.row = -1 then caseMinusOne
  else if s.row = 0 then caseZero
  else if s.row = 1 then caseOne
  else -999

/-- Call `list.set(pos)`; `std::bitset::set` throws for a position outside
`0..7`, and the list is then left as it was. -/
def setBit (l : Finset (Fin 8)) (pos : Int) : Finset (Fin 8) :=
  if h : 0 ≤ pos ∧ pos < 8 then insert ⟨pos.toNat, by omega⟩ l else l

def addSquareToList (u : unknownNboursSharedRec) (s : square) : unknownNboursSharedRec :=
  { u with list := setBit u.list (convertSquareToBitPos s) }

def addSquaresToList (u : unknownNboursSharedRec) (l : Finset (Fin 8)) :
    unknownNboursSharedRec :=
  { u with list := u.list ∪ l }

def squareOnList (u : unknownNboursSharedRec) (s : square) : Bool :=
  decide (0 ≤ convertSquareToBitPos s ∧
    ∃ k ∈ u.list, ((k : Nat) : Int) = convertSquareToBitPos s)

end unknownNboursSharedRec

/-- File-scope template `minimum`. -/
def minimum (a b c : Int) : Int := min (min a b) c

/-- File-scope template `maximum`. -/
def maximum (a b c : Int) : Int := max (max a b) c

/-- Class `mineFieldProbMap`: `probMap[r][c]` is a `double` that this code
only ever sets to `-1.0`, `0.0` or `1.0`; it is held as the integer of the
same value, any value other than `0` and `1` meaning that the square is not
known.  The pointer `Mptr` is passed as the argument `M`. -/
structure mineFieldProbMap where
  probMap : Int → Int → Int

/-- All squares of the map, row by row: the order of the two nested `for`
loops over `s.row` and `s.col`. -/
def allSquares (M : mineField) : List square :=
  (List.range M.height).flatMap fun (r : Nat) =>
    (List.range M.width).map fun (c : Nat) => (⟨(r : Int), (c : Int)⟩ : square)

namespace mineFieldProbMap

def reset (P : mineFieldProbMap) (M : mineField) : mineFieldProbMap :=
  { probMap := fun r c => if M.squareInsideMap ⟨r, c⟩ then -1 else P.probMap r c }

def getProbMined (P : mineFieldProbMap) (s : square) : Int := P.probMap s.row s.col

def squareClear (P : mineFieldProbMap) (s : square) : Bool := P.probMap s.row s.col == 0

def squareMined (P : mineFieldProbMap) (s : square) : Bool := P.probMap s.row s.col == 1

def squareKnown (P : mineFieldProbMap) (s : square) : Bool := P.squareClear s || P.squareMined s

def probKnown (P : mineFieldProbMap) (s : square) : Bool := P.probMap s.row s.col != -1

def neighbours (s1 s2 : square) : Bool :=
  decide (s2.row - 1 ≤ s1.row) && decide (s1.row ≤ s2.row + 1) &&
    decide (s2.col - 1 ≤ s1.col) && decide (s1.col ≤ s2.col + 1) && decide (s1 ≠ s2)

def setProbMined (P : mineFieldProbMap) (s : square) (p : Int) : mineFieldProbMap :=
  { probMap := setCell P.probMap s.row s.col p }

def n_knownMinedNbours (P : mineFieldProbMap) (M : mineField) (s : square) : Int :=
  (M.nbourSlots s).foldl
    (fun count gs => if gs.1 then count + (if P.squareMined gs.2 then 1 else 0) else count) 0

def n_unknownMinedNbours (P : mineFieldProbMap) (M : mineField) (s : square) : Int :=
  M.n_minedNbours s - P.n_knownMinedNbours M s

def n_unknownNbours (P : mineFieldProbMap) (M : mineField) (s : square) : Int :=
  (M.nbourSlots s).foldl
    (fun count gs => if gs.1 then count + (if !P.squareKnown gs.2 then 1 else 0) else count) 0

def setProbsOfUnknownNbours (P : mineFieldProbMap) (M : mineField) (s : square) (p : Int) :
    mineFieldProbMap :=
  (M.nbourSlots s).foldl
    (fun P1 gs => if gs.1 && !P1.squareKnown gs.2 then P1.setProbMined gs.2 p else P1) P

/-- The eight guarded statements carry the tests `L.test(0)` to `L.test(7)`
in the order of the neighbour positions. -/
def setProbsOfUnknownNboursNotShared (P : mineFieldProbMap) (M : mineField) (s : square)
    (L : Finset (Fin 8)) (p : Int) : mineFieldProbMap :=
  ((List.finRange 8).zip (M.nbourSlots s)).foldl
    (fun P1 kgs =>
      if kgs.2.1 && !P1.squareKnown kgs.2.2 && !decide (kgs.1 ∈ L)
      then P1.setProbMined kgs.2.2 p else P1) P

def applySimpleTests (P : mineFieldProbMap) (M : mineField) (s : square) :
    Bool × mineFieldProbMap :=
  let n_unkMinedNbs := P.n_unknownMinedNbours M s
  if n_unkMinedNbs = P.n_unknownNbours M s then
    (true, P.setProbsOfUnknownNbours M s 1)
  else if n_unkMinedNbs = 0 then
    (true, P.setProbsOfUnknownNbours M s 0)
  else (false, P)

def applySimpleTestsToAllSquares (P : mineFieldProbMap) (M : mineField) :
    Bool × mineFieldProbMap :=
  (allSquares M).foldl
    (fun st s =>
      if M.squareExplored s && decide (st.2.n_unknownNbours M s ≠ 0) then
        let r := st.2.applySimpleTests M s
        if r.1 then (true, r.2) else (st.1, r.2)
      else st) (false, P)

def applyComplexTests (P : mineFieldProbMap) (M : mineField) (s : square)
    (unkNbsShared : unknownNboursSharedRec) : Bool × mineFieldProbMap :=
  let min_n_minesInUnkNbsNotShared := P.n_unknownMinedNbours M s - unkNbsShared.getMaxMines
  let max_n_minesInUnkNbsNotShared := P.n_unknownMinedNbours M s - unkNbsShared.getMinMines
  let n_unkNbsNotShared := P.n_unknownNbours M s - unkNbsShared.getCount
  if n_unkNbsNotShared ≠ 0 then
    if min_n_minesInUnkNbsNotShared = n_unkNbsNotShared then
      (true, P.setProbsOfUnknownNboursNotShared M s unkNbsShared.getList 1)
    else if max_n_minesInUnkNbsNotShared = 0 then
      (true, P.setProbsOfUnknownNboursNotShared M s unkNbsShared.getList 0)
    else (false, P)
  else (false, P)

/-- The squares `t` visited by the two `for` loops of `squareMeetsCriteria`. -/
def squaresAround (s : square) : List square :=
  [ ⟨s.row - 1, s.col - 1⟩, ⟨s.row - 1, s.col⟩, ⟨s.row - 1, s.col + 1⟩,
    ⟨s.row, s.col - 1⟩, ⟨s.row, s.col⟩, ⟨s.row, s.col + 1⟩,
    ⟨s.row + 1, s.col - 1⟩, ⟨s.row + 1, s.col⟩, ⟨s.row + 1, s.col + 1⟩ ]

/-- Returns the result together with the final value of the reference
argument `unkNbsSharedWn`. -/
def squareMeetsCriteria (P : mineFieldProbMap) (M : mineField) (s n : square)
    (unkNbsShared unkNbsSharedWn : unknownNboursSharedRec) :
    Bool × unknownNboursSharedRec :=
  let Wn := (squaresAround s).foldl
    (fun W t =>
      if M.squareInsideMap t && !P.squareKnown t && neighbours t n
      then W.addSquareToList ⟨t.row - s.row, t.col - s.col⟩ else W) unkNbsSharedWn
  if Wn.getCount = 0 then (false, Wn)
  else
    let doubles := Wn.getList ∩ unkNbsShared.getList
    if doubles.Nonempty then (false, Wn) else (true, Wn)

def updateUnkNbsShared (P : mineFieldProbMap) (M : mineField)
    (unkNbsShared unkNbsSharedWn : unknownNboursSharedRec) (s n : square) :
    unknownNboursSharedRec :=
  let n_unkNbsSsharesWithN := unkNbsSharedWn.getCount
  let u :=
    if n_unkNbsSsharesWithN = P.n_unknownNbours M n then
      (unkNbsShared.addToMinMines (P.n_unknownMinedNbours M n)).addToMaxMines
        (P.n_unknownMinedNbours M n)
    else
      let n_unkNbsOfSnotSharedWithN := P.n_unknownNbours M s - n_unkNbsSsharesWithN
      let n_unkNbsOfNnotSharedWithS := P.n_unknownNbours M n - n_unkNbsSsharesWithN
      let n_unkMinedNbsOfS := P.n_unknownMinedNbours M s
      let n_unkMinedNbsOfN := P.n_unknownMinedNbours M n
      let min := maximum 0 (n_unkMinedNbsOfS - n_unkNbsOfSnotSharedWithN)
        (n_unkMinedNbsOfN - n_unkNbsOfNnotSharedWithS)
      let max := minimum n_unkNbsSsharesWithN n_unkMinedNbsOfS n_unkMinedNbsOfN
      (unkNbsShared.addToMinMines min).addToMaxMines max
  u.addSquaresToList unkNbsSharedWn.getList

/-- Inner `for` loop of `findAnotherSquare`, over `n.col`, for the row
`nrow`; `ncol` is the value of `n.col` when the loop condition is tested.
The result `some none` is the end of the loop with no square found, and
`some (some (u, p, n))` is `return true` with the new values of
`unkNbsShared`, `startPos` and `n`. -/
def findInRow (P : mineFieldProbMap) (M : mineField) (s : square)
    (unkNbsShared : unknownNboursSharedRec) (startPos : square) (nrow : Int) :
    Nat → Int → Option (Option (unknownNboursSharedRec × square × square))
  | 0, ncol => if ncol ≤ min (s.col + 2) M.getWidth then none else some none
  | fuel + 1, ncol =>
    if ncol ≤ min (s.col + 2) M.getWidth then
      let ncol1 := if nrow = startPos.row ∧ ncol = max (s.col - 2) 0
        then max startPos.col 0 else ncol
      let n : square := ⟨nrow, ncol1⟩
      let r := squareMeetsCriteria P M s n unkNbsShared ⟨0, 0, ∅⟩
      if M.squareInsideMap n && M.squareExplored n && decide (P.n_unknownNbours M n ≠ 0)
          && decide (n ≠ s) && r.1 then
        let u := updateUnkNbsShared P M unkNbsShared r.2 s n
        let p : square := ⟨n.row, n.col + 1⟩
        let p : square := if p.col > s.col + 2 then ⟨p.row + 1, s.col - 2⟩ else p
        some (some (u, p, n))
      else findInRow P M s unkNbsShared startPos nrow fuel (ncol1 + 1)
    else some none

/-- Outer `for` loop of `findAnotherSquare`, over `n.row`: `count` rows are
left, the next one being `nrow`. -/
def findInRows (P : mineFieldProbMap) (M : mineField) (s : square)
    (unkNbsShared : unknownNboursSharedRec) (startPos : square) :
    Nat → Int → Option (Option (unknownNboursSharedRec × square × square))
  | 0, _ => some none
  | count + 1, nrow =>
    match findInRow P M s unkNbsShared startPos nrow 6 (max (s.col - 2) 0) with
    | none => none
    | some (some r) => some (some r)
    | some none => findInRows P M s unkNbsShared startPos count (nrow + 1)

/-- Function `findAnotherSquare`; see `findInRow` for the result. -/
def findAnotherSquare (P : mineFieldProbMap) (M : mineField) (s : square)
    (unkNbsShared : unknownNboursSharedRec) (startPos : square) :
    Option (Option (unknownNboursSharedRec × square × square)) :=
  if startPos.row > s.row + 2 then some none
  else
    findInRows P M s unkNbsShared startPos
      (min (s.row + 2) M.getHeight + 1 - startPos.row).toNat startPos.row

/-- Innermost `while` loop of `findAndApplyAllComplexTests` (third square). -/
def findThird (M : mineField) (s : square) (unkNbsShared2 : unknownNboursSharedRec) :
    Nat → mineFieldProbMap → unknownNboursSharedRec → square → Option (Bool × mineFieldProbMap)
  | 0, _, _, _ => none
  | fuel + 1, P, unkNbsShared3, startPos3 =>
    match findAnotherSquare P M s unkNbsShared3 startPos3 with
    | none => none
    | some none => some (false, P)
    | some (some (u3, p3, _s3)) =>
      let r := P.applyComplexTests M s u3
      if r.1 then some (true, r.2)
      else findThird M s unkNbsShared2 fuel r.2 unkNbsShared2 p3

/-- Middle `while` loop of `findAndApplyAllComplexTests` (second square). -/
def findSecond (M : mineField) (s : square) (n_otherSquares : Int)
    (unkNbsShared1 : unknownNboursSharedRec) :
    Nat → mineFieldProbMap → unknownNboursSharedRec → square → Option (Bool × mineFieldProbMap)
  | 0, _, _, _ => none
  | fuel + 1, P, unkNbsShared2, startPos2 =>
    match findAnotherSquare P M s unkNbsShared2 startPos2 with
    | none => none
    | some none => some (false, P)
    | some (some (u2, p2, _s2)) =>
      match (if n_otherSquares > 2 then findThird M s u2 26 P u2 p2
             else some (P.applyComplexTests M s u2)) with
      | none => none
      | some r =>
        if r.1 then some (true, r.2)
        else findSecond M s n_otherSquares unkNbsShared1 fuel r.2 unkNbsShared1 p2

/-- Outer `while` loop of `findAndApplyAllComplexTests` (first square). -/
def findFirst (M : mineField) (s : square) (n_otherSquares : Int) :
    Nat → mineFieldProbMap → unknownNboursSharedRec → square → Option (Bool × mineFieldProbMap)
  | 0, _, _, _ => none
  | fuel + 1, P, unkNbsShared1, startPos1 =>
    match findAnotherSquare P M s unkNbsShared1 startPos1 with
    | none => none
    | some none => some (false, P)
    | some (some (u1, p1, _s1)) =>
      match (if n_otherSquares > 1 then findSecond M s n_otherSquares u1 26 P u1 p1
             else some (P.applyComplexTests M s u1)) with
      | none => none
      | some r =>
        if r.1 then some (true, r.2)
        else findFirst M s n_otherSquares fuel r.2 u1.reset p1

/-- Function `findAndApplyAllComplexTests`: each successful call of
`findAnotherSquare` moves the start position forward in a window of 25
squares, so that a `while` loop makes at most 26 calls. -/
def findAndApplyAllComplexTests (P : mineFieldProbMap) (M : mineField) (s : square)
    (n_otherSquares : Int) : Option (Bool × mineFieldProbMap) :=
  findFirst M s n_otherSquares 26 P (unknownNboursSharedRec.reset ⟨0, 0, ∅⟩)
    ⟨s.row - 2, s.col - 2⟩

/-- The two `for` loops of `applyComplexTestsUntilSuccess` over the squares
that are left. -/
def applyComplexTestsOver (M : mineField) (n_otherSquares : Int) :
    List square → mineFieldProbMap → Option (Bool × mineFieldProbMap)
  | [], P => some (false, P)
  | s :: rest, P =>
    if M.squareExplored s && decide (P.n_unknownNbours M s ≠ 0) then
      match P.findAndApplyAllComplexTests M s n_otherSquares with
      | none => none
      | some r =>
        if r.1 then some (true, r.2) else applyComplexTestsOver M n_otherSquares rest r.2
    else applyComplexTestsOver M n_otherSquares rest P

def applyComplexTestsUntilSuccess (P : mineFieldProbMap) (M : mineField)
    (n_otherSquares : Int) : Option (Bool × mineFieldProbMap) :=
  applyComplexTestsOver M n_otherSquares (allSquares M) P

def setProbOfExploredSquaresToZero (P : mineFieldProbMap) (M : mineField) : mineFieldProbMap :=
  (allSquares M).foldl
    (fun P1 s => if M.squareExplored s then P1.setProbMined s 0 else P1) P

/-- Inner `do ... while (success)` loop of `update`: returns the map and the
value of `probMapChanged`. -/
def simpleLoop (M : mineField) :
    Nat → mineFieldProbMap → Bool → Option (mineFieldProbMap × Bool)
  | 0, _, _ => none
  | fuel + 1, P, probMapChanged =>
    let r := P.applySimpleTestsToAllSquares M
    if r.1 then simpleLoop M fuel r.2 true else some (r.2, probMapChanged)

/-- Outer `do ... while (success)` loop of `update`. -/
def updateLoop (M : mineField) :
    Nat → mineFieldProbMap → Bool → Option (Bool × mineFieldProbMap)
  | 0, _, _ => none
  | fuel + 1, P, probMapChanged =>
    match simpleLoop M (fuel + 1) P probMapChanged with
    | none => none
    | some (P1, changed1) =>
      match P1.applyComplexTestsUntilSuccess M 1 with
      | none => none
      | some r1 =>
        match (if !r1.1 then r1.2.applyComplexTestsUntilSuccess M 2 else some r1) with
        | none => none
        | some r2 =>
          match (if !r2.1 then r2.2.applyComplexTestsUntilSuccess M 3 else some r2) with
          | none => none
          | some r3 =>
            if r3.1 then updateLoop M fuel r3.2 true else some (changed1, r3.2)

/-- Function `update`: every successful round of a loop makes at least one
more square known, so that a loop makes at most one round more than there
are squares. -/
def update (P : mineFieldProbMap) (M : mineField) : Option (Bool × mineFieldProbMap) :=
  updateLoop M (M.height * M.width + 1) (P.setProbOfExploredSquaresToZero M) false

end mineFieldProbMap

end minesweeper

namespace minesweeper

/-! ## Notions used to state the properties -/

/-- The eight offsets of the neighbour positions, in the order of the bits of
the shared-neighbour list. -/
def offsets8 : List (Int × Int) :=
  [(-1, -1), (-1, 0), (-1, 1), (0, -1), (0, 1), (1, -1), (1, 0), (1, 1)]

/-- Offset of the neighbour position that bit `k` of a shared-neighbour list
stands for. -/
def offset8 (k : Fin 8) : Int × Int := offsets8.getD k.val (0, 0)

/-- The neighbour position of `s` that bit `k` stands for. -/
def nbSq (s : square) (k : Fin 8) : square :=
  ⟨s.row + (offset8 k).1, s.col + (offset8 k).2⟩

namespace mineFieldProbMap

/-- Bits of the neighbours of `s` that are inside the map and not known. -/
def unknownBits (P : mineFieldProbMap) (M : mineField) (s : square) : Finset (Fin 8) :=
  Finset.univ.filter fun k => M.squareInsideMap (nbSq s k) = true ∧ P.squareKnown (nbSq s k) = false

/-- Bits of the unknown neighbours of `s` inside the map that touch `n`. -/
def sharedBits (P : mineFieldProbMap) (M : mineField) (s n : square) : Finset (Fin 8) :=
  Finset.univ.filter fun k => M.squareInsideMap (nbSq s k) = true ∧
    P.squareKnown (nbSq s k) = false ∧ neighbours (nbSq s k) n = true

/-- Number of mined squares among the neighbours of `s` whose bits are in
`L`. -/
def minesIn (M : mineField) (s : square) (L : Finset (Fin 8)) : Nat :=
  (L.filter fun k => M.squareMined (nbSq s k) = true).card

/-- The map `P1` differs from `P` only by squares inside the map that were
not known in `P` and are known in `P1`. -/
def Tighten (M : mineField) (P P1 : mineFieldProbMap) : Prop :=
  ∀ t : square, P1.probMap t.row t.col = P.probMap t.row t.col ∨
    (M.squareInsideMap t = true ∧ P.squareKnown t = false ∧ P1.squareKnown t = true)

/-- Every square marked mined is mined and every square marked clear is not
mined. -/
def Sound (M : mineField) (P : mineFieldProbMap) : Prop :=
  ∀ t : square, M.squareInsideMap t = true →
    (P.squareMined t = true → M.squareMined t = true) ∧
    (P.squareClear t = true → M.squareMined t = false)

/-- Every explored square is marked clear. -/
def ExploredClear (M : mineField) (P : mineFieldProbMap) : Prop :=
  ∀ t : square, M.squareInsideMap t = true → M.squareExplored t = true →
    P.squareClear t = true

/-- The squares inside the map that are not known. -/
def unknowns (M : mineField) (P : mineFieldProbMap) : Finset (Nat × Nat) :=
  (Finset.range M.height ×ˢ Finset.range M.width).filter fun rc =>
    P.squareKnown ⟨(rc.1 : Int), (rc.2 : Int)⟩ = false

/-- The values that `unkNbsShared` takes in a search of
`findAndApplyAllComplexTests` for the square `s`: a reset record, to which
`findAnotherSquare` adds squares that meet its criteria. -/
inductive Built (P : mineFieldProbMap) (M : mineField) (s : square) :
    unknownNboursSharedRec → Prop
  | fresh (u : unknownNboursSharedRec) : Built P M s u.reset
  | add (u : unknownNboursSharedRec) (n : square) : Built P M s u →
      M.squareInsideMap n = true → M.squareExplored n = true → n ≠ s →
      P.n_unknownNbours M n ≠ 0 →
      (squareMeetsCriteria P M s n u ⟨0, 0, ∅⟩).1 = true →
      Built P M s (updateUnkNbsShared P M u (squareMeetsCriteria P M s n u ⟨0, 0, ∅⟩).2 s n)

/-- One successful test of `update`: a simple test on an explored square
with an unknown neighbour, or a complex test on such a square with a record
built by the search. -/
inductive RuleStep (M : mineField) : mineFieldProbMap → mineFieldProbMap → Prop
  | simple (P : mineFieldProbMap) (s : square) : M.squareInsideMap s = true →
      M.squareExplored s = true → P.n_unknownNbours M s ≠ 0 →
      (P.applySimpleTests M s).1 = true → RuleStep M P (P.applySimpleTests M s).2
  | complex (P : mineFieldProbMap) (s : square) (u : unknownNboursSharedRec) :
      M.squareInsideMap s = true → M.squareExplored s = true → P.n_unknownNbours M s ≠ 0 →
      Built P M s u → (P.applyComplexTests M s u).1 = true →
      RuleStep M P (P.applyComplexTests M s u).2

/-- Result of a search for a complex test on `s`: nothing found and the map
as it was, or a successful test with a record built by the search. -/
def ComplexOutcome (P : mineFieldProbMap) (M : mineField) (s : square)
    (r : Bool × mineFieldProbMap) : Prop :=
  (r.1 = false ∧ r.2 = P) ∨
  (r.1 = true ∧ ∃ u, Built P M s u ∧ (P.applyComplexTests M s u).1 = true ∧
    r.2 = (P.applyComplexTests M s u).2)

/-- The record `u` is right about the neighbours of `s`: its list holds
unknown neighbours only, and the number of mines among them lies between
`minMines` and `maxMines`. -/
def AccSound (P : mineFieldProbMap) (M : mineField) (s : square)
    (u : unknownNboursSharedRec) : Prop :=
  u.list ⊆ P.unknownBits M s ∧ u.minMines ≤ (minesIn M s u.list : Int) ∧
    (minesIn M s u.list : Int) ≤ u.maxMines

/-- The value of `n.col` after the first statement of the body of the inner
loop of `findAnotherSquare`. -/
def jumpCol (s startPos : square) (nrow ncol : Int) : Int :=
  if nrow = startPos.row ∧ ncol = max (s.col - 2) 0 then max startPos.col 0 else ncol

/-- The test that `findAnotherSquare` makes of a square `n`, the call of
`squareMeetsCriteria` included. -/
def accepts (P : mineFieldProbMap) (M : mineField) (s : square) (u : unknownNboursSharedRec)
    (n : square) : Bool :=
  M.squareInsideMap n && M.squareExplored n && decide (P.n_unknownNbours M n ≠ 0)
    && decide (n ≠ s) && (squareMeetsCriteria P M s n u ⟨0, 0, ∅⟩).1

/-- The position one after `n` in the window of `s`. -/
def nextPos (s n : square) : square :=
  if n.col + 1 > s.col + 2 then ⟨n.row + 1, s.col - 2⟩ else ⟨n.row, n.col + 1⟩

/-- The values of `unkNbsShared`, `startPos` and `n` with which
`findAnotherSquare` returns `true` at the square `n`. -/
def accepted (P : mineFieldProbMap) (M : mineField) (s : square) (u : unknownNboursSharedRec)
    (n : square) : unknownNboursSharedRec × square × square :=
  (updateUnkNbsShared P M u (squareMeetsCriteria P M s n u ⟨0, 0, ∅⟩).2 s n, nextPos s n, n)

/-- The assertions of `findAnotherSquare` on `startPos`. -/
def WindowPos (s p : square) : Prop :=
  s.row - 2 ≤ p.row ∧ p.row ≤ s.row + 3 ∧ s.col - 2 ≤ p.col ∧ p.col ≤ s.col + 2

/-- Number of positions of the window of `s` from `p` on. -/
def remaining (s p : square) : Nat :=
  if p.row > s.row + 2 then 0
  else (5 * (s.row + 2 - p.row) + (s.col + 2 - p.col) + 1).toNat

/-- What a sweep of simple tests keeps true of the pair of the flag and the
map, `P` being the map at the start. -/
def SweepInv (M : mineField) (P : mineFieldProbMap) (st : Bool × mineFieldProbMap) : Prop :=
  Relation.ReflTransGen (RuleStep M) P st.2 ∧ (st.1 = false → st.2 = P) ∧
    (st.1 = true → Relation.TransGen (RuleStep M) P st.2)

end mineFieldProbMap

namespace mineField

/-- The neighbours of `s` that lie inside the map, in the order of
`nbourSlots`. -/
def nbours (M : mineField) (s : square) : List square :=
  ((M.nbourSlots s).filter fun gs => gs.1).map fun gs => gs.2

/-- Number of mined squares of the map that touch `s`, counted over the whole
map. -/
def minedAround (M : mineField) (s : square) : Nat :=
  ((allSquares M).filter fun t => mineFieldProbMap.neighbours t s && M.squareMined t).length

/-- The state `M1` differs from `M` only by squares inside the map that were
neither explored nor flagged, are not mined, and now hold their number of
mined neighbours. -/
def Frame (M M1 : mineField) : Prop :=
  M1.height = M.height ∧ M1.width = M.width ∧ M1.n_mines = M.n_mines ∧ M1.map = M.map ∧
  ∀ t : square, M1.expMap t.row t.col = M.expMap t.row t.col ∨
    (M.squareInsideMap t = true ∧ M.squareMined t = false ∧ M.squareExplored t = false ∧
      M.squareFlagged t = false ∧ M1.expMap t.row t.col = M.countMinedNbours t)

/-- The squares inside the map that are neither explored nor flagged. -/
def candidates (M : mineField) : Finset (Nat × Nat) :=
  (Finset.range M.height ×ˢ Finset.range M.width).filter fun rc =>
    M.squareExplored ⟨(rc.1 : Int), (rc.2 : Int)⟩ = false ∧
    M.squareFlagged ⟨(rc.1 : Int), (rc.2 : Int)⟩ = false

/-- Function `reset`.  The positions that `layMines` draws from `rand()` are
not modelled: the layout it produces is the argument `mines`. -/
def reset (M : mineField) (mines : Int → Int → Bool) : mineField :=
  { M with
    map := fun r c => if M.squareInsideMap ⟨r, c⟩ then mines r c else M.map r c
    expMap := fun r c => if M.squareInsideMap ⟨r, c⟩ then -1 else M.expMap r c
    squaresExplored := 0 }

/-- States reached from a freshly reset grid by calls of `explore` alone. -/
inductive Reached : mineField → Prop
  | fresh (M : mineField) (mines : Int → Int → Bool) : Reached (M.reset mines)
  | explored (M M1 : mineField) (s : square) (b : Bool) :
      Reached M → M.squareInsideMap s = true → M.explore s = some (b, M1) → Reached M1

/-- The connected zero region of `s`: the squares joined to `s` by a chain of
touching squares of the map that all have no mined neighbour. -/
inductive ZeroRegion (M : mineField) (s : square) : square → Prop
  | start : M.minedAround s = 0 → ZeroRegion M s s
  | next (t u : square) : ZeroRegion M s t → M.squareInsideMap u = true →
      mineFieldProbMap.neighbours u t = true → M.minedAround u = 0 → ZeroRegion M s u

/-- No square inside the map is flagged or holds a value other than a count
or the mark of an unexplored square. -/
def NoFlag (M : mineField) : Prop :=
  ∀ t : square, M.squareInsideMap t = true → M.squareExplored t = false →
    M.expMap t.row t.col = -1

/-- An explored square with no mined neighbour whose neighbours are not all
explored. -/
def OpenZero (M : mineField) (t : square) : Prop :=
  M.squareInsideMap t = true ∧ M.squareExplored t = true ∧ M.expMap t.row t.col = 0 ∧
    ∃ u ∈ M.nbours t, M.squareExplored u = false

/-- Every explored square is unmined and holds the number of mined squares of
the map that touch it. -/
def ExactCounts (M : mineField) : Prop :=
  ∀ t : square, M.squareInsideMap t = true → M.squareExplored t = true →
    M.squareMined t = false ∧ M.n_minedNbours t = (M.minedAround t : Int)

/-- Every explored square is unmined and holds the value that
`countMinedNbours` computes for it. -/
def Exact (M : mineField) : Prop :=
  ∀ t : square, M.squareInsideMap t = true → M.squareExplored t = true →
    M.squareMined t = false ∧ M.expMap t.row t.col = M.countMinedNbours t

/-- The relation kept by every call of `explore` made by `exploreNbours`. -/
def FillStep (M M1 : mineField) : Prop :=
  Frame M M1 ∧ (NoFlag M → ∀ t, OpenZero M1 t → OpenZero M t)

/-- What holds in every state reached by `explore` from a reset grid. -/
def Settled (M : mineField) : Prop :=
  NoFlag M ∧ Exact M ∧ ∀ t, ¬OpenZero M t

end mineField

/-- A 3 x 3 grid just reset, with one mine in the corner `(2, 2)`. -/
def freshField : mineField :=
  (⟨3, 3, 1, fun _ _ => 0, fun _ _ => false, 0⟩ : mineField).reset
    fun r c => decide (r = 2 ∧ c = 2)

/-- A 2 x 2 grid with one mine at `(0, 0)`, which is flagged, and the square
`(1, 1)` explored. -/
def flaggedField : mineField :=
  { height := 2, width := 2, n_mines := 1,
    expMap := fun r c => if r = 0 ∧ c = 0 then -2 else if r = 1 ∧ c = 1 then 1 else -1,
    map := fun r c => decide (r = 0 ∧ c = 0), squaresExplored := 1 }

/-- A 1 x 3 grid with one mine at `(0, 0)` and the middle square `(0, 1)`
explored, holding the count 1. -/
def rowField : mineField :=
  { height := 1, width := 3, n_mines := 1,
    expMap := fun _ c => if c = 1 then 1 else -1,
    map := fun _ c => decide (c = 0), squaresExplored := 1 }

/-- A 2 x 3 grid with mines at `(0, 0)` and `(0, 2)` and the bottom row
explored, holding the counts 1, 2, 1. -/
def ledgeField : mineField :=
  { height := 2, width := 3, n_mines := 2,
    expMap := fun r c => if r = 1 then (if c = 1 then 2 else 1) else -1,
    map := fun r c => decide (r = 0 ∧ (c = 0 ∨ c = 2)), squaresExplored := 3 }

/-- The probability map that the constructor builds and `reset` restores: no
square is known. -/
def blankMap : mineFieldProbMap := ⟨fun _ _ => -1⟩

/-- A probability map that marks the square `(0, 1)` mined and knows no other
square. -/
def minedMap : mineFieldProbMap := ⟨fun _ c => if c = 1 then 1 else -1⟩

/-! ## Notions used to state the properties of counting, of the rules and of the search -/

namespace mineField

/-- The squares of the map, as pairs of a row and a column. -/
def cells (M : mineField) : Finset (Nat × Nat) :=
  Finset.range M.height ×ˢ Finset.range M.width

/-- The explored squares of the map. -/
def exploredCells (M : mineField) : Finset (Nat × Nat) :=
  M.cells.filter fun rc => M.squareExplored ⟨(rc.1 : Int), (rc.2 : Int)⟩ = true

/-- The mined squares of the map. -/
def minedCells (M : mineField) : Finset (Nat × Nat) :=
  M.cells.filter fun rc => M.squareMined ⟨(rc.1 : Int), (rc.2 : Int)⟩ = true

/-- The state `M1` comes from `M` by exploring squares, and `squaresExplored`
has grown by the number of squares that became explored. -/
def CountStep (M M1 : mineField) : Prop :=
  Frame M M1 ∧
    M1.squaresExplored - M.squaresExplored
      = (M1.exploredCells.card : Int) - (M.exploredCells.card : Int)

end mineField

namespace mineFieldProbMap

/-- Number of squares of the map that touch `s` and pass the test `q`,
counted over the whole map. -/
def countAround (M : mineField) (s : square) (q : square → Bool) : Nat :=
  ((allSquares M).filter fun t => neighbours t s && q t).length

/-- Number of unknown neighbours of `s`. -/
def unknownAround (P : mineFieldProbMap) (M : mineField) (s : square) : Nat :=
  countAround M s fun t => !P.squareKnown t

/-- Number of neighbours of `s` that are marked mined. -/
def knownMinedAround (P : mineFieldProbMap) (M : mineField) (s : square) : Nat :=
  countAround M s fun t => P.squareMined t

/-- The mines around the explored square `s` that are not accounted for: its
count less the neighbours marked mined. -/
def unknownMinedAround (P : mineFieldProbMap) (M : mineField) (s : square) : Int :=
  M.n_minedNbours s - (knownMinedAround P M s : Int)

/-- The square `t` is an unknown neighbour of `s` inside the map. -/
def UnknownNbour (P : mineFieldProbMap) (M : mineField) (s t : square) : Prop :=
  M.squareInsideMap t = true ∧ neighbours t s = true ∧ P.squareKnown t = false

/-- The two grids have the same size, and the grids and the probability maps
hold the same values at every square inside the map. -/
def AgreeInside (M M1 : mineField) (P P1 : mineFieldProbMap) : Prop :=
  M1.height = M.height ∧ M1.width = M.width ∧
  (∀ t : square, M.squareInsideMap t = true →
    M1.expMap t.row t.col = M.expMap t.row t.col) ∧
  (∀ t : square, M.squareInsideMap t = true →
    P1.probMap t.row t.col = P.probMap t.row t.col)

end mineFieldProbMap

/-- A 3 x 3 grid with one mine at `(1, 1)` and the corner `(0, 0)` explored,
holding the count 1. -/
def cornerField : mineField :=
  { height := 3, width := 3, n_mines := 1,
    expMap := fun r c => if r = 0 ∧ c = 0 then 1 else -1,
    map := fun r c => decide (r = 1 ∧ c = 1), squaresExplored := 1 }

/-- A probability map for `cornerField`: the corner and its neighbours `(0, 1)`
and `(1, 0)` are clear, no other square is known. -/
def cornerMap : mineFieldProbMap :=
  ⟨fun r c => if (r = 0 ∧ c = 0) ∨ (r = 0 ∧ c = 1) ∨ (r = 1 ∧ c = 0) then 0 else -1⟩

/-- A probability map for `rowField` in which the explored square `(0, 1)` is
clear and no other square is known. -/
def rowMap : mineFieldProbMap := ⟨fun _ c => if c = 1 then 0 else -1⟩

/-- A probability map for `ledgeField` in which the explored bottom row is
clear and no other square is known. -/
def ledgeMap : mineFieldProbMap := ⟨fun r _ => if r = 1 then 0 else -1⟩

namespace mineFieldProbMap

/-- The values of `unkNbsShared` obtained by `reset()` followed by calls of
`findAnotherSquare` for the square `s` that return `true`. -/
inductive Obtained (P : mineFieldProbMap) (M : mineField) (s : square) :
    unknownNboursSharedRec → Prop
  | fresh (u : unknownNboursSharedRec) : Obtained P M s u.reset
  | found (u : unknownNboursSharedRec) (p : square)
      (r : unknownNboursSharedRec × square × square) : Obtained P M s u →
      P.findAnotherSquare M s u p = some (some r) → Obtained P M s r.1

/-- A square `n` that can take part in a complex test for `s`: another
explored square inside the map, with a neighbour that is not known, that has
a neighbour that is not known in common with `s`. -/
def eligible (P : mineFieldProbMap) (M : mineField) (s n : square) : Bool :=
  M.squareInsideMap n && M.squareExplored n && decide (n ≠ s) &&
    decide (P.unknownAround M n ≠ 0) && decide (P.sharedBits M s n).Nonempty

/-- The squares that `findAnotherSquare` may test for `s`: those of the rows
`s.row - 2` to `s.row + 2` and columns `s.col - 2` to `s.col + 2` that are
inside the map. -/
def InWindow (M : mineField) (s n : square) : Prop :=
  M.squareInsideMap n = true ∧ s.row - 2 ≤ n.row ∧ n.row ≤ s.row + 2 ∧
    s.col - 2 ≤ n.col ∧ n.col ≤ s.col + 2

end mineFieldProbMap

namespace mineField

/-- The offsets `(dr, dc)` other than `(0, 0)` with `dr` and `dc` in
`{-1, 0, 1}`. -/
def nbourOffsets : List (Int × Int) :=
  (List.product [-1, 0, 1] [-1, 0, 1]).filter fun d => decide (d ≠ (0, 0))

/-- Number of the offsets of `nbourOffsets` that lead from `s` to a mined
square inside the map. -/
def minedNbourCount (M : mineField) (s : square) : Nat :=
  (nbourOffsets.filter fun d =>
    M.squareInsideMap ⟨s.row + d.1, s.col + d.2⟩ && M.squareMined ⟨s.row + d.1, s.col + d.2⟩).length

end mineField

/-- A 1 x 3 grid just reset, with one mine at `(0, 0)`. -/
def freshRow : mineField :=
  (⟨1, 3, 1, fun _ _ => 0, fun _ _ => false, 0⟩ : mineField).reset fun _ c => decide (c = 0)

/-- The grid `freshRow` after the call `explore(0, 2)`: the squares `(0, 2)`
and `(0, 1)` are explored, and the game is won. -/
def wonRow : mineField :=
  ((freshRow.explore ⟨0, 2⟩).map Prod.snd).getD freshRow

/-- A 2 x 5 grid with mines at `(0, 1)` and `(0, 3)` and the bottom row
explored, holding the counts 1, 1, 2, 1, 1. -/
def shelfField : mineField :=
  { height := 2, width := 5, n_mines := 2,
    expMap := fun r c => if r = 1 then (if c = 2 then 2 else 1) else -1,
    map := fun r c => decide (r = 0 ∧ (c = 1 ∨ c = 3)), squaresExplored := 5 }

/-- A probability map for `shelfField` in which the explored bottom row is
clear and no other square is known. -/
def shelfMap : mineFieldProbMap := ⟨fun r _ => if r = 1 then 0 else -1⟩

/-! ### The search with the bounds of the vectors

The functions below are the functions of the search of `findAnotherSquare`
once more, with every access to `expMap` and `probMap` made through
`readExpMap` and `readProbMap`, which return `none` for a position outside
the vectors: the case that the accessors exclude by
`assert(squareInsideMap(...))`.  The result `none` of a function is passed
on by every function that calls it.  The other assertions are followed for
the accesses that their conditions make, not for their outcome.
-/

namespace mineField

/-- Element `expMap[s.row][s.col]`; `none` outside the vectors. -/
def readExpMap (M : mineField) (s : square) : Option Int :=
  if M.squareInsideMap s then some (M.expMap s.row s.col) else none

/-- Function `squareExplored`: `assert(squareInsideMap(r, c)); return
expMap[r][c] >= 0`. -/
def squareExploredChecked (M : mineField) (s : square) : Option Bool :=
  (M.readExpMap s).map fun v => decide (v ≥ 0)

/-- Function `n_minedNbours`: `assert(squareExplored(r, c)); return
expMap[r][c]`. -/
def n_minedNboursChecked (M : mineField) (s : square) : Option Int :=
  (M.squareExploredChecked s).bind fun _ => M.readExpMap s

end mineField

namespace mineFieldProbMap

/-- Element `probMap[s.row][s.col]`; `none` outside the vectors, whose sizes
are those of the grid. -/
def readProbMap (P : mineFieldProbMap) (M : mineField) (s : square) : Option Int :=
  if M.squareInsideMap s then some (P.probMap s.row s.col) else none

def squareClearChecked (P : mineFieldProbMap) (M : mineField) (s : square) : Option Bool :=
  (P.readProbMap M s).map fun v => v == 0

def squareMinedChecked (P : mineFieldProbMap) (M : mineField) (s : square) : Option Bool :=
  (P.readProbMap M s).map fun v => v == 1

/-- Function `squareKnown`: `squareClear(s) or squareMined(s)`, the second
call being made when the first returns `false`. -/
def squareKnownChecked (P : mineFieldProbMap) (M : mineField) (s : square) : Option Bool :=
  (P.squareClearChecked M s).bind fun c => if c then some true else P.squareMinedChecked M s

/-- Function `n_knownMinedNbours`: `assert(Mptr->squareExplored(s))`, then the
eight guarded statements. -/
def n_knownMinedNboursChecked (P : mineFieldProbMap) (M : mineField) (s : square) :
    Option Int :=
  (M.squareExploredChecked s).bind fun _ =>
    (M.nbourSlots s).foldlM
      (fun count gs =>
        if gs.1 then (P.squareMinedChecked M gs.2).map fun b => count + (if b then 1 else 0)
        else some count) 0

/-- Function `n_unknownMinedNbours`: `assert(Mptr->squareExplored(s)); return
Mptr->n_minedNbours(s) - n_knownMinedNbours(s)`. -/
def n_unknownMinedNboursChecked (P : mineFieldProbMap) (M : mineField) (s : square) :
    Option Int :=
  (M.squareExploredChecked s).bind fun _ =>
    (M.n_minedNboursChecked s).bind fun a =>
      (P.n_knownMinedNboursChecked M s).map fun b => a - b

/-- Function `n_unknownNbours`: `assert(Mptr->squareExplored(s))`, then the
eight guarded statements. -/
def n_unknownNboursChecked (P : mineFieldProbMap) (M : mineField) (s : square) :
    Option Int :=
  (M.squareExploredChecked s).bind fun _ =>
    (M.nbourSlots s).foldlM
      (fun count gs =>
        if gs.1 then (P.squareKnownChecked M gs.2).map fun k => count + (if !k then 1 else 0)
        else some count) 0

/-- Function `squareMeetsCriteria`: the two assertions on `s` and `n`, then
the loops, in which `squareKnown(t)` is called when `squareInsideMap(t)`
holds. -/
def squareMeetsCriteriaChecked (P : mineFieldProbMap) (M : mineField) (s n : square)
    (unkNbsShared unkNbsSharedWn : unknownNboursSharedRec) :
    Option (Bool × unknownNboursSharedRec) :=
  (M.squareExploredChecked s).bind fun _ =>
    (M.squareExploredChecked n).bind fun _ =>
      ((squaresAround s).foldlM
        (fun W t =>
          if M.squareInsideMap t then
            (P.squareKnownChecked M t).map fun k =>
              if !k && neighbours t n
              then W.addSquareToList ⟨t.row - s.row, t.col - s.col⟩ else W
          else some W) unkNbsSharedWn).map fun Wn =>
        if Wn.getCount = 0 then (false, Wn)
        else if (Wn.getList ∩ unkNbsShared.getList).Nonempty then (false, Wn) else (true, Wn)

/-- Function `updateUnkNbsShared`, with its calls of `n_unknownNbours` and
`n_unknownMinedNbours` in the order of the source. -/
def updateUnkNbsSharedChecked (P : mineFieldProbMap) (M : mineField)
    (unkNbsShared unkNbsSharedWn : unknownNboursSharedRec) (s n : square) :
    Option unknownNboursSharedRec :=
  let n_unkNbsSsharesWithN := unkNbsSharedWn.getCount
  ((P.n_unknownNboursChecked M n).bind fun c =>
    if n_unkNbsSsharesWithN = c then
      (P.n_unknownMinedNboursChecked M n).bind fun lo =>
        (P.n_unknownMinedNboursChecked M n).map fun hi =>
          (unkNbsShared.addToMinMines lo).addToMaxMines hi
    else
      (P.n_unknownNboursChecked M s).bind fun unkS =>
        (P.n_unknownNboursChecked M n).bind fun unkN =>
          (P.n_unknownMinedNboursChecked M s).bind fun n_unkMinedNbsOfS =>
            (P.n_unknownMinedNboursChecked M n).map fun n_unkMinedNbsOfN =>
              let n_unkNbsOfSnotSharedWithN := unkS - n_unkNbsSsharesWithN
              let n_unkNbsOfNnotSharedWithS := unkN - n_unkNbsSsharesWithN
              let min := maximum 0 (n_unkMinedNbsOfS - n_unkNbsOfSnotSharedWithN)
                (n_unkMinedNbsOfN - n_unkNbsOfNnotSharedWithS)
              let max := minimum n_unkNbsSsharesWithN n_unkMinedNbsOfS n_unkMinedNbsOfN
              (unkNbsShared.addToMinMines min).addToMaxMines max).map fun u =>
    u.addSquaresToList unkNbsSharedWn.getList

/-- Inner `for` loop of `findAnotherSquare`: the tests of the `if` are made
from left to right, each one when those before it hold.  The result `none`
is an access outside the vectors, or the end of the fuel. -/
def findInRowChecked (P : mineFieldProbMap) (M : mineField) (s : square)
    (unkNbsShared : unknownNboursSharedRec) (startPos : square) (nrow : Int) :
    Nat → Int → Option (Option (unknownNboursSharedRec × square × square))
  | 0, ncol => if ncol ≤ min (s.col + 2) M.getWidth then none else some none
  | fuel + 1, ncol =>
    if ncol ≤ min (s.col + 2) M.getWidth then
      let ncol1 := if nrow = startPos.row ∧ ncol = max (s.col - 2) 0
        then max startPos.col 0 else ncol
      let n : square := ⟨nrow, ncol1⟩
      if M.squareInsideMap n then
        (M.squareExploredChecked n).bind fun e =>
          if e then
            (P.n_unknownNboursChecked M n).bind fun k =>
              if k ≠ 0 ∧ n ≠ s then
                (squareMeetsCriteriaChecked P M s n unkNbsShared ⟨0, 0, ∅⟩).bind fun r =>
                  if r.1 then
                    (updateUnkNbsSharedChecked P M unkNbsShared r.2 s n).map fun u =>
                      let p : square := ⟨n.row, n.col + 1⟩
                      let p : square := if p.col > s.col + 2 then ⟨p.row + 1, s.col - 2⟩ else p
                      some (u, p, n)
                  else findInRowChecked P M s unkNbsShared startPos nrow fuel (ncol1 + 1)
              else findInRowChecked P M s unkNbsShared startPos nrow fuel (ncol1 + 1)
          else findInRowChecked P M s unkNbsShared startPos nrow fuel (ncol1 + 1)
      else findInRowChecked P M s unkNbsShared startPos nrow fuel (ncol1 + 1)
    else some none

/-- Outer `for` loop of `findAnotherSquare`. -/
def findInRowsChecked (P : mineFieldProbMap) (M : mineField) (s : square)
    (unkNbsShared : unknownNboursSharedRec) (startPos : square) :
    Nat → Int → Option (Option (unknownNboursSharedRec × square × square))
  | 0, _ => some none
  | count + 1, nrow =>
    match findInRowChecked P M s unkNbsShared startPos nrow 6 (max (s.col - 2) 0) with
    | none => none
    | some (some r) => some (some r)
    | some none => findInRowsChecked P M s unkNbsShared startPos count (nrow + 1)

/-- Function `findAnotherSquare`. -/
def findAnotherSquareChecked (P : mineFieldProbMap) (M : mineField) (s : square)
    (unkNbsShared : unknownNboursSharedRec) (startPos : square) :
    Option (Option (unknownNboursSharedRec × square × square)) :=
  if startPos.row > s.row + 2 then some none
  else
    findInRowsChecked P M s unkNbsShared startPos
      (min (s.row + 2) M.getHeight + 1 - startPos.row).toNat startPos.row

end mineFieldProbMap

namespace mineFieldProbMap

/-- The list that `squareMeetsCriteria` fills for `s` and `n`, which
`updateUnkNbsShared` passes to `addSquaresToList`. -/
def contributed (P : mineFieldProbMap) (M : mineField) (s n : square) : Finset (Fin 8) :=
  (squareMeetsCriteria P M s n ⟨0, 0, ∅⟩ ⟨0, 0, ∅⟩).2.list

/-- The squares found and the value of `unkNbsShared` after `reset()` and
calls of `findAnotherSquare` for the square `s` that return `true`; the
square found last comes first. -/
inductive Searched (P : mineFieldProbMap) (M : mineField) (s : square) :
    List square → unknownNboursSharedRec → Prop
  | fresh (u : unknownNboursSharedRec) : Searched P M s [] u.reset
  | found (ns : List square) (u : unknownNboursSharedRec) (p : square)
      (r : unknownNboursSharedRec × square × square) : Searched P M s ns u →
      P.findAnotherSquare M s u p = some (some r) → Searched P M s (r.2.2 :: ns) r.1

/-- Row-major order of the squares: `a` comes before `b`. -/
@[reducible] def before (a b : square) : Prop :=
  a.row < b.row ∨ (a.row = b.row ∧ a.col < b.col)

/-- The square `n` is at the position `p` or after it in row-major order. -/
@[reducible] def atOrAfter (p n : square) : Prop :=
  p.row < n.row ∨ (p.row = n.row ∧ p.col ≤ n.col)

/-- Function `findThird` with a record of the calls of `applyComplexTests`:
the squares `s1`, `s2`, `s3` in use at each call, in the order of the
calls. -/
def findThirdLog (M : mineField) (s : square) (unkNbsShared2 : unknownNboursSharedRec)
    (s1 s2 : square) :
    Nat → mineFieldProbMap → unknownNboursSharedRec → square →
      Option ((Bool × mineFieldProbMap) × List (List square))
  | 0, _, _, _ => none
  | fuel + 1, P, unkNbsShared3, startPos3 =>
    match findAnotherSquare P M s unkNbsShared3 startPos3 with
    | none => none
    | some none => some ((false, P), [])
    | some (some (u3, p3, s3)) =>
      let r := P.applyComplexTests M s u3
      if r.1 then some ((true, r.2), [[s1, s2, s3]])
      else (findThirdLog M s unkNbsShared2 s1 s2 fuel r.2 unkNbsShared2 p3).map
        fun x => (x.1, [s1, s2, s3] :: x.2)

/-- Function `findSecond` with a record of the calls of
`applyComplexTests`. -/
def findSecondLog (M : mineField) (s : square) (n_otherSquares : Int)
    (unkNbsShared1 : unknownNboursSharedRec) (s1 : square) :
    Nat → mineFieldProbMap → unknownNboursSharedRec → square →
      Option ((Bool × mineFieldProbMap) × List (List square))
  | 0, _, _, _ => none
  | fuel + 1, P, unkNbsShared2, startPos2 =>
    match findAnotherSquare P M s unkNbsShared2 startPos2 with
    | none => none
    | some none => some ((false, P), [])
    | some (some (u2, p2, s2)) =>
      match (if n_otherSquares > 2 then findThirdLog M s u2 s1 s2 26 P u2 p2
             else some (P.applyComplexTests M s u2, [[s1, s2]])) with
      | none => none
      | some x =>
        if x.1.1 then some ((true, x.1.2), x.2)
        else (findSecondLog M s n_otherSquares unkNbsShared1 s1 fuel x.1.2 unkNbsShared1 p2).map
          fun y => (y.1, x.2 ++ y.2)

/-- Function `findFirst` with a record of the calls of `applyComplexTests`. -/
def findFirstLog (M : mineField) (s : square) (n_otherSquares : Int) :
    Nat → mineFieldProbMap → unknownNboursSharedRec → square →
      Option ((Bool × mineFieldProbMap) × List (List square))
  | 0, _, _, _ => none
  | fuel + 1, P, unkNbsShared1, startPos1 =>
    match findAnotherSquare P M s unkNbsShared1 startPos1 with
    | none => none
    | some none => some ((false, P), [])
    | some (some (u1, p1, s1)) =>
      match (if n_otherSquares > 1 then findSecondLog M s n_otherSquares u1 s1 26 P u1 p1
             else some (P.applyComplexTests M s u1, [[s1]])) with
      | none => none
      | some x =>
        if x.1.1 then some ((true, x.1.2), x.2)
        else (findFirstLog M s n_otherSquares fuel x.1.2 u1.reset p1).map
          fun y => (y.1, x.2 ++ y.2)

/-- Function `findAndApplyAllComplexTests` with a record of the calls of
`applyComplexTests`: the squares `s1`, then `s2`, then `s3` in use at each
call, in the order of the calls. -/
def findAndApplyAllComplexTestsLog (P : mineFieldProbMap) (M : mineField) (s : square)
    (n_otherSquares : Int) : Option ((Bool × mineFieldProbMap) × List (List square)) :=
  findFirstLog M s n_otherSquares 26 P (unknownNboursSharedRec.reset ⟨0, 0, ∅⟩)
    ⟨s.row - 2, s.col - 2⟩

/-- The record that the search builds from the squares `ns` taken in turn,
starting from a reset record. -/
def accOf (P : mineFieldProbMap) (M : mineField) (s : square) (ns : List square) :
    unknownNboursSharedRec :=
  ns.foldl (fun u n => (accepted P M s u n).1) (unknownNboursSharedRec.reset ⟨0, 0, ∅⟩)

end mineFieldProbMap

namespace mineFieldProbMap

/-- The squares `t` for which the loops of `squareMeetsCriteria` call
`addSquareToList`, in the order of the calls. -/
def addedSquares (P : mineFieldProbMap) (M : mineField) (s n : square) : List square :=
  (squaresAround s).filter fun t =>
    M.squareInsideMap t && !P.squareKnown t && neighbours t n

/-- Inner loop of `findAnotherSquare` with a record of the squares `n` for
which it calls `squareMeetsCriteria`, in the order of the calls. -/
def findInRowCalls (P : mineFieldProbMap) (M : mineField) (s : square)
    (unkNbsShared : unknownNboursSharedRec) (startPos : square) (nrow : Int) :
    Nat → Int → Option (Option (unknownNboursSharedRec × square × square) × List square)
  | 0, ncol => if ncol ≤ min (s.col + 2) M.getWidth then none else some (none, [])
  | fuel + 1, ncol =>
    if ncol ≤ min (s.col + 2) M.getWidth then
      let ncol1 := if nrow = startPos.row ∧ ncol = max (s.col - 2) 0
        then max startPos.col 0 else ncol
      let n : square := ⟨nrow, ncol1⟩
      if M.squareInsideMap n && M.squareExplored n && decide (P.n_unknownNbours M n ≠ 0)
          && decide (n ≠ s) then
        let r := squareMeetsCriteria P M s n unkNbsShared ⟨0, 0, ∅⟩
        if r.1 then
          let u := updateUnkNbsShared P M unkNbsShared r.2 s n
          let p : square := ⟨n.row, n.col + 1⟩
          let p : square := if p.col > s.col + 2 then ⟨p.row + 1, s.col - 2⟩ else p
          some (some (u, p, n), [n])
        else
          (findInRowCalls P M s unkNbsShared startPos nrow fuel (ncol1 + 1)).map
            fun x => (x.1, n :: x.2)
      else findInRowCalls P M s unkNbsShared startPos nrow fuel (ncol1 + 1)
    else some (none, [])

/-- Outer loop of `findAnotherSquare` with the record of `findInRowCalls`. -/
def findInRowsCalls (P : mineFieldProbMap) (M : mineField) (s : square)
    (unkNbsShared : unknownNboursSharedRec) (startPos : square) :
    Nat → Int → Option (Option (unknownNboursSharedRec × square × square) × List square)
  | 0, _ => some (none, [])
  | count + 1, nrow =>
    match findInRowCalls P M s unkNbsShared startPos nrow 6 (max (s.col - 2) 0) with
    | none => none
    | some (some r, l) => some (some r, l)
    | some (none, l) =>
      (findInRowsCalls P M s unkNbsShared startPos count (nrow + 1)).map
        fun x => (x.1, l ++ x.2)

/-- Function `findAnotherSquare` with a record of the squares `n` for which
it calls `squareMeetsCriteria`. -/
def findAnotherSquareCalls (P : mineFieldProbMap) (M : mineField) (s : square)
    (unkNbsShared : unknownNboursSharedRec) (startPos : square) :
    Option (Option (unknownNboursSharedRec × square × square) × List square) :=
  if startPos.row > s.row + 2 then some (none, [])
  else
    findInRowsCalls P M s unkNbsShared startPos
      (min (s.row + 2) M.getHeight + 1 - startPos.row).toNat startPos.row

/-- Function `findThird` with a record of the calls of `squareMeetsCriteria`:
the probability map at the time of the call and the arguments `s` and `n`. -/
def findThirdCalls (M : mineField) (s : square) (unkNbsShared2 : unknownNboursSharedRec) :
    Nat → mineFieldProbMap → unknownNboursSharedRec → square →
      Option ((Bool × mineFieldProbMap) × List (mineFieldProbMap × square × square))
  | 0, _, _, _ => none
  | fuel + 1, P, unkNbsShared3, startPos3 =>
    match findAnotherSquareCalls P M s unkNbsShared3 startPos3 with
    | none => none
    | some (none, l) => some ((false, P), l.map fun n => (P, s, n))
    | some (some (u3, p3, _s3), l) =>
      let r := P.applyComplexTests M s u3
      if r.1 then some ((true, r.2), l.map fun n => (P, s, n))
      else (findThirdCalls M s unkNbsShared2 fuel r.2 unkNbsShared2 p3).map
        fun x => (x.1, (l.map fun n => (P, s, n)) ++ x.2)

/-- Function `findSecond` with a record of the calls of
`squareMeetsCriteria`. -/
def findSecondCalls (M : mineField) (s : square) (n_otherSquares : Int)
    (unkNbsShared1 : unknownNboursSharedRec) :
    Nat → mineFieldProbMap → unknownNboursSharedRec → square →
      Option ((Bool × mineFieldProbMap) × List (mineFieldProbMap × square × square))
  | 0, _, _, _ => none
  | fuel + 1, P, unkNbsShared2, startPos2 =>
    match findAnotherSquareCalls P M s unkNbsShared2 startPos2 with
    | none => none
    | some (none, l) => some ((false, P), l.map fun n => (P, s, n))
    | some (some (u2, p2, _s2), l) =>
      match (if n_otherSquares > 2 then findThirdCalls M s u2 26 P u2 p2
             else some (P.applyComplexTests M s u2, [])) with
      | none => none
      | some x =>
        if x.1.1 then some ((true, x.1.2), (l.map fun n => (P, s, n)) ++ x.2)
        else (findSecondCalls M s n_otherSquares unkNbsShared1 fuel x.1.2 unkNbsShared1 p2).map
          fun y => (y.1, (l.map fun n => (P, s, n)) ++ x.2 ++ y.2)

/-- Function `findFirst` with a record of the calls of
`squareMeetsCriteria`. -/
def findFirstCalls (M : mineField) (s : square) (n_otherSquares : Int) :
    Nat → mineFieldProbMap → unknownNboursSharedRec → square →
      Option ((Bool × mineFieldProbMap) × List (mineFieldProbMap × square × square))
  | 0, _, _, _ => none
  | fuel + 1, P, unkNbsShared1, startPos1 =>
    match findAnotherSquareCalls P M s unkNbsShared1 startPos1 with
    | none => none
    | some (none, l) => some ((false, P), l.map fun n => (P, s, n))
    | some (some (u1, p1, _s1), l) =>
      match (if n_otherSquares > 1 then findSecondCalls M s n_otherSquares u1 26 P u1 p1
             else some (P.applyComplexTests M s u1, [])) with
      | none => none
      | some x =>
        if x.1.1 then some ((true, x.1.2), (l.map fun n => (P, s, n)) ++ x.2)
        else (findFirstCalls M s n_otherSquares fuel x.1.2 u1.reset p1).map
          fun y => (y.1, (l.map fun n => (P, s, n)) ++ x.2 ++ y.2)

/-- Function `findAndApplyAllComplexTests` with a record of the calls of
`squareMeetsCriteria`. -/
def findAndApplyAllComplexTestsCalls (P : mineFieldProbMap) (M : mineField) (s : square)
    (n_otherSquares : Int) :
    Option ((Bool × mineFieldProbMap) × List (mineFieldProbMap × square × square)) :=
  findFirstCalls M s n_otherSquares 26 P (unknownNboursSharedRec.reset ⟨0, 0, ∅⟩)
    ⟨s.row - 2, s.col - 2⟩

/-- The loops of `applyComplexTestsUntilSuccess` with a record of the calls
of `squareMeetsCriteria`. -/
def applyComplexTestsOverCalls (M : mineField) (n_otherSquares : Int) :
    List square → mineFieldProbMap →
      Option ((Bool × mineFieldProbMap) × List (mineFieldProbMap × square × square))
  | [], P => some ((false, P), [])
  | s :: rest, P =>
    if M.squareExplored s && decide (P.n_unknownNbours M s ≠ 0) then
      match P.findAndApplyAllComplexTestsCalls M s n_otherSquares with
      | none => none
      | some x =>
        if x.1.1 then some ((true, x.1.2), x.2)
        else (applyComplexTestsOverCalls M n_otherSquares rest x.1.2).map
          fun y => (y.1, x.2 ++ y.2)
    else applyComplexTestsOverCalls M n_otherSquares rest P

/-- Function `applyComplexTestsUntilSuccess` with a record of the calls of
`squareMeetsCriteria`. -/
def applyComplexTestsUntilSuccessCalls (P : mineFieldProbMap) (M : mineField)
    (n_otherSquares : Int) :
    Option ((Bool × mineFieldProbMap) × List (mineFieldProbMap × square × square)) :=
  applyComplexTestsOverCalls M n_otherSquares (allSquares M) P

/-- Outer loop of `update` with a record of the calls of
`squareMeetsCriteria`. -/
def updateLoopCalls (M : mineField) :
    Nat → mineFieldProbMap → Bool →
      Option ((Bool × mineFieldProbMap) × List (mineFieldProbMap × square × square))
  | 0, _, _ => none
  | fuel + 1, P, probMapChanged =>
    match simpleLoop M (fuel + 1) P probMapChanged with
    | none => none
    | some (P1, changed1) =>
      match P1.applyComplexTestsUntilSuccessCalls M 1 with
      | none => none
      | some x1 =>
        match (if !x1.1.1 then
                 (x1.1.2.applyComplexTestsUntilSuccessCalls M 2).map fun y => (y.1, x1.2 ++ y.2)
               else some x1) with
        | none => none
        | some x2 =>
          match (if !x2.1.1 then
                   (x2.1.2.applyComplexTestsUntilSuccessCalls M 3).map
                     fun y => (y.1, x2.2 ++ y.2)
                 else some x2) with
          | none => none
          | some x3 =>
            if x3.1.1 then
              (updateLoopCalls M fuel x3.1.2 true).map fun y => (y.1, x3.2 ++ y.2)
            else some ((changed1, x3.1.2), x3.2)

/-- Function `update` with a record of the calls of `squareMeetsCriteria`:
for each call the probability map at the time of the call, the square `s`
and the square `n`, in the order of the calls. -/
def updateCalls (P : mineFieldProbMap) (M : mineField) :
    Option ((Bool × mineFieldProbMap) × List (mineFieldProbMap × square × square)) :=
  updateLoopCalls M (M.height * M.width + 1) (P.setProbOfExploredSquaresToZero M) false

end mineFieldProbMap

/-- The two `for` loops of `autoExplore` over the squares that are left, with
a record of the calls made: `(s, some b)` for a call `explore(s)` that
returned `b`, and `(s, none)` for a call `flagSquare(s)`. -/
def autoExploreOver (P : mineFieldProbMap) :
    List square → mineField → Option (mineField × List (square × Option Bool))
  | [], M => some (M, [])
  | s :: rest, M =>
    if P.squareClear s && !M.squareExplored s then
      match M.explore s with
      | none => none
      | some r => (autoExploreOver P rest r.2).map fun x => (x.1, (s, some r.1) :: x.2)
    else if P.squareMined s && !M.squareFlagged s then
      (autoExploreOver P rest (M.flagSquare s)).map fun x => (x.1, (s, none) :: x.2)
    else autoExploreOver P rest M

/-- The `while` loop of `autoExplore`; what it prints and the key that it
waits for are left out. -/
def autoExploreLoop :
    Nat → mineField → mineFieldProbMap → Bool →
      Option ((Bool × mineField × mineFieldProbMap) × List (square × Option Bool))
  | 0, _, _, _ => none
  | fuel + 1, M, P, mapChanged =>
    match P.update M with
    | none => none
    | some r =>
      if r.1 then
        match autoExploreOver r.2 (allSquares M) M with
        | none => none
        | some x =>
          if x.1.gameWon then some ((true, x.1, r.2), x.2)
          else (autoExploreLoop fuel x.1 r.2 true).map fun y => (y.1, x.2 ++ y.2)
      else some ((mapChanged, M, r.2), [])

/-- Function `autoExplore` of `main.cpp`: the value returned and the final
values of `M` and `P`, with the record of the calls of `explore` and
`flagSquare` in the order in which they were made.  Every round of the loop
but the last makes at least one more square known, so that the loop makes at
most one round more than there are squares. -/
def autoExplore (M : mineField) (P : mineFieldProbMap) :
    Option ((Bool × mineField × mineFieldProbMap) × List (square × Option Bool)) :=
  autoExploreLoop (M.height * M.width + 1) M P false

end minesweeper

namespace minesweeper

open mineFieldProbMap (neighbours)

/-! ## The neighbours of a square -/

theorem filter_guard_map {α β : Type} (p : β → Bool) (g : α → β) (l : List α) :
    ((l.map fun d => (p (g d), g d)).filter fun gs => gs.1).map (fun gs => gs.2)
      = (l.map g).filter p := by
  induction l with
  | nil => rfl
  | cons a l ih =>
    simp only [List.map_cons, List.filter_cons]
    cases h : p (g a) <;> simp [ih]

theorem foldl_guard_count (q : square → Bool) (l : List (Bool × square)) (c0 : Int) :
    l.foldl (fun count gs => if gs.1 then count + (if q gs.2 then 1 else 0) else count) c0
      = c0 + ((((l.filter fun gs => gs.1).map fun gs => gs.2).countP q : Nat) : Int) := by
  induction l generalizing c0 with
  | nil => simp
  | cons a l ih =>
    obtain ⟨g, t⟩ := a
    simp only [List.foldl_cons, ih, List.filter_cons]
    cases g <;> cases h : q t <;> simp [h]; omega

theorem foldlM_guard {α : Type} (f : α → square → Option α) (l : List (Bool × square)) (a : α) :
    l.foldlM (fun a1 gs => if gs.1 then f a1 gs.2 else some a1) a
      = ((l.filter fun gs => gs.1).map fun gs => gs.2).foldlM f a := by
  induction l generalizing a with
  | nil => rfl
  | cons x l ih =>
    obtain ⟨g, t⟩ := x
    cases g
    · simp only [List.foldlM_cons, List.filter_cons, Bool.false_eq_true, if_false]
      exact ih a
    · simp only [List.foldlM_cons, List.filter_cons, if_true, List.map_cons]
      cases f a t with
      | none => rfl
      | some b => exact ih b

theorem foldlM_rel {α β : Type} (R : α → α → Prop) (Q : α → β → Prop)
    (hrefl : ∀ a, R a a) (htrans : ∀ a b c, R a b → R b c → R a c)
    (hmono : ∀ a b x, R a b → Q a x → Q b x)
    (f : α → β → Option α) (l : List β) (a0 : α)
    (hstep : ∀ a x b, R a0 a → x ∈ l → f a x = some b → R a b ∧ Q b x) :
    ∀ a b, R a0 a → l.foldlM f a = some b → R a b ∧ ∀ x ∈ l, Q b x := by
  induction l with
  | nil =>
    intro a b _ h
    simp only [List.foldlM_nil, Option.pure_def, Option.some.injEq] at h
    subst h
    exact ⟨hrefl a, fun x hx => absurd hx (List.not_mem_nil x)⟩
  | cons x l ih =>
    intro a b ha h
    simp only [List.foldlM_cons, Option.bind_eq_bind] at h
    cases hf : f a x with
    | none => simp [hf] at h
    | some c =>
      simp only [hf, Option.some_bind] at h
      obtain ⟨hac, hq⟩ := hstep a x c ha (List.mem_cons_self x l) hf
      have hc : R a0 c := htrans _ _ _ ha hac
      obtain ⟨h1, h2⟩ :=
        ih (fun a1 y b1 h1 hy hf1 => hstep a1 y b1 h1 (List.mem_cons_of_mem x hy) hf1) c b hc h
      refine ⟨htrans _ _ _ hac h1, fun y hy => ?_⟩
      rcases List.mem_cons.mp hy with rfl | hy
      · exact hmono _ _ _ h1 hq
      · exact h2 y hy

theorem foldlM_total {α β : Type} (R : α → α → Prop)
    (htrans : ∀ a b c, R a b → R b c → R a c)
    (f : α → β → Option α) (l : List β) (a0 : α)
    (hstep : ∀ a x, R a0 a → x ∈ l → ∃ b, f a x = some b ∧ R a b) :
    ∀ a, R a0 a → ∃ b, l.foldlM f a = some b := by
  induction l with
  | nil => intro a _; exact ⟨a, rfl⟩
  | cons x l ih =>
    intro a ha
    obtain ⟨c, hf, hac⟩ := hstep a x ha (List.mem_cons_self x l)
    obtain ⟨b, hb⟩ := ih (fun a1 y h1 hy => hstep a1 y h1 (List.mem_cons_of_mem x hy)) c
      (htrans _ _ _ ha hac)
    exact ⟨b, by simp only [List.foldlM_cons, Option.bind_eq_bind, hf, Option.some_bind, hb]⟩

theorem mem_allSquares (M : mineField) (t : square) :
    t ∈ allSquares M ↔ M.squareInsideMap t = true := by
  obtain ⟨tr, tc⟩ := t
  simp only [allSquares, List.mem_flatMap, List.mem_range, List.mem_map, square.mk.injEq,
    mineField.squareInsideMap, mineField.getHeight, mineField.getWidth, Bool.and_eq_true,
    decide_eq_true_eq]
  constructor
  · rintro ⟨r, hr, c, hc, rfl, rfl⟩
    omega
  · intro h
    exact ⟨tr.toNat, by omega, tc.toNat, by omega, by omega, by omega⟩

theorem nodup_allSquares (M : mineField) : (allSquares M).Nodup := by
  rw [allSquares, List.nodup_flatMap]
  refine ⟨fun r _ => ?_, ?_⟩
  · refine List.Nodup.map ?_ (List.nodup_range _)
    intro a b h
    simpa using h
  · refine List.Pairwise.imp_of_mem ?_ (List.nodup_range M.height)
    intro a b _ _ hab
    simp only [Function.onFun, List.disjoint_left, List.mem_map, List.mem_range, not_exists,
      not_and, forall_exists_index, and_imp]
    rintro t c _ rfl d _ h
    simp only [square.mk.injEq, Nat.cast_inj] at h
    exact hab h.1.symm

namespace mineField

theorem nbourSlots_eq (M : mineField) (s : square) (hs : M.squareInsideMap s = true) :
    M.nbourSlots s = offsets8.map fun d =>
      (M.squareInsideMap ⟨s.row + d.1, s.col + d.2⟩, (⟨s.row + d.1, s.col + d.2⟩ : square)) := by
  obtain ⟨sr, sc⟩ := s
  simp only [squareInsideMap, getHeight, getWidth, Bool.and_eq_true, decide_eq_true_eq] at hs
  simp only [nbourSlots, offsets8, List.map_cons, List.map_nil, List.cons.injEq, Prod.mk.injEq,
    square.mk.injEq, and_true, squareInsideMap, getHeight, getWidth]
  repeat' apply And.intro
  all_goals first
    | trivial
    | omega
    | (rw [Bool.eq_iff_iff]; simp only [Bool.and_eq_true, decide_eq_true_eq]; omega)

theorem nbours_eq (M : mineField) (s : square) (hs : M.squareInsideMap s = true) :
    M.nbours s = (offsets8.map fun d => (⟨s.row + d.1, s.col + d.2⟩ : square)).filter
      fun t => M.squareInsideMap t := by
  rw [nbours, nbourSlots_eq M s hs]
  exact filter_guard_map (fun t => M.squareInsideMap t)
    (fun d => (⟨s.row + d.1, s.col + d.2⟩ : square)) offsets8

theorem neighbours_iff (t s : square) :
    neighbours t s = true ↔
      t ∈ offsets8.map fun d => (⟨s.row + d.1, s.col + d.2⟩ : square) := by
  obtain ⟨sr, sc⟩ := s
  obtain ⟨tr, tc⟩ := t
  simp only [neighbours, Bool.and_eq_true, decide_eq_true_eq, offsets8, List.map_cons,
    List.map_nil, List.mem_cons, List.mem_singleton, square.mk.injEq, ne_eq, not_and,
    List.not_mem_nil, or_false]
  omega

theorem mem_nbours (M : mineField) (s t : square) (hs : M.squareInsideMap s = true) :
    t ∈ M.nbours s ↔ M.squareInsideMap t = true ∧ neighbours t s = true := by
  rw [neighbours_iff, nbours_eq M s hs, List.mem_filter]
  exact and_comm

theorem nodup_nbours (M : mineField) (s : square) (hs : M.squareInsideMap s = true) :
    (M.nbours s).Nodup := by
  rw [nbours_eq M s hs]
  apply List.Nodup.filter
  refine List.Nodup.map ?_ (by decide)
  rintro ⟨a, b⟩ ⟨c, d⟩ h
  simp only [square.mk.injEq] at h
  ext <;> simp only <;> omega

theorem countMinedNbours_eq (M : mineField) (s : square) :
    M.countMinedNbours s = (((M.nbours s).countP fun t => M.squareMined t : Nat) : Int) := by
  rw [countMinedNbours, foldl_guard_count, zero_add, nbours]

theorem countMinedNbours_nonneg (M : mineField) (s : square) : 0 ≤ M.countMinedNbours s := by
  rw [countMinedNbours_eq]
  exact Int.ofNat_nonneg _

theorem countMinedNbours_eq_minedAround (M : mineField) (s : square)
    (hs : M.squareInsideMap s = true) : M.countMinedNbours s = (M.minedAround s : Int) := by
  rw [countMinedNbours_eq, minedAround, Nat.cast_inj]
  have hperm : (M.nbours s).Perm ((allSquares M).filter fun t => neighbours t s) := by
    rw [List.perm_ext_iff_of_nodup (nodup_nbours M s hs) ((nodup_allSquares M).filter _)]
    intro t
    rw [mem_nbours M s t hs, List.mem_filter, mem_allSquares]
  rw [hperm.countP_eq, List.countP_eq_length_filter, List.filter_filter]
  congr 2
  funext t
  exact Bool.and_comm _ _

theorem exploreNboursWith_eq (f : mineField → square → Option (Bool × mineField))
    (M : mineField) (s : square) :
    exploreNboursWith f M s = (M.nbours s).foldlM (fun M1 t => (f M1 t).map Prod.snd) M := by
  rw [exploreNboursWith, nbours]
  exact foldlM_guard (fun M1 t => (f M1 t).map Prod.snd) (M.nbourSlots s) M

/-! ## Frame of `explore` -/

theorem Frame.same (M : mineField) : Frame M M :=
  ⟨rfl, rfl, rfl, rfl, fun _ => Or.inl rfl⟩

theorem Frame.inside {M M1 : mineField} (h : Frame M M1) (t : square) :
    M1.squareInsideMap t = M.squareInsideMap t := by
  simp only [squareInsideMap, getHeight, getWidth, h.1, h.2.1]

theorem Frame.mined {M M1 : mineField} (h : Frame M M1) (t : square) :
    M1.squareMined t = M.squareMined t := by
  simp only [squareMined, h.2.2.2.1]

theorem Frame.sameNbours {M M1 : mineField} (h : Frame M M1) (t : square) :
    M1.nbours t = M.nbours t := by
  simp only [nbours, nbourSlots, getHeight, getWidth, h.1, h.2.1]

theorem Frame.count {M M1 : mineField} (h : Frame M M1) (t : square) :
    M1.countMinedNbours t = M.countMinedNbours t := by
  simp only [countMinedNbours, nbourSlots, getHeight, getWidth, squareMined, h.1, h.2.1,
    h.2.2.2.1]

theorem Frame.keepCell {M M1 : mineField} (h : Frame M M1) (t : square)
    (ht : M.squareExplored t = true ∨ M.squareFlagged t = true) :
    M1.expMap t.row t.col = M.expMap t.row t.col := by
  rcases h.2.2.2.2 t with h1 | ⟨-, -, h3, h4, -⟩
  · exact h1
  · rcases ht with ht | ht
    · rw [h3] at ht; cases ht
    · rw [h4] at ht; cases ht

theorem Frame.explored {M M1 : mineField} (h : Frame M M1) (t : square)
    (ht : M.squareExplored t = true) : M1.squareExplored t = true := by
  have := h.keepCell t (Or.inl ht)
  simp only [squareExplored, this] at ht ⊢
  exact ht

theorem Frame.andThen {M M1 M2 : mineField} (h1 : Frame M M1) (h2 : Frame M1 M2) :
    Frame M M2 := by
  refine ⟨h2.1.trans h1.1, h2.2.1.trans h1.2.1, h2.2.2.1.trans h1.2.2.1,
    h2.2.2.2.1.trans h1.2.2.2.1, fun t => ?_⟩
  rcases h2.2.2.2.2 t with e2 | ⟨i2, m2, x2, f2, v2⟩
  · rcases h1.2.2.2.2 t with e1 | h
    · exact Or.inl (e2.trans e1)
    · exact Or.inr ⟨h.1, h.2.1, h.2.2.1, h.2.2.2.1, e2.trans h.2.2.2.2⟩
  · rcases h1.2.2.2.2 t with e1 | ⟨-, -, -, -, v1⟩
    · refine Or.inr ⟨(h1.inside t) ▸ i2, (h1.mined t) ▸ m2, ?_, ?_, v2.trans (h1.count t)⟩
      · simpa only [squareExplored, e1] using x2
      · simpa only [squareFlagged, e1] using f2
    · exfalso
      have := countMinedNbours_nonneg M t
      simp only [squareExplored, v1, decide_eq_false_iff_not] at x2
      exact x2 this

/-- The state after the two assignments of `explore` to `squaresExplored` and
`expMap[s.row][s.col]`. -/
theorem exploreFuel_succ (fuel : Nat) (M : mineField) (s : square) :
    exploreFuel (fuel + 1) M s =
      if M.squareMined s then some (false, M)
      else if !M.squareExplored s && !M.squareFlagged s then
        if ({ M with squaresExplored := M.squaresExplored + 1,
                     expMap := setCell M.expMap s.row s.col (M.countMinedNbours s)
              } : mineField).n_minedNbours s == 0 then
          (exploreNboursWith (exploreFuel fuel)
            { M with squaresExplored := M.squaresExplored + 1,
                     expMap := setCell M.expMap s.row s.col (M.countMinedNbours s) } s).map
            (fun M3 => (true, M3))
        else some (true, { M with squaresExplored := M.squaresExplored + 1,
                                  expMap := setCell M.expMap s.row s.col (M.countMinedNbours s) })
      else some (true, M) := rfl

theorem frame_mark (M : mineField) (s : square) (n : Int) (hs : M.squareInsideMap s = true)
    (hm : M.squareMined s = false) (hx : M.squareExplored s = false)
    (hf : M.squareFlagged s = false) :
    Frame M { M with squaresExplored := n,
                     expMap := setCell M.expMap s.row s.col (M.countMinedNbours s) } := by
  refine ⟨rfl, rfl, rfl, rfl, fun t => ?_⟩
  by_cases h : t.row = s.row ∧ t.col = s.col
  · have : t = s := by cases t; cases s; simp_all
    subst this
    right
    exact ⟨hs, hm, hx, hf, by simp [setCell]⟩
  · left
    simp [setCell, h]

theorem explored_mark (M : mineField) (s : square) (n : Int) :
    ({ M with squaresExplored := n,
              expMap := setCell M.expMap s.row s.col (M.countMinedNbours s) }
      : mineField).squareExplored s = true := by
  simp [squareExplored, setCell, countMinedNbours_nonneg]

theorem explore_frame (fuel : Nat) : ∀ (M : mineField) (s : square) (r : Bool × mineField),
    M.squareInsideMap s = true → exploreFuel fuel M s = some r →
    Frame M r.2 ∧ r.1 = !M.squareMined s ∧
      (M.squareMined s = false → M.squareFlagged s = false → r.2.squareExplored s = true) := by
  induction fuel with
  | zero => intro M s r _ h; simp [exploreFuel] at h
  | succ fuel ih =>
    intro M s r hs h
    rw [exploreFuel_succ] at h
    split_ifs at h with hm hc hz
    · cases h; simp [hm, Frame.same]
    · simp only [Bool.and_eq_true, Bool.not_eq_true'] at hc
      simp only [Bool.not_eq_true] at hm
      have hF := frame_mark M s (M.squaresExplored + 1) hs hm hc.1 hc.2
      rw [exploreNboursWith_eq] at h
      simp only [Option.map_eq_some'] at h
      obtain ⟨M3, h3, rfl⟩ := h
      have := foldlM_rel Frame (fun _ _ => True) Frame.same (fun _ _ _ => Frame.andThen)
        (fun _ _ _ _ _ => trivial) _ _ _
        (fun a x b ha hx hf => by
          simp only [Option.map_eq_some'] at hf
          obtain ⟨r1, hr1, rfl⟩ := hf
          have hxin : a.squareInsideMap x = true := by
            rw [ha.inside, hF.inside]
            exact ((mem_nbours M s x hs).mp (hF.sameNbours s ▸ hx)).1
          exact ⟨(ih a x r1 hxin hr1).1, trivial⟩) _ M3 (Frame.same _) h3
      refine ⟨hF.andThen this.1, by simp [hm], fun _ _ => ?_⟩
      exact this.1.explored s (explored_mark M s _)
    · simp only [Bool.and_eq_true, Bool.not_eq_true'] at hc
      simp only [Bool.not_eq_true] at hm
      cases h
      exact ⟨frame_mark M s _ hs hm hc.1 hc.2, by simp [hm], fun _ _ => explored_mark M s _⟩
    · cases h
      refine ⟨Frame.same M, by simpa using hm, fun _ hf => ?_⟩
      simp only [Bool.and_eq_true, Bool.not_eq_true', not_and, Bool.not_eq_false] at hc
      by_contra hx
      simp only [Bool.not_eq_true] at hx
      have := hc hx
      rw [hf] at this
      cases this

/-! ## Termination of `explore` -/

theorem candidates_subset {M M1 : mineField} (h : Frame M M1) :
    M1.candidates ⊆ M.candidates := by
  intro rc hrc
  simp only [candidates, Finset.mem_filter, Finset.mem_product, Finset.mem_range, h.1, h.2.1]
    at hrc ⊢
  refine ⟨hrc.1, ?_⟩
  rcases h.2.2.2.2 ⟨(rc.1 : Int), (rc.2 : Int)⟩ with e | ⟨-, -, -, -, v⟩
  · simp only [squareExplored, squareFlagged, e] at hrc
    simpa only [squareExplored, squareFlagged] using hrc.2
  · exfalso
    have := countMinedNbours_nonneg M ⟨(rc.1 : Int), (rc.2 : Int)⟩
    have h2 := hrc.2.1
    simp only [squareExplored, v, decide_eq_false_iff_not] at h2
    exact h2 this

theorem candidates_mark (M : mineField) (s : square) (n : Int) (hs : M.squareInsideMap s = true)
    (hm : M.squareMined s = false) (hx : M.squareExplored s = false)
    (hf : M.squareFlagged s = false) :
    (candidates ({ M with squaresExplored := n,
                          expMap := setCell M.expMap s.row s.col (M.countMinedNbours s) }
      : mineField)).card
      < M.candidates.card := by
  apply Finset.card_lt_card
  rw [Finset.ssubset_iff_of_subset (candidates_subset (frame_mark M s n hs hm hx hf))]
  simp only [squareInsideMap, getHeight, getWidth, Bool.and_eq_true, decide_eq_true_eq] at hs
  have e1 : ((s.row.toNat : Nat) : Int) = s.row := Int.toNat_of_nonneg hs.1.1.1
  have e2 : ((s.col.toNat : Nat) : Int) = s.col := Int.toNat_of_nonneg hs.1.2
  refine ⟨(s.row.toNat, s.col.toNat), ?_, ?_⟩
  · simp only [candidates, Finset.mem_filter, Finset.mem_product, Finset.mem_range, e1, e2]
    exact ⟨⟨by omega, by omega⟩, hx, hf⟩
  · simp only [candidates, Finset.mem_filter, Finset.mem_product, Finset.mem_range, e1, e2,
      not_and]
    intro _ h
    rw [explored_mark M s n] at h
    cases h

theorem candidates_card_le (M : mineField) : M.candidates.card ≤ M.height * M.width := by
  refine (Finset.card_filter_le _ _).trans ?_
  rw [Finset.card_product, Finset.card_range, Finset.card_range]

theorem explore_total (fuel : Nat) : ∀ (M : mineField) (s : square),
    M.squareInsideMap s = true → M.candidates.card < fuel →
    ∃ r, exploreFuel fuel M s = some r := by
  induction fuel with
  | zero => intro M s _ h; omega
  | succ fuel ih =>
    intro M s hs hcard
    rw [exploreFuel_succ]
    split_ifs with hm hc hz
    · exact ⟨_, rfl⟩
    · simp only [Bool.and_eq_true, Bool.not_eq_true'] at hc
      simp only [Bool.not_eq_true] at hm
      have hF := frame_mark M s (M.squaresExplored + 1) hs hm hc.1 hc.2
      have hlt := candidates_mark M s (M.squaresExplored + 1) hs hm hc.1 hc.2
      rw [exploreNboursWith_eq]
      obtain ⟨M3, h3⟩ := foldlM_total Frame (fun _ _ _ => Frame.andThen)
        (fun M1 t => (exploreFuel fuel M1 t).map Prod.snd) (nbours _ s) _
        (fun a x ha hx => by
          have hxin : a.squareInsideMap x = true := by
            rw [ha.inside, hF.inside]
            exact ((mem_nbours M s x hs).mp (hF.sameNbours s ▸ hx)).1
          have hle := Finset.card_le_card (candidates_subset ha)
          obtain ⟨r, hr⟩ := ih a x hxin (by omega)
          exact ⟨r.2, by simp [hr], (explore_frame fuel a x r hxin hr).1⟩) _ (Frame.same _)
      exact ⟨(true, M3), by rw [h3]; rfl⟩
    · exact ⟨_, rfl⟩
    · exact ⟨_, rfl⟩

theorem explore_some (M : mineField) (s : square) (hs : M.squareInsideMap s = true) :
    ∃ r, M.explore s = some r :=
  explore_total _ M s hs (Nat.lt_succ_of_le (candidates_card_le M))

end mineField

end minesweeper

namespace minesweeper

open mineFieldProbMap (neighbours)

namespace mineField

/-! ## Flood fill: no explored zero square is left with an unexplored neighbour -/

theorem NoFlag.notFlagged {M : mineField} (h : NoFlag M) (t : square)
    (ht : M.squareInsideMap t = true) : M.squareFlagged t = false := by
  cases hx : M.squareExplored t with
  | false => simp [squareFlagged, h t ht hx]
  | true =>
    simp only [squareExplored, decide_eq_true_eq] at hx
    simp only [squareFlagged, beq_eq_false_iff_ne, ne_eq]
    omega

theorem frame_unexplored {M M1 : mineField} (h : Frame M M1) (t : square)
    (ht : M1.squareExplored t = false) : M.squareExplored t = false := by
  cases hx : M.squareExplored t with
  | false => rfl
  | true => rw [h.explored t hx] at ht; cases ht

theorem noFlag_frame {M M1 : mineField} (h : Frame M M1) (hn : NoFlag M) : NoFlag M1 := by
  intro t ht hx
  rcases h.2.2.2.2 t with e | ⟨-, -, -, -, v⟩
  · rw [e]
    exact hn t (h.inside t ▸ ht) (frame_unexplored h t hx)
  · exfalso
    have := countMinedNbours_nonneg M t
    simp only [squareExplored, v, decide_eq_false_iff_not] at hx
    exact hx this

theorem openZero_frame {M M1 : mineField} (h : Frame M M1) (t : square)
    (ho : OpenZero M1 t) (he : M1.expMap t.row t.col = M.expMap t.row t.col) :
    OpenZero M t := by
  obtain ⟨hi, hx, hz, u, hu, hux⟩ := ho
  refine ⟨h.inside t ▸ hi, ?_, he ▸ hz, u, h.sameNbours t ▸ hu, frame_unexplored h u hux⟩
  simpa only [squareExplored, he] using hx

theorem unmined_of_count_zero (M : mineField) (s u : square)
    (hz : M.countMinedNbours s = 0) (hu : u ∈ M.nbours s) : M.squareMined u = false := by
  rw [countMinedNbours_eq] at hz
  have hz0 : (M.nbours s).countP (fun t => M.squareMined t) = 0 := by exact_mod_cast hz
  have := List.countP_eq_zero.mp hz0 u hu
  simpa using this

theorem FillStep.idle (M : mineField) : FillStep M M := ⟨Frame.same M, fun _ _ h => h⟩

theorem FillStep.chain {M M1 M2 : mineField} (h1 : FillStep M M1) (h2 : FillStep M1 M2) :
    FillStep M M2 :=
  ⟨h1.1.andThen h2.1, fun hn t ht => h1.2 hn t (h2.2 (noFlag_frame h1.1 hn) t ht)⟩

theorem explore_open (fuel : Nat) : ∀ (M : mineField) (s : square) (r : Bool × mineField),
    M.squareInsideMap s = true → NoFlag M → exploreFuel fuel M s = some r →
    ∀ t, OpenZero r.2 t → OpenZero M t := by
  induction fuel with
  | zero => intro M s r _ _ h; simp [exploreFuel] at h
  | succ fuel ih =>
    intro M s r hs hn h
    have hfr := explore_frame (fuel + 1) M s r hs h
    rw [exploreFuel_succ] at h
    split_ifs at h with hm hc hz
    · cases h; exact fun t ht => ht
    · simp only [Bool.and_eq_true, Bool.not_eq_true'] at hc
      simp only [Bool.not_eq_true] at hm
      have hF := frame_mark M s (M.squaresExplored + 1) hs hm hc.1 hc.2
      have hz0 : M.countMinedNbours s = 0 := by
        simpa [n_minedNbours, setCell] using hz
      rw [exploreNboursWith_eq] at h
      simp only [Option.map_eq_some'] at h
      obtain ⟨M3, h3, rfl⟩ := h
      have hn2 := noFlag_frame hF hn
      have key := foldlM_rel FillStep (fun a x => a.squareExplored x = true) FillStep.idle
        (fun _ _ _ => FillStep.chain) (fun a b x hab hq => hab.1.explored x hq)
        (fun M1 t => (exploreFuel fuel M1 t).map Prod.snd) _ _
        (fun a x b ha hx hf => by
          simp only [Option.map_eq_some'] at hf
          obtain ⟨r1, hr1, rfl⟩ := hf
          have hxs : x ∈ M.nbours s := hF.sameNbours s ▸ hx
          have hxin : a.squareInsideMap x = true := by
            rw [ha.1.inside, hF.inside]
            exact ((mem_nbours M s x hs).mp hxs).1
          have hna : NoFlag a := noFlag_frame ha.1 hn2
          have hfx := explore_frame fuel a x r1 hxin hr1
          refine ⟨⟨hfx.1, fun hna1 => ih a x r1 hxin hna1 hr1⟩, hfx.2.2 ?_ (hna.notFlagged x hxin)⟩
          rw [ha.1.mined, hF.mined]
          exact unmined_of_count_zero M s x hz0 hxs) _ M3 (FillStep.idle _) h3
      intro t ht
      have ht2 := key.1.2 hn2 t ht
      by_cases hts : t = s
      · exfalso
        subst hts
        obtain ⟨-, -, -, u, hu, hux⟩ := ht
        rw [key.2 u (key.1.1.sameNbours t ▸ hu)] at hux
        cases hux
      · refine openZero_frame hF t ht2 ?_
        have : ¬(t.row = s.row ∧ t.col = s.col) := by
          intro h; apply hts; cases t; cases s; simp_all
        simp [setCell, this]
    · simp only [Bool.and_eq_true, Bool.not_eq_true'] at hc
      simp only [Bool.not_eq_true] at hm
      cases h
      have hF := frame_mark M s (M.squaresExplored + 1) hs hm hc.1 hc.2
      intro t ht
      by_cases hts : t = s
      · exfalso
        subst hts
        obtain ⟨-, -, h0, -⟩ := ht
        apply hz
        simpa [n_minedNbours] using h0
      · refine openZero_frame hF t ht ?_
        have : ¬(t.row = s.row ∧ t.col = s.col) := by
          intro h; apply hts; cases t; cases s; simp_all
        simp [setCell, this]
    · cases h; exact fun t ht => ht

theorem exact_frame {M M1 : mineField} (h : Frame M M1) (he : Exact M) : Exact M1 := by
  intro t ht hx
  rw [h.mined, h.count]
  rcases h.2.2.2.2 t with e | ⟨-, m, -, -, v⟩
  · rw [e]
    refine he t (h.inside t ▸ ht) ?_
    simpa only [squareExplored, e] using hx
  · exact ⟨m, v⟩

theorem settled_reset (M : mineField) (mines : Int → Int → Bool) : Settled (M.reset mines) := by
  have hin : ∀ t, (M.reset mines).squareInsideMap t = M.squareInsideMap t := fun _ => rfl
  have hx : ∀ t, (M.reset mines).squareInsideMap t = true →
      (M.reset mines).expMap t.row t.col = -1 := by
    intro t ht
    rw [hin] at ht
    simp [reset, ht]
  refine ⟨fun t ht _ => hx t ht, fun t ht he => ?_, fun t ho => ?_⟩
  · simp [squareExplored, hx t ht] at he
  · have := ho.2.2.1
    rw [hx t ho.1] at this
    cases this

theorem settled_reached {M : mineField} (h : Reached M) : Settled M := by
  induction h with
  | fresh M mines => exact settled_reset M mines
  | explored M M1 s b _ hs he ih =>
    have hF := (explore_frame _ M s (b, M1) hs he).1
    exact ⟨noFlag_frame hF ih.1, exact_frame hF ih.2.1,
      fun t ht => ih.2.2 t (explore_open _ M s (b, M1) hs ih.1 he t ht)⟩

end mineField

end minesweeper

namespace minesweeper

/-! ## The probability map: counting and marking the neighbours of a square -/

theorem zip_map_self {α β : Type} (f : α → β) (l : List α) :
    l.zip (l.map f) = l.map fun k => (k, f k) := by
  induction l with
  | nil => rfl
  | cons a l ih => simp [ih]

theorem offsets8_eq : offsets8 = (List.finRange 8).map offset8 := by decide

theorem nbSq_injective (s : square) : Function.Injective (nbSq s) := by
  intro a b h
  simp only [nbSq, square.mk.injEq] at h
  have h1 : (offset8 a).1 = (offset8 b).1 := by omega
  have h2 : (offset8 a).2 = (offset8 b).2 := by omega
  clear h
  revert a b
  decide

namespace mineField

theorem nbours_eq_bits (M : mineField) (s : square) (hs : M.squareInsideMap s = true) :
    M.nbours s = ((List.finRange 8).map (nbSq s)).filter fun t => M.squareInsideMap t := by
  rw [nbours_eq M s hs, offsets8_eq, List.map_map]
  rfl

theorem mem_nbours_bits (M : mineField) (s t : square) (hs : M.squareInsideMap s = true) :
    t ∈ M.nbours s ↔ ∃ k, nbSq s k = t ∧ M.squareInsideMap t = true := by
  rw [nbours_eq_bits M s hs]
  simp only [List.mem_filter, List.mem_map, List.mem_finRange, true_and]
  constructor
  · rintro ⟨⟨k, hk⟩, ht⟩
    exact ⟨k, hk, ht⟩
  · rintro ⟨k, hk, ht⟩
    exact ⟨⟨k, hk⟩, ht⟩

/-- A count over the neighbours inside the map is a count over their bits. -/
theorem countP_nbours (M : mineField) (s : square) (hs : M.squareInsideMap s = true)
    (q : square → Bool) :
    (M.nbours s).countP q
      = (Finset.univ.filter fun k : Fin 8 =>
          M.squareInsideMap (nbSq s k) = true ∧ q (nbSq s k) = true).card := by
  rw [nbours_eq_bits M s hs, List.countP_filter, List.countP_map]
  rw [List.countP_eq_length_filter, ← List.toFinset_card_of_nodup
    ((List.nodup_finRange 8).filter _)]
  congr 1
  ext k
  simp [and_comm]

end mineField

namespace mineFieldProbMap

theorem n_knownMinedNbours_eq (P : mineFieldProbMap) (M : mineField) (s : square) :
    P.n_knownMinedNbours M s = (((M.nbours s).countP fun t => P.squareMined t : Nat) : Int) := by
  rw [n_knownMinedNbours, foldl_guard_count, zero_add, mineField.nbours]

theorem n_unknownNbours_eq (P : mineFieldProbMap) (M : mineField) (s : square) :
    P.n_unknownNbours M s = (((M.nbours s).countP fun t => !P.squareKnown t : Nat) : Int) := by
  rw [n_unknownNbours, foldl_guard_count (fun t => !P.squareKnown t), zero_add,
    mineField.nbours]

theorem n_unknownNbours_bits (P : mineFieldProbMap) (M : mineField) (s : square)
    (hs : M.squareInsideMap s = true) :
    P.n_unknownNbours M s = ((P.unknownBits M s).card : Int) := by
  rw [n_unknownNbours_eq, M.countP_nbours s hs, unknownBits]
  simp only [Bool.not_eq_true']

theorem setProbMined_apply (P : mineFieldProbMap) (s : square) (p : Int) (y : square) :
    (P.setProbMined s p).probMap y.row y.col = if y = s then p else P.probMap y.row y.col := by
  obtain ⟨yr, yc⟩ := y
  obtain ⟨sr, sc⟩ := s
  simp only [setProbMined, setCell, square.mk.injEq]

theorem squareKnown_congr {P P1 : mineFieldProbMap} {y : square}
    (h : P1.probMap y.row y.col = P.probMap y.row y.col) :
    P1.squareKnown y = P.squareKnown y := by
  simp only [squareKnown, squareClear, squareMined, h]

/-- Marking, one after the other, the squares of a list that pass two tests
and are not known. -/
theorem foldl_setProb {α : Type} (sq : α → square) (c1 c2 : α → Bool) (p : Int)
    (l : List α) (P : mineFieldProbMap) (y : square) :
    (l.foldl (fun P1 x =>
        if c1 x && !P1.squareKnown (sq x) && c2 x then P1.setProbMined (sq x) p else P1)
      P).probMap y.row y.col
      = if (∃ x ∈ l, sq x = y ∧ c1 x = true ∧ c2 x = true) ∧ P.squareKnown y = false
        then p else P.probMap y.row y.col := by
  induction l generalizing P with
  | nil => simp
  | cons a l ih =>
    rw [List.foldl_cons, ih]
    by_cases hset : (c1 a && !P.squareKnown (sq a) && c2 a) = true
    · rw [if_pos hset]
      simp only [Bool.and_eq_true, Bool.not_eq_true'] at hset
      by_cases hy : y = sq a
      · subst hy
        have hv : (P.setProbMined (sq a) p).probMap (sq a).row (sq a).col = p := by
          rw [setProbMined_apply, if_pos rfl]
        rw [hv]
        have : (∃ x ∈ a :: l, sq x = sq a ∧ c1 x = true ∧ c2 x = true) ∧
            P.squareKnown (sq a) = false :=
          ⟨⟨a, List.mem_cons_self a l, rfl, hset.1.1, hset.2⟩, hset.1.2⟩
        rw [if_pos this]
        split_ifs <;> rfl
      · have hv : (P.setProbMined (sq a) p).probMap y.row y.col = P.probMap y.row y.col := by
          rw [setProbMined_apply, if_neg hy]
        rw [hv, squareKnown_congr hv]
        have : (∃ x ∈ a :: l, sq x = y ∧ c1 x = true ∧ c2 x = true) ↔
            (∃ x ∈ l, sq x = y ∧ c1 x = true ∧ c2 x = true) := by
          simp only [List.mem_cons, exists_eq_or_imp]
          constructor
          · rintro (⟨h, -⟩ | h)
            · exact absurd h.symm hy
            · exact h
          · exact Or.inr
        simp only [this]
    · rw [if_neg hset]
      by_cases hex : (sq a = y ∧ c1 a = true ∧ c2 a = true)
      · have hk : P.squareKnown y = true := by
          by_contra hk
          apply hset
          simp only [Bool.not_eq_true] at hk
          simp [hex.1, hex.2.1, hex.2.2, hk]
        simp [hk]
      · have : (∃ x ∈ a :: l, sq x = y ∧ c1 x = true ∧ c2 x = true) ↔
            (∃ x ∈ l, sq x = y ∧ c1 x = true ∧ c2 x = true) := by
          simp only [List.mem_cons, exists_eq_or_imp]
          constructor
          · rintro (h | h)
            · exact absurd h hex
            · exact h
          · exact Or.inr
        simp only [this]

theorem zip_slots (M : mineField) (s : square) (hs : M.squareInsideMap s = true) :
    (List.finRange 8).zip (M.nbourSlots s)
      = (List.finRange 8).map fun k => (k, M.squareInsideMap (nbSq s k), nbSq s k) := by
  rw [M.nbourSlots_eq s hs, offsets8_eq, List.map_map]
  exact zip_map_self _ _

theorem setProbsOfUnknownNboursNotShared_apply (P : mineFieldProbMap) (M : mineField)
    (s : square) (hs : M.squareInsideMap s = true) (L : Finset (Fin 8)) (p : Int) (y : square) :
    (P.setProbsOfUnknownNboursNotShared M s L p).probMap y.row y.col
      = if (∃ k, nbSq s k = y ∧ k ∈ P.unknownBits M s ∧ k ∉ L) then p
        else P.probMap y.row y.col := by
  rw [setProbsOfUnknownNboursNotShared, zip_slots M s hs, List.foldl_map]
  rw [foldl_setProb (fun k => nbSq s k) (fun k => M.squareInsideMap (nbSq s k))
    (fun k => !decide (k ∈ L)) p (List.finRange 8) P y]
  congr 1
  simp only [List.mem_finRange, true_and, Bool.not_eq_true', decide_eq_false_iff_not,
    unknownBits, Finset.mem_filter, Finset.mem_univ, eq_iff_iff]
  constructor
  · rintro ⟨⟨k, rfl, h1, h2⟩, h3⟩
    exact ⟨k, rfl, ⟨h1, h3⟩, h2⟩
  · rintro ⟨k, rfl, ⟨h1, h3⟩, h2⟩
    exact ⟨⟨k, rfl, h1, h2⟩, h3⟩

theorem setProbsOfUnknownNbours_eq (P : mineFieldProbMap) (M : mineField)
    (s : square) (hs : M.squareInsideMap s = true) (p : Int) :
    P.setProbsOfUnknownNbours M s p = P.setProbsOfUnknownNboursNotShared M s ∅ p := by
  rw [setProbsOfUnknownNbours, setProbsOfUnknownNboursNotShared, zip_slots M s hs,
    M.nbourSlots_eq s hs, offsets8_eq, List.map_map, List.foldl_map, List.foldl_map]
  simp only [Finset.not_mem_empty, decide_False, Bool.not_false, Bool.and_true]
  rfl

end mineFieldProbMap

end minesweeper

namespace minesweeper

namespace mineFieldProbMap

/-! ## Tightening of the probability map -/

theorem Tighten.unchanged (M : mineField) (P : mineFieldProbMap) : Tighten M P P :=
  fun _ => Or.inl rfl

theorem Tighten.keepKnown {M : mineField} {P P1 : mineFieldProbMap} (h : Tighten M P P1) (t : square)
    (ht : P.squareKnown t = true) : P1.probMap t.row t.col = P.probMap t.row t.col := by
  rcases h t with e | ⟨-, hk, -⟩
  · exact e
  · rw [ht] at hk; cases hk

theorem Tighten.known {M : mineField} {P P1 : mineFieldProbMap} (h : Tighten M P P1) (t : square)
    (ht : P.squareKnown t = true) : P1.squareKnown t = true := by
  rw [squareKnown_congr (h.keepKnown t ht)]
  exact ht

theorem Tighten.compose {M : mineField} {P P1 P2 : mineFieldProbMap} (h1 : Tighten M P P1)
    (h2 : Tighten M P1 P2) : Tighten M P P2 := by
  intro t
  rcases h2 t with e2 | ⟨i2, k2, k2'⟩
  · rcases h1 t with e1 | ⟨i1, k1, k1'⟩
    · exact Or.inl (e2.trans e1)
    · exact Or.inr ⟨i1, k1, by rw [squareKnown_congr e2]; exact k1'⟩
  · rcases h1 t with e1 | ⟨-, -, k1'⟩
    · exact Or.inr ⟨i2, by rw [← squareKnown_congr e1]; exact k2, k2'⟩
    · rw [k1'] at k2; cases k2

theorem unknowns_subset {M : mineField} {P P1 : mineFieldProbMap} (h : Tighten M P P1) :
    unknowns M P1 ⊆ unknowns M P := by
  intro rc hrc
  simp only [unknowns, Finset.mem_filter] at hrc ⊢
  refine ⟨hrc.1, ?_⟩
  by_contra hk
  simp only [Bool.not_eq_false] at hk
  rw [h.known _ hk] at hrc
  cases hrc.2

theorem unknowns_card_le {M : mineField} {P P1 : mineFieldProbMap} (h : Tighten M P P1) :
    (unknowns M P1).card ≤ (unknowns M P).card :=
  Finset.card_le_card (unknowns_subset h)

theorem unknowns_card_lt {M : mineField} {P P1 : mineFieldProbMap} (h : Tighten M P P1)
    (t : square) (hi : M.squareInsideMap t = true) (hk : P.squareKnown t = false)
    (hk1 : P1.squareKnown t = true) : (unknowns M P1).card < (unknowns M P).card := by
  apply Finset.card_lt_card
  rw [Finset.ssubset_iff_of_subset (unknowns_subset h)]
  simp only [mineField.squareInsideMap, mineField.getHeight, mineField.getWidth,
    Bool.and_eq_true, decide_eq_true_eq] at hi
  have e1 : ((t.row.toNat : Nat) : Int) = t.row := Int.toNat_of_nonneg hi.1.1.1
  have e2 : ((t.col.toNat : Nat) : Int) = t.col := Int.toNat_of_nonneg hi.1.2
  refine ⟨(t.row.toNat, t.col.toNat), ?_, ?_⟩
  · simp only [unknowns, Finset.mem_filter, Finset.mem_product, Finset.mem_range, e1, e2]
    exact ⟨⟨by omega, by omega⟩, hk⟩
  · simp only [unknowns, Finset.mem_filter, Finset.mem_product, Finset.mem_range, e1, e2,
      not_and]
    intro _
    rw [hk1]
    simp

theorem unknowns_card_bound (M : mineField) (P : mineFieldProbMap) :
    (unknowns M P).card ≤ M.height * M.width := by
  refine (Finset.card_filter_le _ _).trans ?_
  rw [Finset.card_product, Finset.card_range, Finset.card_range]

theorem squareKnown_of_value (P : mineFieldProbMap) (t : square) (p : Int)
    (hp : p = 0 ∨ p = 1) (h : P.probMap t.row t.col = p) : P.squareKnown t = true := by
  rcases hp with rfl | rfl <;> simp [squareKnown, squareClear, squareMined, h]

/-! ## Marking the unknown neighbours that are not shared -/

theorem mark_tighten (P : mineFieldProbMap) (M : mineField) (s : square)
    (hs : M.squareInsideMap s = true) (L : Finset (Fin 8)) (p : Int) (hp : p = 0 ∨ p = 1) :
    Tighten M P (P.setProbsOfUnknownNboursNotShared M s L p) := by
  intro y
  have hv := setProbsOfUnknownNboursNotShared_apply P M s hs L p y
  by_cases hex : ∃ k, nbSq s k = y ∧ k ∈ P.unknownBits M s ∧ k ∉ L
  · rw [if_pos hex] at hv
    obtain ⟨k, rfl, hk, -⟩ := hex
    simp only [unknownBits, Finset.mem_filter, Finset.mem_univ, true_and] at hk
    exact Or.inr ⟨hk.1, hk.2, squareKnown_of_value _ _ p hp hv⟩
  · rw [if_neg hex] at hv
    exact Or.inl hv

theorem mark_strict (P : mineFieldProbMap) (M : mineField) (s : square)
    (hs : M.squareInsideMap s = true) (L : Finset (Fin 8)) (p : Int) (hp : p = 0 ∨ p = 1)
    (k : Fin 8) (hk : k ∈ P.unknownBits M s) (hkL : k ∉ L) :
    (unknowns M (P.setProbsOfUnknownNboursNotShared M s L p)).card < (unknowns M P).card := by
  have hv := setProbsOfUnknownNboursNotShared_apply P M s hs L p (nbSq s k)
  rw [if_pos ⟨k, rfl, hk, hkL⟩] at hv
  simp only [unknownBits, Finset.mem_filter, Finset.mem_univ, true_and] at hk
  exact unknowns_card_lt (mark_tighten P M s hs L p hp) (nbSq s k) hk.1 hk.2
    (squareKnown_of_value _ _ p hp hv)

theorem mark_sound (P : mineFieldProbMap) (M : mineField) (s : square)
    (hs : M.squareInsideMap s = true) (L : Finset (Fin 8)) (p : Int) (hS : Sound M P)
    (hall : ∀ k ∈ P.unknownBits M s, k ∉ L →
      (p = 1 → M.squareMined (nbSq s k) = true) ∧ (p = 0 → M.squareMined (nbSq s k) = false)) :
    Sound M (P.setProbsOfUnknownNboursNotShared M s L p) := by
  intro y hy
  have hv := setProbsOfUnknownNboursNotShared_apply P M s hs L p y
  by_cases hex : ∃ k, nbSq s k = y ∧ k ∈ P.unknownBits M s ∧ k ∉ L
  · rw [if_pos hex] at hv
    obtain ⟨k, rfl, hk, hkL⟩ := hex
    simp only [squareMined, squareClear, hv, beq_iff_eq]
    exact hall k hk hkL
  · rw [if_neg hex] at hv
    simp only [squareMined, squareClear, hv]
    exact hS y hy

end mineFieldProbMap

end minesweeper

namespace minesweeper

open unknownNboursSharedRec

/-! ## The shared-neighbour list compiled by `squareMeetsCriteria` -/

theorem convertSquareToBitPos_offset (k : Fin 8) :
    convertSquareToBitPos ⟨(offset8 k).1, (offset8 k).2⟩ = ((k : Nat) : Int) := by
  revert k
  decide

theorem setBit_coe (l : Finset (Fin 8)) (k : Fin 8) : setBit l ((k : Nat) : Int) = insert k l := by
  have h : 0 ≤ ((k : Nat) : Int) ∧ ((k : Nat) : Int) < 8 := ⟨by omega, by omega⟩
  rw [setBit, dif_pos h]
  congr 1

theorem addSquareToList_nbSq (W : unknownNboursSharedRec) (s : square) (k : Fin 8) :
    W.addSquareToList ⟨(nbSq s k).row - s.row, (nbSq s k).col - s.col⟩
      = { W with list := insert k W.list } := by
  have e : (⟨(nbSq s k).row - s.row, (nbSq s k).col - s.col⟩ : square)
      = ⟨(offset8 k).1, (offset8 k).2⟩ := by
    simp [nbSq]
  rw [e, addSquareToList, convertSquareToBitPos_offset, setBit_coe]

theorem squaresAround_eq (s : square) :
    mineFieldProbMap.squaresAround s
      = [nbSq s 0, nbSq s 1, nbSq s 2, nbSq s 3, s, nbSq s 4, nbSq s 5, nbSq s 6, nbSq s 7] := by
  obtain ⟨sr, sc⟩ := s
  have h0 : offset8 0 = (-1, -1) := rfl
  have h1 : offset8 1 = (-1, 0) := rfl
  have h2 : offset8 2 = (-1, 1) := rfl
  have h3 : offset8 3 = (0, -1) := rfl
  have h4 : offset8 4 = (0, 1) := rfl
  have h5 : offset8 5 = (1, -1) := rfl
  have h6 : offset8 6 = (1, 0) := rfl
  have h7 : offset8 7 = (1, 1) := rfl
  simp [mineFieldProbMap.squaresAround, nbSq, h0, h1, h2, h3, h4, h5, h6, h7,
    Int.sub_eq_add_neg]

theorem foldl_insertBits (c : Fin 8 → Bool) (l : List (Fin 8)) (W : unknownNboursSharedRec) :
    (l.foldl (fun W k => if c k then { W with list := insert k W.list } else W) W).list
      = W.list ∪ (l.filter c).toFinset := by
  induction l generalizing W with
  | nil => simp
  | cons a l ih =>
    rw [List.foldl_cons, ih]
    cases h : c a
    · simp [List.filter_cons, h]
    · simp only [if_true, List.filter_cons, h, List.toFinset_cons]
      ext j
      simp only [Finset.mem_union, Finset.mem_insert, List.mem_toFinset]
      tauto

namespace mineFieldProbMap

theorem squareMeetsCriteria_list (P : mineFieldProbMap) (M : mineField) (s n : square)
    (u W : unknownNboursSharedRec) (hs : P.squareKnown s = true) :
    (squareMeetsCriteria P M s n u W).2.list = W.list ∪ P.sharedBits M s n := by
  have hfold : ((squaresAround s).foldl
      (fun W t =>
        if M.squareInsideMap t && !P.squareKnown t && neighbours t n
        then W.addSquareToList ⟨t.row - s.row, t.col - s.col⟩ else W) W).list
      = W.list ∪ P.sharedBits M s n := by
    have hstep : ∀ (W1 : unknownNboursSharedRec) (k : Fin 8),
        (if M.squareInsideMap (nbSq s k) && !P.squareKnown (nbSq s k) && neighbours (nbSq s k) n
          then W1.addSquareToList ⟨(nbSq s k).row - s.row, (nbSq s k).col - s.col⟩ else W1)
        = (fun W k => if (fun k => M.squareInsideMap (nbSq s k) && !P.squareKnown (nbSq s k)
              && neighbours (nbSq s k) n) k
            then { W with list := insert k W.list } else W) W1 k := by
      intro W1 k
      simp only [addSquareToList_nbSq]
    have hlist : List.finRange 8 = [0, 1, 2, 3, 4, 5, 6, 7] := by decide
    have := foldl_insertBits (fun k => M.squareInsideMap (nbSq s k) && !P.squareKnown (nbSq s k)
      && neighbours (nbSq s k) n) (List.finRange 8) W
    rw [hlist] at this
    simp only [List.foldl_cons, List.foldl_nil] at this
    rw [squaresAround_eq]
    simp only [List.foldl_cons, List.foldl_nil, hstep, hs, Bool.not_true, Bool.and_false,
      Bool.false_and, Bool.false_eq_true, if_false]
    rw [this, ← hlist]
    congr 1
    ext j
    simp [sharedBits, and_assoc]
  simp only [squareMeetsCriteria]
  split_ifs <;> exact hfold

theorem meets_aux (Wn u : unknownNboursSharedRec)
    (h : (if Wn.getCount = 0 then (false, Wn)
      else if (Wn.getList ∩ u.getList).Nonempty then (false, Wn) else (true, Wn)).1 = true) :
    Wn.list ≠ ∅ ∧ Disjoint Wn.list u.list := by
  split_ifs at h with h1 h2
  refine ⟨?_, ?_⟩
  · intro h0
    apply h1
    simp [getCount, h0]
  · rw [Finset.disjoint_iff_inter_eq_empty]
    exact Finset.not_nonempty_iff_eq_empty.mp h2

theorem meets_aux_snd (Wn u : unknownNboursSharedRec) :
    (if Wn.getCount = 0 then (false, Wn)
      else if (Wn.getList ∩ u.getList).Nonempty then (false, Wn) else (true, Wn)).2 = Wn := by
  split_ifs <;> rfl

theorem squareMeetsCriteria_true (P : mineFieldProbMap) (M : mineField) (s n : square)
    (u W : unknownNboursSharedRec) (h : (squareMeetsCriteria P M s n u W).1 = true) :
    (squareMeetsCriteria P M s n u W).2.list ≠ ∅ ∧
      Disjoint (squareMeetsCriteria P M s n u W).2.list u.list := by
  have h2 := meets_aux _ u h
  have e : (squareMeetsCriteria P M s n u W).2 = _ := meets_aux_snd _ u
  rw [e]
  exact h2

theorem sharedBits_subset (P : mineFieldProbMap) (M : mineField) (s n : square) :
    P.sharedBits M s n ⊆ P.unknownBits M s := by
  intro k hk
  simp only [sharedBits, unknownBits, Finset.mem_filter, Finset.mem_univ, true_and] at hk ⊢
  exact ⟨hk.1, hk.2.1⟩

theorem updateUnkNbsShared_list (P : mineFieldProbMap) (M : mineField)
    (u W : unknownNboursSharedRec) (s n : square) :
    (updateUnkNbsShared P M u W s n).list = u.list ∪ W.list := by
  simp only [updateUnkNbsShared, addSquaresToList, addToMinMines, addToMaxMines, getList]
  split_ifs <;> rfl

theorem built_subset (P : mineFieldProbMap) (M : mineField) (s : square)
    (hs : P.squareKnown s = true) (u : unknownNboursSharedRec) (h : Built P M s u) :
    u.list ⊆ P.unknownBits M s := by
  induction h with
  | fresh u => simp [unknownNboursSharedRec.reset]
  | add u n _ _ _ _ _ _ ih =>
    rw [updateUnkNbsShared_list, squareMeetsCriteria_list P M s n u _ hs]
    simp only [Finset.empty_union]
    exact Finset.union_subset ih (sharedBits_subset P M s n)

/-! ## One successful test tightens the map -/

theorem applySimpleTests_eq (P : mineFieldProbMap) (M : mineField) (s : square)
    (hs : M.squareInsideMap s = true) :
    P.applySimpleTests M s = P.applyComplexTests M s (unknownNboursSharedRec.reset ⟨0, 0, ∅⟩)
      ∨ P.n_unknownNbours M s = 0 := by
  by_cases h0 : P.n_unknownNbours M s = 0
  · exact Or.inr h0
  · left
    simp only [applySimpleTests, applyComplexTests, unknownNboursSharedRec.reset, getMaxMines,
      getMinMines, getCount, getList, Finset.card_empty, Nat.cast_zero, sub_zero, ne_eq, h0,
      not_false_eq_true, if_true, setProbsOfUnknownNbours_eq P M s hs]

theorem applyComplexTests_false (P : mineFieldProbMap) (M : mineField) (s : square)
    (u : unknownNboursSharedRec) (h : (P.applyComplexTests M s u).1 = false) :
    (P.applyComplexTests M s u).2 = P := by
  simp only [applyComplexTests] at h ⊢
  split_ifs at h ⊢ <;> rfl

theorem applyComplexTests_true (P : mineFieldProbMap) (M : mineField) (s : square)
    (hs : M.squareInsideMap s = true) (u : unknownNboursSharedRec)
    (hu : u.list ⊆ P.unknownBits M s) (h : (P.applyComplexTests M s u).1 = true) :
    ∃ p, (p = 0 ∨ p = 1) ∧
      (P.applyComplexTests M s u).2 = P.setProbsOfUnknownNboursNotShared M s u.list p ∧
      ∃ k ∈ P.unknownBits M s, k ∉ u.list := by
  have hex : P.n_unknownNbours M s - u.getCount ≠ 0 → ∃ k ∈ P.unknownBits M s, k ∉ u.list := by
    intro hne
    rw [n_unknownNbours_bits P M s hs, getCount] at hne
    by_contra hall
    push_neg at hall
    have : P.unknownBits M s = u.list := Finset.Subset.antisymm hall hu
    rw [this] at hne
    exact hne (sub_self _)
  simp only [applyComplexTests] at h ⊢
  split_ifs at h ⊢ with h1 h2 h3
  · exact ⟨1, Or.inr rfl, rfl, hex h1⟩
  · exact ⟨0, Or.inl rfl, rfl, hex h1⟩

theorem ruleStep_tighten {M : mineField} {P P1 : mineFieldProbMap} (h : RuleStep M P P1)
    (hc : ExploredClear M P) :
    Tighten M P P1 ∧ (unknowns M P1).card < (unknowns M P).card := by
  have main : ∀ (s : square) (u : unknownNboursSharedRec), M.squareInsideMap s = true →
      M.squareExplored s = true → Built P M s u → (P.applyComplexTests M s u).1 = true →
      Tighten M P (P.applyComplexTests M s u).2 ∧
        (unknowns M (P.applyComplexTests M s u).2).card < (unknowns M P).card := by
    intro s u hs hx hb ht
    have hk : P.squareKnown s = true := by simp [squareKnown, hc s hs hx]
    obtain ⟨p, hp, he, k, hk1, hk2⟩ :=
      applyComplexTests_true P M s hs u (built_subset P M s hk u hb) ht
    rw [he]
    exact ⟨mark_tighten P M s hs u.list p hp, mark_strict P M s hs u.list p hp k hk1 hk2⟩
  cases h with
  | simple s hs hx hn ht =>
    rcases applySimpleTests_eq P M s hs with e | e
    · rw [e] at ht ⊢
      exact main s _ hs hx (Built.fresh _) ht
    · exact absurd e hn
  | complex s u hs hx _ hb ht => exact main s u hs hx hb ht

theorem exploredClear_tighten {M : mineField} {P P1 : mineFieldProbMap} (h : Tighten M P P1)
    (hc : ExploredClear M P) : ExploredClear M P1 := by
  intro t ht hx
  have h0 := hc t ht hx
  have hk : P.squareKnown t = true := by simp [squareKnown, h0]
  simpa only [squareClear, h.keepKnown t hk] using h0

end mineFieldProbMap

end minesweeper

namespace minesweeper

open Relation

namespace mineFieldProbMap

/-! ## The loops of `update` make successful tests only -/

theorem applySimpleTests_false (P : mineFieldProbMap) (M : mineField) (s : square)
    (h : (P.applySimpleTests M s).1 = false) : (P.applySimpleTests M s).2 = P := by
  simp only [applySimpleTests] at h ⊢
  split_ifs at h ⊢
  rfl

theorem sweep_aux (M : mineField) (P : mineFieldProbMap) (l : List square)
    (hl : ∀ s ∈ l, M.squareInsideMap s = true) :
    ∀ st : Bool × mineFieldProbMap, SweepInv M P st →
      SweepInv M P (l.foldl
        (fun st s =>
          if M.squareExplored s && decide (st.2.n_unknownNbours M s ≠ 0) then
            let r := st.2.applySimpleTests M s
            if r.1 then (true, r.2) else (st.1, r.2)
          else st) st) := by
  induction l with
  | nil => intro st h; exact h
  | cons a l ih =>
    intro st hst
    rw [List.foldl_cons]
    apply ih (fun s hs => hl s (List.mem_cons_of_mem a hs))
    by_cases hc : (M.squareExplored a && decide (st.2.n_unknownNbours M a ≠ 0)) = true
    · rw [if_pos hc]
      simp only [Bool.and_eq_true, decide_eq_true_eq] at hc
      cases hr : (st.2.applySimpleTests M a).1 with
      | true =>
        simp only [hr, if_true]
        have hstep : RuleStep M st.2 (st.2.applySimpleTests M a).2 :=
          RuleStep.simple st.2 a (hl a (List.mem_cons_self a l)) hc.1 hc.2 hr
        exact ⟨hst.1.tail hstep, fun h => by simp at h, fun _ => TransGen.tail' hst.1 hstep⟩
      | false =>
        simp only [hr, Bool.false_eq_true, if_false]
        rw [applySimpleTests_false st.2 M a hr]
        exact hst
    · rw [if_neg hc]
      exact hst

theorem sweep_spec (P : mineFieldProbMap) (M : mineField) :
    SweepInv M P (P.applySimpleTestsToAllSquares M) :=
  sweep_aux M P (allSquares M) (fun s hs => (mem_allSquares M s).mp hs) (false, P)
    ⟨ReflTransGen.refl, fun _ => rfl, fun h => by simp at h⟩

/-! ### The search for other squares -/

theorem findInRow_zero (P : mineFieldProbMap) (M : mineField) (s : square)
    (u : unknownNboursSharedRec) (p : square) (nrow ncol : Int) :
    findInRow P M s u p nrow 0 ncol
      = if ncol ≤ min (s.col + 2) M.getWidth then none else some none := rfl

theorem findInRow_succ (P : mineFieldProbMap) (M : mineField) (s : square)
    (u : unknownNboursSharedRec) (p : square) (nrow : Int) (fuel : Nat) (ncol : Int) :
    findInRow P M s u p nrow (fuel + 1) ncol
      = if ncol ≤ min (s.col + 2) M.getWidth then
          if accepts P M s u ⟨nrow, jumpCol s p nrow ncol⟩ then
            some (some (accepted P M s u ⟨nrow, jumpCol s p nrow ncol⟩))
          else findInRow P M s u p nrow fuel (jumpCol s p nrow ncol + 1)
        else some none := rfl

theorem findInRows_succ (P : mineFieldProbMap) (M : mineField) (s : square)
    (u : unknownNboursSharedRec) (p : square) (count : Nat) (nrow : Int) :
    findInRows P M s u p (count + 1) nrow
      = match findInRow P M s u p nrow 6 (max (s.col - 2) 0) with
        | none => none
        | some (some r) => some (some r)
        | some none => findInRows P M s u p count (nrow + 1) := rfl

theorem accepted_built (P : mineFieldProbMap) (M : mineField) (s : square)
    (u : unknownNboursSharedRec) (n : square) (hu : Built P M s u)
    (h : accepts P M s u n = true) : Built P M s (accepted P M s u n).1 := by
  simp only [accepts, Bool.and_eq_true, decide_eq_true_eq] at h
  exact Built.add u n hu h.1.1.1.1 h.1.1.1.2 h.1.2 h.1.1.2 h.2

theorem findInRow_built (P : mineFieldProbMap) (M : mineField) (s : square)
    (u : unknownNboursSharedRec) (p : square) (nrow : Int) (hu : Built P M s u) :
    ∀ (fuel : Nat) (ncol : Int) (r : unknownNboursSharedRec × square × square),
      findInRow P M s u p nrow fuel ncol = some (some r) → Built P M s r.1 := by
  intro fuel
  induction fuel with
  | zero =>
    intro ncol r h
    rw [findInRow_zero] at h
    split_ifs at h
    simp at h
  | succ fuel ih =>
    intro ncol r h
    rw [findInRow_succ] at h
    split_ifs at h with h1 h2
    · simp only [Option.some.injEq] at h
      subst h
      exact accepted_built P M s u _ hu h2
    · exact ih _ r h
    · simp at h

theorem findInRows_built (P : mineFieldProbMap) (M : mineField) (s : square)
    (u : unknownNboursSharedRec) (p : square) (hu : Built P M s u) :
    ∀ (count : Nat) (nrow : Int) (r : unknownNboursSharedRec × square × square),
      findInRows P M s u p count nrow = some (some r) → Built P M s r.1 := by
  intro count
  induction count with
  | zero => intro nrow r h; simp [findInRows] at h
  | succ count ih =>
    intro nrow r h
    rw [findInRows_succ] at h
    cases hrow : findInRow P M s u p nrow 6 (max (s.col - 2) 0) with
    | none => simp [hrow] at h
    | some o =>
      cases o with
      | none =>
        simp only [hrow] at h
        exact ih _ r h
      | some r1 =>
        simp only [hrow, Option.some.injEq] at h
        subst h
        exact findInRow_built P M s u p nrow hu _ _ _ hrow

theorem findAnotherSquare_built (P : mineFieldProbMap) (M : mineField) (s : square)
    (u : unknownNboursSharedRec) (p : square) (hu : Built P M s u)
    (r : unknownNboursSharedRec × square × square)
    (h : findAnotherSquare P M s u p = some (some r)) : Built P M s r.1 := by
  simp only [findAnotherSquare] at h
  split_ifs at h
  · simp at h
  · exact findInRows_built P M s u p hu _ _ r h

/-! ### The three nested `while` loops -/

theorem complexOutcome_of_test (P : mineFieldProbMap) (M : mineField) (s : square)
    (u : unknownNboursSharedRec) (hu : Built P M s u)
    (ht : (P.applyComplexTests M s u).1 = true) :
    ComplexOutcome P M s (true, (P.applyComplexTests M s u).2) :=
  Or.inr ⟨rfl, u, hu, ht, rfl⟩

theorem findThird_spec (M : mineField) (s : square) (u2 : unknownNboursSharedRec) :
    ∀ (fuel : Nat) (P : mineFieldProbMap) (u3 : unknownNboursSharedRec) (p3 : square)
      (r : Bool × mineFieldProbMap), Built P M s u2 → Built P M s u3 →
      findThird M s u2 fuel P u3 p3 = some r → ComplexOutcome P M s r := by
  intro fuel
  induction fuel with
  | zero => intro P u3 p3 r _ _ h; simp [findThird] at h
  | succ fuel ih =>
    intro P u3 p3 r h2 h3 h
    simp only [findThird] at h
    cases hf : findAnotherSquare P M s u3 p3 with
    | none => simp [hf] at h
    | some o =>
      cases o with
      | none =>
        simp only [hf, Option.some.injEq] at h
        subst h
        exact Or.inl ⟨rfl, rfl⟩
      | some x =>
        obtain ⟨ux, px, nx⟩ := x
        have hb := findAnotherSquare_built P M s u3 p3 h3 _ hf
        simp only [hf] at h
        cases ht : (P.applyComplexTests M s ux).1 with
        | true =>
          simp only [ht, if_true, Option.some.injEq] at h
          subst h
          exact complexOutcome_of_test P M s ux hb ht
        | false =>
          simp only [ht, Bool.false_eq_true, if_false,
            applyComplexTests_false P M s ux ht] at h
          exact ih P u2 px r h2 h2 h

theorem findSecond_spec (M : mineField) (s : square) (n_otherSquares : Int)
    (u1 : unknownNboursSharedRec) :
    ∀ (fuel : Nat) (P : mineFieldProbMap) (u2 : unknownNboursSharedRec) (p2 : square)
      (r : Bool × mineFieldProbMap), Built P M s u1 → Built P M s u2 →
      findSecond M s n_otherSquares u1 fuel P u2 p2 = some r → ComplexOutcome P M s r := by
  intro fuel
  induction fuel with
  | zero => intro P u2 p2 r _ _ h; simp [findSecond] at h
  | succ fuel ih =>
    intro P u2 p2 r h1 h2 h
    simp only [findSecond] at h
    cases hf : findAnotherSquare P M s u2 p2 with
    | none => simp [hf] at h
    | some o =>
      cases o with
      | none =>
        simp only [hf, Option.some.injEq] at h
        subst h
        exact Or.inl ⟨rfl, rfl⟩
      | some x =>
        obtain ⟨ux, px, nx⟩ := x
        have hb := findAnotherSquare_built P M s u2 p2 h2 _ hf
        simp only [hf] at h
        have hin : ∀ r1, (if n_otherSquares > 2 then findThird M s ux 26 P ux px
            else some (P.applyComplexTests M s ux)) = some r1 → ComplexOutcome P M s r1 := by
          intro r1 hr1
          split_ifs at hr1
          · exact findThird_spec M s ux 26 P ux px r1 hb hb hr1
          · simp only [Option.some.injEq] at hr1
            subst hr1
            cases ht : (P.applyComplexTests M s ux).1 with
            | true =>
              have := complexOutcome_of_test P M s ux hb ht
              rw [← ht] at this
              exact this
            | false => exact Or.inl ⟨ht, applyComplexTests_false P M s ux ht⟩
        cases hi : (if n_otherSquares > 2 then findThird M s ux 26 P ux px
            else some (P.applyComplexTests M s ux)) with
        | none => simp [hi] at h
        | some r1 =>
          have ho := hin r1 hi
          simp only [hi] at h
          cases hr : r1.1 with
          | true =>
            simp only [hr, if_true, Option.some.injEq] at h
            subst h
            rcases ho with ⟨hfalse, -⟩ | ⟨-, hres⟩
            · rw [hr] at hfalse; cases hfalse
            · exact Or.inr ⟨rfl, hres⟩
          | false =>
            simp only [hr, Bool.false_eq_true, if_false] at h
            rcases ho with ⟨-, hsame⟩ | ⟨htrue, -⟩
            · rw [hsame] at h
              exact ih P u1 px r h1 h1 h
            · rw [hr] at htrue; cases htrue

theorem findFirst_spec (M : mineField) (s : square) (n_otherSquares : Int) :
    ∀ (fuel : Nat) (P : mineFieldProbMap) (u1 : unknownNboursSharedRec) (p1 : square)
      (r : Bool × mineFieldProbMap), Built P M s u1 →
      findFirst M s n_otherSquares fuel P u1 p1 = some r → ComplexOutcome P M s r := by
  intro fuel
  induction fuel with
  | zero => intro P u1 p1 r _ h; simp [findFirst] at h
  | succ fuel ih =>
    intro P u1 p1 r h1 h
    simp only [findFirst] at h
    cases hf : findAnotherSquare P M s u1 p1 with
    | none => simp [hf] at h
    | some o =>
      cases o with
      | none =>
        simp only [hf, Option.some.injEq] at h
        subst h
        exact Or.inl ⟨rfl, rfl⟩
      | some x =>
        obtain ⟨ux, px, nx⟩ := x
        have hb := findAnotherSquare_built P M s u1 p1 h1 _ hf
        simp only [hf] at h
        have hin : ∀ r1, (if n_otherSquares > 1 then findSecond M s n_otherSquares ux 26 P ux px
            else some (P.applyComplexTests M s ux)) = some r1 → ComplexOutcome P M s r1 := by
          intro r1 hr1
          split_ifs at hr1
          · exact findSecond_spec M s n_otherSquares ux 26 P ux px r1 hb hb hr1
          · simp only [Option.some.injEq] at hr1
            subst hr1
            cases ht : (P.applyComplexTests M s ux).1 with
            | true =>
              have := complexOutcome_of_test P M s ux hb ht
              rw [← ht] at this
              exact this
            | false => exact Or.inl ⟨ht, applyComplexTests_false P M s ux ht⟩
        cases hi : (if n_otherSquares > 1 then findSecond M s n_otherSquares ux 26 P ux px
            else some (P.applyComplexTests M s ux)) with
        | none => simp [hi] at h
        | some r1 =>
          have ho := hin r1 hi
          simp only [hi] at h
          cases hr : r1.1 with
          | true =>
            simp only [hr, if_true, Option.some.injEq] at h
            subst h
            rcases ho with ⟨hfalse, -⟩ | ⟨-, hres⟩
            · rw [hr] at hfalse; cases hfalse
            · exact Or.inr ⟨rfl, hres⟩
          | false =>
            simp only [hr, Bool.false_eq_true, if_false] at h
            rcases ho with ⟨-, hsame⟩ | ⟨htrue, -⟩
            · rw [hsame] at h
              exact ih P ux.reset px r (Built.fresh ux) h
            · rw [hr] at htrue; cases htrue

theorem findAndApplyAllComplexTests_spec (P : mineFieldProbMap) (M : mineField) (s : square)
    (n_otherSquares : Int) (r : Bool × mineFieldProbMap)
    (h : P.findAndApplyAllComplexTests M s n_otherSquares = some r) :
    ComplexOutcome P M s r :=
  findFirst_spec M s n_otherSquares 26 P _ _ r (Built.fresh _) h

/-- Result of a pass of complex tests over the map: nothing found and the
map as it was, or one successful test. -/
theorem applyComplexTestsOver_spec (M : mineField) (n_otherSquares : Int) :
    ∀ (l : List square), (∀ s ∈ l, M.squareInsideMap s = true) →
      ∀ (P : mineFieldProbMap) (r : Bool × mineFieldProbMap),
        applyComplexTestsOver M n_otherSquares l P = some r →
        (r.1 = false ∧ r.2 = P) ∨ (r.1 = true ∧ RuleStep M P r.2) := by
  intro l
  induction l with
  | nil =>
    intro _ P r h
    simp only [applyComplexTestsOver, Option.some.injEq] at h
    subst h
    exact Or.inl ⟨rfl, rfl⟩
  | cons a l ih =>
    intro hl P r h
    have hl1 : ∀ s ∈ l, M.squareInsideMap s = true :=
      fun s hs => hl s (List.mem_cons_of_mem a hs)
    simp only [applyComplexTestsOver] at h
    split_ifs at h with hc
    · simp only [Bool.and_eq_true, decide_eq_true_eq] at hc
      cases hf : P.findAndApplyAllComplexTests M a n_otherSquares with
      | none => simp [hf] at h
      | some r1 =>
        simp only [hf] at h
        have ho := findAndApplyAllComplexTests_spec P M a n_otherSquares r1 hf
        cases hr : r1.1 with
        | true =>
          simp only [hr, if_true, Option.some.injEq] at h
          subst h
          rcases ho with ⟨hfalse, -⟩ | ⟨-, u, hb, ht, he⟩
          · rw [hr] at hfalse; cases hfalse
          · right
            refine ⟨rfl, ?_⟩
            show RuleStep M P r1.2
            rw [he]
            exact RuleStep.complex P a u (hl a (List.mem_cons_self a l)) hc.1 hc.2 hb ht
        | false =>
          simp only [hr, Bool.false_eq_true, if_false] at h
          rcases ho with ⟨-, hsame⟩ | ⟨htrue, -⟩
          · rw [hsame] at h
            exact ih hl1 P r h
          · rw [hr] at htrue; cases htrue
    · exact ih hl1 P r h

theorem applyComplexTestsUntilSuccess_spec (P : mineFieldProbMap) (M : mineField)
    (n_otherSquares : Int) (r : Bool × mineFieldProbMap)
    (h : P.applyComplexTestsUntilSuccess M n_otherSquares = some r) :
    (r.1 = false ∧ r.2 = P) ∨ (r.1 = true ∧ RuleStep M P r.2) :=
  applyComplexTestsOver_spec M n_otherSquares (allSquares M)
    (fun s hs => (mem_allSquares M s).mp hs) P r h

/-! ### The two `do ... while` loops -/

theorem simpleLoop_spec (M : mineField) :
    ∀ (fuel : Nat) (P : mineFieldProbMap) (c : Bool) (r : mineFieldProbMap × Bool),
      simpleLoop M fuel P c = some r →
      ReflTransGen (RuleStep M) P r.1 ∧ (r.2 = false → c = false ∧ r.1 = P) ∧
        (r.2 = true → c = true ∨ TransGen (RuleStep M) P r.1) := by
  intro fuel
  induction fuel with
  | zero => intro P c r h; simp [simpleLoop] at h
  | succ fuel ih =>
    intro P c r h
    simp only [simpleLoop] at h
    obtain ⟨h1, h2, h3⟩ := sweep_spec P M
    cases hr : (P.applySimpleTestsToAllSquares M).1 with
    | true =>
      simp only [hr, if_true] at h
      obtain ⟨i1, i2, _⟩ := ih _ true r h
      refine ⟨h1.trans i1, fun hf => ?_, fun _ => Or.inr ?_⟩
      · have := (i2 hf).1
        cases this
      · exact TransGen.trans_left (h3 hr) i1
    | false =>
      simp only [hr, Bool.false_eq_true, if_false, Option.some.injEq] at h
      subst h
      rw [h2 hr]
      exact ⟨ReflTransGen.refl, fun hf => ⟨hf, rfl⟩, fun ht => Or.inl ht⟩

/-- The three passes of complex tests of one round of the outer loop. -/
theorem complexRound_spec (M : mineField) (P1 : mineFieldProbMap)
    (r1 r2 r3 : Bool × mineFieldProbMap)
    (e1 : P1.applyComplexTestsUntilSuccess M 1 = some r1)
    (e2 : (if !r1.1 then r1.2.applyComplexTestsUntilSuccess M 2 else some r1) = some r2)
    (e3 : (if !r2.1 then r2.2.applyComplexTestsUntilSuccess M 3 else some r2) = some r3) :
    (r3.1 = false ∧ r3.2 = P1) ∨ (r3.1 = true ∧ RuleStep M P1 r3.2) := by
  have o1 := applyComplexTestsUntilSuccess_spec P1 M 1 r1 e1
  have o2 : (r2.1 = false ∧ r2.2 = P1) ∨ (r2.1 = true ∧ RuleStep M P1 r2.2) := by
    rcases o1 with ⟨hf, hs⟩ | ⟨ht, hs⟩
    · simp only [hf, Bool.not_false, if_true, hs] at e2
      exact applyComplexTestsUntilSuccess_spec P1 M 2 r2 e2
    · simp only [ht, Bool.not_true, Bool.false_eq_true, if_false, Option.some.injEq] at e2
      subst e2
      exact Or.inr ⟨ht, hs⟩
  rcases o2 with ⟨hf, hs⟩ | ⟨ht, hs⟩
  · simp only [hf, Bool.not_false, if_true, hs] at e3
    exact applyComplexTestsUntilSuccess_spec P1 M 3 r3 e3
  · simp only [ht, Bool.not_true, Bool.false_eq_true, if_false, Option.some.injEq] at e3
    subst e3
    exact Or.inr ⟨ht, hs⟩

theorem updateLoop_succ (M : mineField) (fuel : Nat) (P : mineFieldProbMap) (c : Bool) :
    updateLoop M (fuel + 1) P c =
      match simpleLoop M (fuel + 1) P c with
      | none => none
      | some (P1, changed1) =>
        match P1.applyComplexTestsUntilSuccess M 1 with
        | none => none
        | some r1 =>
          match (if !r1.1 then r1.2.applyComplexTestsUntilSuccess M 2 else some r1) with
          | none => none
          | some r2 =>
            match (if !r2.1 then r2.2.applyComplexTestsUntilSuccess M 3 else some r2) with
            | none => none
            | some r3 =>
              if r3.1 then updateLoop M fuel r3.2 true else some (changed1, r3.2) := rfl

theorem updateLoop_spec (M : mineField) :
    ∀ (fuel : Nat) (P : mineFieldProbMap) (c : Bool) (r : Bool × mineFieldProbMap),
      updateLoop M fuel P c = some r →
      ReflTransGen (RuleStep M) P r.2 ∧ (r.1 = false → c = false ∧ r.2 = P) ∧
        (r.1 = true → c = true ∨ TransGen (RuleStep M) P r.2) := by
  intro fuel
  induction fuel with
  | zero => intro P c r h; simp [updateLoop] at h
  | succ fuel ih =>
    intro P c r h
    rw [updateLoop_succ] at h
    cases hs : simpleLoop M (fuel + 1) P c with
    | none => rw [hs] at h; cases h
    | some x =>
      obtain ⟨P1, c1⟩ := x
      obtain ⟨s1, s2, s3⟩ := simpleLoop_spec M _ P c (P1, c1) hs
      rw [hs] at h
      dsimp only at h
      cases e1 : P1.applyComplexTestsUntilSuccess M 1 with
      | none => rw [e1] at h; cases h
      | some r1 =>
        rw [e1] at h
        dsimp only at h
        cases e2 : (if !r1.1 then r1.2.applyComplexTestsUntilSuccess M 2 else some r1) with
        | none => rw [e2] at h; cases h
        | some r2 =>
          rw [e2] at h
          dsimp only at h
          cases e3 : (if !r2.1 then r2.2.applyComplexTestsUntilSuccess M 3 else some r2) with
          | none => rw [e3] at h; cases h
          | some r3 =>
            rw [e3] at h
            dsimp only at h
            rcases complexRound_spec M P1 r1 r2 r3 e1 e2 e3 with ⟨hf, hsame⟩ | ⟨ht, hstep⟩
            · simp only [hf, Bool.false_eq_true, if_false, Option.some.injEq] at h
              subst h
              simp only [hsame]
              exact ⟨s1, s2, s3⟩
            · simp only [ht, if_true] at h
              obtain ⟨i1, i2, _⟩ := ih r3.2 true r h
              refine ⟨(s1.tail hstep).trans i1, fun hf => ?_, fun _ => Or.inr ?_⟩
              · have := (i2 hf).1
                cases this
              · exact TransGen.trans_left (TransGen.tail' s1 hstep) i1

end mineFieldProbMap

end minesweeper

namespace minesweeper

open Relation

namespace mineFieldProbMap

/-! ## The search of `findAnotherSquare` ends and moves forward -/

theorem jumpCol_ge (s p : square) (nrow ncol : Int) (hp : s.col - 2 ≤ p.col) :
    ncol ≤ jumpCol s p nrow ncol := by
  simp only [jumpCol]
  split_ifs with h
  · rw [h.2]
    omega
  · exact le_refl _

theorem findInRow_total (P : mineFieldProbMap) (M : mineField) (s : square)
    (u : unknownNboursSharedRec) (p : square) (nrow : Int) (hp : s.col - 2 ≤ p.col) :
    ∀ (fuel : Nat) (ncol : Int), min (s.col + 2) M.getWidth + 1 - ncol ≤ fuel →
      ∃ r, findInRow P M s u p nrow fuel ncol = some r := by
  intro fuel
  induction fuel with
  | zero =>
    intro ncol h
    rw [findInRow_zero, if_neg (by omega)]
    exact ⟨_, rfl⟩
  | succ fuel ih =>
    intro ncol h
    rw [findInRow_succ]
    split_ifs with h1 h2
    · exact ⟨_, rfl⟩
    · have := jumpCol_ge s p nrow ncol hp
      exact ih _ (by omega)
    · exact ⟨_, rfl⟩

theorem findInRows_total (P : mineFieldProbMap) (M : mineField) (s : square)
    (u : unknownNboursSharedRec) (p : square) (hp : s.col - 2 ≤ p.col) :
    ∀ (count : Nat) (nrow : Int), ∃ r, findInRows P M s u p count nrow = some r := by
  intro count
  induction count with
  | zero => intro nrow; exact ⟨_, rfl⟩
  | succ count ih =>
    intro nrow
    rw [findInRows_succ]
    obtain ⟨r, hr⟩ := findInRow_total P M s u p nrow hp 6 (max (s.col - 2) 0) (by omega)
    rw [hr]
    cases r with
    | none => exact ih _
    | some r1 => exact ⟨_, rfl⟩

theorem findAnotherSquare_total (P : mineFieldProbMap) (M : mineField) (s : square)
    (u : unknownNboursSharedRec) (p : square) (hp : s.col - 2 ≤ p.col) :
    ∃ r, findAnotherSquare P M s u p = some r := by
  simp only [findAnotherSquare]
  split_ifs
  · exact ⟨_, rfl⟩
  · exact findInRows_total P M s u p hp _ _

/-- Where `findInRow` finds a square. -/
theorem findInRow_pos (P : mineFieldProbMap) (M : mineField) (s : square)
    (u : unknownNboursSharedRec) (p : square) (nrow : Int) (hp : WindowPos s p) :
    ∀ (fuel : Nat) (ncol : Int) (r : unknownNboursSharedRec × square × square),
      max (s.col - 2) 0 ≤ ncol → (nrow = p.row → ncol = max (s.col - 2) 0 ∨ p.col < ncol) →
      findInRow P M s u p nrow fuel ncol = some (some r) →
      r.2.2.row = nrow ∧ s.col - 2 ≤ r.2.2.col ∧ r.2.2.col ≤ s.col + 2 ∧
        (nrow = p.row → p.col ≤ r.2.2.col) ∧ r.2.1 = nextPos s r.2.2 := by
  intro fuel
  induction fuel with
  | zero =>
    intro ncol r _ _ h
    rw [findInRow_zero] at h
    split_ifs at h
    simp at h
  | succ fuel ih =>
    intro ncol r hlo hfirst h
    rw [findInRow_succ] at h
    obtain ⟨hp1, hp2, hp3, hp4⟩ := hp
    have ja : ncol ≤ jumpCol s p nrow ncol := jumpCol_ge s p nrow ncol hp3
    have jb : ncol ≤ min (s.col + 2) M.getWidth → jumpCol s p nrow ncol ≤ s.col + 2 := by
      intro hle
      have h2 : ncol ≤ s.col + 2 := le_trans hle (min_le_left _ _)
      simp only [jumpCol]
      split_ifs with hc
      · omega
      · exact h2
    have jc : nrow = p.row → p.col ≤ jumpCol s p nrow ncol := by
      intro hrow
      rcases hfirst hrow with h0 | h0
      · simp only [jumpCol, hrow, h0, and_self, if_true]
        exact le_max_left _ _
      · omega
    split_ifs at h with h1 h2
    · simp only [Option.some.injEq] at h
      subst h
      refine ⟨rfl, ?_, jb h1, jc, rfl⟩
      show s.col - 2 ≤ jumpCol s p nrow ncol
      omega
    · refine ih _ r (by omega) ?_ h
      intro hrow
      right
      have := jc hrow
      omega
    · simp at h

theorem findInRows_pos (P : mineFieldProbMap) (M : mineField) (s : square)
    (u : unknownNboursSharedRec) (p : square) (hp : WindowPos s p) :
    ∀ (count : Nat) (nrow : Int) (r : unknownNboursSharedRec × square × square),
      p.row ≤ nrow → nrow + count ≤ s.row + 3 →
      findInRows P M s u p count nrow = some (some r) →
      p.row ≤ r.2.2.row ∧ r.2.2.row ≤ s.row + 2 ∧ s.col - 2 ≤ r.2.2.col ∧
        r.2.2.col ≤ s.col + 2 ∧ (r.2.2.row = p.row → p.col ≤ r.2.2.col) ∧
        r.2.1 = nextPos s r.2.2 := by
  intro count
  induction count with
  | zero => intro nrow r _ _ h; simp [findInRows] at h
  | succ count ih =>
    intro nrow r hlo hhi h
    rw [findInRows_succ] at h
    cases hrow : findInRow P M s u p nrow 6 (max (s.col - 2) 0) with
    | none => rw [hrow] at h; cases h
    | some o =>
      rw [hrow] at h
      cases o with
      | none =>
        dsimp only at h
        exact ih _ r (by omega) (by push_cast at hhi; omega) h
      | some r1 =>
        simp only [Option.some.injEq] at h
        subst h
        obtain ⟨e1, e2, e3, e4, e5⟩ := findInRow_pos P M s u p nrow hp 6 _ r1 (le_refl _)
          (fun _ => Or.inl rfl) hrow
        refine ⟨by omega, by push_cast at hhi; omega, e2, e3, fun h => e4 (by omega), e5⟩

theorem findAnotherSquare_pos (P : mineFieldProbMap) (M : mineField) (s : square)
    (u : unknownNboursSharedRec) (p : square) (hp : WindowPos s p)
    (r : unknownNboursSharedRec × square × square)
    (h : findAnotherSquare P M s u p = some (some r)) :
    WindowPos s r.2.1 ∧ remaining s r.2.1 < remaining s p := by
  simp only [findAnotherSquare] at h
  split_ifs at h with h0
  · simp at h
  · obtain ⟨e1, e2, e3, e4, e5, e6⟩ := findInRows_pos P M s u p hp _ p.row r (le_refl _)
      (by
        have := hp.1
        rcases le_total (s.row + 2) M.getHeight with hm | hm
        · rw [min_eq_left hm]; omega
        · rw [min_eq_right hm]; omega) h
    obtain ⟨hp1, hp2, hp3, hp4⟩ := hp
    rw [e6]
    simp only [nextPos, WindowPos, remaining]
    split_ifs <;> refine ⟨⟨?_, ?_, ?_, ?_⟩, ?_⟩ <;> try dsimp only
    all_goals omega

theorem remaining_le (s p : square) (hp : WindowPos s p) : remaining s p ≤ 25 := by
  obtain ⟨hp1, hp2, hp3, hp4⟩ := hp
  simp only [remaining]
  split_ifs <;> omega

theorem windowPos_start (s : square) : WindowPos s ⟨s.row - 2, s.col - 2⟩ := by
  simp only [WindowPos]
  omega

/-! ## The loops of `update` end -/

theorem findThird_total (M : mineField) (s : square) (u2 : unknownNboursSharedRec) :
    ∀ (fuel : Nat) (P : mineFieldProbMap) (u3 : unknownNboursSharedRec) (p3 : square),
      WindowPos s p3 → remaining s p3 < fuel →
      ∃ r, findThird M s u2 fuel P u3 p3 = some r := by
  intro fuel
  induction fuel with
  | zero => intro P u3 p3 _ h; omega
  | succ fuel ih =>
    intro P u3 p3 hp hrem
    simp only [findThird]
    obtain ⟨o, ho⟩ := findAnotherSquare_total P M s u3 p3 hp.2.2.1
    rw [ho]
    cases o with
    | none => exact ⟨_, rfl⟩
    | some x =>
      obtain ⟨ux, px, nx⟩ := x
      obtain ⟨hw, hlt⟩ := findAnotherSquare_pos P M s u3 p3 hp _ ho
      dsimp only
      split_ifs
      · exact ⟨_, rfl⟩
      · exact ih _ _ _ hw (by simp only at hlt; omega)

theorem findSecond_total (M : mineField) (s : square) (n_otherSquares : Int)
    (u1 : unknownNboursSharedRec) :
    ∀ (fuel : Nat) (P : mineFieldProbMap) (u2 : unknownNboursSharedRec) (p2 : square),
      WindowPos s p2 → remaining s p2 < fuel →
      ∃ r, findSecond M s n_otherSquares u1 fuel P u2 p2 = some r := by
  intro fuel
  induction fuel with
  | zero => intro P u2 p2 _ h; omega
  | succ fuel ih =>
    intro P u2 p2 hp hrem
    simp only [findSecond]
    obtain ⟨o, ho⟩ := findAnotherSquare_total P M s u2 p2 hp.2.2.1
    rw [ho]
    cases o with
    | none => exact ⟨_, rfl⟩
    | some x =>
      obtain ⟨ux, px, nx⟩ := x
      obtain ⟨hw, hlt⟩ := findAnotherSquare_pos P M s u2 p2 hp _ ho
      dsimp only
      have hin : ∃ r1, (if n_otherSquares > 2 then findThird M s ux 26 P ux px
          else some (P.applyComplexTests M s ux)) = some r1 := by
        split_ifs
        · exact findThird_total M s ux 26 P ux px hw
            (Nat.lt_succ_of_le (remaining_le s px hw))
        · exact ⟨_, rfl⟩
      obtain ⟨r1, hr1⟩ := hin
      rw [hr1]
      dsimp only
      split_ifs
      · exact ⟨_, rfl⟩
      · exact ih _ _ _ hw (by simp only at hlt; omega)

theorem findFirst_total (M : mineField) (s : square) (n_otherSquares : Int) :
    ∀ (fuel : Nat) (P : mineFieldProbMap) (u1 : unknownNboursSharedRec) (p1 : square),
      WindowPos s p1 → remaining s p1 < fuel →
      ∃ r, findFirst M s n_otherSquares fuel P u1 p1 = some r := by
  intro fuel
  induction fuel with
  | zero => intro P u1 p1 _ h; omega
  | succ fuel ih =>
    intro P u1 p1 hp hrem
    simp only [findFirst]
    obtain ⟨o, ho⟩ := findAnotherSquare_total P M s u1 p1 hp.2.2.1
    rw [ho]
    cases o with
    | none => exact ⟨_, rfl⟩
    | some x =>
      obtain ⟨ux, px, nx⟩ := x
      obtain ⟨hw, hlt⟩ := findAnotherSquare_pos P M s u1 p1 hp _ ho
      dsimp only
      have hin : ∃ r1, (if n_otherSquares > 1 then findSecond M s n_otherSquares ux 26 P ux px
          else some (P.applyComplexTests M s ux)) = some r1 := by
        split_ifs
        · exact findSecond_total M s n_otherSquares ux 26 P ux px hw
            (Nat.lt_succ_of_le (remaining_le s px hw))
        · exact ⟨_, rfl⟩
      obtain ⟨r1, hr1⟩ := hin
      rw [hr1]
      dsimp only
      split_ifs
      · exact ⟨_, rfl⟩
      · exact ih _ _ _ hw (by simp only at hlt; omega)

theorem findAndApplyAllComplexTests_total (P : mineFieldProbMap) (M : mineField) (s : square)
    (n_otherSquares : Int) : ∃ r, P.findAndApplyAllComplexTests M s n_otherSquares = some r :=
  findFirst_total M s n_otherSquares 26 P _ _ (windowPos_start s)
    (Nat.lt_succ_of_le (remaining_le s _ (windowPos_start s)))

theorem applyComplexTestsOver_total (M : mineField) (n_otherSquares : Int) :
    ∀ (l : List square) (P : mineFieldProbMap),
      ∃ r, applyComplexTestsOver M n_otherSquares l P = some r := by
  intro l
  induction l with
  | nil => intro P; exact ⟨_, rfl⟩
  | cons a l ih =>
    intro P
    simp only [applyComplexTestsOver]
    split_ifs
    · obtain ⟨r1, hr1⟩ := findAndApplyAllComplexTests_total P M a n_otherSquares
      rw [hr1]
      dsimp only
      split_ifs
      · exact ⟨_, rfl⟩
      · exact ih _
    · exact ih _

theorem applyComplexTestsUntilSuccess_total (P : mineFieldProbMap) (M : mineField)
    (n_otherSquares : Int) : ∃ r, P.applyComplexTestsUntilSuccess M n_otherSquares = some r :=
  applyComplexTestsOver_total M n_otherSquares _ P

theorem steps_tighten {M : mineField} {P P1 : mineFieldProbMap}
    (h : ReflTransGen (RuleStep M) P P1) (hc : ExploredClear M P) :
    Tighten M P P1 ∧ ExploredClear M P1 ∧ (unknowns M P1).card ≤ (unknowns M P).card := by
  induction h with
  | refl => exact ⟨Tighten.unchanged M P, hc, le_refl _⟩
  | tail _ hstep ih =>
    obtain ⟨t1, c1, l1⟩ := ih
    obtain ⟨t2, l2⟩ := ruleStep_tighten hstep c1
    exact ⟨t1.compose t2, exploredClear_tighten t2 c1, by omega⟩

theorem steps_strict {M : mineField} {P P1 : mineFieldProbMap}
    (h : TransGen (RuleStep M) P P1) (hc : ExploredClear M P) :
    (unknowns M P1).card < (unknowns M P).card := by
  rcases (TransGen.tail'_iff).mp h with ⟨P0, h0, hstep⟩
  obtain ⟨_, c1, l1⟩ := steps_tighten h0 hc
  have := (ruleStep_tighten hstep c1).2
  omega

theorem simpleLoop_total (M : mineField) :
    ∀ (fuel : Nat) (P : mineFieldProbMap) (c : Bool), ExploredClear M P →
      (unknowns M P).card < fuel → ∃ r, simpleLoop M fuel P c = some r := by
  intro fuel
  induction fuel with
  | zero => intro P c _ h; omega
  | succ fuel ih =>
    intro P c hc hlt
    simp only [simpleLoop]
    obtain ⟨h1, _, h3⟩ := sweep_spec P M
    split_ifs with hr
    · have := steps_strict (h3 hr) hc
      exact ih _ _ (steps_tighten h1 hc).2.1 (by omega)
    · exact ⟨_, rfl⟩

theorem updateLoop_total (M : mineField) :
    ∀ (fuel : Nat) (P : mineFieldProbMap) (c : Bool), ExploredClear M P →
      (unknowns M P).card < fuel → ∃ r, updateLoop M fuel P c = some r := by
  intro fuel
  induction fuel with
  | zero => intro P c _ h; omega
  | succ fuel ih =>
    intro P c hc hlt
    rw [updateLoop_succ]
    obtain ⟨⟨P1, c1⟩, hs⟩ := simpleLoop_total M (fuel + 1) P c hc hlt
    obtain ⟨s1, _, _⟩ := simpleLoop_spec M _ P c (P1, c1) hs
    obtain ⟨_, hc1, hl1⟩ := steps_tighten s1 hc
    rw [hs]
    dsimp only
    obtain ⟨r1, e1⟩ := applyComplexTestsUntilSuccess_total P1 M 1
    rw [e1]
    dsimp only
    have t2 : ∃ r2, (if !r1.1 then r1.2.applyComplexTestsUntilSuccess M 2 else some r1)
        = some r2 := by
      split_ifs
      · exact applyComplexTestsUntilSuccess_total _ M 2
      · exact ⟨_, rfl⟩
    obtain ⟨r2, e2⟩ := t2
    rw [e2]
    dsimp only
    have t3 : ∃ r3, (if !r2.1 then r2.2.applyComplexTestsUntilSuccess M 3 else some r2)
        = some r3 := by
      split_ifs
      · exact applyComplexTestsUntilSuccess_total _ M 3
      · exact ⟨_, rfl⟩
    obtain ⟨r3, e3⟩ := t3
    rw [e3]
    dsimp only
    rcases complexRound_spec M P1 r1 r2 r3 e1 e2 e3 with ⟨hf, _⟩ | ⟨ht, hstep⟩
    · rw [hf]
      exact ⟨_, rfl⟩
    · rw [ht, if_pos rfl]
      obtain ⟨t, l⟩ := ruleStep_tighten hstep hc1
      exact ih _ _ (exploredClear_tighten t hc1) (by simp only at hl1; omega)

end mineFieldProbMap

end minesweeper

namespace minesweeper

open Relation

/-! ## Counting the mines among unknown neighbours -/

theorem card_filter_bounds {α : Type} [DecidableEq α] (A B : Finset α) (q : α → Prop)
    [DecidablePred q] (h : A ⊆ B) :
    (A.filter q).card ≤ (B.filter q).card ∧
      (B.filter q).card + A.card ≤ (A.filter q).card + B.card := by
  have h1 : (B.filter q).card = (A.filter q).card + ((B \ A).filter q).card := by
    rw [← Finset.card_union_of_disjoint, ← Finset.filter_union, Finset.union_sdiff_of_subset h]
    exact Finset.disjoint_filter_filter Finset.disjoint_sdiff
  have h2 : ((B \ A).filter q).card ≤ (B \ A).card := Finset.card_filter_le _ _
  have h3 : (B \ A).card + A.card = B.card := Finset.card_sdiff_add_card_eq_card h
  omega

namespace mineFieldProbMap

theorem minesIn_le_card (M : mineField) (s : square) (L : Finset (Fin 8)) :
    minesIn M s L ≤ L.card :=
  Finset.card_filter_le _ _

theorem minesIn_union (M : mineField) (s : square) (L W : Finset (Fin 8)) (h : Disjoint W L) :
    minesIn M s (L ∪ W) = minesIn M s L + minesIn M s W := by
  rw [minesIn, Finset.filter_union, Finset.card_union_of_disjoint]
  · rfl
  · exact Finset.disjoint_filter_filter h.symm

theorem minesIn_cells (M : mineField) (x : square) (L : Finset (Fin 8)) :
    minesIn M x L = ((L.image (nbSq x)).filter fun t => M.squareMined t = true).card := by
  rw [Finset.filter_image, Finset.card_image_of_injective _ (nbSq_injective x)]
  rfl

theorem shared_cells_subset (P : mineFieldProbMap) (M : mineField) (s n : square) :
    (P.sharedBits M s n).image (nbSq s) ⊆ (P.unknownBits M n).image (nbSq n) := by
  intro t ht
  simp only [Finset.mem_image, sharedBits, unknownBits, Finset.mem_filter, Finset.mem_univ,
    true_and] at ht ⊢
  obtain ⟨k, ⟨h1, h2, h3⟩, rfl⟩ := ht
  rw [mineField.neighbours_iff, offsets8_eq, List.map_map] at h3
  simp only [List.mem_map, List.mem_finRange, true_and, Function.comp] at h3
  obtain ⟨j, hj⟩ := h3
  have hj1 : nbSq n j = nbSq s k := hj
  exact ⟨j, ⟨hj1 ▸ h1, hj1 ▸ h2⟩, hj1⟩

/-- The mines that an explored square still misses are the mines among its
unknown neighbours. -/
theorem n_unknownMinedNbours_eq (P : mineFieldProbMap) (M : mineField) (x : square)
    (hx : M.squareInsideMap x = true) (he : M.squareExplored x = true)
    (hE : M.Exact) (hS : Sound M P) :
    P.n_unknownMinedNbours M x = (minesIn M x (P.unknownBits M x) : Int) := by
  rw [n_unknownMinedNbours, mineField.n_minedNbours, (hE x hx he).2, M.countMinedNbours_eq,
    n_knownMinedNbours_eq, M.countP_nbours x hx, M.countP_nbours x hx, minesIn, unknownBits,
    Finset.filter_filter]
  have key := Finset.filter_card_add_filter_neg_card_eq_card
    (s := Finset.univ.filter fun k : Fin 8 =>
      M.squareInsideMap (nbSq x k) = true ∧ M.squareMined (nbSq x k) = true)
    (fun k => P.squareKnown (nbSq x k) = true)
  rw [Finset.filter_filter, Finset.filter_filter] at key
  have e1 : (Finset.univ.filter fun k : Fin 8 =>
      (M.squareInsideMap (nbSq x k) = true ∧ M.squareMined (nbSq x k) = true) ∧
        P.squareKnown (nbSq x k) = true)
      = Finset.univ.filter fun k : Fin 8 =>
        M.squareInsideMap (nbSq x k) = true ∧ P.squareMined (nbSq x k) = true := by
    ext k
    simp only [Finset.mem_filter, Finset.mem_univ, true_and]
    constructor
    · rintro ⟨⟨h1, h2⟩, h3⟩
      refine ⟨h1, ?_⟩
      simp only [squareKnown, Bool.or_eq_true] at h3
      rcases h3 with h3 | h3
      · rw [(hS _ h1).2 h3] at h2; cases h2
      · exact h3
    · rintro ⟨h1, h2⟩
      exact ⟨⟨h1, (hS _ h1).1 h2⟩, by simp [squareKnown, h2]⟩
  have e2 : (Finset.univ.filter fun k : Fin 8 =>
      (M.squareInsideMap (nbSq x k) = true ∧ M.squareMined (nbSq x k) = true) ∧
        ¬P.squareKnown (nbSq x k) = true)
      = Finset.univ.filter fun k : Fin 8 =>
        (M.squareInsideMap (nbSq x k) = true ∧ P.squareKnown (nbSq x k) = false) ∧
          M.squareMined (nbSq x k) = true := by
    ext k
    simp only [Finset.mem_filter, Finset.mem_univ, true_and, Bool.not_eq_true]
    tauto
  rw [e1, e2] at key
  omega

/-- The bounds that `updateUnkNbsShared` computes for the mines among the
unknown neighbours that `s` shares with `n`. -/
theorem shared_bounds (P : mineFieldProbMap) (M : mineField) (s n : square) :
    minesIn M s (P.sharedBits M s n) ≤ (P.sharedBits M s n).card ∧
    minesIn M s (P.sharedBits M s n) ≤ minesIn M s (P.unknownBits M s) ∧
    minesIn M s (P.unknownBits M s) + (P.sharedBits M s n).card
      ≤ minesIn M s (P.sharedBits M s n) + (P.unknownBits M s).card ∧
    minesIn M s (P.sharedBits M s n) ≤ minesIn M n (P.unknownBits M n) ∧
    minesIn M n (P.unknownBits M n) + (P.sharedBits M s n).card
      ≤ minesIn M s (P.sharedBits M s n) + (P.unknownBits M n).card := by
  have hs := card_filter_bounds (P.sharedBits M s n) (P.unknownBits M s)
    (fun k => M.squareMined (nbSq s k) = true) (sharedBits_subset P M s n)
  have hn := card_filter_bounds ((P.sharedBits M s n).image (nbSq s))
    ((P.unknownBits M n).image (nbSq n)) (fun t => M.squareMined t = true)
    (shared_cells_subset P M s n)
  rw [← minesIn_cells, ← minesIn_cells, Finset.card_image_of_injective _ (nbSq_injective s),
    Finset.card_image_of_injective _ (nbSq_injective n)] at hn
  exact ⟨minesIn_le_card M s _, hs.1, hs.2, hn.1, hn.2⟩

theorem updateUnkNbsShared_bounds (P : mineFieldProbMap) (M : mineField)
    (u W : unknownNboursSharedRec) (s n : square) :
    ∃ lo hi : Int, (updateUnkNbsShared P M u W s n).minMines = u.minMines + lo ∧
      (updateUnkNbsShared P M u W s n).maxMines = u.maxMines + hi ∧
      ((W.getCount = P.n_unknownNbours M n ∧ lo = P.n_unknownMinedNbours M n ∧
          hi = P.n_unknownMinedNbours M n) ∨
       (W.getCount ≠ P.n_unknownNbours M n ∧
          lo = maximum 0 (P.n_unknownMinedNbours M s - (P.n_unknownNbours M s - W.getCount))
            (P.n_unknownMinedNbours M n - (P.n_unknownNbours M n - W.getCount)) ∧
          hi = minimum W.getCount (P.n_unknownMinedNbours M s)
            (P.n_unknownMinedNbours M n))) := by
  by_cases h : W.getCount = P.n_unknownNbours M n
  · refine ⟨_, _, ?_, ?_, Or.inl ⟨h, rfl, rfl⟩⟩ <;>
      simp [updateUnkNbsShared, h, unknownNboursSharedRec.addSquaresToList,
        unknownNboursSharedRec.addToMinMines, unknownNboursSharedRec.addToMaxMines]
  · refine ⟨_, _, ?_, ?_, Or.inr ⟨h, rfl, rfl⟩⟩ <;>
      simp [updateUnkNbsShared, h, unknownNboursSharedRec.addSquaresToList,
        unknownNboursSharedRec.addToMinMines, unknownNboursSharedRec.addToMaxMines]

theorem built_sound (P : mineFieldProbMap) (M : mineField) (s : square)
    (hs : M.squareInsideMap s = true) (he : M.squareExplored s = true)
    (hE : M.Exact) (hS : Sound M P) (hk : P.squareKnown s = true)
    (u : unknownNboursSharedRec) (h : Built P M s u) : AccSound P M s u := by
  induction h with
  | fresh u =>
    refine ⟨by simp [unknownNboursSharedRec.reset], ?_, ?_⟩ <;>
      simp [unknownNboursSharedRec.reset, minesIn]
  | add u n hb hn hne _ _ hm ih =>
    have hsub := built_subset P M s hk _ (Built.add u n hb hn hne ‹_› ‹_› hm)
    have hlist := squareMeetsCriteria_list P M s n u ⟨0, 0, ∅⟩ hk
    simp only [Finset.empty_union] at hlist
    have hdisj := (squareMeetsCriteria_true P M s n u ⟨0, 0, ∅⟩ hm).2
    rw [hlist] at hdisj
    obtain ⟨lo, hi, e1, e2, hcase⟩ := updateUnkNbsShared_bounds P M u
      (squareMeetsCriteria P M s n u ⟨0, 0, ∅⟩).2 s n
    have hcount : (squareMeetsCriteria P M s n u ⟨0, 0, ∅⟩).2.getCount
        = ((P.sharedBits M s n).card : Int) := by
      rw [unknownNboursSharedRec.getCount, hlist]
    rw [hcount, n_unknownNbours_bits P M n hn, n_unknownNbours_bits P M s hs,
      n_unknownMinedNbours_eq P M n hn hne hE hS, n_unknownMinedNbours_eq P M s hs he hE hS]
      at hcase
    obtain ⟨b1, b2, b3, b4, b5⟩ := shared_bounds P M s n
    obtain ⟨-, i1, i2⟩ := ih
    refine ⟨hsub, ?_, ?_⟩
    · rw [e1, updateUnkNbsShared_list, hlist, minesIn_union M s _ _ hdisj]
      push_cast
      have : lo ≤ (minesIn M s (P.sharedBits M s n) : Int) := by
        rcases hcase with ⟨hc, hlo, -⟩ | ⟨-, hlo, -⟩
        · rw [hlo]; omega
        · rw [hlo, maximum]
          exact max_le (max_le (by omega) (by omega)) (by omega)
      omega
    · rw [e2, updateUnkNbsShared_list, hlist, minesIn_union M s _ _ hdisj]
      push_cast
      have : (minesIn M s (P.sharedBits M s n) : Int) ≤ hi := by
        rcases hcase with ⟨hc, -, hhi⟩ | ⟨-, -, hhi⟩
        · rw [hhi]; omega
        · rw [hhi, minimum]
          exact le_min (le_min (by omega) (by omega)) (by omega)
      omega

end mineFieldProbMap

end minesweeper

namespace minesweeper

open Relation

theorem card_filter_split {α : Type} [DecidableEq α] (A B : Finset α) (q : α → Prop)
    [DecidablePred q] (h : A ⊆ B) :
    (B.filter q).card = (A.filter q).card + ((B \ A).filter q).card := by
  rw [← Finset.card_union_of_disjoint, ← Finset.filter_union, Finset.union_sdiff_of_subset h]
  exact Finset.disjoint_filter_filter Finset.disjoint_sdiff

namespace mineFieldProbMap

/-! ## A successful test keeps the map sound -/

theorem applyComplexTests_cases (P : mineFieldProbMap) (M : mineField) (s : square)
    (u : unknownNboursSharedRec) (h : (P.applyComplexTests M s u).1 = true) :
    (P.n_unknownMinedNbours M s - u.maxMines = P.n_unknownNbours M s - u.getCount ∧
      (P.applyComplexTests M s u).2 = P.setProbsOfUnknownNboursNotShared M s u.list 1) ∨
    (P.n_unknownMinedNbours M s - u.minMines = 0 ∧
      (P.applyComplexTests M s u).2 = P.setProbsOfUnknownNboursNotShared M s u.list 0) := by
  simp only [applyComplexTests] at h ⊢
  split_ifs at h ⊢ with h1 h2 h3
  · exact Or.inl ⟨h2, rfl⟩
  · exact Or.inr ⟨h3, rfl⟩

theorem complexTest_sound (P : mineFieldProbMap) (M : mineField) (s : square)
    (hs : M.squareInsideMap s = true) (he : M.squareExplored s = true)
    (hE : M.Exact) (hS : Sound M P) (u : unknownNboursSharedRec) (hu : AccSound P M s u)
    (h : (P.applyComplexTests M s u).1 = true) : Sound M (P.applyComplexTests M s u).2 := by
  obtain ⟨hsub, hmin, hmax⟩ := hu
  have hsplit := card_filter_split u.list (P.unknownBits M s)
    (fun k => M.squareMined (nbSq s k) = true) hsub
  have hcard : (P.unknownBits M s \ u.list).card + u.list.card = (P.unknownBits M s).card :=
    Finset.card_sdiff_add_card_eq_card hsub
  have hle : ((P.unknownBits M s \ u.list).filter
      fun k => M.squareMined (nbSq s k) = true).card ≤ (P.unknownBits M s \ u.list).card :=
    Finset.card_filter_le _ _
  have hm := n_unknownMinedNbours_eq P M s hs he hE hS
  have hn := n_unknownNbours_bits P M s hs
  simp only [minesIn] at hm hmin hmax
  rcases applyComplexTests_cases P M s u h with ⟨hc, e⟩ | ⟨hc, e⟩
  · rw [e]
    apply mark_sound P M s hs u.list 1 hS
    intro k hk hkL
    refine ⟨fun _ => ?_, fun h01 => by simp at h01⟩
    rw [hm, hn, unknownNboursSharedRec.getCount] at hc
    have hall : ((P.unknownBits M s \ u.list).filter
        fun k => M.squareMined (nbSq s k) = true).card = (P.unknownBits M s \ u.list).card := by
      omega
    exact Finset.card_filter_eq_iff.mp hall k (Finset.mem_sdiff.mpr ⟨hk, hkL⟩)
  · rw [e]
    apply mark_sound P M s hs u.list 0 hS
    intro k hk hkL
    refine ⟨fun h01 => by simp at h01, fun _ => ?_⟩
    rw [hm] at hc
    have hzero : ((P.unknownBits M s \ u.list).filter
        fun k => M.squareMined (nbSq s k) = true).card = 0 := by
      omega
    have := Finset.filter_eq_empty_iff.mp (Finset.card_eq_zero.mp hzero)
      (Finset.mem_sdiff.mpr ⟨hk, hkL⟩)
    simpa using this

theorem ruleStep_sound {M : mineField} {P P1 : mineFieldProbMap} (h : RuleStep M P P1)
    (hE : M.Exact) (hS : Sound M P) (hc : ExploredClear M P) : Sound M P1 := by
  cases h with
  | simple s hs hx hn ht =>
    rcases applySimpleTests_eq P M s hs with e | e
    · rw [e] at ht ⊢
      have hk : P.squareKnown s = true := by simp [squareKnown, hc s hs hx]
      exact complexTest_sound P M s hs hx hE hS _
        (built_sound P M s hs hx hE hS hk _ (Built.fresh _)) ht
    · exact absurd e hn
  | complex s u hs hx _ hb ht =>
    have hk : P.squareKnown s = true := by simp [squareKnown, hc s hs hx]
    exact complexTest_sound P M s hs hx hE hS u (built_sound P M s hs hx hE hS hk u hb) ht

theorem steps_sound {M : mineField} {P P1 : mineFieldProbMap}
    (h : ReflTransGen (RuleStep M) P P1) (hE : M.Exact) (hS : Sound M P)
    (hc : ExploredClear M P) : Sound M P1 := by
  induction h with
  | refl => exact hS
  | tail h0 hstep ih => exact ruleStep_sound hstep hE ih (steps_tighten h0 hc).2.1

/-! ## The first step of `update` -/

theorem foldl_setAll (c : square → Bool) (p : Int) (l : List square) (P : mineFieldProbMap)
    (y : square) :
    (l.foldl (fun P1 s => if c s then P1.setProbMined s p else P1) P).probMap y.row y.col
      = if y ∈ l ∧ c y = true then p else P.probMap y.row y.col := by
  induction l generalizing P with
  | nil => simp
  | cons a l ih =>
    rw [List.foldl_cons, ih]
    by_cases hy : y = a
    · subst hy
      by_cases hc : c y = true
      · simp [hc, setProbMined_apply]
      · simp [hc]
    · have : ∀ P1 : mineFieldProbMap, (if c a = true then P1.setProbMined a p else P1).probMap
          y.row y.col = P1.probMap y.row y.col := by
        intro P1
        split_ifs
        · rw [setProbMined_apply, if_neg hy]
        · rfl
      rw [this]
      simp [hy]

theorem setZero_apply (P : mineFieldProbMap) (M : mineField) (y : square) :
    (P.setProbOfExploredSquaresToZero M).probMap y.row y.col
      = if M.squareInsideMap y = true ∧ M.squareExplored y = true then 0
        else P.probMap y.row y.col := by
  rw [setProbOfExploredSquaresToZero, foldl_setAll (fun s => M.squareExplored s) 0]
  simp only [mem_allSquares]

theorem setZero_exploredClear (P : mineFieldProbMap) (M : mineField) :
    ExploredClear M (P.setProbOfExploredSquaresToZero M) := by
  intro t ht hx
  simp [squareClear, setZero_apply, ht, hx]

theorem setZero_idem (P : mineFieldProbMap) (M : mineField) :
    (P.setProbOfExploredSquaresToZero M).setProbOfExploredSquaresToZero M
      = P.setProbOfExploredSquaresToZero M := by
  have : ∀ r c, ((P.setProbOfExploredSquaresToZero M).setProbOfExploredSquaresToZero M).probMap r c
      = (P.setProbOfExploredSquaresToZero M).probMap r c := by
    intro r c
    have h1 := setZero_apply (P.setProbOfExploredSquaresToZero M) M ⟨r, c⟩
    have h2 := setZero_apply P M ⟨r, c⟩
    simp only at h1 h2
    rw [h1, h2]
    split_ifs <;> rfl
  cases hA : (P.setProbOfExploredSquaresToZero M).setProbOfExploredSquaresToZero M with
  | mk f =>
    cases hB : P.setProbOfExploredSquaresToZero M with
    | mk g =>
      rw [hA, hB] at this
      congr
      funext r c
      exact this r c

theorem setZero_sound (P : mineFieldProbMap) (M : mineField) (hE : M.Exact) (hS : Sound M P) :
    Sound M (P.setProbOfExploredSquaresToZero M) := by
  intro t ht
  simp only [squareMined, squareClear, setZero_apply, ht, true_and]
  split_ifs with hx
  · exact ⟨fun h => by simp at h, fun _ => (hE t ht hx).1⟩
  · exact hS t ht

/-- What `update` returns: the map is reached from the map with the explored
squares marked clear by successful tests, none if the result is `false` and
at least one if it is `true`. -/
theorem update_spec (P : mineFieldProbMap) (M : mineField) :
    ∃ b P1, P.update M = some (b, P1) ∧
      ReflTransGen (RuleStep M) (P.setProbOfExploredSquaresToZero M) P1 ∧
      (b = false → P1 = P.setProbOfExploredSquaresToZero M) ∧
      (b = true → TransGen (RuleStep M) (P.setProbOfExploredSquaresToZero M) P1) := by
  obtain ⟨⟨b, P1⟩, hr⟩ := updateLoop_total M (M.height * M.width + 1)
    (P.setProbOfExploredSquaresToZero M) false (setZero_exploredClear P M)
    (Nat.lt_succ_of_le (unknowns_card_bound M _))
  obtain ⟨h1, h2, h3⟩ := updateLoop_spec M _ _ _ _ hr
  refine ⟨b, P1, hr, h1, fun hb => (h2 hb).2, fun hb => ?_⟩
  rcases h3 hb with h | h
  · cases h
  · exact h

end mineFieldProbMap

end minesweeper

namespace minesweeper

open Relation

/-! ## The solver -/

namespace mineFieldProbMap

theorem exactCounts_of_all (M : mineField)
    (h : ∀ t ∈ allSquares M, M.squareExplored t = true →
      M.squareMined t = false ∧ M.n_minedNbours t = (M.minedAround t : Int)) :
    M.ExactCounts :=
  fun t ht hx => h t ((mem_allSquares M t).mpr ht) hx

theorem exact_of_counts (M : mineField) (h : M.ExactCounts) : M.Exact := by
  intro t ht hx
  refine ⟨(h t ht hx).1, ?_⟩
  rw [M.countMinedNbours_eq_minedAround t ht]
  exact (h t ht hx).2

theorem sound_of_all (M : mineField) (P : mineFieldProbMap)
    (h : ∀ t ∈ allSquares M, (P.squareMined t = true → M.squareMined t = true) ∧
      (P.squareClear t = true → M.squareMined t = false)) : Sound M P :=
  fun t ht => h t ((mem_allSquares M t).mpr ht)

/-- C1: on a grid whose explored squares are unmined and hold the exact
number of their mined neighbours, and a probability map whose squares marked
mined are mined and whose squares marked clear are not mined, `update`
returns, and leaves a probability map in which every square marked mined is
mined and every square marked clear is not mined. -/
theorem update_sound (P : mineFieldProbMap) (M : mineField) (hE : M.ExactCounts)
    (hS : Sound M P) : ∃ b P1, P.update M = some (b, P1) ∧ Sound M P1 := by
  obtain ⟨b, P1, hr, hsteps, -, -⟩ := update_spec P M
  have hE1 := exact_of_counts M hE
  exact ⟨b, P1, hr,
    steps_sound hsteps hE1 (setZero_sound P M hE1 hS) (setZero_exploredClear P M)⟩

theorem update_sound_witness :
    ∃ b P1, blankMap.update ledgeField = some (b, P1) ∧ Sound ledgeField P1 :=
  update_sound blankMap ledgeField (exactCounts_of_all ledgeField (by decide))
    (sound_of_all ledgeField blankMap (by decide))

/-- C2, as the claim states it, fails: on `rowField` with no square known,
`update` returns `false`, though the explored square `(0, 1)` went from
unknown to known. -/
theorem update_result_counterexample :
    blankMap.squareKnown ⟨0, 1⟩ = false ∧
      (blankMap.update rowField).map (fun r => (r.1, r.2.squareKnown ⟨0, 1⟩))
        = some (false, true) := by
  decide

/-- C2, amended: `update` returns `true` if and only if at least one square of
the map that is not explored went from unknown to known between the start
and the end of the call. -/
theorem update_result (P : mineFieldProbMap) (M : mineField) :
    ∃ b P1, P.update M = some (b, P1) ∧
      (b = true ↔ ∃ t, M.squareInsideMap t = true ∧ M.squareExplored t = false ∧
        P.squareKnown t = false ∧ P1.squareKnown t = true) := by
  obtain ⟨b, P1, hr, hsteps, hfalse, htrue⟩ := update_spec P M
  refine ⟨b, P1, hr, ?_, ?_⟩
  · intro hb
    have hc := setZero_exploredClear P M
    obtain ⟨hT, -, -⟩ := steps_tighten hsteps hc
    have hlt := steps_strict (htrue hb) hc
    obtain ⟨rc, h1, h2⟩ := Finset.exists_of_ssubset
      (Finset.ssubset_of_subset_of_ssubset (le_refl _)
        ((Finset.ssubset_iff_subset_ne).mpr ⟨unknowns_subset hT, fun h => by
          rw [h] at hlt; exact lt_irrefl _ hlt⟩))
    simp only [unknowns, Finset.mem_filter, Finset.mem_product, Finset.mem_range, not_and,
      Bool.not_eq_false] at h1 h2
    have hin : M.squareInsideMap ⟨(rc.1 : Int), (rc.2 : Int)⟩ = true := by
      simp only [mineField.squareInsideMap, mineField.getHeight, mineField.getWidth,
        Bool.and_eq_true, decide_eq_true_eq]
      omega
    have hx : M.squareExplored ⟨(rc.1 : Int), (rc.2 : Int)⟩ = false := by
      by_contra hx
      simp only [Bool.not_eq_false] at hx
      have := hc _ hin hx
      have hk := h1.2
      simp [squareKnown, this] at hk
    refine ⟨_, hin, hx, ?_, h2 h1.1⟩
    have hv := setZero_apply P M ⟨(rc.1 : Int), (rc.2 : Int)⟩
    rw [if_neg (by simp [hx])] at hv
    rw [← squareKnown_congr hv]
    exact h1.2
  · rintro ⟨t, -, hx, hk, hk1⟩
    by_contra hb
    simp only [Bool.not_eq_true] at hb
    rw [hfalse hb] at hk1
    have hv := setZero_apply P M t
    rw [if_neg (by simp [hx])] at hv
    rw [squareKnown_congr hv, hk] at hk1
    cases hk1

/-- C3, as the claim states it, fails: on `rowField` the explored square
`(0, 1)` is marked mined in `minedMap`, and is clear after `update`. -/
theorem update_keeps_counterexample :
    minedMap.squareMined ⟨0, 1⟩ = true ∧
      (minedMap.update rowField).map (fun r => r.2.getProbMined ⟨0, 1⟩) = some 0 := by
  decide

/-- C3, amended: a square that is clear before a call of `update`, or that is
mined before it and is not an explored square of the map, has the same
certainty after the call; `update` overwrites only squares that are unknown
or explored. -/
theorem update_keeps (P : mineFieldProbMap) (M : mineField) :
    ∃ b P1, P.update M = some (b, P1) ∧
      ∀ t, (P.squareClear t = true ∨ (P.squareMined t = true ∧
          ¬(M.squareInsideMap t = true ∧ M.squareExplored t = true))) →
        P1.probMap t.row t.col = P.probMap t.row t.col := by
  obtain ⟨b, P1, hr, hsteps, -, -⟩ := update_spec P M
  refine ⟨b, P1, hr, fun t ht => ?_⟩
  obtain ⟨hT, -, -⟩ := steps_tighten hsteps (setZero_exploredClear P M)
  have hv : (P.setProbOfExploredSquaresToZero M).probMap t.row t.col = P.probMap t.row t.col := by
    rw [setZero_apply]
    split_ifs with hx
    · rcases ht with h | ⟨-, h⟩
      · simp only [squareClear, beq_iff_eq] at h
        exact h.symm
      · exact absurd hx h
    · rfl
  have hk : P.squareKnown t = true := by
    rcases ht with h | ⟨h, -⟩ <;> simp [squareKnown, h]
  rw [hT.keepKnown t (by rw [squareKnown_congr hv]; exact hk), hv]

/-- C4: if `update` returns `false`, then a second call right after it, on the
same grid, returns `false` again and leaves the probability map exactly as
the first call left it. -/
theorem update_fixed (P : mineFieldProbMap) (M : mineField)
    (h : (P.update M).map Prod.fst = some false) :
    ∃ P1, P.update M = some (false, P1) ∧ P1.update M = some (false, P1) := by
  obtain ⟨b, P1, hr, -, hfalse, -⟩ := update_spec P M
  rw [hr] at h
  simp only [Option.map_some', Option.some.injEq] at h
  subst h
  have e := hfalse rfl
  refine ⟨P1, hr, ?_⟩
  have h2 : P1.update M = P.update M := by
    rw [e]
    simp only [update, setZero_idem]
  rw [h2, hr]

theorem update_fixed_witness :
    ∃ P1, blankMap.update rowField = some (false, P1) ∧ P1.update rowField = some (false, P1) :=
  update_fixed blankMap rowField (by decide)

/-- C5: `update` returns, and after it every explored square of the map is
clear in the probability map, whatever the probability map was before. -/
theorem update_explored_clear (P : mineFieldProbMap) (M : mineField) :
    ∃ b P1, P.update M = some (b, P1) ∧
      ∀ s, M.squareInsideMap s = true → M.squareExplored s = true →
        P1.squareClear s = true := by
  obtain ⟨b, P1, hr, hsteps, -, -⟩ := update_spec P M
  exact ⟨b, P1, hr, (steps_tighten hsteps (setZero_exploredClear P M)).2.1⟩

end mineFieldProbMap

end minesweeper

namespace minesweeper

open mineFieldProbMap (neighbours)

/-! ## Exploring a square -/

namespace mineField

theorem Frame.minedAround_eq {M M1 : mineField} (h : Frame M M1) (t : square) :
    M1.minedAround t = M.minedAround t := by
  simp only [minedAround, allSquares, squareMined, h.1, h.2.1, h.2.2.2.1]

/-- C6: exploring a mined square inside the map returns `false` and leaves
the whole state of the grid as it was. -/
theorem explore_mined (M : mineField) (s : square) (_hs : M.squareInsideMap s = true)
    (hm : M.squareMined s = true) : M.explore s = some (false, M) := by
  rw [explore, exploreFuel_succ, if_pos hm]

theorem explore_mined_witness :
    flaggedField.squareInsideMap ⟨0, 0⟩ = true ∧ flaggedField.squareMined ⟨0, 0⟩ = true ∧
      flaggedField.explore ⟨0, 0⟩ = some (false, flaggedField) :=
  ⟨by decide, by decide, explore_mined flaggedField ⟨0, 0⟩ (by decide) (by decide)⟩

/-- C7: exploring an unmined square inside the map that is neither explored
nor flagged returns `true`, and afterwards the square is explored and holds
the number of mined squares of the map that touch it. -/
theorem explore_new (M : mineField) (s : square) (hs : M.squareInsideMap s = true)
    (hm : M.squareMined s = false) (hx : M.squareExplored s = false)
    (hf : M.squareFlagged s = false) :
    ∃ M1, M.explore s = some (true, M1) ∧ M1.squareExplored s = true ∧
      M1.n_minedNbours s = (M1.minedAround s : Int) := by
  obtain ⟨⟨b, M1⟩, hr⟩ := explore_some M s hs
  obtain ⟨hF, hb, he⟩ := explore_frame _ M s (b, M1) hs hr
  have hb1 : b = true := by simpa [hm] using hb
  subst hb1
  have he1 : M1.squareExplored s = true := he hm hf
  refine ⟨M1, hr, he1, ?_⟩
  have hcnt : M1.expMap s.row s.col = M.countMinedNbours s := by
    rcases hF.2.2.2.2 s with e | ⟨-, -, -, -, v⟩
    · have e1 : M1.expMap s.row s.col = M.expMap s.row s.col := e
      have e2 : M1.squareExplored s = M.squareExplored s := by simp only [squareExplored, e1]
      rw [e2, hx] at he1
      cases he1
    · exact v
  rw [n_minedNbours, hcnt, hF.minedAround_eq, countMinedNbours_eq_minedAround M s hs]

theorem explore_new_witness :
    ∃ M1, freshField.explore ⟨1, 1⟩ = some (true, M1) ∧ M1.squareExplored ⟨1, 1⟩ = true ∧
      M1.n_minedNbours ⟨1, 1⟩ = (M1.minedAround ⟨1, 1⟩ : Int) :=
  explore_new freshField ⟨1, 1⟩ (by decide) (by decide) (by decide) (by decide)

/-- C8, as the claim states it, fails: the flagged square `(0, 0)` of
`flaggedField` is mined, and exploring it returns `false`. -/
theorem explore_flagged_counterexample :
    flaggedField.squareInsideMap ⟨0, 0⟩ = true ∧ flaggedField.squareFlagged ⟨0, 0⟩ = true ∧
      (flaggedField.explore ⟨0, 0⟩).map Prod.fst = some false := by
  decide

/-- C8, amended: exploring a square inside the map that is already explored
or flagged leaves the whole state of the grid as it was, and returns `true`
exactly when the square is not mined. -/
theorem explore_known (M : mineField) (s : square) (_hs : M.squareInsideMap s = true)
    (h : M.squareExplored s = true ∨ M.squareFlagged s = true) :
    M.explore s = some (!M.squareMined s, M) := by
  rw [explore, exploreFuel_succ]
  cases hm : M.squareMined s with
  | true => simp
  | false =>
    have : (!M.squareExplored s && !M.squareFlagged s) = false := by
      rcases h with h | h <;> simp [h]
    simp [this]

theorem explore_known_witness :
    flaggedField.explore ⟨1, 1⟩ = some (!flaggedField.squareMined ⟨1, 1⟩, flaggedField) :=
  explore_known flaggedField ⟨1, 1⟩ (by decide) (Or.inl (by decide))

/-- C9: in a state reached from a reset grid by calls of `explore` alone,
after `explore(s)` on an unmined square `s` with no mined neighbour, every
square of the connected zero region of `s` is explored, and so is every
square of the map that touches one of them. -/
theorem explore_floods (M : mineField) (s : square) (hR : Reached M)
    (hs : M.squareInsideMap s = true) (hm : M.squareMined s = false)
    (hz : M.minedAround s = 0) :
    ∃ M1, M.explore s = some (true, M1) ∧
      ∀ t, ZeroRegion M s t → M1.squareExplored t = true ∧
        ∀ u, M1.squareInsideMap u = true → neighbours u t = true →
          M1.squareExplored u = true := by
  obtain ⟨⟨b, M1⟩, hr⟩ := explore_some M s hs
  obtain ⟨hF, hb, he⟩ := explore_frame _ M s (b, M1) hs hr
  have hb1 : b = true := by simpa [hm] using hb
  subst hb1
  have hS := settled_reached hR
  have hS1 : Settled M1 := settled_reached (Reached.explored M M1 s true hR hs hr)
  have hes : M1.squareExplored s = true := he hm (hS.1.notFlagged s hs)
  refine ⟨M1, hr, ?_⟩
  have hclosed : ∀ t, M1.squareInsideMap t = true → M1.squareExplored t = true →
      M.minedAround t = 0 → ∀ u, M1.squareInsideMap u = true → neighbours u t = true →
        M1.squareExplored u = true := by
    intro t hti htx htz u hui hut
    by_contra hux
    simp only [Bool.not_eq_true] at hux
    refine hS1.2.2 t ⟨hti, htx, ?_, u, (mem_nbours M1 t u hti).mpr ⟨hui, hut⟩, hux⟩
    rw [(hS1.2.1 t hti htx).2, hF.count,
      countMinedNbours_eq_minedAround M t (hF.inside t ▸ hti), htz]
    rfl
  have hreg : ∀ t, ZeroRegion M s t →
      M1.squareInsideMap t = true ∧ M1.squareExplored t = true ∧ M.minedAround t = 0 := by
    intro t ht
    induction ht with
    | start _ => exact ⟨hF.inside s ▸ hs, hes, hz⟩
    | next t u _ hui hut huz ih =>
      exact ⟨hF.inside u ▸ hui, hclosed t ih.1 ih.2.1 ih.2.2 u (hF.inside u ▸ hui) hut, huz⟩
  intro t ht
  obtain ⟨hti, htx, htz⟩ := hreg t ht
  exact ⟨htx, hclosed t hti htx htz⟩

theorem explore_floods_witness :
    ∃ M1, freshField.explore ⟨0, 0⟩ = some (true, M1) ∧
      ∀ t, ZeroRegion freshField ⟨0, 0⟩ t → M1.squareExplored t = true ∧
        ∀ u, M1.squareInsideMap u = true → neighbours u t = true →
          M1.squareExplored u = true :=
  explore_floods freshField ⟨0, 0⟩ (Reached.fresh _ _) (by decide) (by decide) (by decide)

/-- C10: `explore(s)`, its flood fill included, returns, does not change the
mine layout, does not change the state of a square that was flagged or
explored before the call, and does not change the state of a mined square,
which it therefore never marks explored. -/
theorem explore_untouched (M : mineField) (s : square) (hs : M.squareInsideMap s = true) :
    ∃ b M1, M.explore s = some (b, M1) ∧ M1.map = M.map ∧
      (∀ t, M.squareFlagged t = true ∨ M.squareExplored t = true →
        M1.expMap t.row t.col = M.expMap t.row t.col) ∧
      (∀ t, M.squareMined t = true → M1.expMap t.row t.col = M.expMap t.row t.col) ∧
      (∀ t, M.squareMined t = true → M.squareExplored t = false →
        M1.squareExplored t = false) := by
  obtain ⟨⟨b, M1⟩, hr⟩ := explore_some M s hs
  obtain ⟨hF, -, -⟩ := explore_frame _ M s (b, M1) hs hr
  have hmined : ∀ t, M.squareMined t = true → M1.expMap t.row t.col = M.expMap t.row t.col := by
    intro t ht
    rcases hF.2.2.2.2 t with e | ⟨-, m, -, -, -⟩
    · exact e
    · rw [ht] at m; cases m
  refine ⟨b, M1, hr, hF.2.2.2.1, fun t ht => hF.keepCell t ht.symm, hmined, fun t ht hx => ?_⟩
  simpa only [squareExplored, hmined t ht] using hx

theorem explore_untouched_witness :
    ∃ b M1, flaggedField.explore ⟨0, 1⟩ = some (b, M1) ∧ M1.map = flaggedField.map ∧
      (∀ t, flaggedField.squareFlagged t = true ∨ flaggedField.squareExplored t = true →
        M1.expMap t.row t.col = flaggedField.expMap t.row t.col) ∧
      (∀ t, flaggedField.squareMined t = true →
        M1.expMap t.row t.col = flaggedField.expMap t.row t.col) ∧
      (∀ t, flaggedField.squareMined t = true → flaggedField.squareExplored t = false →
        M1.squareExplored t = false) :=
  explore_untouched flaggedField ⟨0, 1⟩ (by decide)

end mineField

end minesweeper

namespace minesweeper

open mineFieldProbMap (neighbours)

namespace mineField

/-! ## The count of explored squares -/

theorem mem_cells (M : mineField) (rc : Nat × Nat) :
    rc ∈ M.cells ↔ M.squareInsideMap ⟨(rc.1 : Int), (rc.2 : Int)⟩ = true := by
  simp only [cells, Finset.mem_product, Finset.mem_range, squareInsideMap, getHeight, getWidth,
    Bool.and_eq_true, decide_eq_true_eq]
  omega

theorem cell_of_inside (M : mineField) (t : square) (ht : M.squareInsideMap t = true) :
    (⟨((t.row.toNat : Nat) : Int), ((t.col.toNat : Nat) : Int)⟩ : square) = t := by
  obtain ⟨tr, tc⟩ := t
  simp only [squareInsideMap, getHeight, getWidth, Bool.and_eq_true, decide_eq_true_eq] at ht
  simp only [square.mk.injEq]
  constructor <;> omega

theorem CountStep.idleCount (M : mineField) : CountStep M M :=
  ⟨Frame.same M, by simp⟩

theorem CountStep.chainCount {M M1 M2 : mineField} (h1 : CountStep M M1)
    (h2 : CountStep M1 M2) : CountStep M M2 :=
  ⟨h1.1.andThen h2.1, by have := h1.2; have := h2.2; omega⟩

theorem exploredCells_mark (M : mineField) (s : square) (n : Int)
    (hs : M.squareInsideMap s = true) (hx : M.squareExplored s = false) :
    (exploredCells ({ M with squaresExplored := n,
                             expMap := setCell M.expMap s.row s.col (M.countMinedNbours s) }
      : mineField)).card = M.exploredCells.card + 1 := by
  have hcell := cell_of_inside M s hs
  have hins : exploredCells ({ M with squaresExplored := n,
                                      expMap := setCell M.expMap s.row s.col
                                        (M.countMinedNbours s) } : mineField)
      = insert (s.row.toNat, s.col.toNat) M.exploredCells := by
    ext rc
    simp only [exploredCells, cells, Finset.mem_filter, Finset.mem_insert]
    by_cases h : rc = (s.row.toNat, s.col.toNat)
    · subst h
      simp only [hcell, true_or, iff_true]
      refine ⟨?_, explored_mark M s n⟩
      have := (mem_cells M (s.row.toNat, s.col.toNat)).mpr (by simp only [hcell]; exact hs)
      exact this
    · simp only [h, false_or]
      have hne : ¬(((rc.1 : Nat) : Int) = s.row ∧ ((rc.2 : Nat) : Int) = s.col) := by
        rintro ⟨h1, h2⟩
        apply h
        ext <;> simp only <;> omega
      simp only [squareExplored, setCell, hne, if_false]
  rw [hins, Finset.card_insert_of_not_mem]
  simp only [exploredCells, Finset.mem_filter, hcell, hx, Bool.false_eq_true, and_false,
    not_false_eq_true]

theorem countStep_mark (M : mineField) (s : square) (hs : M.squareInsideMap s = true)
    (hm : M.squareMined s = false) (hx : M.squareExplored s = false)
    (hf : M.squareFlagged s = false) :
    CountStep M { M with squaresExplored := M.squaresExplored + 1,
                         expMap := setCell M.expMap s.row s.col (M.countMinedNbours s) } := by
  refine ⟨frame_mark M s _ hs hm hx hf, ?_⟩
  rw [exploredCells_mark M s _ hs hx]
  push_cast
  simp

theorem explore_count (fuel : Nat) : ∀ (M : mineField) (s : square) (r : Bool × mineField),
    M.squareInsideMap s = true → exploreFuel fuel M s = some r → CountStep M r.2 := by
  induction fuel with
  | zero => intro M s r _ h; simp [exploreFuel] at h
  | succ fuel ih =>
    intro M s r hs h
    rw [exploreFuel_succ] at h
    split_ifs at h with hm hc hz
    · cases h; exact CountStep.idleCount M
    · simp only [Bool.and_eq_true, Bool.not_eq_true'] at hc
      simp only [Bool.not_eq_true] at hm
      have hC := countStep_mark M s hs hm hc.1 hc.2
      rw [exploreNboursWith_eq] at h
      simp only [Option.map_eq_some'] at h
      obtain ⟨M3, h3, rfl⟩ := h
      have := foldlM_rel CountStep (fun _ _ => True) CountStep.idleCount
        (fun _ _ _ => CountStep.chainCount) (fun _ _ _ _ _ => trivial)
        (fun M1 t => (exploreFuel fuel M1 t).map Prod.snd) _ _
        (fun a x b ha hx hf => by
          simp only [Option.map_eq_some'] at hf
          obtain ⟨r1, hr1, rfl⟩ := hf
          have hxin : a.squareInsideMap x = true := by
            rw [ha.1.inside, hC.1.inside]
            exact ((mem_nbours M s x hs).mp (hC.1.sameNbours s ▸ hx)).1
          exact ⟨ih a x r1 hxin hr1, trivial⟩) _ M3 (CountStep.idleCount _) h3
      exact hC.chainCount this.1
    · simp only [Bool.and_eq_true, Bool.not_eq_true'] at hc
      simp only [Bool.not_eq_true] at hm
      cases h
      exact countStep_mark M s hs hm hc.1 hc.2
    · cases h; exact CountStep.idleCount M

theorem counted_reached {M : mineField} (h : Reached M) :
    M.squaresExplored = (M.exploredCells.card : Int) := by
  induction h with
  | fresh M mines =>
    have : (M.reset mines).exploredCells = ∅ := by
      apply Finset.filter_eq_empty_iff.mpr
      intro rc hrc
      have hin := (mem_cells _ rc).mp hrc
      have hx := (settled_reset M mines).1 _ hin
      cases he : (M.reset mines).squareExplored ⟨(rc.1 : Int), (rc.2 : Int)⟩ with
      | false => simp
      | true =>
        exfalso
        have h1 := (settled_reset M mines).2.1 _ hin he
        have h2 : (M.reset mines).expMap (rc.1 : Int) (rc.2 : Int) = -1 := by
          have hin2 : M.squareInsideMap ⟨(rc.1 : Int), (rc.2 : Int)⟩ = true := hin
          simp [reset, hin2]
        simp [squareExplored, h2] at he
    rw [this]
    rfl
  | explored M M1 s b _ hs he ih =>
    have := (explore_count _ M s (b, M1) hs he).2
    simp only at this
    omega

end mineField

end minesweeper

namespace minesweeper

open mineFieldProbMap (neighbours)

namespace mineField

/-! ## Winning and flagging -/

/-- C11: in a state reached by calls of `explore` from a reset grid that holds
exactly `n_mines` mines, `gameWon` is true if and only if `squaresExplored`
equals the number of squares less `n_mines`, and that holds if and only if
every unmined square of the map is explored. -/
theorem gameWon_iff (M : mineField) (hR : Reached M)
    (hN : M.n_mines = (M.minedCells.card : Int)) :
    (M.gameWon = true ↔
      M.squaresExplored = (M.height : Int) * (M.width : Int) - M.n_mines) ∧
    (M.squaresExplored = (M.height : Int) * (M.width : Int) - M.n_mines ↔
      ∀ t, M.squareInsideMap t = true → M.squareMined t = false →
        M.squareExplored t = true) := by
  constructor
  · simp only [gameWon, getWidth, getHeight, getNmines, beq_iff_eq]
    rw [mul_comm]
  · have hcount := counted_reached hR
    have hS := settled_reached hR
    have hsub : M.exploredCells ⊆
        M.cells.filter fun rc => ¬M.squareMined ⟨(rc.1 : Int), (rc.2 : Int)⟩ = true := by
      intro rc hrc
      simp only [exploredCells, Finset.mem_filter] at hrc ⊢
      refine ⟨hrc.1, ?_⟩
      rw [(hS.2.1 _ ((mem_cells M rc).mp hrc.1) hrc.2).1]
      simp
    have hsplit := Finset.filter_card_add_filter_neg_card_eq_card (s := M.cells)
      (fun rc => M.squareMined ⟨(rc.1 : Int), (rc.2 : Int)⟩ = true)
    have hcells : M.cells.card = M.height * M.width := by
      rw [cells, Finset.card_product, Finset.card_range, Finset.card_range]
    have hmined : (M.cells.filter
        fun rc => M.squareMined ⟨(rc.1 : Int), (rc.2 : Int)⟩ = true).card
        = M.minedCells.card := rfl
    constructor
    · intro h t hti htm
      have hcard : (M.cells.filter
          fun rc => ¬M.squareMined ⟨(rc.1 : Int), (rc.2 : Int)⟩ = true).card
          ≤ M.exploredCells.card := by
        have : ((M.height * M.width : Nat) : Int) = (M.height : Int) * (M.width : Int) := by
          push_cast; rfl
        omega
      have heq := Finset.eq_of_subset_of_card_le hsub hcard
      have hmem : (t.row.toNat, t.col.toNat) ∈ M.cells.filter
          fun rc => ¬M.squareMined ⟨(rc.1 : Int), (rc.2 : Int)⟩ = true := by
        simp only [Finset.mem_filter, mem_cells, cell_of_inside M t hti, hti, htm,
          Bool.false_eq_true, not_false_eq_true, and_self]
      rw [← heq] at hmem
      simp only [exploredCells, Finset.mem_filter, cell_of_inside M t hti] at hmem
      exact hmem.2
    · intro h
      have hsup : (M.cells.filter
          fun rc => ¬M.squareMined ⟨(rc.1 : Int), (rc.2 : Int)⟩ = true) ⊆ M.exploredCells := by
        intro rc hrc
        simp only [exploredCells, Finset.mem_filter, Bool.not_eq_true] at hrc ⊢
        exact ⟨hrc.1, h _ ((mem_cells M rc).mp hrc.1) hrc.2⟩
      have heq := Finset.Subset.antisymm hsub hsup
      have : ((M.height * M.width : Nat) : Int) = (M.height : Int) * (M.width : Int) := by
        push_cast; rfl
      rw [← heq] at hsplit
      omega

theorem gameWon_iff_witness :
    freshRow.explore ⟨0, 2⟩ = some (true, wonRow) ∧ wonRow.gameWon = true ∧
    (wonRow.gameWon = true ↔
      wonRow.squaresExplored
        = (wonRow.height : Int) * (wonRow.width : Int) - wonRow.n_mines) ∧
    (wonRow.squaresExplored
        = (wonRow.height : Int) * (wonRow.width : Int) - wonRow.n_mines ↔
      ∀ t, wonRow.squareInsideMap t = true → wonRow.squareMined t = false →
        wonRow.squareExplored t = true) :=
  ⟨by rfl, by decide,
    gameWon_iff wonRow
      (Reached.explored freshRow wonRow ⟨0, 2⟩ true (Reached.fresh _ _) (by decide) (by rfl))
      (by decide)⟩

/-- C20: after `flagSquare(c)` the square `c` is flagged and not explored,
whatever its state was, and the state of every other square, the mine layout
and the size of the map are as before. -/
theorem flagSquare_effect (M : mineField) (c : square) :
    (M.flagSquare c).squareFlagged c = true ∧ (M.flagSquare c).squareExplored c = false ∧
    (∀ t, t ≠ c → (M.flagSquare c).expMap t.row t.col = M.expMap t.row t.col) ∧
    (M.flagSquare c).map = M.map ∧ (M.flagSquare c).height = M.height ∧
    (M.flagSquare c).width = M.width := by
  refine ⟨by simp [flagSquare, squareFlagged, setCell],
    by simp [flagSquare, squareExplored, setCell], fun t ht => ?_, rfl, rfl, rfl⟩
  have : ¬(t.row = c.row ∧ t.col = c.col) := by
    intro h; apply ht; cases t; cases c; simp_all
  simp [flagSquare, setCell, this]

end mineField

end minesweeper

namespace minesweeper

open Relation

namespace mineFieldProbMap

/-! ## The two rules on one square -/

theorem countP_nbours_around (M : mineField) (s : square) (hs : M.squareInsideMap s = true)
    (q : square → Bool) : (M.nbours s).countP q = countAround M s q := by
  have hperm : (M.nbours s).Perm ((allSquares M).filter fun t => neighbours t s) := by
    rw [List.perm_ext_iff_of_nodup (M.nodup_nbours s hs) ((nodup_allSquares M).filter _)]
    intro t
    rw [M.mem_nbours s t hs, List.mem_filter, mem_allSquares]
  rw [hperm.countP_eq, List.countP_eq_length_filter, List.filter_filter, countAround]
  congr 2
  funext t
  exact Bool.and_comm _ _

theorem n_unknownNbours_around (P : mineFieldProbMap) (M : mineField) (s : square)
    (hs : M.squareInsideMap s = true) :
    P.n_unknownNbours M s = (P.unknownAround M s : Int) := by
  rw [n_unknownNbours_eq, countP_nbours_around M s hs, unknownAround]

theorem n_unknownMinedNbours_around (P : mineFieldProbMap) (M : mineField) (s : square)
    (hs : M.squareInsideMap s = true) :
    P.n_unknownMinedNbours M s = P.unknownMinedAround M s := by
  rw [n_unknownMinedNbours, n_knownMinedNbours_eq, countP_nbours_around M s hs,
    unknownMinedAround, knownMinedAround]

theorem unknownNbour_iff (P : mineFieldProbMap) (M : mineField) (s t : square)
    (hs : M.squareInsideMap s = true) :
    UnknownNbour P M s t ↔ ∃ k, nbSq s k = t ∧ k ∈ P.unknownBits M s := by
  simp only [UnknownNbour, unknownBits, Finset.mem_filter, Finset.mem_univ, true_and]
  constructor
  · rintro ⟨h1, h2, h3⟩
    obtain ⟨k, hk, -⟩ := (M.mem_nbours_bits s t hs).mp ((M.mem_nbours s t hs).mpr ⟨h1, h2⟩)
    exact ⟨k, hk, hk ▸ h1, hk ▸ h3⟩
  · rintro ⟨k, rfl, h1, h3⟩
    exact ⟨h1, ((M.mem_nbours s _ hs).mp ((M.mem_nbours_bits s _ hs).mpr ⟨k, rfl, h1⟩)).2, h3⟩

/-- The squares that `setProbsOfUnknownNboursNotShared` marks. -/
theorem notShared_marks (P : mineFieldProbMap) (M : mineField) (s : square)
    (hs : M.squareInsideMap s = true) (L : Finset (Fin 8)) (p : Int) (t : square) :
    ((∃ k ∈ P.unknownBits M s \ L, nbSq s k = t) →
      (P.setProbsOfUnknownNboursNotShared M s L p).probMap t.row t.col = p) ∧
    ((¬∃ k ∈ P.unknownBits M s \ L, nbSq s k = t) →
      (P.setProbsOfUnknownNboursNotShared M s L p).probMap t.row t.col
        = P.probMap t.row t.col) := by
  have hv := setProbsOfUnknownNboursNotShared_apply P M s hs L p t
  have hiff : (∃ k ∈ P.unknownBits M s \ L, nbSq s k = t) ↔
      ∃ k, nbSq s k = t ∧ k ∈ P.unknownBits M s ∧ k ∉ L := by
    simp only [Finset.mem_sdiff]
    constructor
    · rintro ⟨k, ⟨h1, h2⟩, h3⟩; exact ⟨k, h3, h1, h2⟩
    · rintro ⟨k, h3, h1, h2⟩; exact ⟨k, ⟨h1, h2⟩, h3⟩
  constructor
  · intro h
    rw [hv, if_pos (hiff.mp h)]
  · intro h
    rw [hv, if_neg (fun h1 => h (hiff.mpr h1))]

/-- The squares that `setProbsOfUnknownNbours` marks. -/
theorem unknownNbours_marks (P : mineFieldProbMap) (M : mineField) (s : square)
    (hs : M.squareInsideMap s = true) (p : Int) (t : square) :
    (UnknownNbour P M s t → (P.setProbsOfUnknownNbours M s p).probMap t.row t.col = p) ∧
    (¬UnknownNbour P M s t →
      (P.setProbsOfUnknownNbours M s p).probMap t.row t.col = P.probMap t.row t.col) := by
  rw [setProbsOfUnknownNbours_eq P M s hs]
  have h := notShared_marks P M s hs ∅ p t
  simp only [Finset.sdiff_empty] at h
  have hiff : UnknownNbour P M s t ↔ ∃ k ∈ P.unknownBits M s, nbSq s k = t := by
    rw [unknownNbour_iff P M s t hs]
    constructor
    · rintro ⟨k, h1, h2⟩; exact ⟨k, h2, h1⟩
    · rintro ⟨k, h2, h1⟩; exact ⟨k, h1, h2⟩
  rw [hiff]
  exact h

/-- C12: `applySimpleTests(s)` on a square `s` of the map marks every unknown
neighbour of `s` mined and returns `true` when the mines of `s` that are not
accounted for are as many as its unknown neighbours; otherwise, when no mine
is unaccounted for, it marks every unknown neighbour clear and returns
`true`; otherwise it returns `false` and changes nothing.  In every case no
square other than an unknown neighbour of `s` is changed. -/
theorem applySimpleTests_rule (P : mineFieldProbMap) (M : mineField) (s : square)
    (hs : M.squareInsideMap s = true) :
    (P.unknownMinedAround M s = (P.unknownAround M s : Int) →
      (P.applySimpleTests M s).1 = true ∧
      ∀ t, (UnknownNbour P M s t → (P.applySimpleTests M s).2.squareMined t = true) ∧
        (¬UnknownNbour P M s t →
          (P.applySimpleTests M s).2.probMap t.row t.col = P.probMap t.row t.col)) ∧
    (P.unknownMinedAround M s ≠ (P.unknownAround M s : Int) →
      P.unknownMinedAround M s = 0 →
      (P.applySimpleTests M s).1 = true ∧
      ∀ t, (UnknownNbour P M s t → (P.applySimpleTests M s).2.squareClear t = true) ∧
        (¬UnknownNbour P M s t →
          (P.applySimpleTests M s).2.probMap t.row t.col = P.probMap t.row t.col)) ∧
    (P.unknownMinedAround M s ≠ (P.unknownAround M s : Int) →
      P.unknownMinedAround M s ≠ 0 → P.applySimpleTests M s = (false, P)) := by
  have e1 := n_unknownMinedNbours_around P M s hs
  have e2 := n_unknownNbours_around P M s hs
  refine ⟨fun h => ?_, fun h h0 => ?_, fun h h0 => ?_⟩
  · have hr : P.applySimpleTests M s = (true, P.setProbsOfUnknownNbours M s 1) := by
      simp only [applySimpleTests, e1, e2, h, if_true]
    rw [hr]
    refine ⟨rfl, fun t => ?_⟩
    have hm := unknownNbours_marks P M s hs 1 t
    exact ⟨fun ht => by simp [squareMined, hm.1 ht], hm.2⟩
  · have hr : P.applySimpleTests M s = (true, P.setProbsOfUnknownNbours M s 0) := by
      have h1 : ¬(0 : Int) = (P.unknownAround M s : Int) := by rwa [h0] at h
      simp only [applySimpleTests, e1, e2, h0, h1, if_false, if_true]
    rw [hr]
    refine ⟨rfl, fun t => ?_⟩
    have hm := unknownNbours_marks P M s hs 0 t
    exact ⟨fun ht => by simp [squareClear, hm.1 ht], hm.2⟩
  · simp only [applySimpleTests, e1, e2, h, h0, if_false]

theorem applySimpleTests_rule_witness :
    (cornerMap.applySimpleTests cornerField ⟨0, 0⟩).1 = true ∧
      ∀ t, (UnknownNbour cornerMap cornerField ⟨0, 0⟩ t →
          (cornerMap.applySimpleTests cornerField ⟨0, 0⟩).2.squareMined t = true) ∧
        (¬UnknownNbour cornerMap cornerField ⟨0, 0⟩ t →
          (cornerMap.applySimpleTests cornerField ⟨0, 0⟩).2.probMap t.row t.col
            = cornerMap.probMap t.row t.col) :=
  (applySimpleTests_rule cornerMap cornerField ⟨0, 0⟩ (by decide)).1 (by decide)

/-! ## One sweep of simple tests -/

/-- The body of the two loops of `applySimpleTestsToAllSquares` keeps the map
or makes one successful simple test. -/
theorem sweepBody_snd (M : mineField) (st : Bool × mineFieldProbMap) (s : square) :
    (if M.squareExplored s && decide (st.2.n_unknownNbours M s ≠ 0) then
        (if (st.2.applySimpleTests M s).1 then (true, (st.2.applySimpleTests M s).2)
          else (st.1, (st.2.applySimpleTests M s).2))
      else st).2
      = if M.squareExplored s && decide (st.2.n_unknownNbours M s ≠ 0)
        then (st.2.applySimpleTests M s).2 else st.2 := by
  split_ifs <;> rfl

theorem sweepBody_steps (M : mineField) (Q : mineFieldProbMap) (s : square)
    (hs : M.squareInsideMap s = true) :
    ReflTransGen (RuleStep M) Q
      (if M.squareExplored s && decide (Q.n_unknownNbours M s ≠ 0)
        then (Q.applySimpleTests M s).2 else Q) := by
  split_ifs with hc
  · simp only [Bool.and_eq_true, decide_eq_true_eq] at hc
    cases hr : (Q.applySimpleTests M s).1 with
    | true => exact ReflTransGen.single (RuleStep.simple Q s hs hc.1 hc.2 hr)
    | false => rw [applySimpleTests_false Q M s hr]
  · exact ReflTransGen.refl

theorem sweep_steps (M : mineField) (l : List square)
    (hl : ∀ s ∈ l, M.squareInsideMap s = true) :
    ∀ st : Bool × mineFieldProbMap, ReflTransGen (RuleStep M) st.2
      (l.foldl
        (fun st s =>
          if M.squareExplored s && decide (st.2.n_unknownNbours M s ≠ 0) then
            let r := st.2.applySimpleTests M s
            if r.1 then (true, r.2) else (st.1, r.2)
          else st) st).2 := by
  induction l with
  | nil => intro st; exact ReflTransGen.refl
  | cons a l ih =>
    intro st
    rw [List.foldl_cons]
    refine ReflTransGen.trans ?_ (ih (fun s hs => hl s (List.mem_cons_of_mem a hs)) _)
    have := sweepBody_steps M st.2 a (hl a (List.mem_cons_self a l))
    rw [← sweepBody_snd M st a] at this
    exact this

/-- A successful simple test makes every unknown neighbour known. -/
theorem applySimpleTests_known (P : mineFieldProbMap) (M : mineField) (s : square)
    (hs : M.squareInsideMap s = true) (h : (P.applySimpleTests M s).1 = true) (t : square)
    (ht : UnknownNbour P M s t) : (P.applySimpleTests M s).2.squareKnown t = true := by
  simp only [applySimpleTests] at h ⊢
  split_ifs at h ⊢
  · exact squareKnown_of_value _ t 1 (Or.inr rfl) ((unknownNbours_marks P M s hs 1 t).1 ht)
  · exact squareKnown_of_value _ t 0 (Or.inl rfl) ((unknownNbours_marks P M s hs 0 t).1 ht)

/-- The two conditions of the simple test, in terms of the mines among the
unknown neighbours. -/
theorem simple_conditions (P : mineFieldProbMap) (M : mineField) (s : square)
    (hs : M.squareInsideMap s = true) (hx : M.squareExplored s = true) (hE : M.Exact)
    (hS : Sound M P) :
    (P.n_unknownMinedNbours M s = P.n_unknownNbours M s ↔
      ∀ k ∈ P.unknownBits M s, M.squareMined (nbSq s k) = true) ∧
    (P.n_unknownMinedNbours M s = 0 ↔
      ∀ k ∈ P.unknownBits M s, M.squareMined (nbSq s k) = false) := by
  rw [n_unknownMinedNbours_eq P M s hs hx hE hS, n_unknownNbours_bits P M s hs, minesIn]
  constructor
  · rw [Nat.cast_inj]
    exact Finset.card_filter_eq_iff
  · rw [Nat.cast_eq_zero, Finset.card_eq_zero, Finset.filter_eq_empty_iff]
    constructor
    · intro h k hk
      simpa using h hk
    · intro h k hk
      simp [h k hk]

theorem unknownBits_subset {M : mineField} {P P1 : mineFieldProbMap} (h : Tighten M P P1)
    (s : square) : P1.unknownBits M s ⊆ P.unknownBits M s := by
  intro k hk
  simp only [unknownBits, Finset.mem_filter, Finset.mem_univ, true_and] at hk ⊢
  refine ⟨hk.1, ?_⟩
  by_contra hn
  simp only [Bool.not_eq_false] at hn
  rw [h.known _ hn] at hk
  cases hk.2

/-- After the body of the loop has run on `s`, every unknown neighbour of `s`
is known, if the unknown neighbours of `s` are all mined or all unmined. -/
theorem sweepBody_known (M : mineField) (Q : mineFieldProbMap) (s : square)
    (hs : M.squareInsideMap s = true) (hx : M.squareExplored s = true) (hE : M.Exact)
    (hS : Sound M Q)
    (hall : (∀ k ∈ Q.unknownBits M s, M.squareMined (nbSq s k) = true) ∨
      (∀ k ∈ Q.unknownBits M s, M.squareMined (nbSq s k) = false))
    (t : square) (hi : M.squareInsideMap t = true) (hn : neighbours t s = true) :
    (if M.squareExplored s && decide (Q.n_unknownNbours M s ≠ 0)
      then (Q.applySimpleTests M s).2 else Q).squareKnown t = true := by
  cases hk : Q.squareKnown t with
  | true =>
    have hnot : ¬UnknownNbour Q M s t := fun h => by rw [h.2.2] at hk; cases hk
    split_ifs
    · have hv : (Q.applySimpleTests M s).2.probMap t.row t.col = Q.probMap t.row t.col := by
        simp only [applySimpleTests]
        split_ifs
        · exact (unknownNbours_marks Q M s hs 1 t).2 hnot
        · exact (unknownNbours_marks Q M s hs 0 t).2 hnot
        · rfl
      rw [squareKnown_congr hv]
      exact hk
    · exact hk
  | false =>
    have hu : UnknownNbour Q M s t := ⟨hi, hn, hk⟩
    obtain ⟨k, hk1, hk2⟩ := (unknownNbour_iff Q M s t hs).mp hu
    have hne : Q.n_unknownNbours M s ≠ 0 := by
      rw [n_unknownNbours_bits Q M s hs]
      have : 0 < (Q.unknownBits M s).card := Finset.card_pos.mpr ⟨k, hk2⟩
      omega
    rw [if_pos (by simp [hx, hne])]
    apply applySimpleTests_known Q M s hs _ t hu
    obtain ⟨c1, c2⟩ := simple_conditions Q M s hs hx hE hS
    simp only [applySimpleTests]
    rcases hall with h | h
    · rw [if_pos (c1.mpr h)]
    · split_ifs
      · rfl
      · rfl
      · exact absurd (c2.mpr h) ‹_›

theorem exploredClear_of_all (M : mineField) (P : mineFieldProbMap)
    (h : ∀ t ∈ allSquares M, M.squareExplored t = true → P.squareClear t = true) :
    ExploredClear M P :=
  fun t ht hx => h t ((mem_allSquares M t).mpr ht) hx

theorem marked_of_known (M : mineField) (P : mineFieldProbMap) (hS : Sound M P) (t : square)
    (hi : M.squareInsideMap t = true) (hk : P.squareKnown t = true) :
    (M.squareMined t = true → P.squareMined t = true) ∧
    (M.squareMined t = false → P.squareClear t = true) := by
  simp only [squareKnown, Bool.or_eq_true] at hk
  constructor
  · intro hm
    rcases hk with h | h
    · rw [(hS t hi).2 h] at hm; cases hm
    · exact h
  · intro hm
    rcases hk with h | h
    · exact h
    · rw [(hS t hi).1 h] at hm; cases hm

/-- C13: on a grid whose explored squares hold exact counts and a sound
probability map in which every explored square is clear, for every explored
square `s` of the map: if before a sweep of `applySimpleTestsToAllSquares`
the mines of `s` that are not accounted for are as many as its unknown
neighbours, then after the sweep every square that was an unknown neighbour
of `s` is mined; and if no mine of `s` was unaccounted for, every square
that was an unknown neighbour of `s` is clear. -/
theorem sweep_rule (P : mineFieldProbMap) (M : mineField) (s : square)
    (hE : M.ExactCounts) (hS : Sound M P) (hc : ExploredClear M P)
    (hs : M.squareInsideMap s = true) (hx : M.squareExplored s = true) :
    (P.unknownMinedAround M s = (P.unknownAround M s : Int) →
      ∀ t, UnknownNbour P M s t →
        (P.applySimpleTestsToAllSquares M).2.squareMined t = true) ∧
    (P.unknownMinedAround M s = 0 →
      ∀ t, UnknownNbour P M s t →
        (P.applySimpleTestsToAllSquares M).2.squareClear t = true) := by
  have hE1 := exact_of_counts M hE
  obtain ⟨l1, l2, hl⟩ := List.append_of_mem ((mem_allSquares M s).mpr hs)
  have hin : ∀ x ∈ allSquares M, M.squareInsideMap x = true :=
    fun x hx => (mem_allSquares M x).mp hx
  have hl1 : ∀ x ∈ l1, M.squareInsideMap x = true := fun x hx1 =>
    hin x (by rw [hl]; exact List.mem_append_left _ hx1)
  have hl2 : ∀ x ∈ l2, M.squareInsideMap x = true := fun x hx2 =>
    hin x (by rw [hl]; exact List.mem_append_right _ (List.mem_cons_of_mem _ hx2))
  have e1 := n_unknownMinedNbours_around P M s hs
  have e2 := n_unknownNbours_around P M s hs
  obtain ⟨c1, c2⟩ := simple_conditions P M s hs hx hE1 hS
  -- the map before, at and after the square `s`
  have hfin : ∀ t, M.squareInsideMap t = true → neighbours t s = true →
      ((∀ k ∈ P.unknownBits M s, M.squareMined (nbSq s k) = true) ∨
        (∀ k ∈ P.unknownBits M s, M.squareMined (nbSq s k) = false)) →
      (P.applySimpleTestsToAllSquares M).2.squareKnown t = true ∧
        Sound M (P.applySimpleTestsToAllSquares M).2 := by
    intro t hti htn hall
    simp only [applySimpleTestsToAllSquares, hl, List.foldl_append, List.foldl_cons]
    have s1 := sweep_steps M l1 hl1 (false, P)
    generalize l1.foldl
      (fun st s =>
        if M.squareExplored s && decide (st.2.n_unknownNbours M s ≠ 0) then
          let r := st.2.applySimpleTests M s
          if r.1 then (true, r.2) else (st.1, r.2)
        else st) (false, P) = st1 at s1 ⊢
    obtain ⟨t1, hc1, -⟩ := steps_tighten s1 hc
    have hS1 := steps_sound s1 hE1 hS hc
    have hall1 : (∀ k ∈ st1.2.unknownBits M s, M.squareMined (nbSq s k) = true) ∨
        (∀ k ∈ st1.2.unknownBits M s, M.squareMined (nbSq s k) = false) := by
      rcases hall with h | h
      · exact Or.inl fun k hk => h k (unknownBits_subset t1 s hk)
      · exact Or.inr fun k hk => h k (unknownBits_subset t1 s hk)
    have hk2 := sweepBody_known M st1.2 s hs hx hE1 hS1 hall1 t hti htn
    have s2 := sweepBody_steps M st1.2 s hs
    rw [← sweepBody_snd M st1 s] at hk2 s2
    have s3 := sweep_steps M l2 hl2
      (if M.squareExplored s && decide (st1.2.n_unknownNbours M s ≠ 0) then
        (if (st1.2.applySimpleTests M s).1 then (true, (st1.2.applySimpleTests M s).2)
          else (st1.1, (st1.2.applySimpleTests M s).2))
      else st1)
    obtain ⟨-, hc2, -⟩ := steps_tighten s2 hc1
    obtain ⟨t3, -, -⟩ := steps_tighten s3 hc2
    exact ⟨t3.known t hk2, steps_sound ((s1.trans s2).trans s3) hE1 hS hc⟩
  constructor
  · intro h t ht
    have hall := c1.mp (by rw [e1, e2]; exact h)
    obtain ⟨hk, hSf⟩ := hfin t ht.1 ht.2.1 (Or.inl hall)
    obtain ⟨k, hk1, hk2⟩ := (unknownNbour_iff P M s t hs).mp ht
    exact (marked_of_known M _ hSf t ht.1 hk).1 (hk1 ▸ hall k hk2)
  · intro h t ht
    have hall := c2.mp (by rw [e1]; exact h)
    obtain ⟨hk, hSf⟩ := hfin t ht.1 ht.2.1 (Or.inr hall)
    obtain ⟨k, hk1, hk2⟩ := (unknownNbour_iff P M s t hs).mp ht
    exact (marked_of_known M _ hSf t ht.1 hk).2 (hk1 ▸ hall k hk2)

theorem sweep_rule_witness :
    (cornerMap.applySimpleTestsToAllSquares cornerField).2.squareMined ⟨1, 1⟩ = true :=
  (sweep_rule cornerMap cornerField ⟨0, 0⟩
    (exactCounts_of_all cornerField (by decide))
    (sound_of_all cornerField cornerMap (by decide))
    (exploredClear_of_all cornerField cornerMap (by decide))
    (by decide) (by decide)).1 (by decide) ⟨1, 1⟩ ⟨by decide, by decide, by decide⟩

end mineFieldProbMap

end minesweeper

/-! ## The complex test and the record of shared neighbours -/

namespace minesweeper

namespace mineFieldProbMap

open unknownNboursSharedRec

theorem notShared_card (P : mineFieldProbMap) (M : mineField) (s : square)
    (hs : M.squareInsideMap s = true) (u : unknownNboursSharedRec)
    (hL : u.list ⊆ P.unknownBits M s) :
    P.n_unknownNbours M s - u.getCount = ((P.unknownBits M s \ u.list).card : Int) := by
  rw [n_unknownNbours_bits P M s hs, getCount, Finset.card_sdiff hL,
    Nat.cast_sub (Finset.card_le_card hL)]

/-- C14: for a square `s` inside the map and a record `u` whose list `L` holds
unknown neighbours of `s` only, let the squares not shared be the unknown
neighbours of `s` inside the map whose bit is not in `L`.  If there is such a
square and the unknown mines of `s` less `maxMines` are as many as these
squares, `applyComplexTests` returns `true` and marks each of them mined;
otherwise, if there is such a square and the unknown mines of `s` less
`minMines` are none, it returns `true` and marks each of them clear;
otherwise it returns `false` and the map as it was.  No other square is
changed. -/
theorem applyComplexTests_rule (P : mineFieldProbMap) (M : mineField) (s : square)
    (u : unknownNboursSharedRec) (hs : M.squareInsideMap s = true)
    (hL : u.list ⊆ P.unknownBits M s) :
    (((P.unknownBits M s \ u.list).Nonempty ∧
        P.unknownMinedAround M s - u.maxMines = ((P.unknownBits M s \ u.list).card : Int)) →
      (P.applyComplexTests M s u).1 = true ∧
      ∀ t, ((∃ k ∈ P.unknownBits M s \ u.list, nbSq s k = t) →
          (P.applyComplexTests M s u).2.squareMined t = true) ∧
        ((¬∃ k ∈ P.unknownBits M s \ u.list, nbSq s k = t) →
          (P.applyComplexTests M s u).2.probMap t.row t.col = P.probMap t.row t.col)) ∧
    (¬((P.unknownBits M s \ u.list).Nonempty ∧
        P.unknownMinedAround M s - u.maxMines = ((P.unknownBits M s \ u.list).card : Int)) →
      ((P.unknownBits M s \ u.list).Nonempty ∧ P.unknownMinedAround M s - u.minMines = 0) →
      (P.applyComplexTests M s u).1 = true ∧
      ∀ t, ((∃ k ∈ P.unknownBits M s \ u.list, nbSq s k = t) →
          (P.applyComplexTests M s u).2.squareClear t = true) ∧
        ((¬∃ k ∈ P.unknownBits M s \ u.list, nbSq s k = t) →
          (P.applyComplexTests M s u).2.probMap t.row t.col = P.probMap t.row t.col)) ∧
    (¬((P.unknownBits M s \ u.list).Nonempty ∧
        P.unknownMinedAround M s - u.maxMines = ((P.unknownBits M s \ u.list).card : Int)) →
      ¬((P.unknownBits M s \ u.list).Nonempty ∧ P.unknownMinedAround M s - u.minMines = 0) →
      P.applyComplexTests M s u = (false, P)) := by
  have e1 := n_unknownMinedNbours_around P M s hs
  have e2 := notShared_card P M s hs u hL
  have hne : (P.unknownBits M s \ u.list).Nonempty ↔
      ((P.unknownBits M s \ u.list).card : Int) ≠ 0 := by
    rw [← Finset.card_pos]; omega
  refine ⟨fun h => ?_, fun h h0 => ?_, fun h h0 => ?_⟩
  · have hr : P.applyComplexTests M s u
        = (true, P.setProbsOfUnknownNboursNotShared M s u.list 1) := by
      simp only [applyComplexTests, getMaxMines, getMinMines, getList, e1, e2]
      rw [if_pos (hne.mp h.1), if_pos h.2]
    rw [hr]
    refine ⟨rfl, fun t => ?_⟩
    have hm := notShared_marks P M s hs u.list 1 t
    exact ⟨fun ht => by simp [squareMined, hm.1 ht], hm.2⟩
  · have hr : P.applyComplexTests M s u
        = (true, P.setProbsOfUnknownNboursNotShared M s u.list 0) := by
      simp only [applyComplexTests, getMaxMines, getMinMines, getList, e1, e2]
      rw [if_pos (hne.mp h0.1), if_neg (fun h1 => h ⟨h0.1, h1⟩), if_pos h0.2]
    rw [hr]
    refine ⟨rfl, fun t => ?_⟩
    have hm := notShared_marks P M s hs u.list 0 t
    exact ⟨fun ht => by simp [squareClear, hm.1 ht], hm.2⟩
  · simp only [applyComplexTests, getMaxMines, getMinMines, getList, e1, e2]
    by_cases hn : (P.unknownBits M s \ u.list).Nonempty
    · rw [if_pos (hne.mp hn), if_neg (fun h1 => h ⟨hn, h1⟩), if_neg (fun h1 => h0 ⟨hn, h1⟩)]
    · rw [if_neg (fun h1 => hn (hne.mpr h1))]

theorem applyComplexTests_rule_witness :
    (ledgeMap.applyComplexTests ledgeField ⟨1, 1⟩ ⟨1, 1, {0, 1}⟩).1 = true ∧
      ∀ t, ((∃ k ∈ ledgeMap.unknownBits ledgeField ⟨1, 1⟩ \ {0, 1}, nbSq ⟨1, 1⟩ k = t) →
          (ledgeMap.applyComplexTests ledgeField ⟨1, 1⟩ ⟨1, 1, {0, 1}⟩).2.squareMined t = true) ∧
        ((¬∃ k ∈ ledgeMap.unknownBits ledgeField ⟨1, 1⟩ \ {0, 1}, nbSq ⟨1, 1⟩ k = t) →
          (ledgeMap.applyComplexTests ledgeField ⟨1, 1⟩ ⟨1, 1, {0, 1}⟩).2.probMap t.row t.col
            = ledgeMap.probMap t.row t.col) :=
  (applyComplexTests_rule ledgeMap ledgeField ⟨1, 1⟩ ⟨1, 1, {0, 1}⟩ (by decide)
    (by decide)).1 (by decide)

/-- C15: for a square `s` inside the map that the probability map knows, as
it knows every explored square during `update`, and a square `n` inside the
map that shares `c` unknown neighbours with `s`, let `W` be the record that
`squareMeetsCriteria` fills for `s` and `n`.  Then `updateUnkNbsShared` makes
the list the union of the old list and the `c` shared squares; it adds the
unknown mines of `n` to `minMines` and to `maxMines` when `c` is the number of
unknown neighbours of `n`, and otherwise adds the greatest of `0`, the
unknown mines of `s` less its unknown neighbours that are not shared, and
the same for `n`, to `minMines`, and the least of `c`, the unknown mines of
`s` and those of `n` to `maxMines`. -/
theorem updateUnkNbsShared_rule (P : mineFieldProbMap) (M : mineField) (s n : square)
    (u : unknownNboursSharedRec) (hs : M.squareInsideMap s = true)
    (hn : M.squareInsideMap n = true) (hk : P.squareKnown s = true) :
    (updateUnkNbsShared P M u (squareMeetsCriteria P M s n u ⟨0, 0, ∅⟩).2 s n).list
      = u.list ∪ P.sharedBits M s n ∧
    ((P.sharedBits M s n).card = P.unknownAround M n →
      (updateUnkNbsShared P M u (squareMeetsCriteria P M s n u ⟨0, 0, ∅⟩).2 s n).minMines
        = u.minMines + P.unknownMinedAround M n ∧
      (updateUnkNbsShared P M u (squareMeetsCriteria P M s n u ⟨0, 0, ∅⟩).2 s n).maxMines
        = u.maxMines + P.unknownMinedAround M n) ∧
    ((P.sharedBits M s n).card ≠ P.unknownAround M n →
      (updateUnkNbsShared P M u (squareMeetsCriteria P M s n u ⟨0, 0, ∅⟩).2 s n).minMines
        = u.minMines + max (max 0
            (P.unknownMinedAround M s
              - ((P.unknownAround M s : Int) - ((P.sharedBits M s n).card : Int))))
            (P.unknownMinedAround M n
              - ((P.unknownAround M n : Int) - ((P.sharedBits M s n).card : Int))) ∧
      (updateUnkNbsShared P M u (squareMeetsCriteria P M s n u ⟨0, 0, ∅⟩).2 s n).maxMines
        = u.maxMines + min (min ((P.sharedBits M s n).card : Int) (P.unknownMinedAround M s))
            (P.unknownMinedAround M n)) := by
  have hlist := squareMeetsCriteria_list P M s n u ⟨0, 0, ∅⟩ hk
  simp only [Finset.empty_union] at hlist
  have hcount : (squareMeetsCriteria P M s n u ⟨0, 0, ∅⟩).2.getCount
      = ((P.sharedBits M s n).card : Int) := by
    rw [unknownNboursSharedRec.getCount, hlist]
  obtain ⟨lo, hi, e1, e2, hcase⟩ := updateUnkNbsShared_bounds P M u
    (squareMeetsCriteria P M s n u ⟨0, 0, ∅⟩).2 s n
  rw [hcount, n_unknownNbours_around P M n hn, n_unknownNbours_around P M s hs,
    n_unknownMinedNbours_around P M n hn, n_unknownMinedNbours_around P M s hs] at hcase
  refine ⟨by rw [updateUnkNbsShared_list, hlist], fun hc => ?_, fun hc => ?_⟩
  · rcases hcase with ⟨-, hlo, hhi⟩ | ⟨hne, -, -⟩
    · rw [e1, e2, hlo, hhi]; exact ⟨rfl, rfl⟩
    · exact absurd (by exact_mod_cast hc) hne
  · rcases hcase with ⟨he, -, -⟩ | ⟨-, hlo, hhi⟩
    · exact absurd (by exact_mod_cast he) hc
    · rw [e1, e2, hlo, hhi]; exact ⟨rfl, rfl⟩

theorem updateUnkNbsShared_rule_witness :
    (updateUnkNbsShared ledgeMap ledgeField ⟨0, 0, ∅⟩
        (squareMeetsCriteria ledgeMap ledgeField ⟨1, 1⟩ ⟨1, 0⟩ ⟨0, 0, ∅⟩ ⟨0, 0, ∅⟩).2
        ⟨1, 1⟩ ⟨1, 0⟩).minMines
      = 0 + ledgeMap.unknownMinedAround ledgeField ⟨1, 0⟩ ∧
    (updateUnkNbsShared ledgeMap ledgeField ⟨0, 0, ∅⟩
        (squareMeetsCriteria ledgeMap ledgeField ⟨1, 1⟩ ⟨1, 0⟩ ⟨0, 0, ∅⟩ ⟨0, 0, ∅⟩).2
        ⟨1, 1⟩ ⟨1, 0⟩).maxMines
      = 0 + ledgeMap.unknownMinedAround ledgeField ⟨1, 0⟩ :=
  (updateUnkNbsShared_rule ledgeMap ledgeField ⟨1, 1⟩ ⟨1, 0⟩ ⟨0, 0, ∅⟩ (by decide) (by decide)
    (by decide)).2.1 (by decide)

end mineFieldProbMap

end minesweeper

/-! ## The records that the search obtains -/

namespace minesweeper

namespace mineFieldProbMap

open unknownNboursSharedRec Relation

theorem findInRow_accepts (P : mineFieldProbMap) (M : mineField) (s : square)
    (u : unknownNboursSharedRec) (p : square) (nrow : Int) :
    ∀ (fuel : Nat) (ncol : Int) (r : unknownNboursSharedRec × square × square),
      findInRow P M s u p nrow fuel ncol = some (some r) →
      accepts P M s u r.2.2 = true ∧ r = accepted P M s u r.2.2 := by
  intro fuel
  induction fuel with
  | zero =>
    intro ncol r h
    rw [findInRow_zero] at h
    split_ifs at h
    simp at h
  | succ fuel ih =>
    intro ncol r h
    rw [findInRow_succ] at h
    split_ifs at h with h1 h2
    · simp only [Option.some.injEq] at h
      subst h
      exact ⟨h2, rfl⟩
    · exact ih _ r h
    · simp at h

theorem findInRows_accepts (P : mineFieldProbMap) (M : mineField) (s : square)
    (u : unknownNboursSharedRec) (p : square) :
    ∀ (count : Nat) (nrow : Int) (r : unknownNboursSharedRec × square × square),
      findInRows P M s u p count nrow = some (some r) →
      accepts P M s u r.2.2 = true ∧ r = accepted P M s u r.2.2 := by
  intro count
  induction count with
  | zero => intro nrow r h; simp [findInRows] at h
  | succ count ih =>
    intro nrow r h
    rw [findInRows_succ] at h
    cases hrow : findInRow P M s u p nrow 6 (max (s.col - 2) 0) with
    | none => simp [hrow] at h
    | some o =>
      cases o with
      | none =>
        simp only [hrow] at h
        exact ih _ r h
      | some r1 =>
        simp only [hrow, Option.some.injEq] at h
        subst h
        exact findInRow_accepts P M s u p nrow _ _ _ hrow

theorem findAnotherSquare_accepts (P : mineFieldProbMap) (M : mineField) (s : square)
    (u : unknownNboursSharedRec) (p : square)
    (r : unknownNboursSharedRec × square × square)
    (h : findAnotherSquare P M s u p = some (some r)) :
    accepts P M s u r.2.2 = true ∧ r = accepted P M s u r.2.2 := by
  simp only [findAnotherSquare] at h
  split_ifs at h
  · simp at h
  · exact findInRows_accepts P M s u p _ _ r h

theorem obtained_built (P : mineFieldProbMap) (M : mineField) (s : square)
    (u : unknownNboursSharedRec) (h : Obtained P M s u) : Built P M s u := by
  induction h with
  | fresh u => exact Built.fresh u
  | found u p r _ hf ih => exact findAnotherSquare_built P M s u p ih r hf

/-- The amounts that `updateUnkNbsShared` adds for a square `n` that the
search accepts are not negative, and the amount added to `maxMines` is at
most the number of squares added to the list. -/
theorem accepted_amounts (P : mineFieldProbMap) (M : mineField) (s n : square)
    (hs : M.squareInsideMap s = true) (he : M.squareExplored s = true)
    (hE : M.Exact) (hS : Sound M P) (hk : P.squareKnown s = true)
    (u : unknownNboursSharedRec) (hn : M.squareInsideMap n = true)
    (hne : M.squareExplored n = true) :
    ∃ lo hi : Int,
      (updateUnkNbsShared P M u (squareMeetsCriteria P M s n u ⟨0, 0, ∅⟩).2 s n).minMines
        = u.minMines + lo ∧
      (updateUnkNbsShared P M u (squareMeetsCriteria P M s n u ⟨0, 0, ∅⟩).2 s n).maxMines
        = u.maxMines + hi ∧
      0 ≤ lo ∧ 0 ≤ hi ∧ hi ≤ ((P.sharedBits M s n).card : Int) := by
  have hlist := squareMeetsCriteria_list P M s n u ⟨0, 0, ∅⟩ hk
  simp only [Finset.empty_union] at hlist
  obtain ⟨lo, hi, e1, e2, hcase⟩ := updateUnkNbsShared_bounds P M u
    (squareMeetsCriteria P M s n u ⟨0, 0, ∅⟩).2 s n
  have hcount : (squareMeetsCriteria P M s n u ⟨0, 0, ∅⟩).2.getCount
      = ((P.sharedBits M s n).card : Int) := by
    rw [unknownNboursSharedRec.getCount, hlist]
  rw [hcount, n_unknownNbours_bits P M n hn, n_unknownNbours_bits P M s hs,
    n_unknownMinedNbours_eq P M n hn hne hE hS, n_unknownMinedNbours_eq P M s hs he hE hS]
    at hcase
  have b1 := minesIn_le_card M n (P.unknownBits M n)
  refine ⟨lo, hi, e1, e2, ?_, ?_, ?_⟩
  · rcases hcase with ⟨-, hlo, -⟩ | ⟨-, hlo, -⟩
    · rw [hlo]; omega
    · rw [hlo, maximum]
      exact le_max_of_le_left (le_max_left _ _)
  · rcases hcase with ⟨-, -, hhi⟩ | ⟨-, -, hhi⟩
    · rw [hhi]; omega
    · rw [hhi, minimum]
      exact le_min (le_min (by omega) (by omega)) (by omega)
  · rcases hcase with ⟨hc, -, hhi⟩ | ⟨-, -, hhi⟩
    · rw [hhi, hc]; exact_mod_cast b1
    · rw [hhi, minimum]
      exact le_trans (min_le_left _ _) (min_le_left _ _)

theorem built_bounds (P : mineFieldProbMap) (M : mineField) (s : square)
    (hs : M.squareInsideMap s = true) (he : M.squareExplored s = true)
    (hE : M.Exact) (hS : Sound M P) (hk : P.squareKnown s = true)
    (u : unknownNboursSharedRec) (h : Built P M s u) :
    0 ≤ u.minMines ∧ u.maxMines ≤ (u.list.card : Int) := by
  induction h with
  | fresh u => simp [unknownNboursSharedRec.reset]
  | add u n hb hn hne _ _ hm ih =>
    have hlist := squareMeetsCriteria_list P M s n u ⟨0, 0, ∅⟩ hk
    simp only [Finset.empty_union] at hlist
    have hdisj := (squareMeetsCriteria_true P M s n u ⟨0, 0, ∅⟩ hm).2
    rw [hlist] at hdisj
    obtain ⟨lo, hi, e1, e2, h1, h2, h3⟩ := accepted_amounts P M s n hs he hE hS hk u hn hne
    have hcard : (updateUnkNbsShared P M u
        (squareMeetsCriteria P M s n u ⟨0, 0, ∅⟩).2 s n).list.card
          = u.list.card + (P.sharedBits M s n).card := by
      rw [updateUnkNbsShared_list, hlist, Finset.card_union_of_disjoint hdisj.symm]
    rw [e1, e2, hcard]
    push_cast
    omega

/-- C16: on a grid whose explored squares hold exact counts and a sound
probability map, for an explored square `s` of the map that the probability
map knows, as it knows every explored square when `update` makes the search,
every record obtained by `reset()` followed by calls of `findAnotherSquare`
for `s` that return `true` has `0 ≤ minMines ≤ maxMines ≤` the number of
squares on its list, and a further call that returns `true` lowers neither
`minMines` nor `maxMines`: the amounts passed to `addToMinMines` and
`addToMaxMines` are not negative. -/
theorem accumulator_bounds (P : mineFieldProbMap) (M : mineField) (s : square)
    (hE : M.ExactCounts) (hS : Sound M P)
    (hs : M.squareInsideMap s = true) (hx : M.squareExplored s = true)
    (hk : P.squareKnown s = true)
    (u : unknownNboursSharedRec) (h : Obtained P M s u) :
    (0 ≤ u.minMines ∧ u.minMines ≤ u.maxMines ∧ u.maxMines ≤ (u.list.card : Int)) ∧
    ∀ (p : square) (r : unknownNboursSharedRec × square × square),
      P.findAnotherSquare M s u p = some (some r) →
        u.minMines ≤ r.1.minMines ∧ u.maxMines ≤ r.1.maxMines := by
  have hE1 := exact_of_counts M hE
  have hb := obtained_built P M s u h
  obtain ⟨-, i1, i2⟩ := built_sound P M s hs hx hE1 hS hk u hb
  obtain ⟨j1, j2⟩ := built_bounds P M s hs hx hE1 hS hk u hb
  refine ⟨⟨j1, le_trans i1 i2, j2⟩, fun p r hr => ?_⟩
  obtain ⟨ha, hr1⟩ := findAnotherSquare_accepts P M s u p r hr
  simp only [accepts, Bool.and_eq_true, decide_eq_true_eq] at ha
  obtain ⟨lo, hi, e1, e2, h1, h2, -⟩ :=
    accepted_amounts P M s r.2.2 hs hx hE1 hS hk u ha.1.1.1.1 ha.1.1.1.2
  rw [hr1]
  simp only [accepted]
  rw [e1, e2]
  omega

theorem accumulator_bounds_witness :
    (0 ≤ (accepted ledgeMap ledgeField ⟨1, 1⟩ ⟨0, 0, ∅⟩ ⟨1, 0⟩).1.minMines ∧
      (accepted ledgeMap ledgeField ⟨1, 1⟩ ⟨0, 0, ∅⟩ ⟨1, 0⟩).1.minMines
        ≤ (accepted ledgeMap ledgeField ⟨1, 1⟩ ⟨0, 0, ∅⟩ ⟨1, 0⟩).1.maxMines ∧
      (accepted ledgeMap ledgeField ⟨1, 1⟩ ⟨0, 0, ∅⟩ ⟨1, 0⟩).1.maxMines
        ≤ ((accepted ledgeMap ledgeField ⟨1, 1⟩ ⟨0, 0, ∅⟩ ⟨1, 0⟩).1.list.card : Int)) ∧
    ∀ (p : square) (r : unknownNboursSharedRec × square × square),
      ledgeMap.findAnotherSquare ledgeField ⟨1, 1⟩
          (accepted ledgeMap ledgeField ⟨1, 1⟩ ⟨0, 0, ∅⟩ ⟨1, 0⟩).1 p = some (some r) →
        (accepted ledgeMap ledgeField ⟨1, 1⟩ ⟨0, 0, ∅⟩ ⟨1, 0⟩).1.minMines ≤ r.1.minMines ∧
        (accepted ledgeMap ledgeField ⟨1, 1⟩ ⟨0, 0, ∅⟩ ⟨1, 0⟩).1.maxMines ≤ r.1.maxMines :=
  accumulator_bounds ledgeMap ledgeField ⟨1, 1⟩ (exactCounts_of_all ledgeField (by decide))
    (sound_of_all ledgeField ledgeMap (by decide)) (by decide) (by decide) (by decide) _
    (Obtained.found (unknownNboursSharedRec.reset ⟨0, 0, ∅⟩) ⟨-1, -1⟩
      (accepted ledgeMap ledgeField ⟨1, 1⟩ ⟨0, 0, ∅⟩ ⟨1, 0⟩) (Obtained.fresh _) (by rfl))

end mineFieldProbMap

end minesweeper

/-! ## The outer loop of `update` -/

namespace minesweeper

namespace mineFieldProbMap

open unknownNboursSharedRec Relation

/-- C17: in a round of the outer loop of `update`, let `P1` be the map that
the loop of simple tests leaves.  If `applyComplexTestsUntilSuccess(1)`
succeeds and leaves `P2`, the round is over: the loop goes on from `P2`,
whatever the tests with two and three other squares would give.  If it
fails and leaves `Q`, and `applyComplexTestsUntilSuccess(2)` succeeds on `Q`
and leaves `P2`, the loop goes on from `P2`, whatever the tests with three
other squares would give.  If both fail, the tests with three other squares
decide. -/
theorem updateLoop_escalation (M : mineField) (fuel : Nat) (P : mineFieldProbMap) (c : Bool)
    (P1 : mineFieldProbMap) (c1 : Bool) (h : simpleLoop M (fuel + 1) P c = some (P1, c1)) :
    (∀ r, P1.applyComplexTestsUntilSuccess M 1 = some r → r.1 = true →
      updateLoop M (fuel + 1) P c = updateLoop M fuel r.2 true) ∧
    (∀ q r, P1.applyComplexTestsUntilSuccess M 1 = some q → q.1 = false →
      q.2.applyComplexTestsUntilSuccess M 2 = some r → r.1 = true →
      updateLoop M (fuel + 1) P c = updateLoop M fuel r.2 true) ∧
    (∀ q q2 r, P1.applyComplexTestsUntilSuccess M 1 = some q → q.1 = false →
      q.2.applyComplexTestsUntilSuccess M 2 = some q2 → q2.1 = false →
      q2.2.applyComplexTestsUntilSuccess M 3 = some r →
      updateLoop M (fuel + 1) P c
        = if r.1 then updateLoop M fuel r.2 true else some (c1, r.2)) := by
  refine ⟨fun r h1 hr => ?_, fun q r h1 hq h2 hr => ?_, fun q q2 r h1 hq h2 hq2 h3 => ?_⟩
  · rw [updateLoop_succ, h]
    simp only [h1, hr, Bool.not_true, Bool.false_eq_true, if_false, if_true]
  · rw [updateLoop_succ, h]
    simp only [h1, hq, h2, hr, Bool.not_false, Bool.not_true, Bool.false_eq_true, if_false,
      if_true]
  · rw [updateLoop_succ, h]
    simp only [h1, hq, h2, hq2, h3, Bool.not_false, if_true]

theorem updateLoop_escalation_witness :
    updateLoop ledgeField 7 ledgeMap false
      = updateLoop ledgeField 6 (ledgeMap.setProbMined ⟨0, 2⟩ 1) true :=
  (updateLoop_escalation ledgeField 6 ledgeMap false ledgeMap false (by rfl)).1
    (true, ledgeMap.setProbMined ⟨0, 2⟩ 1) (by rfl) rfl

/-- C18: for every grid and every probability map, `update` returns.  The
reason is that it works on maps in which every explored square is clear,
that on such a map a sweep of simple tests and a pass of complex tests
change squares that are not known into known ones only, and that a
successful sweep or pass leaves fewer squares that are not known. -/
theorem update_terminates (P : mineFieldProbMap) (M : mineField) :
    (∃ r, P.update M = some r) ∧
    ExploredClear M (P.setProbOfExploredSquaresToZero M) ∧
    (∀ Q : mineFieldProbMap, ExploredClear M Q →
      Tighten M Q (Q.applySimpleTestsToAllSquares M).2 ∧
      ExploredClear M (Q.applySimpleTestsToAllSquares M).2 ∧
      ((Q.applySimpleTestsToAllSquares M).1 = true →
        (unknowns M (Q.applySimpleTestsToAllSquares M).2).card < (unknowns M Q).card)) ∧
    (∀ (Q : mineFieldProbMap) (n : Int) (r : Bool × mineFieldProbMap), ExploredClear M Q →
      Q.applyComplexTestsUntilSuccess M n = some r →
      Tighten M Q r.2 ∧ ExploredClear M r.2 ∧
      (r.1 = true → (unknowns M r.2).card < (unknowns M Q).card)) := by
  refine ⟨?_, setZero_exploredClear P M, fun Q hc => ?_, fun Q n r hc hr => ?_⟩
  · obtain ⟨b, P1, h, -⟩ := update_spec P M
    exact ⟨_, h⟩
  · obtain ⟨h1, -, h3⟩ := sweep_spec Q M
    obtain ⟨t1, c1, -⟩ := steps_tighten h1 hc
    exact ⟨t1, c1, fun hb => steps_strict (h3 hb) hc⟩
  · rcases applyComplexTestsUntilSuccess_spec Q M n r hr with ⟨h1, h2⟩ | ⟨-, h2⟩
    · rw [h2]
      exact ⟨Tighten.unchanged M Q, hc, fun hb => by rw [h1] at hb; cases hb⟩
    · obtain ⟨t1, l1⟩ := ruleStep_tighten h2 hc
      exact ⟨t1, exploredClear_tighten t1 hc, fun _ => l1⟩

end mineFieldProbMap

end minesweeper

/-! ## The search reads the map only inside its bounds -/

namespace minesweeper

namespace mineFieldProbMap

open unknownNboursSharedRec

theorem AgreeInside.insideEq {M M1 : mineField} {P P1 : mineFieldProbMap}
    (h : AgreeInside M M1 P P1) (t : square) : M1.squareInsideMap t = M.squareInsideMap t := by
  simp only [mineField.squareInsideMap, mineField.getHeight, mineField.getWidth, h.1, h.2.1]

theorem AgreeInside.exploredEq {M M1 : mineField} {P P1 : mineFieldProbMap}
    (h : AgreeInside M M1 P P1) (t : square) (ht : M.squareInsideMap t = true) :
    M1.squareExplored t = M.squareExplored t := by
  simp only [mineField.squareExplored, h.2.2.1 t ht]

theorem AgreeInside.knownEq {M M1 : mineField} {P P1 : mineFieldProbMap}
    (h : AgreeInside M M1 P P1) (t : square) (ht : M.squareInsideMap t = true) :
    P1.squareKnown t = P.squareKnown t :=
  squareKnown_congr (h.2.2.2 t ht)

theorem AgreeInside.unknownBitsEq {M M1 : mineField} {P P1 : mineFieldProbMap}
    (h : AgreeInside M M1 P P1) (x : square) : P1.unknownBits M1 x = P.unknownBits M x := by
  simp only [unknownBits]
  apply Finset.filter_congr
  intro k _
  rw [h.insideEq]
  constructor
  · rintro ⟨h1, h2⟩; exact ⟨h1, by rw [← h.knownEq _ h1]; exact h2⟩
  · rintro ⟨h1, h2⟩; exact ⟨h1, by rw [h.knownEq _ h1]; exact h2⟩

theorem AgreeInside.unknownNboursEq {M M1 : mineField} {P P1 : mineFieldProbMap}
    (h : AgreeInside M M1 P P1) (x : square) (hx : M.squareInsideMap x = true) :
    P1.n_unknownNbours M1 x = P.n_unknownNbours M x := by
  rw [n_unknownNbours_bits P1 M1 x (by rw [h.insideEq]; exact hx),
    n_unknownNbours_bits P M x hx, h.unknownBitsEq]

theorem AgreeInside.unknownMinedEq {M M1 : mineField} {P P1 : mineFieldProbMap}
    (h : AgreeInside M M1 P P1) (x : square) (hx : M.squareInsideMap x = true) :
    P1.n_unknownMinedNbours M1 x = P.n_unknownMinedNbours M x := by
  have hx1 : M1.squareInsideMap x = true := by rw [h.insideEq]; exact hx
  rw [n_unknownMinedNbours, n_unknownMinedNbours, n_knownMinedNbours_eq, n_knownMinedNbours_eq,
    M1.countP_nbours x hx1, M.countP_nbours x hx, mineField.n_minedNbours,
    mineField.n_minedNbours, h.2.2.1 x hx]
  congr 3
  apply Finset.filter_congr
  intro k _
  rw [h.insideEq]
  have e : M.squareInsideMap (nbSq x k) = true →
      P1.squareMined (nbSq x k) = P.squareMined (nbSq x k) := fun h1 => by
    simp only [squareMined, h.2.2.2 _ h1]
  constructor
  · rintro ⟨h1, h2⟩; exact ⟨h1, by rw [← e h1]; exact h2⟩
  · rintro ⟨h1, h2⟩; exact ⟨h1, by rw [e h1]; exact h2⟩

theorem AgreeInside.meetsEq {M M1 : mineField} {P P1 : mineFieldProbMap}
    (h : AgreeInside M M1 P P1) (s n : square) (u W : unknownNboursSharedRec) :
    squareMeetsCriteria P1 M1 s n u W = squareMeetsCriteria P M s n u W := by
  have hf : (fun (W : unknownNboursSharedRec) (t : square) =>
      if M1.squareInsideMap t && !P1.squareKnown t && neighbours t n
      then W.addSquareToList ⟨t.row - s.row, t.col - s.col⟩ else W)
      = fun W t =>
      if M.squareInsideMap t && !P.squareKnown t && neighbours t n
      then W.addSquareToList ⟨t.row - s.row, t.col - s.col⟩ else W := by
    funext W t
    rw [h.insideEq]
    cases hi : M.squareInsideMap t
    · simp
    · rw [h.knownEq t hi]
  simp only [squareMeetsCriteria, hf]

theorem AgreeInside.updateEq {M M1 : mineField} {P P1 : mineFieldProbMap}
    (h : AgreeInside M M1 P P1) (s n : square) (hs : M.squareInsideMap s = true)
    (hn : M.squareInsideMap n = true) (u W : unknownNboursSharedRec) :
    updateUnkNbsShared P1 M1 u W s n = updateUnkNbsShared P M u W s n := by
  simp only [updateUnkNbsShared, h.unknownNboursEq s hs, h.unknownNboursEq n hn,
    h.unknownMinedEq s hs, h.unknownMinedEq n hn]

theorem AgreeInside.acceptsEq {M M1 : mineField} {P P1 : mineFieldProbMap}
    (h : AgreeInside M M1 P P1) (s n : square) (u : unknownNboursSharedRec) :
    accepts P1 M1 s u n = accepts P M s u n := by
  simp only [accepts, h.insideEq, h.meetsEq]
  cases hn : M.squareInsideMap n
  · simp
  · rw [h.exploredEq n hn, h.unknownNboursEq n hn]

theorem AgreeInside.acceptedEq {M M1 : mineField} {P P1 : mineFieldProbMap}
    (h : AgreeInside M M1 P P1) (s n : square) (hs : M.squareInsideMap s = true)
    (u : unknownNboursSharedRec) (hn : accepts P M s u n = true) :
    accepted P1 M1 s u n = accepted P M s u n := by
  simp only [accepts, Bool.and_eq_true] at hn
  simp only [accepted, h.meetsEq, h.updateEq s n hs hn.1.1.1.1]

theorem AgreeInside.findInRowEq {M M1 : mineField} {P P1 : mineFieldProbMap}
    (h : AgreeInside M M1 P P1) (s : square) (hs : M.squareInsideMap s = true)
    (u : unknownNboursSharedRec) (p : square) (nrow : Int) :
    ∀ (fuel : Nat) (ncol : Int),
      findInRow P1 M1 s u p nrow fuel ncol = findInRow P M s u p nrow fuel ncol := by
  have hw : M1.getWidth = M.getWidth := by simp only [mineField.getWidth, h.2.1]
  intro fuel
  induction fuel with
  | zero => intro ncol; rw [findInRow_zero, findInRow_zero, hw]
  | succ fuel ih =>
    intro ncol
    rw [findInRow_succ, findInRow_succ, hw, h.acceptsEq, ih]
    by_cases h1 : ncol ≤ min (s.col + 2) M.getWidth
    · rw [if_pos h1, if_pos h1]
      by_cases h2 : accepts P M s u ⟨nrow, jumpCol s p nrow ncol⟩ = true
      · rw [if_pos h2, if_pos h2, h.acceptedEq s _ hs u h2]
      · rw [if_neg h2, if_neg h2]
    · rw [if_neg h1, if_neg h1]

theorem AgreeInside.findInRowsEq {M M1 : mineField} {P P1 : mineFieldProbMap}
    (h : AgreeInside M M1 P P1) (s : square) (hs : M.squareInsideMap s = true)
    (u : unknownNboursSharedRec) (p : square) :
    ∀ (count : Nat) (nrow : Int),
      findInRows P1 M1 s u p count nrow = findInRows P M s u p count nrow := by
  intro count
  induction count with
  | zero => intro nrow; rfl
  | succ count ih =>
    intro nrow
    rw [findInRows_succ, findInRows_succ, h.findInRowEq s hs, ih]

theorem AgreeInside.findAnotherSquareEq {M M1 : mineField} {P P1 : mineFieldProbMap}
    (h : AgreeInside M M1 P P1) (s : square) (hs : M.squareInsideMap s = true)
    (u : unknownNboursSharedRec) (p : square) :
    P1.findAnotherSquare M1 s u p = P.findAnotherSquare M s u p := by
  have hh : M1.getHeight = M.getHeight := by simp only [mineField.getHeight, h.1]
  simp only [findAnotherSquare, hh, h.findInRowsEq s hs]

/-- Where `findAnotherSquare` finds a square. -/
theorem findAnotherSquare_where (P : mineFieldProbMap) (M : mineField) (s : square)
    (u : unknownNboursSharedRec) (p : square) (hp : WindowPos s p)
    (r : unknownNboursSharedRec × square × square)
    (h : findAnotherSquare P M s u p = some (some r)) : InWindow M s r.2.2 := by
  obtain ⟨ha, -⟩ := findAnotherSquare_accepts P M s u p r h
  simp only [accepts, Bool.and_eq_true] at ha
  simp only [findAnotherSquare] at h
  split_ifs at h with h0
  · simp at h
  · obtain ⟨e1, e2, e3, e4, -, -⟩ := findInRows_pos P M s u p hp _ p.row r (le_refl _)
      (by
        have := hp.1
        rcases le_total (s.row + 2) M.getHeight with hm | hm
        · rw [min_eq_left hm]; omega
        · rw [min_eq_right hm]; omega) h
    exact ⟨ha.1.1.1.1, by have := hp.1; omega, e2, e3, e4⟩

theorem eligible_of_accepts (P : mineFieldProbMap) (M : mineField) (s n : square)
    (hk : P.squareKnown s = true) (u : unknownNboursSharedRec)
    (h : accepts P M s u n = true) : eligible P M s n = true := by
  simp only [accepts, Bool.and_eq_true, decide_eq_true_eq] at h
  obtain ⟨⟨⟨⟨h1, h2⟩, h3⟩, h4⟩, h5⟩ := h
  have hne := (squareMeetsCriteria_true P M s n u ⟨0, 0, ∅⟩ h5).1
  rw [squareMeetsCriteria_list P M s n u ⟨0, 0, ∅⟩ hk, Finset.empty_union] at hne
  rw [n_unknownNbours_around P M n h1] at h3
  simp only [eligible, Bool.and_eq_true, decide_eq_true_eq]
  exact ⟨⟨⟨⟨h1, h2⟩, h4⟩, by exact_mod_cast h3⟩, Finset.nonempty_iff_ne_empty.mpr hne⟩

theorem eligible_none_of_all (P : mineFieldProbMap) (M : mineField) (s : square)
    (h : ∀ n ∈ allSquares M, eligible P M s n = false) :
    ∀ n, InWindow M s n → eligible P M s n = false :=
  fun n hn => h n ((mem_allSquares M n).mpr hn.1)

theorem findAnotherSquare_none (P : mineFieldProbMap) (M : mineField) (s : square)
    (hk : P.squareKnown s = true) (u : unknownNboursSharedRec) (p : square)
    (hp : WindowPos s p) (h : ∀ n, InWindow M s n → eligible P M s n = false) :
    P.findAnotherSquare M s u p = some none := by
  obtain ⟨o, ho⟩ := findAnotherSquare_total P M s u p hp.2.2.1
  cases o with
  | none => exact ho
  | some r =>
    have h1 := eligible_of_accepts P M s r.2.2 hk u (findAnotherSquare_accepts P M s u p r ho).1
    rw [h r.2.2 (findAnotherSquare_where P M s u p hp r ho)] at h1
    cases h1

/-! ### No access outside the vectors -/

theorem readExpMap_inside (M : mineField) (s : square) (h : M.squareInsideMap s = true) :
    M.readExpMap s = some (M.expMap s.row s.col) := by
  simp only [mineField.readExpMap, h, if_true]

theorem squareExploredChecked_inside (M : mineField) (s : square)
    (h : M.squareInsideMap s = true) :
    M.squareExploredChecked s = some (M.squareExplored s) := by
  simp only [mineField.squareExploredChecked, readExpMap_inside M s h, Option.map_some',
    mineField.squareExplored]

theorem n_minedNboursChecked_inside (M : mineField) (s : square)
    (h : M.squareInsideMap s = true) :
    M.n_minedNboursChecked s = some (M.n_minedNbours s) := by
  simp only [mineField.n_minedNboursChecked, squareExploredChecked_inside M s h,
    Option.some_bind, readExpMap_inside M s h, mineField.n_minedNbours]

theorem squareMinedChecked_inside (P : mineFieldProbMap) (M : mineField) (s : square)
    (h : M.squareInsideMap s = true) : P.squareMinedChecked M s = some (P.squareMined s) := by
  simp only [squareMinedChecked, readProbMap, h, if_true, Option.map_some', squareMined]

theorem squareKnownChecked_inside (P : mineFieldProbMap) (M : mineField) (s : square)
    (h : M.squareInsideMap s = true) : P.squareKnownChecked M s = some (P.squareKnown s) := by
  simp only [squareKnownChecked, squareClearChecked, readProbMap, h, if_true, Option.map_some',
    Option.some_bind, squareMinedChecked, squareKnown, squareClear, squareMined]
  cases P.probMap s.row s.col == 0 <;> rfl

theorem slots_inside (M : mineField) (s : square) (hs : M.squareInsideMap s = true) :
    ∀ gs ∈ M.nbourSlots s, gs.1 = true → M.squareInsideMap gs.2 = true := by
  intro gs hgs h
  rw [mineField.nbourSlots_eq M s hs] at hgs
  obtain ⟨d, -, rfl⟩ := List.mem_map.mp hgs
  exact h

theorem foldlM_some {α β : Type} (f : α → β → Option α) (g : α → β → α) :
    ∀ (l : List β), (∀ x ∈ l, ∀ a, f a x = some (g a x)) →
      ∀ a, l.foldlM f a = some (l.foldl g a) := by
  intro l
  induction l with
  | nil => intro _ a; rfl
  | cons x l ih =>
    intro h a
    rw [List.foldlM_cons, h x (List.mem_cons_self x l) a, List.foldl_cons]
    exact ih (fun y hy => h y (List.mem_cons_of_mem x hy)) (g a x)

theorem n_knownMinedNboursChecked_inside (P : mineFieldProbMap) (M : mineField) (s : square)
    (h : M.squareInsideMap s = true) :
    P.n_knownMinedNboursChecked M s = some (P.n_knownMinedNbours M s) := by
  simp only [n_knownMinedNboursChecked, squareExploredChecked_inside M s h, Option.some_bind,
    n_knownMinedNbours]
  apply foldlM_some
  intro gs hgs a
  by_cases hg : gs.1 = true
  · rw [if_pos hg, if_pos hg, squareMinedChecked_inside P M gs.2 (slots_inside M s h gs hgs hg)]
    rfl
  · rw [if_neg hg, if_neg hg]

theorem n_unknownMinedNboursChecked_inside (P : mineFieldProbMap) (M : mineField) (s : square)
    (h : M.squareInsideMap s = true) :
    P.n_unknownMinedNboursChecked M s = some (P.n_unknownMinedNbours M s) := by
  simp only [n_unknownMinedNboursChecked, squareExploredChecked_inside M s h, Option.some_bind,
    n_minedNboursChecked_inside M s h, n_knownMinedNboursChecked_inside P M s h,
    Option.map_some', n_unknownMinedNbours]

theorem n_unknownNboursChecked_inside (P : mineFieldProbMap) (M : mineField) (s : square)
    (h : M.squareInsideMap s = true) :
    P.n_unknownNboursChecked M s = some (P.n_unknownNbours M s) := by
  simp only [n_unknownNboursChecked, squareExploredChecked_inside M s h, Option.some_bind,
    n_unknownNbours]
  apply foldlM_some
  intro gs hgs a
  by_cases hg : gs.1 = true
  · rw [if_pos hg, if_pos hg, squareKnownChecked_inside P M gs.2 (slots_inside M s h gs hgs hg)]
    rfl
  · rw [if_neg hg, if_neg hg]

/-- For squares `s` and `n` inside the map, `squareMeetsCriteria` makes no
access outside the vectors. -/
theorem squareMeetsCriteriaChecked_inside (P : mineFieldProbMap) (M : mineField) (s n : square)
    (u W : unknownNboursSharedRec) (hs : M.squareInsideMap s = true)
    (hn : M.squareInsideMap n = true) :
    squareMeetsCriteriaChecked P M s n u W = some (squareMeetsCriteria P M s n u W) := by
  have hfold : (squaresAround s).foldlM
      (fun W t =>
        if M.squareInsideMap t then
          (P.squareKnownChecked M t).map fun k =>
            if !k && neighbours t n
            then W.addSquareToList ⟨t.row - s.row, t.col - s.col⟩ else W
        else some W) W
      = some ((squaresAround s).foldl
        (fun W t =>
          if M.squareInsideMap t && !P.squareKnown t && neighbours t n
          then W.addSquareToList ⟨t.row - s.row, t.col - s.col⟩ else W) W) := by
    apply foldlM_some
    intro t _ a
    by_cases ht : M.squareInsideMap t = true
    · rw [if_pos ht, squareKnownChecked_inside P M t ht, Option.map_some', ht, Bool.true_and]
    · rw [if_neg ht]
      simp only [Bool.not_eq_true] at ht
      rw [ht]
      rfl
  simp only [squareMeetsCriteriaChecked, squareExploredChecked_inside M s hs,
    squareExploredChecked_inside M n hn, Option.some_bind, hfold, Option.map_some']
  rfl

theorem updateUnkNbsSharedChecked_inside (P : mineFieldProbMap) (M : mineField)
    (u W : unknownNboursSharedRec) (s n : square) (hs : M.squareInsideMap s = true)
    (hn : M.squareInsideMap n = true) :
    updateUnkNbsSharedChecked P M u W s n = some (updateUnkNbsShared P M u W s n) := by
  simp only [updateUnkNbsSharedChecked, n_unknownNboursChecked_inside P M n hn,
    n_unknownNboursChecked_inside P M s hs, n_unknownMinedNboursChecked_inside P M n hn,
    n_unknownMinedNboursChecked_inside P M s hs, Option.some_bind, Option.map_some',
    updateUnkNbsShared]
  split_ifs <;> rfl

theorem findInRowChecked_succ (P : mineFieldProbMap) (M : mineField) (s : square)
    (u : unknownNboursSharedRec) (p : square) (nrow : Int) (fuel : Nat) (ncol : Int) :
    findInRowChecked P M s u p nrow (fuel + 1) ncol
      = if ncol ≤ min (s.col + 2) M.getWidth then
          if M.squareInsideMap ⟨nrow, jumpCol s p nrow ncol⟩ then
            (M.squareExploredChecked ⟨nrow, jumpCol s p nrow ncol⟩).bind fun e =>
              if e then
                (P.n_unknownNboursChecked M ⟨nrow, jumpCol s p nrow ncol⟩).bind fun k =>
                  if k ≠ 0 ∧ (⟨nrow, jumpCol s p nrow ncol⟩ : square) ≠ s then
                    (squareMeetsCriteriaChecked P M s ⟨nrow, jumpCol s p nrow ncol⟩ u
                      ⟨0, 0, ∅⟩).bind fun r =>
                      if r.1 then
                        (updateUnkNbsSharedChecked P M u r.2 s
                          ⟨nrow, jumpCol s p nrow ncol⟩).map fun u1 =>
                          some (u1, nextPos s ⟨nrow, jumpCol s p nrow ncol⟩,
                            ⟨nrow, jumpCol s p nrow ncol⟩)
                      else findInRowChecked P M s u p nrow fuel (jumpCol s p nrow ncol + 1)
                  else findInRowChecked P M s u p nrow fuel (jumpCol s p nrow ncol + 1)
              else findInRowChecked P M s u p nrow fuel (jumpCol s p nrow ncol + 1)
          else findInRowChecked P M s u p nrow fuel (jumpCol s p nrow ncol + 1)
        else some none := rfl

/-- For a square `s` inside the map the inner loop of `findAnotherSquare`
makes no access outside the vectors: with the bounds it returns what it
returns without them. -/
theorem findInRowChecked_eq (P : mineFieldProbMap) (M : mineField) (s : square)
    (hs : M.squareInsideMap s = true) (u : unknownNboursSharedRec) (p : square) (nrow : Int) :
    ∀ (fuel : Nat) (ncol : Int),
      findInRowChecked P M s u p nrow fuel ncol = findInRow P M s u p nrow fuel ncol := by
  intro fuel
  induction fuel with
  | zero => intro ncol; rfl
  | succ fuel ih =>
    intro ncol
    rw [findInRowChecked_succ, findInRow_succ]
    by_cases h1 : ncol ≤ min (s.col + 2) M.getWidth
    · rw [if_pos h1, if_pos h1]
      by_cases hin : M.squareInsideMap ⟨nrow, jumpCol s p nrow ncol⟩ = true
      · rw [if_pos hin, squareExploredChecked_inside M _ hin, Option.some_bind]
        by_cases he : M.squareExplored ⟨nrow, jumpCol s p nrow ncol⟩ = true
        · rw [if_pos he, n_unknownNboursChecked_inside P M _ hin, Option.some_bind]
          by_cases hk : P.n_unknownNbours M ⟨nrow, jumpCol s p nrow ncol⟩ ≠ 0 ∧
              (⟨nrow, jumpCol s p nrow ncol⟩ : square) ≠ s
          · rw [if_pos hk, squareMeetsCriteriaChecked_inside P M s _ u _ hs hin,
              Option.some_bind]
            by_cases hr : (squareMeetsCriteria P M s ⟨nrow, jumpCol s p nrow ncol⟩ u
                ⟨0, 0, ∅⟩).1 = true
            · rw [if_pos hr, updateUnkNbsSharedChecked_inside P M u _ s _ hs hin,
                Option.map_some', if_pos (by
                  simp only [accepts, hin, he, hr, Bool.and_self, Bool.true_and,
                    Bool.and_true, Bool.and_eq_true, decide_eq_true_eq]
                  exact hk)]
              rfl
            · rw [if_neg hr, if_neg (by
                intro ha
                simp only [accepts, Bool.and_eq_true] at ha
                exact hr ha.2)]
              exact ih _
          · rw [if_neg hk, if_neg (by
              intro ha
              simp only [accepts, Bool.and_eq_true, decide_eq_true_eq] at ha
              exact hk ⟨ha.1.1.2, ha.1.2⟩)]
            exact ih _
        · rw [if_neg he, if_neg (by
            intro ha
            simp only [accepts, Bool.and_eq_true] at ha
            exact he ha.1.1.1.2)]
          exact ih _
      · rw [if_neg hin, if_neg (by
          intro ha
          simp only [accepts, Bool.and_eq_true] at ha
          exact hin ha.1.1.1.1)]
        exact ih _
    · rw [if_neg h1, if_neg h1]

theorem findInRowsChecked_eq (P : mineFieldProbMap) (M : mineField) (s : square)
    (hs : M.squareInsideMap s = true) (u : unknownNboursSharedRec) (p : square) :
    ∀ (count : Nat) (nrow : Int),
      findInRowsChecked P M s u p count nrow = findInRows P M s u p count nrow := by
  intro count
  induction count with
  | zero => intro nrow; rfl
  | succ count ih =>
    intro nrow
    simp only [findInRowsChecked, findInRows, findInRowChecked_eq P M s hs u p nrow]
    cases findInRow P M s u p nrow 6 (max (s.col - 2) 0) with
    | none => rfl
    | some o =>
      cases o with
      | none => exact ih _
      | some r => rfl

theorem findAnotherSquareChecked_eq (P : mineFieldProbMap) (M : mineField) (s : square)
    (hs : M.squareInsideMap s = true) (u : unknownNboursSharedRec) (p : square) :
    P.findAnotherSquareChecked M s u p = P.findAnotherSquare M s u p := by
  simp only [findAnotherSquareChecked, findAnotherSquare]
  split_ifs
  · rfl
  · exact findInRowsChecked_eq P M s hs u p _ _

/-- C19: for every square `s` inside the map, whatever the size of the map,
the search makes no access to the grid or to the probability map outside
their vectors: with the bounds of the vectors, `findAnotherSquare` returns
what it returns without them, it returns from every start position of the
window, and so does `squareMeetsCriteria` for every square `n` inside the
map, the squares for which `findAnotherSquare` calls it.  The results do not
depend on what the grid and the probability map hold outside the map: they
are the same for any other grid of the same size and probability map that
agree with these inside the map.  When `s` is known, as every explored
square is during `update`, and no square of the five rows and columns
around `s` that is inside the map is eligible, `findAnotherSquare` returns
`false` from every start position of the window, and
`findAndApplyAllComplexTests` returns `false` and leaves the probability map
as it was. -/
theorem findAnotherSquare_clipped (P : mineFieldProbMap) (M : mineField) (s : square)
    (hs : M.squareInsideMap s = true) :
    (∀ (u : unknownNboursSharedRec) (p : square),
      P.findAnotherSquareChecked M s u p = P.findAnotherSquare M s u p) ∧
    (∀ (u : unknownNboursSharedRec) (p : square), WindowPos s p →
      ∃ r, P.findAnotherSquareChecked M s u p = some r) ∧
    (∀ (n : square) (u W : unknownNboursSharedRec), M.squareInsideMap n = true →
      squareMeetsCriteriaChecked P M s n u W = some (squareMeetsCriteria P M s n u W)) ∧
    (∀ (M1 : mineField) (P1 : mineFieldProbMap) (u : unknownNboursSharedRec) (p : square),
      AgreeInside M M1 P P1 → P1.findAnotherSquare M1 s u p = P.findAnotherSquare M s u p) ∧
    (∀ (M1 : mineField) (P1 : mineFieldProbMap) (n : square) (u W : unknownNboursSharedRec),
      AgreeInside M M1 P P1 →
        squareMeetsCriteria P1 M1 s n u W = squareMeetsCriteria P M s n u W) ∧
    (P.squareKnown s = true → ∀ (u : unknownNboursSharedRec) (p : square), WindowPos s p →
      (∀ n, InWindow M s n → eligible P M s n = false) →
        P.findAnotherSquareChecked M s u p = some none ∧
          P.findAnotherSquare M s u p = some none) ∧
    (P.squareKnown s = true → ∀ k : Int,
      (∀ n, InWindow M s n → eligible P M s n = false) →
        P.findAndApplyAllComplexTests M s k = some (false, P)) := by
  refine ⟨fun u p => findAnotherSquareChecked_eq P M s hs u p, fun u p hp => ?_,
    fun n u W hn => squareMeetsCriteriaChecked_inside P M s n u W hs hn,
    fun M1 P1 u p h => h.findAnotherSquareEq s hs u p,
    fun M1 P1 n u W h => h.meetsEq s n u W,
    fun hk u p hp h => ?_, fun hk k h => ?_⟩
  · rw [findAnotherSquareChecked_eq P M s hs u p]
    exact findAnotherSquare_total P M s u p hp.2.2.1
  · rw [findAnotherSquareChecked_eq P M s hs u p]
    exact ⟨findAnotherSquare_none P M s hk u p hp h, findAnotherSquare_none P M s hk u p hp h⟩
  · have h0 := findAnotherSquare_none P M s hk (unknownNboursSharedRec.reset ⟨0, 0, ∅⟩)
      ⟨s.row - 2, s.col - 2⟩ (windowPos_start s) h
    simp only [findAndApplyAllComplexTests, findFirst, h0]

theorem findAnotherSquare_clipped_witness :
    rowMap.findAnotherSquareChecked rowField ⟨0, 1⟩ ⟨0, 0, ∅⟩ ⟨-2, -1⟩ = some none ∧
    rowMap.findAndApplyAllComplexTests rowField ⟨0, 1⟩ 3 = some (false, rowMap) :=
  have h := findAnotherSquare_clipped rowMap rowField ⟨0, 1⟩ (by decide)
  ⟨(h.2.2.2.2.2.1 (by decide) ⟨0, 0, ∅⟩ ⟨-2, -1⟩ (by unfold WindowPos; decide)
      (eligible_none_of_all rowMap rowField ⟨0, 1⟩ (by decide))).1,
    h.2.2.2.2.2.2 (by decide) 3 (eligible_none_of_all rowMap rowField ⟨0, 1⟩ (by decide))⟩

/-- With the bounds of the vectors an access outside them is seen: on
`rowField`, of one row and three columns, the accessors return nothing for
the column 3 and for the row 1, and so does the search for a square `s`
outside the map; for the square `(0, 2)`, which is inside the map, the
search finds the square `(0, 1)`. -/
theorem checked_outside :
    rowField.squareExploredChecked ⟨0, 3⟩ = none ∧
    rowMap.squareKnownChecked rowField ⟨1, 1⟩ = none ∧
    (blankMap.findAnotherSquareChecked rowField ⟨0, 3⟩ ⟨0, 0, ∅⟩ ⟨-2, 1⟩).isNone = true ∧
    (blankMap.findAnotherSquareChecked rowField ⟨0, 2⟩ ⟨0, 0, ∅⟩ ⟨-2, 0⟩).map
      (Option.map fun r => r.2.2) = some (some ⟨0, 1⟩) := by
  decide

end mineFieldProbMap

end minesweeper

/-! ## The grid: what `explore` keeps, and why it ends -/

namespace minesweeper

open mineFieldProbMap (neighbours exactCounts_of_all exact_of_counts)

namespace mineField

theorem exactCounts_of_exact (M : mineField) (h : M.Exact) : M.ExactCounts := by
  intro t ht hx
  refine ⟨(h t ht hx).1, ?_⟩
  rw [n_minedNbours, (h t ht hx).2, M.countMinedNbours_eq_minedAround t ht]

/-- C21: if every explored square is unmined and holds the exact number of
its mined neighbours inside the map, then `explore(s)` returns and the same
holds of the state it leaves, in which the mines are where they were: the
squares explored by the call and by the calls it makes through
`exploreNbours` are unmined and hold their exact counts. -/
theorem explore_exact (M : mineField) (s : square) (hs : M.squareInsideMap s = true)
    (hE : M.ExactCounts) :
    ∃ r, M.explore s = some r ∧ r.2.ExactCounts ∧ r.2.map = M.map := by
  obtain ⟨r, hr⟩ := explore_some M s hs
  have hF := (explore_frame _ M s r hs hr).1
  exact ⟨r, hr, exactCounts_of_exact _ (exact_frame hF (exact_of_counts M hE)), hF.2.2.2.1⟩

theorem explore_exact_witness :
    ∃ r, freshField.explore ⟨0, 0⟩ = some r ∧ r.2.ExactCounts ∧ r.2.map = freshField.map :=
  explore_exact freshField ⟨0, 0⟩ (by decide) (exactCounts_of_all freshField (by decide))

theorem exploredCells_flag (M : mineField) (c : square) (hc : M.squareExplored c = false) :
    (M.flagSquare c).exploredCells = M.exploredCells := by
  simp only [exploredCells]
  have hcells : (M.flagSquare c).cells = M.cells := rfl
  rw [hcells]
  apply Finset.filter_congr
  intro rc _
  by_cases h : ((rc.1 : Int) = c.row ∧ (rc.2 : Int) = c.col)
  · have e : (⟨(rc.1 : Int), (rc.2 : Int)⟩ : square) = c := by
      cases c; simp only [square.mk.injEq]; exact h
    rw [e, hc]
    simp [flagSquare, squareExplored, setCell]
  · simp [flagSquare, squareExplored, setCell, h]

/-- C22, as the claim states it, fails: after `explore` of the square
`(0, 1)` of a reset grid `squaresExplored` is 1 and one square is explored;
after `flagSquare` of that square `squaresExplored` is still 1 and no
square is explored. -/
theorem explored_count_counterexample :
    (freshRow.explore ⟨0, 1⟩).map (fun r =>
        (r.2.squaresExplored, r.2.exploredCells.card,
          (r.2.flagSquare ⟨0, 1⟩).squaresExplored, (r.2.flagSquare ⟨0, 1⟩).exploredCells.card))
      = some (1, 1, 1, 0) := by
  decide

/-- C22, amended: `squaresExplored` is the number of explored squares of
the map after `reset`; if it is before `explore(s)`, the call returns and it
is after it, and the same holds of every call that `explore` makes of
itself through `exploreNbours`; if it is before `flagSquare(c)` of a
square that is not explored, it is after it. -/
theorem explored_count (M : mineField) :
    (∀ mines, (M.reset mines).squaresExplored = ((M.reset mines).exploredCells.card : Int)) ∧
    (∀ s, M.squareInsideMap s = true → M.squaresExplored = (M.exploredCells.card : Int) →
      ∃ r, M.explore s = some r ∧ r.2.squaresExplored = (r.2.exploredCells.card : Int)) ∧
    (∀ (fuel : Nat) (s : square) (r : Bool × mineField), M.squareInsideMap s = true →
      M.squaresExplored = (M.exploredCells.card : Int) → exploreFuel fuel M s = some r →
      r.2.squaresExplored = (r.2.exploredCells.card : Int)) ∧
    (∀ c, M.squareExplored c = false → M.squaresExplored = (M.exploredCells.card : Int) →
      (M.flagSquare c).squaresExplored = ((M.flagSquare c).exploredCells.card : Int)) := by
  refine ⟨fun mines => counted_reached (Reached.fresh M mines), fun s hs h => ?_,
    fun fuel s r hs h hr => ?_, fun c hc h => ?_⟩
  · obtain ⟨r, hr⟩ := explore_some M s hs
    have := (explore_count _ M s r hs hr).2
    exact ⟨r, hr, by omega⟩
  · have := (explore_count fuel M s r hs hr).2
    omega
  · rw [exploredCells_flag M c hc]
    exact h

theorem exploreNbours_total (M : mineField) (s : square) (hs : M.squareInsideMap s = true) :
    ∃ M1, M.exploreNbours s = some M1 := by
  rw [exploreNbours, exploreNboursWith_eq]
  exact foldlM_total Frame (fun _ _ _ => Frame.andThen)
    (fun M1 t => (exploreFuel (M.height * M.width + 1) M1 t).map Prod.snd) (nbours M s) M
    (fun a x ha hx => by
      have hxin : a.squareInsideMap x = true := by
        rw [ha.inside]
        exact ((mem_nbours M s x hs).mp hx).1
      have hle := Finset.card_le_card (candidates_subset ha)
      have hb := candidates_card_le M
      obtain ⟨r, hr⟩ := explore_total (M.height * M.width + 1) a x hxin (by omega)
      exact ⟨r.2, by simp [hr], (explore_frame _ a x r hxin hr).1⟩) M (Frame.same M)

/-- C23: for every state of the grid and every square `s` inside the map,
`explore(s)` and `exploreNbours(s)` return.  The reason: a call of
`explore` that goes on to `exploreNbours` has first made `s`, which was
neither explored nor flagged, an explored square, so that fewer such squares
are left, and a call on a square that is explored or flagged returns at
once and leaves the grid as it was. -/
theorem explore_terminates (M : mineField) (s : square) (hs : M.squareInsideMap s = true) :
    (∃ r, M.explore s = some r) ∧ (∃ M1, M.exploreNbours s = some M1) ∧
    (∀ fuel : Nat, M.squareMined s = false → M.squareExplored s = false →
      M.squareFlagged s = false → M.countMinedNbours s = 0 →
      exploreFuel (fuel + 1) M s
          = (exploreNboursWith (exploreFuel fuel)
              ({ M with squaresExplored := M.squaresExplored + 1,
                        expMap := setCell M.expMap s.row s.col (M.countMinedNbours s) }
                : mineField) s).map (fun M3 => (true, M3)) ∧
        ({ M with squaresExplored := M.squaresExplored + 1,
                  expMap := setCell M.expMap s.row s.col (M.countMinedNbours s) }
          : mineField).squareExplored s = true ∧
        (candidates ({ M with squaresExplored := M.squaresExplored + 1,
                              expMap := setCell M.expMap s.row s.col (M.countMinedNbours s) }
          : mineField)).card < M.candidates.card) ∧
    (∀ fuel : Nat, M.squareExplored s = true ∨ M.squareFlagged s = true →
      exploreFuel (fuel + 1) M s = some (!M.squareMined s, M)) := by
  refine ⟨explore_some M s hs, exploreNbours_total M s hs, fun fuel hm hx hf hz => ?_,
    fun fuel h => ?_⟩
  · refine ⟨?_, explored_mark M s _, candidates_mark M s _ hs hm hx hf⟩
    rw [exploreFuel_succ]
    simp [hm, hx, hf, n_minedNbours, setCell, hz]
  · rw [exploreFuel_succ]
    cases hm : M.squareMined s with
    | true => simp
    | false =>
      have : (!M.squareExplored s && !M.squareFlagged s) = false := by
        rcases h with h | h <;> simp [h]
      simp [this]

theorem explore_terminates_witness :
    (∃ r, freshField.explore ⟨0, 0⟩ = some r) ∧
      (∃ M1, freshField.exploreNbours ⟨0, 0⟩ = some M1) :=
  ⟨(explore_terminates freshField ⟨0, 0⟩ (by decide)).1,
    (explore_terminates freshField ⟨0, 0⟩ (by decide)).2.1⟩

theorem nbourOffsets_eq : nbourOffsets = offsets8 := by decide

/-- C24: for every square `s` inside the map, whatever the size of the map,
`countMinedNbours(s)` is the number of the eight offsets `(dr, dc)` other
than `(0, 0)`, with `dr` and `dc` in `{-1, 0, 1}`, that lead from `s` to a
mined square inside the map; it lies between 0 and 8. -/
theorem countMinedNbours_spec (M : mineField) (s : square) (hs : M.squareInsideMap s = true) :
    M.countMinedNbours s = (M.minedNbourCount s : Int) ∧
      0 ≤ M.countMinedNbours s ∧ M.countMinedNbours s ≤ 8 := by
  have h : M.countMinedNbours s = (M.minedNbourCount s : Int) := by
    rw [countMinedNbours_eq, nbours_eq M s hs, minedNbourCount, nbourOffsets_eq,
      List.countP_eq_length_filter, List.filter_filter, List.filter_map, List.length_map]
    congr 3
    funext d
    exact Bool.and_comm _ _
  refine ⟨h, by rw [h]; exact Int.ofNat_nonneg _, ?_⟩
  rw [h, minedNbourCount, nbourOffsets_eq]
  have := List.length_filter_le
    (fun d : Int × Int => M.squareInsideMap ⟨s.row + d.1, s.col + d.2⟩ &&
      M.squareMined ⟨s.row + d.1, s.col + d.2⟩) offsets8
  have h8 : offsets8.length = 8 := rfl
  omega

theorem countMinedNbours_spec_witness :
    rowField.countMinedNbours ⟨0, 1⟩ = (rowField.minedNbourCount ⟨0, 1⟩ : Int) ∧
      0 ≤ rowField.countMinedNbours ⟨0, 1⟩ ∧ rowField.countMinedNbours ⟨0, 1⟩ ≤ 8 :=
  countMinedNbours_spec rowField ⟨0, 1⟩ (by decide)

end mineField

end minesweeper

/-! ## The records of the search: bounds and lists -/

namespace minesweeper

namespace mineFieldProbMap

open unknownNboursSharedRec Relation

/-- C25: on a grid whose explored squares hold exact counts and a sound
probability map, for an explored square `s` of the map that the probability
map knows, as it knows every explored square when `update` makes the search,
and every record built for `s` from squares that the search accepts, the
list holds neighbours of `s` that are not known, and the number of mined
squares among them is at least `minMines` and at most `maxMines`. -/
theorem interval_sound (P : mineFieldProbMap) (M : mineField) (s : square)
    (hE : M.ExactCounts) (hS : Sound M P)
    (hs : M.squareInsideMap s = true) (hx : M.squareExplored s = true)
    (hk : P.squareKnown s = true)
    (u : unknownNboursSharedRec) (h : Built P M s u) :
    u.list ⊆ P.unknownBits M s ∧ u.minMines ≤ (minesIn M s u.list : Int) ∧
      (minesIn M s u.list : Int) ≤ u.maxMines :=
  built_sound P M s hs hx (exact_of_counts M hE) hS hk u h

theorem interval_sound_witness :
    (accepted ledgeMap ledgeField ⟨1, 1⟩ ⟨0, 0, ∅⟩ ⟨1, 0⟩).1.list
        ⊆ ledgeMap.unknownBits ledgeField ⟨1, 1⟩ ∧
      (accepted ledgeMap ledgeField ⟨1, 1⟩ ⟨0, 0, ∅⟩ ⟨1, 0⟩).1.minMines
        ≤ (minesIn ledgeField ⟨1, 1⟩
            (accepted ledgeMap ledgeField ⟨1, 1⟩ ⟨0, 0, ∅⟩ ⟨1, 0⟩).1.list : Int) ∧
      (minesIn ledgeField ⟨1, 1⟩
          (accepted ledgeMap ledgeField ⟨1, 1⟩ ⟨0, 0, ∅⟩ ⟨1, 0⟩).1.list : Int)
        ≤ (accepted ledgeMap ledgeField ⟨1, 1⟩ ⟨0, 0, ∅⟩ ⟨1, 0⟩).1.maxMines :=
  interval_sound ledgeMap ledgeField ⟨1, 1⟩ (exactCounts_of_all ledgeField (by decide))
    (sound_of_all ledgeField ledgeMap (by decide)) (by decide) (by decide) (by decide) _
    (Built.add (unknownNboursSharedRec.reset ⟨0, 0, ∅⟩) ⟨1, 0⟩ (Built.fresh _) (by decide)
      (by decide) (by decide) (by decide) (by decide))

/-- The record that `squareMeetsCriteria` fills does not depend on the
record of the squares found before. -/
theorem squareMeetsCriteria_snd (P : mineFieldProbMap) (M : mineField) (s n : square)
    (u u1 W : unknownNboursSharedRec) :
    (squareMeetsCriteria P M s n u W).2 = (squareMeetsCriteria P M s n u1 W).2 := by
  simp only [squareMeetsCriteria]
  rw [meets_aux_snd, meets_aux_snd]

theorem accepted_list (P : mineFieldProbMap) (M : mineField) (s n : square)
    (u : unknownNboursSharedRec) :
    (accepted P M s u n).1.list = u.list ∪ contributed P M s n := by
  simp only [accepted, updateUnkNbsShared_list, contributed]
  rw [squareMeetsCriteria_snd P M s n u ⟨0, 0, ∅⟩]

theorem accepts_contributed (P : mineFieldProbMap) (M : mineField) (s n : square)
    (u : unknownNboursSharedRec) (h : accepts P M s u n = true) :
    (contributed P M s n).Nonempty ∧ Disjoint (contributed P M s n) u.list := by
  simp only [accepts, Bool.and_eq_true] at h
  have h1 := squareMeetsCriteria_true P M s n u ⟨0, 0, ∅⟩ h.2
  rw [squareMeetsCriteria_snd P M s n u ⟨0, 0, ∅⟩] at h1
  exact ⟨Finset.nonempty_iff_ne_empty.mpr h1.1, h1.2⟩

theorem contributed_known (P : mineFieldProbMap) (M : mineField) (s n : square)
    (hk : P.squareKnown s = true) : contributed P M s n = P.sharedBits M s n := by
  rw [contributed, squareMeetsCriteria_list P M s n _ _ hk, Finset.empty_union]

/-- C26: for the squares `ns` found and the record `u` obtained by `reset()`
and calls of `findAnotherSquare` for `s` that return `true`, the lists that
the squares of `ns` contributed are disjoint from one another and none is
empty; the list of `u` is their union and the count of `u` is the sum of
their sizes; a further call that returns `true` adds a list that is
disjoint from the list of `u`, as `addSquaresToList` asserts.  When `s` is
known, as every explored square is during `update`, the list contributed
by a square is the set of the unknown neighbours of `s` that it touches. -/
theorem searched_disjoint (P : mineFieldProbMap) (M : mineField) (s : square)
    (ns : List square) (u : unknownNboursSharedRec) (h : Searched P M s ns u) :
    ns.Pairwise (fun a b => Disjoint (contributed P M s a) (contributed P M s b)) ∧
    (∀ n ∈ ns, (contributed P M s n).Nonempty) ∧
    (∀ k, k ∈ u.list ↔ ∃ n ∈ ns, k ∈ contributed P M s n) ∧
    u.getCount = (((ns.map fun n => (contributed P M s n).card).sum : Nat) : Int) ∧
    (∀ (p : square) (r : unknownNboursSharedRec × square × square),
      P.findAnotherSquare M s u p = some (some r) →
        Disjoint u.list (contributed P M s r.2.2) ∧
          r.1.list = u.list ∪ contributed P M s r.2.2) ∧
    (P.squareKnown s = true → ∀ n ∈ ns, contributed P M s n = P.sharedBits M s n) := by
  have key : ns.Pairwise (fun a b => Disjoint (contributed P M s a) (contributed P M s b)) ∧
      (∀ n ∈ ns, (contributed P M s n).Nonempty) ∧
      (∀ k, k ∈ u.list ↔ ∃ n ∈ ns, k ∈ contributed P M s n) ∧
      u.getCount = (((ns.map fun n => (contributed P M s n).card).sum : Nat) : Int) := by
    induction h with
    | fresh u =>
      refine ⟨List.Pairwise.nil, fun n hn => absurd hn (List.not_mem_nil n), fun k => ?_, ?_⟩
      · simp [unknownNboursSharedRec.reset]
      · simp [unknownNboursSharedRec.reset, getCount]
    | found ns u p r _ hf ih =>
      obtain ⟨i1, i2, i3, i4⟩ := ih
      obtain ⟨ha, hr⟩ := findAnotherSquare_accepts P M s u p r hf
      obtain ⟨hne, hd⟩ := accepts_contributed P M s r.2.2 u ha
      have hl : r.1.list = u.list ∪ contributed P M s r.2.2 := by
        rw [hr]; exact accepted_list P M s r.2.2 u
      refine ⟨List.pairwise_cons.mpr ⟨fun m hm => ?_, i1⟩, fun n hn => ?_, fun k => ?_, ?_⟩
      · rw [Finset.disjoint_left] at hd ⊢
        intro k hk hkm
        exact hd hk ((i3 k).mpr ⟨m, hm, hkm⟩)
      · rcases List.mem_cons.mp hn with e | hn
        · rw [e]; exact hne
        · exact i2 n hn
      · rw [hl, Finset.mem_union, i3 k]
        constructor
        · rintro (⟨n, hn, hk⟩ | hk)
          · exact ⟨n, List.mem_cons_of_mem _ hn, hk⟩
          · exact ⟨r.2.2, List.mem_cons_self _ _, hk⟩
        · rintro ⟨n, hn, hk⟩
          rcases List.mem_cons.mp hn with e | hn
          · right; rw [← e]; exact hk
          · exact Or.inl ⟨n, hn, hk⟩
      · have hc : r.1.list.card = u.list.card + (contributed P M s r.2.2).card := by
          rw [hl, Finset.card_union_of_disjoint hd.symm]
        simp only [getCount] at i4 ⊢
        rw [hc, List.map_cons, List.sum_cons]
        push_cast
        push_cast at i4
        omega
  refine ⟨key.1, key.2.1, key.2.2.1, key.2.2.2, fun p r hf => ?_, fun hk n _ => ?_⟩
  · obtain ⟨ha, hr⟩ := findAnotherSquare_accepts P M s u p r hf
    refine ⟨(accepts_contributed P M s r.2.2 u ha).2.symm, ?_⟩
    rw [hr]; exact accepted_list P M s r.2.2 u
  · exact contributed_known P M s n hk

theorem searched_disjoint_witness :
    contributed shelfMap shelfField ⟨1, 2⟩ ⟨1, 0⟩ = {0} ∧
    contributed shelfMap shelfField ⟨1, 2⟩ ⟨1, 3⟩ = {1, 2} ∧
    ([⟨1, 3⟩, ⟨1, 0⟩] : List square).Pairwise
        (fun a b => Disjoint (contributed shelfMap shelfField ⟨1, 2⟩ a)
          (contributed shelfMap shelfField ⟨1, 2⟩ b)) ∧
      (∀ n ∈ ([⟨1, 3⟩, ⟨1, 0⟩] : List square),
        (contributed shelfMap shelfField ⟨1, 2⟩ n).Nonempty) ∧
      (accepted shelfMap shelfField ⟨1, 2⟩
          (accepted shelfMap shelfField ⟨1, 2⟩ ⟨0, 0, ∅⟩ ⟨1, 0⟩).1 ⟨1, 3⟩).1.getCount
        = (((([⟨1, 3⟩, ⟨1, 0⟩] : List square).map
            fun n => (contributed shelfMap shelfField ⟨1, 2⟩ n).card).sum : Nat) : Int) :=
  have h := searched_disjoint shelfMap shelfField ⟨1, 2⟩ [⟨1, 3⟩, ⟨1, 0⟩]
    (accepted shelfMap shelfField ⟨1, 2⟩
      (accepted shelfMap shelfField ⟨1, 2⟩ ⟨0, 0, ∅⟩ ⟨1, 0⟩).1 ⟨1, 3⟩).1
    (Searched.found [⟨1, 0⟩] (accepted shelfMap shelfField ⟨1, 2⟩ ⟨0, 0, ∅⟩ ⟨1, 0⟩).1
      (accepted shelfMap shelfField ⟨1, 2⟩ ⟨0, 0, ∅⟩ ⟨1, 0⟩).2.1
      (accepted shelfMap shelfField ⟨1, 2⟩
        (accepted shelfMap shelfField ⟨1, 2⟩ ⟨0, 0, ∅⟩ ⟨1, 0⟩).1 ⟨1, 3⟩)
      (Searched.found [] (unknownNboursSharedRec.reset ⟨0, 0, ∅⟩) ⟨-1, 0⟩
        (accepted shelfMap shelfField ⟨1, 2⟩ ⟨0, 0, ∅⟩ ⟨1, 0⟩) (Searched.fresh _) (by rfl))
      (by rfl))
  ⟨by decide, by decide, h.1, h.2.1, h.2.2.2.1⟩

/-! ## The state that `update` leaves -/

theorem sweep_true (M : mineField) (l : List square) :
    ∀ st : Bool × mineFieldProbMap, st.1 = true →
      (l.foldl
        (fun st s =>
          if M.squareExplored s && decide (st.2.n_unknownNbours M s ≠ 0) then
            let r := st.2.applySimpleTests M s
            if r.1 then (true, r.2) else (st.1, r.2)
          else st) st).1 = true := by
  induction l with
  | nil => intro st h; exact h
  | cons a l ih =>
    intro st h
    rw [List.foldl_cons]
    apply ih
    dsimp only
    split_ifs <;> first | rfl | exact h

theorem sweep_false (M : mineField) (l : List square) :
    ∀ st : Bool × mineFieldProbMap,
      (l.foldl
        (fun st s =>
          if M.squareExplored s && decide (st.2.n_unknownNbours M s ≠ 0) then
            let r := st.2.applySimpleTests M s
            if r.1 then (true, r.2) else (st.1, r.2)
          else st) st).1 = false →
      ∀ s ∈ l, M.squareExplored s = true → st.2.n_unknownNbours M s ≠ 0 →
        (st.2.applySimpleTests M s).1 = false := by
  induction l with
  | nil => intro st _ s hs; exact absurd hs (List.not_mem_nil s)
  | cons a l ih =>
    intro st h s hs hx hn
    rw [List.foldl_cons] at h
    by_cases hc : (M.squareExplored a && decide (st.2.n_unknownNbours M a ≠ 0)) = true
    · cases hr : (st.2.applySimpleTests M a).1 with
      | true =>
        rw [if_pos hc] at h
        dsimp only at h
        rw [if_pos hr] at h
        rw [sweep_true M l _ rfl] at h
        cases h
      | false =>
        rw [if_pos hc] at h
        dsimp only at h
        rw [if_neg (by rw [hr]; simp), applySimpleTests_false st.2 M a hr] at h
        rcases List.mem_cons.mp hs with e | hs1
        · rw [e]; exact hr
        · exact ih (st.1, st.2) h s hs1 hx hn
    · rw [if_neg hc] at h
      rcases List.mem_cons.mp hs with e | hs1
      · exfalso
        apply hc
        rw [← e, hx]
        simpa using hn
      · exact ih st h s hs1 hx hn

theorem simpleLoop_fixed (M : mineField) :
    ∀ (fuel : Nat) (P : mineFieldProbMap) (c : Bool) (r : mineFieldProbMap × Bool),
      simpleLoop M fuel P c = some r → r.1.applySimpleTestsToAllSquares M = (false, r.1) := by
  intro fuel
  induction fuel with
  | zero => intro P c r h; simp [simpleLoop] at h
  | succ fuel ih =>
    intro P c r h
    simp only [simpleLoop] at h
    cases hr : (P.applySimpleTestsToAllSquares M).1 with
    | true =>
      simp only [hr, if_true] at h
      exact ih _ true r h
    | false =>
      simp only [hr, Bool.false_eq_true, if_false, Option.some.injEq] at h
      subst h
      have h2 := (sweep_spec P M).2.1 hr
      dsimp only
      rw [h2]
      exact Prod.ext hr h2

theorem updateLoop_fixed (M : mineField) :
    ∀ (fuel : Nat) (P : mineFieldProbMap) (c : Bool) (r : Bool × mineFieldProbMap),
      updateLoop M fuel P c = some r →
      r.2.applySimpleTestsToAllSquares M = (false, r.2) ∧
      r.2.applyComplexTestsUntilSuccess M 1 = some (false, r.2) ∧
      r.2.applyComplexTestsUntilSuccess M 2 = some (false, r.2) ∧
      r.2.applyComplexTestsUntilSuccess M 3 = some (false, r.2) := by
  intro fuel
  induction fuel with
  | zero => intro P c r h; simp [updateLoop] at h
  | succ fuel ih =>
    intro P c r h
    rw [updateLoop_succ] at h
    cases hs : simpleLoop M (fuel + 1) P c with
    | none => rw [hs] at h; cases h
    | some x =>
      obtain ⟨P1, c1⟩ := x
      have hfix := simpleLoop_fixed M _ P c (P1, c1) hs
      rw [hs] at h
      dsimp only at h hfix
      cases e1 : P1.applyComplexTestsUntilSuccess M 1 with
      | none => rw [e1] at h; cases h
      | some r1 =>
        rw [e1] at h
        dsimp only at h
        cases e2 : (if !r1.1 then r1.2.applyComplexTestsUntilSuccess M 2 else some r1) with
        | none => rw [e2] at h; cases h
        | some r2 =>
          rw [e2] at h
          dsimp only at h
          cases e3 : (if !r2.1 then r2.2.applyComplexTestsUntilSuccess M 3 else some r2) with
          | none => rw [e3] at h; cases h
          | some r3 =>
            rw [e3] at h
            dsimp only at h
            cases h3 : r3.1 with
            | true =>
              simp only [h3, if_true] at h
              exact ih r3.2 true r h
            | false =>
              simp only [h3, Bool.false_eq_true, if_false, Option.some.injEq] at h
              subst h
              dsimp only
              -- no pass succeeded, so each left the map as it was
              have o1 := applyComplexTestsUntilSuccess_spec P1 M 1 r1 e1
              have h1 : r1.1 = false ∧ r1.2 = P1 := by
                rcases o1 with o | ⟨ht, -⟩
                · exact o
                · exfalso
                  simp only [ht, Bool.not_true, Bool.false_eq_true, if_false,
                    Option.some.injEq] at e2
                  subst e2
                  simp only [ht, Bool.not_true, Bool.false_eq_true, if_false,
                    Option.some.injEq] at e3
                  subst e3
                  rw [ht] at h3
                  cases h3
              simp only [h1.1, h1.2, Bool.not_false, if_true] at e2
              have o2 := applyComplexTestsUntilSuccess_spec P1 M 2 r2 e2
              have h2 : r2.1 = false ∧ r2.2 = P1 := by
                rcases o2 with o | ⟨ht, -⟩
                · exact o
                · exfalso
                  simp only [ht, Bool.not_true, Bool.false_eq_true, if_false,
                    Option.some.injEq] at e3
                  subst e3
                  rw [ht] at h3
                  cases h3
              simp only [h2.1, h2.2, Bool.not_false, if_true] at e3
              have o3 := applyComplexTestsUntilSuccess_spec P1 M 3 r3 e3
              have h4 : r3.2 = P1 := by
                rcases o3 with o | ⟨ht, -⟩
                · exact o.2
                · rw [ht] at h3; cases h3
              have q1 : r1 = (false, P1) := Prod.ext h1.1 h1.2
              have q2 : r2 = (false, P1) := Prod.ext h2.1 h2.2
              have q3 : r3 = (false, P1) := Prod.ext h3 h4
              rw [h4]
              rw [q1] at e1
              rw [q2] at e2
              rw [q3] at e3
              exact ⟨hfix, e1, e2, e3⟩

/-- C29: `update` returns, and in the probability map that it leaves no
test succeeds: a sweep of simple tests returns `false`; for every explored
square of the map with a neighbour that is not known, its unknown mines are
neither none nor as many as its unknown neighbours; and
`applyComplexTestsUntilSuccess` with one, two and three other squares
returns `false` and leaves the map as it is. -/
theorem update_fixpoint (P : mineFieldProbMap) (M : mineField) :
    ∃ b P1, P.update M = some (b, P1) ∧
      P1.applySimpleTestsToAllSquares M = (false, P1) ∧
      (∀ s, M.squareInsideMap s = true → M.squareExplored s = true →
        P1.unknownAround M s ≠ 0 →
        P1.unknownMinedAround M s ≠ 0 ∧
          P1.unknownMinedAround M s ≠ (P1.unknownAround M s : Int)) ∧
      P1.applyComplexTestsUntilSuccess M 1 = some (false, P1) ∧
      P1.applyComplexTestsUntilSuccess M 2 = some (false, P1) ∧
      P1.applyComplexTestsUntilSuccess M 3 = some (false, P1) := by
  obtain ⟨b, P1, h, -⟩ := update_spec P M
  obtain ⟨f0, f1, f2, f3⟩ := updateLoop_fixed M _ _ _ _ h
  dsimp only at f0 f1 f2 f3
  refine ⟨b, P1, h, f0, fun s hs hx hn => ?_, f1, f2, f3⟩
  have e1 := n_unknownMinedNbours_around P1 M s hs
  have e2 := n_unknownNbours_around P1 M s hs
  have hsw : (P1.applySimpleTestsToAllSquares M).1 = false := by rw [f0]
  have hf := sweep_false M (allSquares M) (false, P1) hsw s ((mem_allSquares M s).mpr hs) hx
    (by rw [e2]; exact_mod_cast hn)
  dsimp only at hf
  simp only [applySimpleTests, e1, e2] at hf
  split_ifs at hf with h1 h2
  exact ⟨h2, h1⟩

/-- C30: for every square `s` inside the map with a neighbour that is not
known, `applySimpleTests(s)` returns the same value and leaves the same
probability map as `applyComplexTests(s, A)` for a record `A` just reset;
and `setProbsOfUnknownNbours(s, p)` leaves the same map as
`setProbsOfUnknownNboursNotShared(s, L, p)` for the empty list `L`. -/
theorem simple_is_complex (P : mineFieldProbMap) (M : mineField) (s : square)
    (hs : M.squareInsideMap s = true) (hn : P.unknownAround M s ≠ 0) :
    (∀ A : unknownNboursSharedRec, P.applySimpleTests M s = P.applyComplexTests M s A.reset) ∧
    (∀ p : Int, P.setProbsOfUnknownNbours M s p
      = P.setProbsOfUnknownNboursNotShared M s ∅ p) := by
  refine ⟨fun A => ?_, fun p => setProbsOfUnknownNbours_eq P M s hs p⟩
  have e2 := n_unknownNbours_around P M s hs
  have hne : P.n_unknownNbours M s ≠ 0 := by rw [e2]; exact_mod_cast hn
  simp only [applySimpleTests, applyComplexTests, unknownNboursSharedRec.reset, getMaxMines,
    getMinMines, getCount, getList, Finset.card_empty, Nat.cast_zero, sub_zero,
    setProbsOfUnknownNbours_eq P M s hs]
  rw [if_pos hne]

theorem simple_is_complex_witness :
    cornerMap.applySimpleTests cornerField ⟨0, 0⟩
      = cornerMap.applyComplexTests cornerField ⟨0, 0⟩
          (unknownNboursSharedRec.reset ⟨0, 0, ∅⟩) :=
  (simple_is_complex cornerMap cornerField ⟨0, 0⟩ (by decide) (by decide)).1 ⟨0, 0, ∅⟩

end mineFieldProbMap

end minesweeper

/-! ## The search returns the first square that it accepts -/

namespace minesweeper

namespace mineFieldProbMap

open unknownNboursSharedRec

theorem before_irrefl (a : square) : ¬before a a := by
  simp only [before]
  omega

theorem before_trans {a b c : square} (h1 : before a b) (h2 : before b c) : before a c := by
  simp only [before] at *
  omega

theorem before_total (a b : square) : before a b ∨ a = b ∨ before b a := by
  obtain ⟨ar, ac⟩ := a
  obtain ⟨br, bc⟩ := b
  simp only [before, square.mk.injEq]
  omega

theorem atOrAfter_before {p a b : square} (h1 : atOrAfter p a) (h2 : before a b) :
    atOrAfter p b := by
  simp only [before, atOrAfter] at *
  omega

theorem atOrAfter_nextPos (s n m : square) (hn : n.col ≤ s.col + 2)
    (h1 : s.col - 2 ≤ m.col) (h2 : m.col ≤ s.col + 2) :
    atOrAfter (nextPos s n) m ↔ before n m := by
  simp only [nextPos]
  split_ifs <;> simp only [atOrAfter, before] <;> constructor <;> intro h <;> omega

theorem atOrAfter_start (M : mineField) (s m : square) (hm : InWindow M s m) :
    atOrAfter ⟨s.row - 2, s.col - 2⟩ m := by
  obtain ⟨-, h1, h2, h3, h4⟩ := hm
  simp only [atOrAfter]
  omega

/-- Where `findAnotherSquare` finds a square, and the start position that it
leaves. -/
theorem findAnotherSquare_at (P : mineFieldProbMap) (M : mineField) (s : square)
    (u : unknownNboursSharedRec) (p : square) (hp : WindowPos s p)
    (r : unknownNboursSharedRec × square × square)
    (h : findAnotherSquare P M s u p = some (some r)) :
    atOrAfter p r.2.2 ∧ r.2.1 = nextPos s r.2.2 := by
  simp only [findAnotherSquare] at h
  split_ifs at h with h0
  · simp at h
  · obtain ⟨e1, -, -, -, e5, e6⟩ := findInRows_pos P M s u p hp _ p.row r (le_refl _)
      (by
        have := hp.1
        rcases le_total (s.row + 2) M.getHeight with hm | hm
        · rw [min_eq_left hm]; omega
        · rw [min_eq_right hm]; omega) h
    refine ⟨?_, e6⟩
    simp only [atOrAfter]
    rcases eq_or_lt_of_le e1 with e | e
    · exact Or.inr ⟨e, e5 e.symm⟩
    · exact Or.inl e

/-- The squares of a row that `findInRow` passes over are not accepted. -/
theorem findInRow_first (P : mineFieldProbMap) (M : mineField) (s : square)
    (u : unknownNboursSharedRec) (p : square) (nrow : Int) (hp : WindowPos s p) :
    ∀ (fuel : Nat) (ncol : Int) (o : Option (unknownNboursSharedRec × square × square)),
      max (s.col - 2) 0 ≤ ncol → (nrow = p.row → ncol = max (s.col - 2) 0 ∨ p.col < ncol) →
      findInRow P M s u p nrow fuel ncol = some o →
      ∀ c : Int, ncol ≤ c → c ≤ min (s.col + 2) M.getWidth → (nrow = p.row → p.col ≤ c) →
        (∀ r, o = some r → c < r.2.2.col) → accepts P M s u ⟨nrow, c⟩ = false := by
  intro fuel
  induction fuel with
  | zero =>
    intro ncol o _ _ h c hc1 hc2 _ _
    rw [findInRow_zero] at h
    split_ifs at h with h1
    omega
  | succ fuel ih =>
    intro ncol o hlo hfirst h c hc1 hc2 hc3 hc4
    rw [findInRow_succ] at h
    obtain ⟨hp1, hp2, hp3, hp4⟩ := hp
    have ja : ncol ≤ jumpCol s p nrow ncol := jumpCol_ge s p nrow ncol hp3
    have jc : nrow = p.row → p.col ≤ jumpCol s p nrow ncol := by
      intro hrow
      rcases hfirst hrow with h0 | h0
      · simp only [jumpCol, hrow, h0, and_self, if_true]
        exact le_max_left _ _
      · omega
    -- a square before the one tested is before the start position or left of the map
    have jd : jumpCol s p nrow ncol ≤ c := by
      simp only [jumpCol] at ja jc ⊢
      split_ifs with hj
      · have := hc3 hj.1
        exact max_le this (by omega)
      · exact hc1
    split_ifs at h with h1 h2
    · simp only [Option.some.injEq] at h
      have := hc4 _ h.symm
      simp only [accepted] at this
      omega
    · rcases eq_or_lt_of_le jd with e | e
      · rw [← e]
        simpa using h2
      · exact ih _ o (by omega) (fun hrow => Or.inr (by have := jc hrow; omega)) h c
          (by omega) hc2 hc3 hc4
    · omega

/-- The squares that `findInRows` passes over are not accepted. -/
theorem findInRows_first (P : mineFieldProbMap) (M : mineField) (s : square)
    (u : unknownNboursSharedRec) (p : square) (hp : WindowPos s p) :
    ∀ (count : Nat) (nrow : Int) (o : Option (unknownNboursSharedRec × square × square)),
      p.row ≤ nrow → findInRows P M s u p count nrow = some o →
      ∀ m : square, nrow ≤ m.row → m.row < nrow + count → max (s.col - 2) 0 ≤ m.col →
        m.col ≤ min (s.col + 2) M.getWidth → atOrAfter p m →
        (∀ r, o = some r → before m r.2.2) → accepts P M s u m = false := by
  intro count
  induction count with
  | zero => intro nrow o _ _ m h1 h2; omega
  | succ count ih =>
    intro nrow o hlo h m hm1 hm2 hm3 hm4 hm5 hm6
    rw [findInRows_succ] at h
    have hm5a : m.row = p.row → p.col ≤ m.col := by
      intro e
      simp only [atOrAfter] at hm5
      omega
    cases hrow : findInRow P M s u p nrow 6 (max (s.col - 2) 0) with
    | none => rw [hrow] at h; cases h
    | some o1 =>
      rw [hrow] at h
      cases o1 with
      | none =>
        dsimp only at h
        rcases eq_or_lt_of_le hm1 with e | e
        · have := findInRow_first P M s u p nrow hp 6 _ none (le_refl _) (fun _ => Or.inl rfl)
            hrow m.col hm3 hm4 (fun h0 => hm5a (by omega)) (fun r hr => by cases hr)
          rw [e] at this
          exact this
        · exact ih _ o (by omega) h m (by omega) (by push_cast at hm2; omega) hm3 hm4 hm5 hm6
      | some r1 =>
        simp only [Option.some.injEq] at h
        subst h
        obtain ⟨e1, -, -, -, -⟩ := findInRow_pos P M s u p nrow hp 6 _ r1 (le_refl _)
          (fun _ => Or.inl rfl) hrow
        have hb := hm6 r1 rfl
        simp only [before] at hb
        have hmr : m.row = nrow := by omega
        have := findInRow_first P M s u p nrow hp 6 _ (some r1) (le_refl _)
          (fun _ => Or.inl rfl) hrow m.col hm3 hm4 (fun h0 => hm5a (by omega))
          (fun r hr => by
            simp only [Option.some.injEq] at hr
            subst hr
            omega)
        rw [← hmr] at this
        exact this

/-- Function `findAnotherSquare` returns the first square at or after the
start position that it accepts: the squares of the window that come before
it, or all of them when it returns `false`, are not accepted. -/
theorem findAnotherSquare_first (P : mineFieldProbMap) (M : mineField) (s : square)
    (u : unknownNboursSharedRec) (p : square) (hp : WindowPos s p)
    (o : Option (unknownNboursSharedRec × square × square))
    (h : findAnotherSquare P M s u p = some o) (m : square) (hm : InWindow M s m)
    (ha : atOrAfter p m) (hb : ∀ r, o = some r → before m r.2.2) :
    accepts P M s u m = false := by
  obtain ⟨hi, w1, w2, w3, w4⟩ := hm
  simp only [mineField.squareInsideMap, Bool.and_eq_true, decide_eq_true_eq] at hi
  have ha1 : p.row ≤ m.row := by simp only [atOrAfter] at ha; omega
  simp only [findAnotherSquare] at h
  split_ifs at h with h0
  · omega
  · refine findInRows_first P M s u p hp _ p.row o (le_refl _) h m ha1 ?_ ?_ ?_ ha hb
    · rcases le_total (s.row + 2) M.getHeight with hh | hh
      · rw [min_eq_left hh]; omega
      · rw [min_eq_right hh]; omega
    · exact max_le w3 hi.1.2
    · exact le_min w4 (le_of_lt hi.2)

end mineFieldProbMap

end minesweeper

/-! ## The search tries every combination of squares -/

namespace minesweeper

namespace mineFieldProbMap

open unknownNboursSharedRec

theorem offset8_range (k : Fin 8) :
    -1 ≤ (offset8 k).1 ∧ (offset8 k).1 ≤ 1 ∧ -1 ≤ (offset8 k).2 ∧ (offset8 k).2 ≤ 1 := by
  revert k
  decide

theorem inWindow_of_shared (P : mineFieldProbMap) (M : mineField) (s n : square)
    (hn : M.squareInsideMap n = true) (h : (P.sharedBits M s n).Nonempty) : InWindow M s n := by
  obtain ⟨k, hk⟩ := h
  simp only [sharedBits, Finset.mem_filter, Finset.mem_univ, true_and] at hk
  have hnb := hk.2.2
  obtain ⟨o1, o2, o3, o4⟩ := offset8_range k
  simp only [neighbours, nbSq, Bool.and_eq_true, decide_eq_true_eq] at hnb
  refine ⟨hn, ?_, ?_, ?_, ?_⟩ <;> omega

theorem unknownNbours_of_shared (P : mineFieldProbMap) (M : mineField) (s n : square)
    (hn : M.squareInsideMap n = true) (h : (P.sharedBits M s n).Nonempty) :
    P.n_unknownNbours M n ≠ 0 := by
  rw [n_unknownNbours_bits P M n hn]
  have h1 : ((P.sharedBits M s n).image (nbSq s)).Nonempty := h.image _
  have h2 := h1.mono (shared_cells_subset P M s n)
  have h3 : (P.unknownBits M n).Nonempty := by
    obtain ⟨t, ht⟩ := h2
    obtain ⟨j, hj, -⟩ := Finset.mem_image.mp ht
    exact ⟨j, hj⟩
  have := Finset.card_pos.mpr h3
  omega

theorem squareMeetsCriteria_fst (P : mineFieldProbMap) (M : mineField) (s n : square)
    (u : unknownNboursSharedRec) (h1 : (contributed P M s n).Nonempty)
    (h2 : Disjoint (contributed P M s n) u.list) :
    (squareMeetsCriteria P M s n u ⟨0, 0, ∅⟩).1 = true := by
  have e : (squareMeetsCriteria P M s n u ⟨0, 0, ∅⟩).2.list = contributed P M s n := by
    rw [contributed, squareMeetsCriteria_snd P M s n u ⟨0, 0, ∅⟩]
  simp only [squareMeetsCriteria] at e ⊢
  rw [meets_aux_snd] at e
  have c1 : ¬((squaresAround s).foldl
      (fun W t =>
        if M.squareInsideMap t && !P.squareKnown t && neighbours t n
        then W.addSquareToList ⟨t.row - s.row, t.col - s.col⟩ else W)
      (⟨0, 0, ∅⟩ : unknownNboursSharedRec)).getCount = 0 := by
    rw [getCount, e]
    have := Finset.card_pos.mpr h1
    omega
  have c2 : ¬(((squaresAround s).foldl
      (fun W t =>
        if M.squareInsideMap t && !P.squareKnown t && neighbours t n
        then W.addSquareToList ⟨t.row - s.row, t.col - s.col⟩ else W)
      (⟨0, 0, ∅⟩ : unknownNboursSharedRec)).getList ∩ u.getList).Nonempty := by
    rw [getList, e, getList, Finset.not_nonempty_iff_eq_empty, ← Finset.disjoint_iff_inter_eq_empty]
    exact h2
  rw [if_neg c1, if_neg c2]

/-- When `s` is known, the search accepts every other explored square that
has an unknown neighbour in common with `s`, none of them on the list. -/
theorem accepts_of_shared (P : mineFieldProbMap) (M : mineField) (s n : square)
    (hk : P.squareKnown s = true) (u : unknownNboursSharedRec)
    (hn : M.squareInsideMap n = true) (hx : M.squareExplored n = true) (hne : n ≠ s)
    (h1 : (P.sharedBits M s n).Nonempty) (h2 : Disjoint (P.sharedBits M s n) u.list) :
    accepts P M s u n = true := by
  simp only [accepts, Bool.and_eq_true, decide_eq_true_eq]
  rw [← contributed_known P M s n hk] at h1 h2
  exact ⟨⟨⟨⟨hn, hx⟩, unknownNbours_of_shared P M s n hn
    (by rw [← contributed_known P M s n hk]; exact h1)⟩, hne⟩,
    squareMeetsCriteria_fst P M s n u h1 h2⟩

theorem accepted_fst (P : mineFieldProbMap) (M : mineField) (s : square)
    (u ux : unknownNboursSharedRec) (px nx : square)
    (h : (ux, px, nx) = accepted P M s u nx) : (accepted P M s u nx).1 = ux := by
  rw [← h]

/-- If the innermost loop returns `false`, the test has failed for every
third square that the search accepts from the start position on. -/
theorem findThird_exhaust (M : mineField) (s : square) (u2 : unknownNboursSharedRec) :
    ∀ (fuel : Nat) (P : mineFieldProbMap) (p3 : square) (r : Bool × mineFieldProbMap),
      WindowPos s p3 → findThird M s u2 fuel P u2 p3 = some r → r.1 = false →
      ∀ n3, InWindow M s n3 → atOrAfter p3 n3 → accepts P M s u2 n3 = true →
        (P.applyComplexTests M s (accepted P M s u2 n3).1).1 = false := by
  intro fuel
  induction fuel with
  | zero => intro P p3 r _ h; simp [findThird] at h
  | succ fuel ih =>
    intro P p3 r hp h hr n3 hw ha hacc
    simp only [findThird] at h
    cases hf : findAnotherSquare P M s u2 p3 with
    | none => simp [hf] at h
    | some o =>
      cases o with
      | none =>
        have := findAnotherSquare_first P M s u2 p3 hp none hf n3 hw ha
          (fun r hr => by cases hr)
        rw [this] at hacc
        cases hacc
      | some x =>
        obtain ⟨ux, px, nx⟩ := x
        obtain ⟨-, hx⟩ := findAnotherSquare_accepts P M s u2 p3 _ hf
        obtain ⟨hat, hnp⟩ := findAnotherSquare_at P M s u2 p3 hp _ hf
        have hwx := findAnotherSquare_where P M s u2 p3 hp _ hf
        have hpx := (findAnotherSquare_pos P M s u2 p3 hp _ hf).1
        dsimp only at hx hnp hwx hpx
        simp only [hf] at h
        cases ht : (P.applyComplexTests M s ux).1 with
        | true =>
          simp only [ht, if_true, Option.some.injEq] at h
          subst h
          cases hr
        | false =>
          simp only [ht, Bool.false_eq_true, if_false,
            applyComplexTests_false P M s ux ht] at h
          rcases before_total n3 nx with hb | he | hb
          · have := findAnotherSquare_first P M s u2 p3 hp _ hf n3 hw ha
              (fun r hr => by
                simp only [Option.some.injEq] at hr
                subst hr
                exact hb)
            rw [this] at hacc
            cases hacc
          · rw [he, accepted_fst P M s u2 ux px nx hx]
            exact ht
          · refine ih P px r hpx h hr n3 hw ?_ hacc
            rw [hnp]
            exact (atOrAfter_nextPos s nx n3 hwx.2.2.2.2 hw.2.2.2.1 hw.2.2.2.2).mpr hb

/-- If the middle loop returns `false`, the test has failed for every second
square that the search accepts from the start position on, together with
every third square accepted after it when three squares are used. -/
theorem findSecond_exhaust (M : mineField) (s : square) (n_otherSquares : Int)
    (u1 : unknownNboursSharedRec) :
    ∀ (fuel : Nat) (P : mineFieldProbMap) (p2 : square) (r : Bool × mineFieldProbMap),
      Built P M s u1 → WindowPos s p2 →
      findSecond M s n_otherSquares u1 fuel P u1 p2 = some r → r.1 = false →
      ∀ n2, InWindow M s n2 → atOrAfter p2 n2 → accepts P M s u1 n2 = true →
        (n_otherSquares > 2 → ∀ n3, InWindow M s n3 → before n2 n3 →
          accepts P M s (accepted P M s u1 n2).1 n3 = true →
          (P.applyComplexTests M s
            (accepted P M s (accepted P M s u1 n2).1 n3).1).1 = false) ∧
        (¬n_otherSquares > 2 →
          (P.applyComplexTests M s (accepted P M s u1 n2).1).1 = false) := by
  intro fuel
  induction fuel with
  | zero => intro P p2 r _ _ h; simp [findSecond] at h
  | succ fuel ih =>
    intro P p2 r hb1 hp h hr n2 hw ha hacc
    simp only [findSecond] at h
    cases hf : findAnotherSquare P M s u1 p2 with
    | none => simp [hf] at h
    | some o =>
      cases o with
      | none =>
        have := findAnotherSquare_first P M s u1 p2 hp none hf n2 hw ha
          (fun r hr => by cases hr)
        rw [this] at hacc
        cases hacc
      | some x =>
        obtain ⟨ux, px, nx⟩ := x
        obtain ⟨-, hx⟩ := findAnotherSquare_accepts P M s u1 p2 _ hf
        obtain ⟨hat, hnp⟩ := findAnotherSquare_at P M s u1 p2 hp _ hf
        have hwx := findAnotherSquare_where P M s u1 p2 hp _ hf
        have hpx := (findAnotherSquare_pos P M s u1 p2 hp _ hf).1
        have hbx := findAnotherSquare_built P M s u1 p2 hb1 _ hf
        dsimp only at hx hnp hwx hpx hbx
        simp only [hf] at h
        cases hi : (if n_otherSquares > 2 then findThird M s ux 26 P ux px
            else some (P.applyComplexTests M s ux)) with
        | none => simp [hi] at h
        | some r1 =>
          simp only [hi] at h
          cases hr1 : r1.1 with
          | true =>
            simp only [hr1, if_true, Option.some.injEq] at h
            subst h
            cases hr
          | false =>
            simp only [hr1, Bool.false_eq_true, if_false] at h
            have hsame : r1.2 = P := by
              split_ifs at hi with hk
              · rcases findThird_spec M s ux 26 P ux px r1 hbx hbx hi with ⟨-, e⟩ | ⟨e, -⟩
                · exact e
                · rw [hr1] at e; cases e
              · simp only [Option.some.injEq] at hi
                subst hi
                exact applyComplexTests_false P M s ux hr1
            rw [hsame] at h
            rcases before_total n2 nx with hb | he | hb
            · have := findAnotherSquare_first P M s u1 p2 hp _ hf n2 hw ha
                (fun r hr => by
                  simp only [Option.some.injEq] at hr
                  subst hr
                  exact hb)
              rw [this] at hacc
              cases hacc
            · rw [he, accepted_fst P M s u1 ux px nx hx]
              refine ⟨fun hk n3 hw3 hb3 hacc3 => ?_, fun hk => ?_⟩
              · rw [if_pos hk] at hi
                refine findThird_exhaust M s ux 26 P px r1 hpx hi hr1 n3 hw3 ?_ hacc3
                rw [hnp]
                exact (atOrAfter_nextPos s nx n3 hwx.2.2.2.2 hw3.2.2.2.1 hw3.2.2.2.2).mpr hb3
              · rw [if_neg hk] at hi
                simp only [Option.some.injEq] at hi
                subst hi
                exact hr1
            · refine ih P px r hb1 hpx h hr n2 hw ?_ hacc
              rw [hnp]
              exact (atOrAfter_nextPos s nx n2 hwx.2.2.2.2 hw.2.2.2.1 hw.2.2.2.2).mpr hb

/-- If the outer loop returns `false`, the test has failed for every
combination of squares, each after the one before, that the search
accepts. -/
theorem findFirst_exhaust (M : mineField) (s : square) (n_otherSquares : Int) :
    ∀ (fuel : Nat) (P : mineFieldProbMap) (p1 : square) (r : Bool × mineFieldProbMap),
      WindowPos s p1 →
      findFirst M s n_otherSquares fuel P ⟨0, 0, ∅⟩ p1 = some r → r.1 = false →
      ∀ n1, InWindow M s n1 → atOrAfter p1 n1 → accepts P M s ⟨0, 0, ∅⟩ n1 = true →
        (n_otherSquares > 1 → ∀ n2, InWindow M s n2 → before n1 n2 →
          accepts P M s (accepted P M s ⟨0, 0, ∅⟩ n1).1 n2 = true →
          (n_otherSquares > 2 → ∀ n3, InWindow M s n3 → before n2 n3 →
            accepts P M s (accepted P M s (accepted P M s ⟨0, 0, ∅⟩ n1).1 n2).1 n3 = true →
            (P.applyComplexTests M s
              (accepted P M s (accepted P M s (accepted P M s ⟨0, 0, ∅⟩ n1).1 n2).1 n3).1).1
                = false) ∧
          (¬n_otherSquares > 2 →
            (P.applyComplexTests M s
              (accepted P M s (accepted P M s ⟨0, 0, ∅⟩ n1).1 n2).1).1 = false)) ∧
        (¬n_otherSquares > 1 →
          (P.applyComplexTests M s (accepted P M s ⟨0, 0, ∅⟩ n1).1).1 = false) := by
  intro fuel
  induction fuel with
  | zero => intro P p1 r _ h; simp [findFirst] at h
  | succ fuel ih =>
    intro P p1 r hp h hr n1 hw ha hacc
    simp only [findFirst] at h
    have hb0 : Built P M s ⟨0, 0, ∅⟩ := Built.fresh ⟨0, 0, ∅⟩
    cases hf : findAnotherSquare P M s ⟨0, 0, ∅⟩ p1 with
    | none => simp [hf] at h
    | some o =>
      cases o with
      | none =>
        have := findAnotherSquare_first P M s _ p1 hp none hf n1 hw ha
          (fun r hr => by cases hr)
        rw [this] at hacc
        cases hacc
      | some x =>
        obtain ⟨ux, px, nx⟩ := x
        obtain ⟨-, hx⟩ := findAnotherSquare_accepts P M s _ p1 _ hf
        obtain ⟨hat, hnp⟩ := findAnotherSquare_at P M s _ p1 hp _ hf
        have hwx := findAnotherSquare_where P M s _ p1 hp _ hf
        have hpx := (findAnotherSquare_pos P M s _ p1 hp _ hf).1
        have hbx := findAnotherSquare_built P M s _ p1 hb0 _ hf
        dsimp only at hx hnp hwx hpx hbx
        simp only [hf] at h
        cases hi : (if n_otherSquares > 1 then findSecond M s n_otherSquares ux 26 P ux px
            else some (P.applyComplexTests M s ux)) with
        | none => simp [hi] at h
        | some r1 =>
          simp only [hi] at h
          cases hr1 : r1.1 with
          | true =>
            simp only [hr1, if_true, Option.some.injEq] at h
            subst h
            cases hr
          | false =>
            simp only [hr1, Bool.false_eq_true, if_false] at h
            have hsame : r1.2 = P := by
              split_ifs at hi with hk
              · rcases findSecond_spec M s n_otherSquares ux 26 P ux px r1 hbx hbx hi with
                  ⟨-, e⟩ | ⟨e, -⟩
                · exact e
                · rw [hr1] at e; cases e
              · simp only [Option.some.injEq] at hi
                subst hi
                exact applyComplexTests_false P M s ux hr1
            rw [hsame] at h
            have hreset : ux.reset = (⟨0, 0, ∅⟩ : unknownNboursSharedRec) := rfl
            rw [hreset] at h
            rcases before_total n1 nx with hb | he | hb
            · have := findAnotherSquare_first P M s _ p1 hp _ hf n1 hw ha
                (fun r hr => by
                  simp only [Option.some.injEq] at hr
                  subst hr
                  exact hb)
              rw [this] at hacc
              cases hacc
            · rw [he, accepted_fst P M s _ ux px nx hx]
              refine ⟨fun hk n2 hw2 hb2 hacc2 => ?_, fun hk => ?_⟩
              · rw [if_pos hk] at hi
                refine findSecond_exhaust M s n_otherSquares ux 26 P px r1 hbx hpx hi hr1 n2 hw2
                  ?_ hacc2
                rw [hnp]
                exact (atOrAfter_nextPos s nx n2 hwx.2.2.2.2 hw2.2.2.2.1 hw2.2.2.2.2).mpr hb2
              · rw [if_neg hk] at hi
                simp only [Option.some.injEq] at hi
                subst hi
                exact hr1
            · refine ih P px r hpx h hr n1 hw ?_ hacc
              rw [hnp]
              exact (atOrAfter_nextPos s nx n1 hwx.2.2.2.2 hw.2.2.2.1 hw.2.2.2.2).mpr hb

end mineFieldProbMap

end minesweeper

/-! ## Every set of squares is tried -/

namespace minesweeper

namespace mineFieldProbMap

open unknownNboursSharedRec

theorem updateUnkNbsShared_split (P : mineFieldProbMap) (M : mineField)
    (u W : unknownNboursSharedRec) (s n : square) :
    updateUnkNbsShared P M u W s n
      = ⟨u.minMines + (updateUnkNbsShared P M ⟨0, 0, ∅⟩ W s n).minMines,
         u.maxMines + (updateUnkNbsShared P M ⟨0, 0, ∅⟩ W s n).maxMines, u.list ∪ W.list⟩ := by
  simp only [updateUnkNbsShared, addToMinMines, addToMaxMines, addSquaresToList, getList]
  split_ifs <;> simp

theorem accepted_split (P : mineFieldProbMap) (M : mineField) (s n : square)
    (u : unknownNboursSharedRec) :
    (accepted P M s u n).1
      = ⟨u.minMines + (accepted P M s ⟨0, 0, ∅⟩ n).1.minMines,
         u.maxMines + (accepted P M s ⟨0, 0, ∅⟩ n).1.maxMines,
         u.list ∪ contributed P M s n⟩ := by
  simp only [accepted]
  rw [squareMeetsCriteria_snd P M s n u ⟨0, 0, ∅⟩ ⟨0, 0, ∅⟩, updateUnkNbsShared_split]
  rfl

theorem accepted_comm (P : mineFieldProbMap) (M : mineField) (s x y : square)
    (u0 : unknownNboursSharedRec) :
    (accepted P M s (accepted P M s u0 x).1 y).1
      = (accepted P M s (accepted P M s u0 y).1 x).1 := by
  rw [accepted_split P M s y (accepted P M s u0 x).1,
    accepted_split P M s x (accepted P M s u0 y).1]
  have ex := accepted_split P M s x u0
  have ey := accepted_split P M s y u0
  have e1 : (accepted P M s u0 x).1.minMines
      = u0.minMines + (accepted P M s ⟨0, 0, ∅⟩ x).1.minMines := by rw [ex]
  have e2 : (accepted P M s u0 x).1.maxMines
      = u0.maxMines + (accepted P M s ⟨0, 0, ∅⟩ x).1.maxMines := by rw [ex]
  have e3 : (accepted P M s u0 x).1.list = u0.list ∪ contributed P M s x := by rw [ex]
  have e4 : (accepted P M s u0 y).1.minMines
      = u0.minMines + (accepted P M s ⟨0, 0, ∅⟩ y).1.minMines := by rw [ey]
  have e5 : (accepted P M s u0 y).1.maxMines
      = u0.maxMines + (accepted P M s ⟨0, 0, ∅⟩ y).1.maxMines := by rw [ey]
  have e6 : (accepted P M s u0 y).1.list = u0.list ∪ contributed P M s y := by rw [ey]
  rw [e1, e2, e3, e4, e5, e6, add_right_comm u0.minMines, add_right_comm u0.maxMines,
    Finset.union_right_comm]

/-- The record built from a set of squares does not depend on the order in
which they are taken. -/
theorem accOf_perm (P : mineFieldProbMap) (M : mineField) (s : square) {ns ns1 : List square}
    (h : ns.Perm ns1) : accOf P M s ns = accOf P M s ns1 :=
  List.Perm.foldl_eq' h (fun x _ y _ z => accepted_comm P M s x y z) _

theorem exists_sorted (ns : List square) (hnd : ns.Nodup) :
    ∃ ns1 : List square, ns1.Perm ns ∧ ns1.Pairwise before := by
  induction ns with
  | nil => exact ⟨[], List.Perm.refl _, List.Pairwise.nil⟩
  | cons a l ih =>
    obtain ⟨l1, hp1, hs1⟩ := ih (List.nodup_cons.mp hnd).2
    have ha : a ∉ l1 := fun h => (List.nodup_cons.mp hnd).1 (hp1.mem_iff.mp h)
    -- insert `a` into the sorted list `l1`
    have ins : ∀ l2 : List square, l2.Pairwise before → a ∉ l2 →
        ∃ l3 : List square, l3.Perm (a :: l2) ∧ l3.Pairwise before := by
      intro l2
      induction l2 with
      | nil => intro _ _; exact ⟨[a], List.Perm.refl _, List.pairwise_singleton _ _⟩
      | cons b l2 ih2 =>
        intro hs2 ha2
        obtain ⟨hb, hs3⟩ := List.pairwise_cons.mp hs2
        rcases before_total a b with h | h | h
        · exact ⟨a :: b :: l2, List.Perm.refl _, List.pairwise_cons.mpr
            ⟨fun c hc => by
              rcases List.mem_cons.mp hc with e | hc1
              · rw [e]; exact h
              · exact before_trans h (hb c hc1), hs2⟩⟩
        · exact absurd (h ▸ List.mem_cons_self a l2 : a ∈ b :: l2) ha2
        · obtain ⟨l3, hp3, hs4⟩ := ih2 hs3 (fun hm => ha2 (List.mem_cons_of_mem _ hm))
          refine ⟨b :: l3, ?_, List.pairwise_cons.mpr ⟨fun c hc => ?_, hs4⟩⟩
          · exact (List.Perm.cons b hp3).trans (List.Perm.swap a b l2)
          · rcases List.mem_cons.mp (hp3.mem_iff.mp hc) with e | hc1
            · rw [e]; exact h
            · exact hb c hc1
    obtain ⟨l3, hp3, hs3⟩ := ins l1 hs1 ha
    exact ⟨l3, hp3.trans (List.Perm.cons a hp1), hs3⟩

/-- C28: let `s` be a known square, as every explored square is during
`update`, and let `findAndApplyAllComplexTests(s, k)` return `false`, for
`k` from 1 to 3.  Then the probability map is as it was, and for every set
of `k` distinct explored squares of the map other than `s`, each with an
unknown neighbour in common with `s`, no two with the same one, the record
built from these squares fails the complex test: `applyComplexTests`
returns `false` for it and changes nothing. -/
theorem search_exhaustive (P : mineFieldProbMap) (M : mineField) (s : square) (k : Int)
    (hk : P.squareKnown s = true) (hk1 : 1 ≤ k) (hk3 : k ≤ 3)
    (r : Bool × mineFieldProbMap) (h : P.findAndApplyAllComplexTests M s k = some r)
    (hr : r.1 = false) (ns : List square) (hlen : (ns.length : Int) = k) (hnd : ns.Nodup)
    (hel : ∀ n ∈ ns, M.squareInsideMap n = true ∧ M.squareExplored n = true ∧ n ≠ s ∧
      (P.sharedBits M s n).Nonempty)
    (hdis : ns.Pairwise fun a b => Disjoint (P.sharedBits M s a) (P.sharedBits M s b)) :
    r.2 = P ∧ P.applyComplexTests M s (accOf P M s ns) = (false, P) := by
  have hsame : r.2 = P := by
    rcases findAndApplyAllComplexTests_spec P M s k r h with ⟨-, e⟩ | ⟨e, -⟩
    · exact e
    · rw [hr] at e; cases e
  refine ⟨hsame, ?_⟩
  suffices hT : (P.applyComplexTests M s (accOf P M s ns)).1 = false from
    Prod.ext hT (applyComplexTests_false P M s _ hT)
  obtain ⟨ns1, hperm, hsort⟩ := exists_sorted ns hnd
  rw [← accOf_perm P M s hperm]
  have hel1 : ∀ n ∈ ns1, M.squareInsideMap n = true ∧ M.squareExplored n = true ∧ n ≠ s ∧
      (P.sharedBits M s n).Nonempty := fun n hn => hel n (hperm.mem_iff.mp hn)
  have hdis1 : ns1.Pairwise fun a b => Disjoint (P.sharedBits M s a) (P.sharedBits M s b) :=
    (hperm.pairwise_iff (by intro a b hab; exact Disjoint.symm hab)).mpr hdis
  have hlen1 : (ns1.length : Int) = k := by rw [hperm.length_eq]; exact hlen
  have hw : ∀ n ∈ ns1, InWindow M s n := fun n hn =>
    inWindow_of_shared P M s n (hel1 n hn).1 (hel1 n hn).2.2.2
  have hacc : ∀ (u : unknownNboursSharedRec) (n : square), n ∈ ns1 →
      Disjoint (P.sharedBits M s n) u.list → accepts P M s u n = true := fun u n hn hd =>
    accepts_of_shared P M s n hk u (hel1 n hn).1 (hel1 n hn).2.1 (hel1 n hn).2.2.1
      (hel1 n hn).2.2.2 hd
  have hlist : ∀ (u : unknownNboursSharedRec) (n : square),
      (accepted P M s u n).1.list = u.list ∪ P.sharedBits M s n := fun u n => by
    rw [accepted_list, contributed_known P M s n hk]
  simp only [findAndApplyAllComplexTests] at h
  have hmain := findFirst_exhaust M s k 26 P _ r (windowPos_start s) h hr
  match ns1, hsort, hel1, hdis1, hlen1, hw, hacc with
  | [], _, _, _, hl, _, _ =>
    simp only [List.length_nil, Nat.cast_zero] at hl
    omega
  | [a], _, _, _, hl, hw, hacc =>
    simp only [List.length_singleton, Nat.cast_one] at hl
    have ha := hacc ⟨0, 0, ∅⟩ a (List.mem_singleton_self a) (Finset.disjoint_empty_right _)
    exact (hmain a (hw a (List.mem_singleton_self a))
      (atOrAfter_start M s a (hw a (List.mem_singleton_self a))) ha).2 (by omega)
  | [a, b], hso, _, hdi, hl, hw, hacc =>
    simp only [List.length_cons, List.length_singleton, List.length_nil, Nat.cast_ofNat,
      Nat.cast_add, Nat.cast_one] at hl
    have hma : a ∈ [a, b] := List.mem_cons_self _ _
    have hmb : b ∈ [a, b] := List.mem_cons_of_mem _ (List.mem_singleton_self b)
    have ha := hacc ⟨0, 0, ∅⟩ a hma (Finset.disjoint_empty_right _)
    have hab : before a b := (List.pairwise_cons.mp hso).1 b (List.mem_singleton_self b)
    have dab : Disjoint (P.sharedBits M s a) (P.sharedBits M s b) :=
      (List.pairwise_cons.mp hdi).1 b (List.mem_singleton_self b)
    have hb := hacc (accepted P M s ⟨0, 0, ∅⟩ a).1 b hmb (by
      rw [hlist]
      simp only [Finset.empty_union]
      exact dab.symm)
    exact ((hmain a (hw a hma) (atOrAfter_start M s a (hw a hma)) ha).1 (by omega) b
      (hw b hmb) hab hb).2 (by omega)
  | [a, b, c], hso, _, hdi, hl, hw, hacc =>
    have hma : a ∈ [a, b, c] := List.mem_cons_self _ _
    have hmb : b ∈ [a, b, c] := List.mem_cons_of_mem _ (List.mem_cons_self _ _)
    have hmc : c ∈ [a, b, c] :=
      List.mem_cons_of_mem _ (List.mem_cons_of_mem _ (List.mem_singleton_self c))
    simp only [List.length_cons, List.length_singleton, List.length_nil, Nat.cast_ofNat,
      Nat.cast_add, Nat.cast_one] at hl
    have ha := hacc ⟨0, 0, ∅⟩ a hma (Finset.disjoint_empty_right _)
    obtain ⟨hso1, hso2⟩ := List.pairwise_cons.mp hso
    obtain ⟨hdi1, hdi2⟩ := List.pairwise_cons.mp hdi
    have hab : before a b := hso1 b (List.mem_cons_self _ _)
    have hbc : before b c := (List.pairwise_cons.mp hso2).1 c (List.mem_singleton_self c)
    have dab : Disjoint (P.sharedBits M s a) (P.sharedBits M s b) :=
      hdi1 b (List.mem_cons_self _ _)
    have dac : Disjoint (P.sharedBits M s a) (P.sharedBits M s c) :=
      hdi1 c (List.mem_cons_of_mem _ (List.mem_singleton_self c))
    have dbc : Disjoint (P.sharedBits M s b) (P.sharedBits M s c) :=
      (List.pairwise_cons.mp hdi2).1 c (List.mem_singleton_self c)
    have hb := hacc (accepted P M s ⟨0, 0, ∅⟩ a).1 b hmb (by
      rw [hlist]
      simp only [Finset.empty_union]
      exact dab.symm)
    have hc := hacc (accepted P M s (accepted P M s ⟨0, 0, ∅⟩ a).1 b).1 c hmc (by
      rw [hlist, hlist]
      simp only [Finset.empty_union]
      exact Finset.disjoint_union_right.mpr ⟨dac.symm, dbc.symm⟩)
    exact (((hmain a (hw a hma) (atOrAfter_start M s a (hw a hma)) ha).1 (by omega) b
      (hw b hmb) hab hb).1 (by omega)) c (hw c hmc) hbc hc
  | _ :: _ :: _ :: _ :: _, _, _, _, hl, _, _ =>
    simp only [List.length_cons, Nat.cast_add, Nat.cast_one] at hl
    omega

theorem search_exhaustive_witness :
    (false, ledgeMap).2 = ledgeMap ∧
    ledgeMap.applyComplexTests ledgeField ⟨1, 0⟩ (accOf ledgeMap ledgeField ⟨1, 0⟩ [⟨1, 1⟩])
      = (false, ledgeMap) :=
  search_exhaustive ledgeMap ledgeField ⟨1, 0⟩ 1 (by decide) (by decide) (by decide)
    (false, ledgeMap) (by rfl) rfl [⟨1, 1⟩] (by decide) (by decide) (by decide)
    (List.pairwise_singleton _ _)

end mineFieldProbMap

end minesweeper

/-! ## The order in which the search tries combinations -/

namespace minesweeper

namespace mineFieldProbMap

open unknownNboursSharedRec

theorem lex_irrefl (l : List square) : ¬List.Lex before l l := by
  induction l with
  | nil => intro h; cases h
  | cons a l ih =>
    intro h
    cases h with
    | cons h1 => exact ih h1
    | rel h1 => exact before_irrefl a h1

theorem nodup_of_before {l : List square} (h : l.Pairwise before) : l.Nodup := by
  refine List.Pairwise.imp ?_ h
  intro a b hab e
  subst e
  exact before_irrefl a hab

theorem nodup_of_lex {l : List (List square)} (h : l.Pairwise (List.Lex before)) :
    l.Nodup := by
  refine List.Pairwise.imp ?_ h
  intro a b hab e
  subst e
  exact lex_irrefl a hab

/-! ### The record of the calls does not change the result -/

theorem findThirdLog_fst (M : mineField) (s : square) (u2 : unknownNboursSharedRec)
    (s1 s2 : square) :
    ∀ (fuel : Nat) (P : mineFieldProbMap) (u3 : unknownNboursSharedRec) (p3 : square),
      (findThirdLog M s u2 s1 s2 fuel P u3 p3).map Prod.fst = findThird M s u2 fuel P u3 p3 := by
  intro fuel
  induction fuel with
  | zero => intro P u3 p3; rfl
  | succ fuel ih =>
    intro P u3 p3
    simp only [findThirdLog, findThird]
    cases hf : findAnotherSquare P M s u3 p3 with
    | none => rfl
    | some o =>
      cases o with
      | none => rfl
      | some x =>
        obtain ⟨ux, px, nx⟩ := x
        dsimp only
        split_ifs
        · rfl
        · rw [Option.map_map]
          exact ih _ _ _

theorem findSecondLog_fst (M : mineField) (s : square) (n_otherSquares : Int)
    (u1 : unknownNboursSharedRec) (s1 : square) :
    ∀ (fuel : Nat) (P : mineFieldProbMap) (u2 : unknownNboursSharedRec) (p2 : square),
      (findSecondLog M s n_otherSquares u1 s1 fuel P u2 p2).map Prod.fst
        = findSecond M s n_otherSquares u1 fuel P u2 p2 := by
  intro fuel
  induction fuel with
  | zero => intro P u2 p2; rfl
  | succ fuel ih =>
    intro P u2 p2
    simp only [findSecondLog, findSecond]
    cases hf : findAnotherSquare P M s u2 p2 with
    | none => rfl
    | some o =>
      cases o with
      | none => rfl
      | some x =>
        obtain ⟨ux, px, nx⟩ := x
        dsimp only
        by_cases hk : n_otherSquares > 2
        · simp only [if_pos hk]
          rw [← findThirdLog_fst M s ux s1 nx 26 P ux px]
          cases findThirdLog M s ux s1 nx 26 P ux px with
          | none => rfl
          | some y =>
            dsimp only [Option.map_some']
            split_ifs
            · rfl
            · rw [Option.map_map]
              exact ih _ _ _
        · simp only [if_neg hk]
          split_ifs
          · rfl
          · rw [Option.map_map]
            exact ih _ _ _

theorem findFirstLog_fst (M : mineField) (s : square) (n_otherSquares : Int) :
    ∀ (fuel : Nat) (P : mineFieldProbMap) (u1 : unknownNboursSharedRec) (p1 : square),
      (findFirstLog M s n_otherSquares fuel P u1 p1).map Prod.fst
        = findFirst M s n_otherSquares fuel P u1 p1 := by
  intro fuel
  induction fuel with
  | zero => intro P u1 p1; rfl
  | succ fuel ih =>
    intro P u1 p1
    simp only [findFirstLog, findFirst]
    cases hf : findAnotherSquare P M s u1 p1 with
    | none => rfl
    | some o =>
      cases o with
      | none => rfl
      | some x =>
        obtain ⟨ux, px, nx⟩ := x
        dsimp only
        by_cases hk : n_otherSquares > 1
        · simp only [if_pos hk]
          rw [← findSecondLog_fst M s n_otherSquares ux nx 26 P ux px]
          cases findSecondLog M s n_otherSquares ux nx 26 P ux px with
          | none => rfl
          | some y =>
            dsimp only [Option.map_some']
            split_ifs
            · rfl
            · rw [Option.map_map]
              exact ih _ _ _
        · simp only [if_neg hk]
          split_ifs
          · rfl
          · rw [Option.map_map]
            exact ih _ _ _

/-! ### What the record of the calls holds -/

theorem findThirdLog_spec (M : mineField) (s : square) (u2 : unknownNboursSharedRec)
    (s1 s2 : square) :
    ∀ (fuel : Nat) (P : mineFieldProbMap) (u3 : unknownNboursSharedRec) (p3 : square)
      (x : (Bool × mineFieldProbMap) × List (List square)), WindowPos s p3 →
      findThirdLog M s u2 s1 s2 fuel P u3 p3 = some x →
      (∀ c ∈ x.2, ∃ n3, c = [s1, s2, n3] ∧ atOrAfter p3 n3 ∧ InWindow M s n3) ∧
        x.2.Pairwise (List.Lex before) := by
  intro fuel
  induction fuel with
  | zero => intro P u3 p3 x _ h; simp [findThirdLog] at h
  | succ fuel ih =>
    intro P u3 p3 x hp h
    simp only [findThirdLog] at h
    cases hf : findAnotherSquare P M s u3 p3 with
    | none => simp [hf] at h
    | some o =>
      cases o with
      | none =>
        simp only [hf, Option.some.injEq] at h
        subst h
        exact ⟨fun c hc => absurd hc (List.not_mem_nil c), List.Pairwise.nil⟩
      | some y =>
        obtain ⟨ux, px, nx⟩ := y
        obtain ⟨hat, hnp⟩ := findAnotherSquare_at P M s u3 p3 hp _ hf
        have hwx := findAnotherSquare_where P M s u3 p3 hp _ hf
        have hpx := (findAnotherSquare_pos P M s u3 p3 hp _ hf).1
        dsimp only at hat hnp hwx hpx
        simp only [hf] at h
        cases ht : (P.applyComplexTests M s ux).1 with
        | true =>
          simp only [ht, if_true, Option.some.injEq] at h
          subst h
          refine ⟨fun c hc => ?_, List.pairwise_singleton _ _⟩
          rw [List.mem_singleton] at hc
          exact ⟨nx, hc, hat, hwx⟩
        | false =>
          simp only [ht, Bool.false_eq_true, if_false, Option.map_eq_some'] at h
          obtain ⟨y, hy, rfl⟩ := h
          obtain ⟨i1, i2⟩ := ih _ _ _ y hpx hy
          have hafter : ∀ c ∈ y.2, ∃ n3, c = [s1, s2, n3] ∧ before nx n3 ∧ InWindow M s n3 := by
            intro c hc
            obtain ⟨n3, e, ha, hw⟩ := i1 c hc
            rw [hnp] at ha
            exact ⟨n3, e,
              (atOrAfter_nextPos s nx n3 hwx.2.2.2.2 hw.2.2.2.1 hw.2.2.2.2).mp ha, hw⟩
          refine ⟨fun c hc => ?_, List.pairwise_cons.mpr ⟨fun c hc => ?_, i2⟩⟩
          · rcases List.mem_cons.mp hc with e | hc1
            · exact ⟨nx, e, hat, hwx⟩
            · obtain ⟨n3, e, hb, hw⟩ := hafter c hc1
              exact ⟨n3, e, atOrAfter_before hat hb, hw⟩
          · obtain ⟨n3, e, hb, -⟩ := hafter c hc
            rw [e]
            exact List.Lex.cons (List.Lex.cons (List.Lex.rel hb))

theorem findSecondLog_spec (M : mineField) (s : square) (n_otherSquares : Int)
    (u1 : unknownNboursSharedRec) (s1 : square) :
    ∀ (fuel : Nat) (P : mineFieldProbMap) (u2 : unknownNboursSharedRec) (p2 : square)
      (x : (Bool × mineFieldProbMap) × List (List square)), WindowPos s p2 →
      findSecondLog M s n_otherSquares u1 s1 fuel P u2 p2 = some x →
      (∀ c ∈ x.2, ∃ n2 rest, c = s1 :: n2 :: rest ∧ atOrAfter p2 n2 ∧
          (n2 :: rest).Pairwise before ∧ (∀ m ∈ n2 :: rest, InWindow M s m) ∧
          rest.length = if n_otherSquares > 2 then 1 else 0) ∧
        x.2.Pairwise (List.Lex before) := by
  intro fuel
  induction fuel with
  | zero => intro P u2 p2 x _ h; simp [findSecondLog] at h
  | succ fuel ih =>
    intro P u2 p2 x hp h
    simp only [findSecondLog] at h
    cases hf : findAnotherSquare P M s u2 p2 with
    | none => simp [hf] at h
    | some o =>
      cases o with
      | none =>
        simp only [hf, Option.some.injEq] at h
        subst h
        exact ⟨fun c hc => absurd hc (List.not_mem_nil c), List.Pairwise.nil⟩
      | some y =>
        obtain ⟨ux, px, nx⟩ := y
        obtain ⟨hat, hnp⟩ := findAnotherSquare_at P M s u2 p2 hp _ hf
        have hwx := findAnotherSquare_where P M s u2 p2 hp _ hf
        have hpx := (findAnotherSquare_pos P M s u2 p2 hp _ hf).1
        dsimp only at hat hnp hwx hpx
        simp only [hf] at h
        cases hi : (if n_otherSquares > 2 then findThirdLog M s ux s1 nx 26 P ux px
            else some (P.applyComplexTests M s ux, [[s1, nx]])) with
        | none => simp [hi] at h
        | some z =>
          simp only [hi] at h
          have hin : (∀ c ∈ z.2, ∃ rest, c = s1 :: nx :: rest ∧ (nx :: rest).Pairwise before ∧
              (∀ m ∈ nx :: rest, InWindow M s m) ∧
              rest.length = if n_otherSquares > 2 then 1 else 0) ∧
              z.2.Pairwise (List.Lex before) := by
            split_ifs at hi with hk
            · obtain ⟨j1, j2⟩ := findThirdLog_spec M s ux s1 nx 26 P ux px z hpx hi
              refine ⟨fun c hc => ?_, j2⟩
              obtain ⟨n3, e, ha, hw⟩ := j1 c hc
              rw [hnp] at ha
              have hb := (atOrAfter_nextPos s nx n3 hwx.2.2.2.2 hw.2.2.2.1 hw.2.2.2.2).mp ha
              refine ⟨[n3], e, List.pairwise_cons.mpr ⟨fun m hm => ?_,
                List.pairwise_singleton _ _⟩, fun m hm => ?_, by rw [if_pos hk]; rfl⟩
              · rw [List.mem_singleton] at hm
                rw [hm]; exact hb
              · rcases List.mem_cons.mp hm with e1 | hm1
                · rw [e1]; exact hwx
                · rw [List.mem_singleton] at hm1
                  rw [hm1]; exact hw
            · simp only [Option.some.injEq] at hi
              subst hi
              refine ⟨fun c hc => ?_, List.pairwise_singleton _ _⟩
              rw [List.mem_singleton] at hc
              refine ⟨[], hc, List.pairwise_singleton _ _, fun m hm => ?_,
                by rw [if_neg hk]; rfl⟩
              rw [List.mem_singleton] at hm
              rw [hm]; exact hwx
          have hfirst : ∀ c ∈ z.2, ∃ n2 rest, c = s1 :: n2 :: rest ∧ atOrAfter p2 n2 ∧
              (n2 :: rest).Pairwise before ∧ (∀ m ∈ n2 :: rest, InWindow M s m) ∧
              rest.length = if n_otherSquares > 2 then 1 else 0 := by
            intro c hc
            obtain ⟨rest, e, q1, q2, q3⟩ := hin.1 c hc
            exact ⟨nx, rest, e, hat, q1, q2, q3⟩
          cases hz : z.1.1 with
          | true =>
            simp only [hz, if_true, Option.some.injEq] at h
            subst h
            exact ⟨hfirst, hin.2⟩
          | false =>
            simp only [hz, Bool.false_eq_true, if_false, Option.map_eq_some'] at h
            obtain ⟨y, hy, rfl⟩ := h
            obtain ⟨i1, i2⟩ := ih _ _ _ y hpx hy
            have hafter : ∀ c ∈ y.2, ∃ n2 rest, c = s1 :: n2 :: rest ∧ before nx n2 ∧
                (n2 :: rest).Pairwise before ∧ (∀ m ∈ n2 :: rest, InWindow M s m) ∧
                rest.length = if n_otherSquares > 2 then 1 else 0 := by
              intro c hc
              obtain ⟨n2, rest, e, ha, q1, q2, q3⟩ := i1 c hc
              have hw := q2 n2 (List.mem_cons_self _ _)
              rw [hnp] at ha
              exact ⟨n2, rest, e,
                (atOrAfter_nextPos s nx n2 hwx.2.2.2.2 hw.2.2.2.1 hw.2.2.2.2).mp ha, q1, q2, q3⟩
            refine ⟨fun c hc => ?_, List.pairwise_append.mpr ⟨hin.2, i2, fun a ha b hb => ?_⟩⟩
            · rcases List.mem_append.mp hc with hc1 | hc1
              · exact hfirst c hc1
              · obtain ⟨n2, rest, e, hb, q1, q2, q3⟩ := hafter c hc1
                exact ⟨n2, rest, e, atOrAfter_before hat hb, q1, q2, q3⟩
            · obtain ⟨rest, e, -⟩ := hin.1 a ha
              obtain ⟨n2, rest2, e2, hb2, -⟩ := hafter b hb
              rw [e, e2]
              exact List.Lex.cons (List.Lex.rel hb2)

theorem findFirstLog_spec (M : mineField) (s : square) (n_otherSquares : Int) :
    ∀ (fuel : Nat) (P : mineFieldProbMap) (u1 : unknownNboursSharedRec) (p1 : square)
      (x : (Bool × mineFieldProbMap) × List (List square)), WindowPos s p1 →
      findFirstLog M s n_otherSquares fuel P u1 p1 = some x →
      (∀ c ∈ x.2, ∃ n1 rest, c = n1 :: rest ∧ atOrAfter p1 n1 ∧
          (n1 :: rest).Pairwise before ∧ (∀ m ∈ n1 :: rest, InWindow M s m) ∧
          rest.length = if n_otherSquares > 2 then 2 else if n_otherSquares > 1 then 1 else 0) ∧
        x.2.Pairwise (List.Lex before) := by
  intro fuel
  induction fuel with
  | zero => intro P u1 p1 x _ h; simp [findFirstLog] at h
  | succ fuel ih =>
    intro P u1 p1 x hp h
    simp only [findFirstLog] at h
    cases hf : findAnotherSquare P M s u1 p1 with
    | none => simp [hf] at h
    | some o =>
      cases o with
      | none =>
        simp only [hf, Option.some.injEq] at h
        subst h
        exact ⟨fun c hc => absurd hc (List.not_mem_nil c), List.Pairwise.nil⟩
      | some y =>
        obtain ⟨ux, px, nx⟩ := y
        obtain ⟨hat, hnp⟩ := findAnotherSquare_at P M s u1 p1 hp _ hf
        have hwx := findAnotherSquare_where P M s u1 p1 hp _ hf
        have hpx := (findAnotherSquare_pos P M s u1 p1 hp _ hf).1
        dsimp only at hat hnp hwx hpx
        simp only [hf] at h
        cases hi : (if n_otherSquares > 1 then findSecondLog M s n_otherSquares ux nx 26 P ux px
            else some (P.applyComplexTests M s ux, [[nx]])) with
        | none => simp [hi] at h
        | some z =>
          simp only [hi] at h
          have hin : (∀ c ∈ z.2, ∃ rest, c = nx :: rest ∧ (nx :: rest).Pairwise before ∧
              (∀ m ∈ nx :: rest, InWindow M s m) ∧
              rest.length
                = if n_otherSquares > 2 then 2 else if n_otherSquares > 1 then 1 else 0) ∧
              z.2.Pairwise (List.Lex before) := by
            split_ifs at hi with hk
            · obtain ⟨j1, j2⟩ := findSecondLog_spec M s n_otherSquares ux nx 26 P ux px z hpx hi
              refine ⟨fun c hc => ?_, j2⟩
              obtain ⟨n2, rest, e, ha, q1, q2, q3⟩ := j1 c hc
              have hw := q2 n2 (List.mem_cons_self _ _)
              rw [hnp] at ha
              have hb := (atOrAfter_nextPos s nx n2 hwx.2.2.2.2 hw.2.2.2.1 hw.2.2.2.2).mp ha
              refine ⟨n2 :: rest, e, List.pairwise_cons.mpr ⟨fun m hm => ?_, q1⟩,
                fun m hm => ?_, ?_⟩
              · rcases List.mem_cons.mp hm with e1 | hm1
                · rw [e1]; exact hb
                · exact before_trans hb ((List.pairwise_cons.mp q1).1 m hm1)
              · rcases List.mem_cons.mp hm with e1 | hm1
                · rw [e1]; exact hwx
                · exact q2 m hm1
              · rw [List.length_cons, q3]
                split_ifs <;> omega
            · simp only [Option.some.injEq] at hi
              subst hi
              refine ⟨fun c hc => ?_, List.pairwise_singleton _ _⟩
              rw [List.mem_singleton] at hc
              refine ⟨[], hc, List.pairwise_singleton _ _, fun m hm => ?_, ?_⟩
              · rw [List.mem_singleton] at hm
                rw [hm]; exact hwx
              · rw [if_neg (by omega), if_neg hk]
                rfl
          have hfirst : ∀ c ∈ z.2, ∃ n1 rest, c = n1 :: rest ∧ atOrAfter p1 n1 ∧
              (n1 :: rest).Pairwise before ∧ (∀ m ∈ n1 :: rest, InWindow M s m) ∧
              rest.length
                = if n_otherSquares > 2 then 2 else if n_otherSquares > 1 then 1 else 0 := by
            intro c hc
            obtain ⟨rest, e, q1, q2, q3⟩ := hin.1 c hc
            exact ⟨nx, rest, e, hat, q1, q2, q3⟩
          cases hz : z.1.1 with
          | true =>
            simp only [hz, if_true, Option.some.injEq] at h
            subst h
            exact ⟨hfirst, hin.2⟩
          | false =>
            simp only [hz, Bool.false_eq_true, if_false, Option.map_eq_some'] at h
            obtain ⟨y, hy, rfl⟩ := h
            obtain ⟨i1, i2⟩ := ih _ _ _ y hpx hy
            have hafter : ∀ c ∈ y.2, ∃ n1 rest, c = n1 :: rest ∧ before nx n1 ∧
                (n1 :: rest).Pairwise before ∧ (∀ m ∈ n1 :: rest, InWindow M s m) ∧
                rest.length
                  = if n_otherSquares > 2 then 2 else if n_otherSquares > 1 then 1 else 0 := by
              intro c hc
              obtain ⟨n1, rest, e, ha, q1, q2, q3⟩ := i1 c hc
              have hw := q2 n1 (List.mem_cons_self _ _)
              rw [hnp] at ha
              exact ⟨n1, rest, e,
                (atOrAfter_nextPos s nx n1 hwx.2.2.2.2 hw.2.2.2.1 hw.2.2.2.2).mp ha, q1, q2, q3⟩
            refine ⟨fun c hc => ?_, List.pairwise_append.mpr ⟨hin.2, i2, fun a ha b hb => ?_⟩⟩
            · rcases List.mem_append.mp hc with hc1 | hc1
              · exact hfirst c hc1
              · obtain ⟨n1, rest, e, hb, q1, q2, q3⟩ := hafter c hc1
                exact ⟨n1, rest, e, atOrAfter_before hat hb, q1, q2, q3⟩
            · obtain ⟨rest, e, -⟩ := hin.1 a ha
              obtain ⟨n1, rest2, e2, hb2, -⟩ := hafter b hb
              rw [e, e2]
              exact List.Lex.rel hb2

/-- C27: a call of `findAnotherSquare` with a start position of the window
that returns `true` finds a square `n` of the window, inside the map, at
the start position or after it in row-major order, and leaves the start
position one after `n`: the squares of the columns of the window at or
after the new position are those after `n`.  In the record of the calls of
`applyComplexTests` that `findAndApplyAllComplexTests` makes, which leaves
its result as it is, the squares of every combination are inside the
window and in strictly increasing row-major order, so that none comes
twice, there are as many as `n_otherSquares`, and the combinations come in
strictly increasing lexicographic order, so that none is tested twice. -/
theorem search_order (P : mineFieldProbMap) (M : mineField) (s : square) (k : Int) :
    (∀ (u : unknownNboursSharedRec) (p : square)
        (r : unknownNboursSharedRec × square × square), WindowPos s p →
      P.findAnotherSquare M s u p = some (some r) →
      InWindow M s r.2.2 ∧ atOrAfter p r.2.2 ∧ r.2.1 = nextPos s r.2.2 ∧ WindowPos s r.2.1 ∧
        ∀ m : square, s.col - 2 ≤ m.col → m.col ≤ s.col + 2 →
          (atOrAfter r.2.1 m ↔ before r.2.2 m)) ∧
    (∃ x, P.findAndApplyAllComplexTestsLog M s k = some x ∧
      P.findAndApplyAllComplexTests M s k = some x.1 ∧
      (∀ c ∈ x.2, c.Pairwise before ∧ c.Nodup ∧ (∀ n ∈ c, InWindow M s n) ∧
        (1 ≤ k → k ≤ 3 → (c.length : Int) = k)) ∧
      x.2.Pairwise (List.Lex before) ∧ x.2.Nodup) := by
  constructor
  · intro u p r hp h
    obtain ⟨hat, hnp⟩ := findAnotherSquare_at P M s u p hp r h
    have hw := findAnotherSquare_where P M s u p hp r h
    refine ⟨hw, hat, hnp, (findAnotherSquare_pos P M s u p hp r h).1, fun m h1 h2 => ?_⟩
    rw [hnp]
    exact atOrAfter_nextPos s r.2.2 m hw.2.2.2.2 h1 h2
  · obtain ⟨r, hr⟩ := findAndApplyAllComplexTests_total P M s k
    have he := findFirstLog_fst M s k 26 P (unknownNboursSharedRec.reset ⟨0, 0, ∅⟩)
      ⟨s.row - 2, s.col - 2⟩
    have hr1 : findFirst M s k 26 P (unknownNboursSharedRec.reset ⟨0, 0, ∅⟩)
        ⟨s.row - 2, s.col - 2⟩ = some r := hr
    rw [hr1, Option.map_eq_some'] at he
    obtain ⟨x, hx, hx1⟩ := he
    obtain ⟨i1, i2⟩ := findFirstLog_spec M s k 26 P _ _ x (windowPos_start s) hx
    refine ⟨x, hx, by rw [hx1]; exact hr, fun c hc => ?_, i2, nodup_of_lex i2⟩
    obtain ⟨n1, rest, e, -, q1, q2, q3⟩ := i1 c hc
    rw [e]
    refine ⟨q1, nodup_of_before q1, q2, fun h1 h3 => ?_⟩
    rw [List.length_cons, q3]
    split_ifs <;> push_cast <;> omega

theorem search_order_witness :
    ∃ x, ledgeMap.findAndApplyAllComplexTestsLog ledgeField ⟨1, 0⟩ 1 = some x ∧
      ledgeMap.findAndApplyAllComplexTests ledgeField ⟨1, 0⟩ 1 = some x.1 ∧
      (∀ c ∈ x.2, c.Pairwise before ∧ c.Nodup ∧ (∀ n ∈ c, InWindow ledgeField ⟨1, 0⟩ n) ∧
        ((1 : Int) ≤ 1 → (1 : Int) ≤ 3 → (c.length : Int) = 1)) ∧
      x.2.Pairwise (List.Lex before) ∧ x.2.Nodup :=
  (search_order ledgeMap ledgeField ⟨1, 0⟩ 1).2

/-- The record of the calls for the square `(1, 0)` of `ledgeField`: the two
other explored squares, one after the other. -/
theorem ledge_log :
    (ledgeMap.findAndApplyAllComplexTestsLog ledgeField ⟨1, 0⟩ 1).map Prod.snd
      = some [[⟨1, 1⟩], [⟨1, 2⟩]] := by
  decide

end mineFieldProbMap

end minesweeper

/-! ## The automatic exploration -/

namespace minesweeper

open Relation mineFieldProbMap

/-! ### Function `autoExplore` -/

theorem unknowns_setZero (P : mineFieldProbMap) (M : mineField) :
    (unknowns M (P.setProbOfExploredSquaresToZero M)).card ≤ (unknowns M P).card := by
  apply Finset.card_le_card
  intro rc hrc
  simp only [unknowns, Finset.mem_filter] at hrc ⊢
  refine ⟨hrc.1, ?_⟩
  by_contra hk
  simp only [Bool.not_eq_false] at hk
  have h2 := hrc.2
  have ha := setZero_apply P M ⟨(rc.1 : Int), (rc.2 : Int)⟩
  simp only [squareKnown, squareClear, squareMined, Bool.or_eq_false_iff,
    beq_eq_false_iff_ne, ne_eq] at h2
  simp only [squareKnown, squareClear, squareMined, Bool.or_eq_true, beq_iff_eq] at hk
  rw [ha] at h2
  split_ifs at h2 with hx
  · exact h2.1 rfl
  · rcases hk with h | h
    · exact h2.1 h
    · exact h2.2 h

/-- A call of `update` that returns `true` leaves fewer squares that are
not known. -/
theorem update_measure (P : mineFieldProbMap) (M : mineField) (P1 : mineFieldProbMap)
    (h : P.update M = some (true, P1)) : (unknowns M P1).card < (unknowns M P).card := by
  obtain ⟨b, P2, hr, -, -, h3⟩ := update_spec P M
  rw [h] at hr
  simp only [Option.some.injEq, Prod.mk.injEq] at hr
  obtain ⟨hb, hp⟩ := hr
  subst hb hp
  have := steps_strict (h3 rfl) (setZero_exploredClear P M)
  have := unknowns_setZero P M
  omega

theorem inside_layout {M0 M : mineField} (hh : M.height = M0.height) (hw : M.width = M0.width)
    (t : square) : M.squareInsideMap t = M0.squareInsideMap t := by
  simp only [mineField.squareInsideMap, mineField.getHeight, mineField.getWidth, hh, hw]

theorem sound_layout {M0 M : mineField} (hh : M.height = M0.height) (hw : M.width = M0.width)
    (hm : M.map = M0.map) (P : mineFieldProbMap) (h : Sound M0 P) : Sound M P := by
  intro t ht
  rw [inside_layout hh hw] at ht
  simpa only [mineField.squareMined, hm] using h t ht

theorem exactCounts_flag (M : mineField) (c : square) (hE : M.ExactCounts) :
    (M.flagSquare c).ExactCounts := by
  intro t ht hx
  have hin : M.squareInsideMap t = true := ht
  by_cases h : t.row = c.row ∧ t.col = c.col
  · exfalso
    simp [mineField.flagSquare, mineField.squareExplored, setCell, h] at hx
  · have he : (M.flagSquare c).expMap t.row t.col = M.expMap t.row t.col := by
      simp [mineField.flagSquare, setCell, h]
    have hx0 : M.squareExplored t = true := by
      simpa only [mineField.squareExplored, he] using hx
    have := hE t hin hx0
    refine ⟨this.1, ?_⟩
    have hn : (M.flagSquare c).n_minedNbours t = M.n_minedNbours t := by
      simp only [mineField.n_minedNbours, he]
    rw [hn]
    exact this.2

/-- What the `for` loops of `autoExplore` keep and do: the size of the grid
and the mines stay, the explored squares keep exact counts, every call of
`explore` is on a square that is not mined and returns `true`, and every
square flagged is mined. -/
theorem autoExploreOver_spec (M0 : mineField) (P : mineFieldProbMap) (hS : Sound M0 P) :
    ∀ (l : List square) (M : mineField), (∀ s ∈ l, M0.squareInsideMap s = true) →
      M.height = M0.height → M.width = M0.width → M.map = M0.map → M.ExactCounts →
      ∃ x, autoExploreOver P l M = some x ∧
        x.1.height = M0.height ∧ x.1.width = M0.width ∧ x.1.map = M0.map ∧ x.1.ExactCounts ∧
        (∀ s b, (s, some b) ∈ x.2 →
          M0.squareInsideMap s = true ∧ M0.squareMined s = false ∧ b = true) ∧
        (∀ s, (s, none) ∈ x.2 → M0.squareInsideMap s = true ∧ M0.squareMined s = true) := by
  intro l
  induction l with
  | nil =>
    intro M _ hh hw hm hE
    refine ⟨(M, []), rfl, hh, hw, hm, hE, ?_, ?_⟩
    · intro s b h
      cases h
    · intro s h
      cases h
  | cons a l ih =>
    intro M hl hh hw hm hE
    have ha := hl a (List.mem_cons_self a l)
    have hl1 : ∀ s ∈ l, M0.squareInsideMap s = true :=
      fun s hs => hl s (List.mem_cons_of_mem a hs)
    have hmined : ∀ t, M.squareMined t = M0.squareMined t := fun t => by
      simp only [mineField.squareMined, hm]
    simp only [autoExploreOver]
    by_cases h1 : (P.squareClear a && !M.squareExplored a) = true
    · rw [if_pos h1]
      simp only [Bool.and_eq_true] at h1
      have hain : M.squareInsideMap a = true := by rw [inside_layout hh hw]; exact ha
      obtain ⟨r, hr⟩ := mineField.explore_some M a hain
      obtain ⟨hF, hb, -⟩ := mineField.explore_frame _ M a r hain hr
      have hum : M0.squareMined a = false := (hS a ha).2 h1.1
      have hb1 : r.1 = true := by rw [hb, hmined, hum]; rfl
      obtain ⟨x, hx, i1, i2, i3, i4, i5, i6⟩ := ih r.2 hl1 (hF.1.trans hh) (hF.2.1.trans hw)
        (hF.2.2.2.1.trans hm)
        (mineField.exactCounts_of_exact _ (mineField.exact_frame hF (exact_of_counts M hE)))
      refine ⟨(x.1, (a, some r.1) :: x.2), by rw [hr]; simp only [hx, Option.map_some'],
        i1, i2, i3, i4, fun s b hmem => ?_, fun s hmem => ?_⟩
      · rcases List.mem_cons.mp hmem with e | hmem1
        · simp only [Prod.mk.injEq, Option.some.injEq] at e
          rw [e.1, e.2]
          exact ⟨ha, hum, hb1⟩
        · exact i5 s b hmem1
      · rcases List.mem_cons.mp hmem with e | hmem1
        · simp only [Prod.mk.injEq] at e
          cases e.2
        · exact i6 s hmem1
    · rw [if_neg h1]
      by_cases h2 : (P.squareMined a && !M.squareFlagged a) = true
      · rw [if_pos h2]
        simp only [Bool.and_eq_true] at h2
        have hmn : M0.squareMined a = true := (hS a ha).1 h2.1
        obtain ⟨x, hx, i1, i2, i3, i4, i5, i6⟩ := ih (M.flagSquare a) hl1 hh hw hm
          (exactCounts_flag M a hE)
        refine ⟨(x.1, (a, none) :: x.2), by simp only [hx, Option.map_some'],
          i1, i2, i3, i4, fun s b hmem => ?_, fun s hmem => ?_⟩
        · rcases List.mem_cons.mp hmem with e | hmem1
          · simp only [Prod.mk.injEq] at e
            cases e.2
          · exact i5 s b hmem1
        · rcases List.mem_cons.mp hmem with e | hmem1
          · simp only [Prod.mk.injEq, and_true] at e
            rw [e]
            exact ⟨ha, hmn⟩
          · exact i6 s hmem1
      · rw [if_neg h2]
        exact ih M hl1 hh hw hm hE

theorem unknowns_layout {M0 M : mineField} (hh : M.height = M0.height) (hw : M.width = M0.width)
    (P : mineFieldProbMap) : unknowns M P = unknowns M0 P := by
  simp only [unknowns, hh, hw]

theorem allSquares_layout {M0 M : mineField} (hh : M.height = M0.height)
    (hw : M.width = M0.width) : allSquares M = allSquares M0 := by
  simp only [allSquares, hh, hw]

theorem autoExploreLoop_spec (M0 : mineField) :
    ∀ (fuel : Nat) (M : mineField) (P : mineFieldProbMap) (c : Bool),
      M.height = M0.height → M.width = M0.width → M.map = M0.map → M.ExactCounts →
      Sound M0 P → (unknowns M0 P).card < fuel →
      ∃ x, autoExploreLoop fuel M P c = some x ∧
        x.1.2.1.height = M0.height ∧ x.1.2.1.width = M0.width ∧ x.1.2.1.map = M0.map ∧
        x.1.2.1.ExactCounts ∧ Sound M0 x.1.2.2 ∧
        (∀ s b, (s, some b) ∈ x.2 →
          M0.squareInsideMap s = true ∧ M0.squareMined s = false ∧ b = true) ∧
        (∀ s, (s, none) ∈ x.2 → M0.squareInsideMap s = true ∧ M0.squareMined s = true) := by
  intro fuel
  induction fuel with
  | zero => intro M P c _ _ _ _ _ h; omega
  | succ fuel ih =>
    intro M P c hh hw hm hE hS hlt
    have hSM : Sound M P := sound_layout hh hw hm P hS
    obtain ⟨b, P1, hr, hsteps, -, -⟩ := update_spec P M
    have hE1 := exact_of_counts M hE
    have hS1M : Sound M P1 :=
      steps_sound hsteps hE1 (setZero_sound P M hE1 hSM) (setZero_exploredClear P M)
    have hS1 : Sound M0 P1 := sound_layout hh.symm hw.symm hm.symm P1 hS1M
    simp only [autoExploreLoop, hr]
    cases b with
    | false =>
      simp only [Bool.false_eq_true, if_false]
      refine ⟨_, rfl, hh, hw, hm, hE, hS1, ?_, ?_⟩
      · intro s b h
        cases h
      · intro s h
        cases h
    | true =>
      simp only [if_true]
      have hmeas := update_measure P M P1 hr
      rw [unknowns_layout hh hw, unknowns_layout hh hw] at hmeas
      obtain ⟨x, hx, i1, i2, i3, i4, i5, i6⟩ := autoExploreOver_spec M0 P1 hS1 (allSquares M) M
        (fun s hs => by
          rw [allSquares_layout hh hw] at hs
          exact (mem_allSquares M0 s).mp hs) hh hw hm hE
      rw [hx]
      dsimp only
      by_cases hg : x.1.gameWon = true
      · rw [if_pos hg]
        exact ⟨_, rfl, i1, i2, i3, i4, hS1, i5, i6⟩
      · rw [if_neg hg]
        obtain ⟨y, hy, j1, j2, j3, j4, j5, j6, j7⟩ := ih x.1 P1 true i1 i2 i3 i4 hS1
          (by omega)
        refine ⟨(y.1, x.2 ++ y.2), by simp only [hy, Option.map_some'], j1, j2, j3, j4, j5,
          fun s b hmem => ?_, fun s hmem => ?_⟩
        · rcases List.mem_append.mp hmem with h | h
          · exact i5 s b h
          · exact j6 s b h
        · rcases List.mem_append.mp hmem with h | h
          · exact i6 s h
          · exact j7 s h

/-- C32: on a grid whose explored squares hold exact counts and a sound
probability map, `autoExplore` returns; every call of `explore` that it
made was on a square of the map that is not mined and returned `true`, and
every square that it flagged is mined.  The grid that it leaves has the
same mines and exact counts, and the probability map that it leaves is
sound. -/
theorem autoExplore_safe (M : mineField) (P : mineFieldProbMap) (hE : M.ExactCounts)
    (hS : Sound M P) :
    ∃ x, autoExplore M P = some x ∧
      (∀ s b, (s, some b) ∈ x.2 →
        M.squareInsideMap s = true ∧ M.squareMined s = false ∧ b = true) ∧
      (∀ s, (s, none) ∈ x.2 → M.squareInsideMap s = true ∧ M.squareMined s = true) ∧
      x.1.2.1.map = M.map ∧ x.1.2.1.ExactCounts ∧ Sound M x.1.2.2 := by
  obtain ⟨x, hx, -, -, i3, i4, i5, i6, i7⟩ := autoExploreLoop_spec M _ M P false rfl rfl rfl hE
    hS (Nat.lt_succ_of_le (unknowns_card_bound M P))
  exact ⟨x, hx, i6, i7, i3, i4, i5⟩

theorem autoExplore_safe_witness :
    ∃ x, autoExplore ledgeField blankMap = some x ∧
      (∀ s b, (s, some b) ∈ x.2 →
        ledgeField.squareInsideMap s = true ∧ ledgeField.squareMined s = false ∧ b = true) ∧
      (∀ s, (s, none) ∈ x.2 →
        ledgeField.squareInsideMap s = true ∧ ledgeField.squareMined s = true) ∧
      x.1.2.1.map = ledgeField.map ∧ x.1.2.1.ExactCounts ∧ Sound ledgeField x.1.2.2 :=
  autoExplore_safe ledgeField blankMap (exactCounts_of_all ledgeField (by decide))
    (sound_of_all ledgeField blankMap (by decide))

/-- The calls that `autoExplore` makes on `ledgeField` with no square known:
it flags the two mined squares and explores the square between them. -/
theorem ledge_autoExplore :
    (autoExplore ledgeField blankMap).map Prod.snd
      = some [(⟨0, 0⟩, none), (⟨0, 1⟩, some true), (⟨0, 2⟩, none)] := by
  decide

end minesweeper

/-! ## The calls of `squareMeetsCriteria` made by `update` -/

namespace minesweeper

open Relation

namespace mineFieldProbMap

/-- The conditions under which `findAnotherSquare` calls
`squareMeetsCriteria` for the square `n`. -/
theorem findInRowCalls_succ (P : mineFieldProbMap) (M : mineField) (s : square)
    (u : unknownNboursSharedRec) (p : square) (nrow : Int) (fuel : Nat) (ncol : Int) :
    findInRowCalls P M s u p nrow (fuel + 1) ncol
      = if ncol ≤ min (s.col + 2) M.getWidth then
          if M.squareInsideMap ⟨nrow, jumpCol s p nrow ncol⟩
              && M.squareExplored ⟨nrow, jumpCol s p nrow ncol⟩
              && decide (P.n_unknownNbours M ⟨nrow, jumpCol s p nrow ncol⟩ ≠ 0)
              && decide ((⟨nrow, jumpCol s p nrow ncol⟩ : square) ≠ s) then
            if (squareMeetsCriteria P M s ⟨nrow, jumpCol s p nrow ncol⟩ u ⟨0, 0, ∅⟩).1 then
              some (some (accepted P M s u ⟨nrow, jumpCol s p nrow ncol⟩),
                [⟨nrow, jumpCol s p nrow ncol⟩])
            else
              (findInRowCalls P M s u p nrow fuel (jumpCol s p nrow ncol + 1)).map
                fun x => (x.1, ⟨nrow, jumpCol s p nrow ncol⟩ :: x.2)
          else findInRowCalls P M s u p nrow fuel (jumpCol s p nrow ncol + 1)
        else some (none, []) := rfl

theorem findInRowCalls_fst (P : mineFieldProbMap) (M : mineField) (s : square)
    (u : unknownNboursSharedRec) (p : square) (nrow : Int) :
    ∀ (fuel : Nat) (ncol : Int),
      (findInRowCalls P M s u p nrow fuel ncol).map Prod.fst
        = findInRow P M s u p nrow fuel ncol := by
  intro fuel
  induction fuel with
  | zero =>
    intro ncol
    simp only [findInRowCalls, findInRow]
    split_ifs <;> rfl
  | succ fuel ih =>
    intro ncol
    rw [findInRowCalls_succ, findInRow_succ]
    by_cases h1 : ncol ≤ min (s.col + 2) M.getWidth
    · rw [if_pos h1, if_pos h1]
      by_cases hg : (M.squareInsideMap ⟨nrow, jumpCol s p nrow ncol⟩
              && M.squareExplored ⟨nrow, jumpCol s p nrow ncol⟩
              && decide (P.n_unknownNbours M ⟨nrow, jumpCol s p nrow ncol⟩ ≠ 0)
              && decide ((⟨nrow, jumpCol s p nrow ncol⟩ : square) ≠ s)) = true
      · rw [if_pos hg]
        by_cases hr : (squareMeetsCriteria P M s ⟨nrow, jumpCol s p nrow ncol⟩ u ⟨0, 0, ∅⟩).1
            = true
        · rw [if_pos hr, if_pos (by simp only [accepts, hg, hr, Bool.and_self])]
          rfl
        · rw [if_neg hr, if_neg (by simp only [accepts, hg, hr, Bool.true_and]; simp),
            Option.map_map]
          exact ih _
      · rw [if_neg hg, if_neg (by
          intro h
          simp only [accepts, Bool.and_eq_true] at h
          exact hg (by simp only [Bool.and_eq_true]; exact h.1))]
        exact ih _
    · rw [if_neg h1, if_neg h1]
      rfl

/-- Every square for which `findAnotherSquare` calls `squareMeetsCriteria`
passed the test of the `if` before the call. -/
theorem findInRowCalls_guard (P : mineFieldProbMap) (M : mineField) (s : square)
    (u : unknownNboursSharedRec) (p : square) (nrow : Int) :
    ∀ (fuel : Nat) (ncol : Int)
      (x : Option (unknownNboursSharedRec × square × square) × List square),
      findInRowCalls P M s u p nrow fuel ncol = some x →
      ∀ n ∈ x.2, M.squareInsideMap n = true ∧ M.squareExplored n = true ∧ n ≠ s := by
  intro fuel
  induction fuel with
  | zero =>
    intro ncol x h
    simp only [findInRowCalls] at h
    split_ifs at h
    cases h
    intro n hn
    cases hn
  | succ fuel ih =>
    intro ncol x h
    rw [findInRowCalls_succ] at h
    split_ifs at h with h1 hg hr
    · cases h
      intro n hn
      simp only [List.mem_singleton] at hn
      subst hn
      simp only [Bool.and_eq_true, decide_eq_true_eq] at hg
      exact ⟨hg.1.1.1, hg.1.1.2, hg.2⟩
    · cases hc : findInRowCalls P M s u p nrow fuel (jumpCol s p nrow ncol + 1) with
      | none => rw [hc] at h; cases h
      | some y =>
        rw [hc] at h
        cases h
        intro n hn
        rcases List.mem_cons.mp hn with e | hn1
        · subst e
          simp only [Bool.and_eq_true, decide_eq_true_eq] at hg
          exact ⟨hg.1.1.1, hg.1.1.2, hg.2⟩
        · exact ih _ y hc n hn1
    · exact ih _ x h
    · cases h
      intro n hn
      cases hn

theorem findInRowsCalls_fst (P : mineFieldProbMap) (M : mineField) (s : square)
    (u : unknownNboursSharedRec) (p : square) :
    ∀ (count : Nat) (nrow : Int),
      (findInRowsCalls P M s u p count nrow).map Prod.fst = findInRows P M s u p count nrow := by
  intro count
  induction count with
  | zero => intro nrow; rfl
  | succ count ih =>
    intro nrow
    simp only [findInRowsCalls, findInRows]
    rw [← findInRowCalls_fst P M s u p nrow 6 (max (s.col - 2) 0)]
    cases findInRowCalls P M s u p nrow 6 (max (s.col - 2) 0) with
    | none => rfl
    | some y =>
      obtain ⟨o, l⟩ := y
      cases o with
      | none =>
        dsimp only [Option.map_some']
        rw [Option.map_map]
        exact ih _
      | some r => rfl

theorem findInRowsCalls_guard (P : mineFieldProbMap) (M : mineField) (s : square)
    (u : unknownNboursSharedRec) (p : square) :
    ∀ (count : Nat) (nrow : Int)
      (x : Option (unknownNboursSharedRec × square × square) × List square),
      findInRowsCalls P M s u p count nrow = some x →
      ∀ n ∈ x.2, M.squareInsideMap n = true ∧ M.squareExplored n = true ∧ n ≠ s := by
  intro count
  induction count with
  | zero =>
    intro nrow x h
    cases h
    intro n hn
    cases hn
  | succ count ih =>
    intro nrow x h
    simp only [findInRowsCalls] at h
    cases hc : findInRowCalls P M s u p nrow 6 (max (s.col - 2) 0) with
    | none => rw [hc] at h; cases h
    | some y =>
      obtain ⟨o, l⟩ := y
      have hl := findInRowCalls_guard P M s u p nrow 6 _ _ hc
      rw [hc] at h
      cases o with
      | some r =>
        cases h
        exact hl
      | none =>
        dsimp only at h
        cases hd : findInRowsCalls P M s u p count (nrow + 1) with
        | none => rw [hd] at h; cases h
        | some z =>
          rw [hd] at h
          cases h
          intro n hn
          rcases List.mem_append.mp hn with h1 | h1
          · exact hl n h1
          · exact ih _ z hd n h1

theorem findAnotherSquareCalls_fst (P : mineFieldProbMap) (M : mineField) (s : square)
    (u : unknownNboursSharedRec) (p : square) :
    (findAnotherSquareCalls P M s u p).map Prod.fst = findAnotherSquare P M s u p := by
  simp only [findAnotherSquareCalls, findAnotherSquare]
  split_ifs
  · rfl
  · exact findInRowsCalls_fst P M s u p _ _

theorem findAnotherSquareCalls_guard (P : mineFieldProbMap) (M : mineField) (s : square)
    (u : unknownNboursSharedRec) (p : square)
    (x : Option (unknownNboursSharedRec × square × square) × List square)
    (h : findAnotherSquareCalls P M s u p = some x) :
    ∀ n ∈ x.2, M.squareInsideMap n = true ∧ M.squareExplored n = true ∧ n ≠ s := by
  simp only [findAnotherSquareCalls] at h
  split_ifs at h
  · cases h
    intro n hn
    cases hn
  · exact findInRowsCalls_guard P M s u p _ _ x h

end mineFieldProbMap

end minesweeper

namespace minesweeper

open Relation

namespace mineFieldProbMap

theorem calls_of_guard (P : mineFieldProbMap) (M : mineField) (s : square) (l : List square)
    (hl : ∀ n ∈ l, M.squareInsideMap n = true ∧ M.squareExplored n = true ∧ n ≠ s) :
    ∀ c ∈ l.map (fun n => (P, s, n)), c.1 = P ∧ c.2.1 = s ∧ M.squareInsideMap c.2.2 = true ∧
      M.squareExplored c.2.2 = true ∧ c.2.2 ≠ s := by
  intro c hc
  obtain ⟨n, hn, rfl⟩ := List.mem_map.mp hc
  exact ⟨rfl, rfl, hl n hn⟩

theorem findThirdCalls_fst (M : mineField) (s : square) (u2 : unknownNboursSharedRec) :
    ∀ (fuel : Nat) (P : mineFieldProbMap) (u3 : unknownNboursSharedRec) (p3 : square),
      (findThirdCalls M s u2 fuel P u3 p3).map Prod.fst = findThird M s u2 fuel P u3 p3 := by
  intro fuel
  induction fuel with
  | zero => intro P u3 p3; rfl
  | succ fuel ih =>
    intro P u3 p3
    simp only [findThirdCalls, findThird]
    rw [← findAnotherSquareCalls_fst P M s u3 p3]
    cases findAnotherSquareCalls P M s u3 p3 with
    | none => rfl
    | some y =>
      obtain ⟨o, l⟩ := y
      cases o with
      | none => rfl
      | some x =>
        obtain ⟨ux, px, nx⟩ := x
        dsimp only [Option.map_some']
        split_ifs
        · rfl
        · rw [Option.map_map]
          exact ih _ _ _

/-- The calls of `squareMeetsCriteria` in a search from the third square on:
each one has the map and the square `s` of the search and a square `n` that
passed the test before the call. -/
theorem findThirdCalls_spec (M : mineField) (s : square) (u2 : unknownNboursSharedRec) :
    ∀ (fuel : Nat) (P : mineFieldProbMap) (u3 : unknownNboursSharedRec) (p3 : square)
      (x : (Bool × mineFieldProbMap) × List (mineFieldProbMap × square × square)),
      findThirdCalls M s u2 fuel P u3 p3 = some x →
      (x.1.1 = false → x.1.2 = P) ∧
        ∀ c ∈ x.2, c.1 = P ∧ c.2.1 = s ∧ M.squareInsideMap c.2.2 = true ∧
          M.squareExplored c.2.2 = true ∧ c.2.2 ≠ s := by
  intro fuel
  induction fuel with
  | zero => intro P u3 p3 x h; cases h
  | succ fuel ih =>
    intro P u3 p3 x h
    simp only [findThirdCalls] at h
    cases hf : findAnotherSquareCalls P M s u3 p3 with
    | none => rw [hf] at h; cases h
    | some y =>
      obtain ⟨o, l⟩ := y
      have hl := calls_of_guard P M s l (findAnotherSquareCalls_guard P M s u3 p3 _ hf)
      rw [hf] at h
      cases o with
      | none =>
        cases h
        exact ⟨fun _ => rfl, hl⟩
      | some r =>
        obtain ⟨ux, px, nx⟩ := r
        dsimp only at h
        by_cases ht : (P.applyComplexTests M s ux).1 = true
        · rw [if_pos ht] at h
          cases h
          exact ⟨fun hb => (by cases hb), hl⟩
        · rw [if_neg ht] at h
          have he : (P.applyComplexTests M s ux).2 = P :=
            applyComplexTests_false P M s ux (by simpa using ht)
          rw [he] at h
          cases hd : findThirdCalls M s u2 fuel P u2 px with
          | none => rw [hd] at h; cases h
          | some z =>
            rw [hd] at h
            cases h
            obtain ⟨z1, z2⟩ := ih P u2 px z hd
            refine ⟨z1, fun c hc => ?_⟩
            rcases List.mem_append.mp hc with h1 | h1
            · exact hl c h1
            · exact z2 c h1

theorem findSecondCalls_fst (M : mineField) (s : square) (n_otherSquares : Int)
    (u1 : unknownNboursSharedRec) :
    ∀ (fuel : Nat) (P : mineFieldProbMap) (u2 : unknownNboursSharedRec) (p2 : square),
      (findSecondCalls M s n_otherSquares u1 fuel P u2 p2).map Prod.fst
        = findSecond M s n_otherSquares u1 fuel P u2 p2 := by
  intro fuel
  induction fuel with
  | zero => intro P u2 p2; rfl
  | succ fuel ih =>
    intro P u2 p2
    simp only [findSecondCalls, findSecond]
    rw [← findAnotherSquareCalls_fst P M s u2 p2]
    cases findAnotherSquareCalls P M s u2 p2 with
    | none => rfl
    | some y =>
      obtain ⟨o, l⟩ := y
      cases o with
      | none => rfl
      | some x =>
        obtain ⟨ux, px, nx⟩ := x
        dsimp only [Option.map_some']
        by_cases hk : n_otherSquares > 2
        · simp only [if_pos hk]
          rw [← findThirdCalls_fst M s ux 26 P ux px]
          cases findThirdCalls M s ux 26 P ux px with
          | none => rfl
          | some z =>
            dsimp only [Option.map_some']
            split_ifs
            · rfl
            · rw [Option.map_map]
              exact ih _ _ _
        · simp only [if_neg hk]
          split_ifs
          · rfl
          · rw [Option.map_map]
            exact ih _ _ _

theorem findSecondCalls_spec (M : mineField) (s : square) (n_otherSquares : Int)
    (u1 : unknownNboursSharedRec) :
    ∀ (fuel : Nat) (P : mineFieldProbMap) (u2 : unknownNboursSharedRec) (p2 : square)
      (x : (Bool × mineFieldProbMap) × List (mineFieldProbMap × square × square)),
      findSecondCalls M s n_otherSquares u1 fuel P u2 p2 = some x →
      (x.1.1 = false → x.1.2 = P) ∧
        ∀ c ∈ x.2, c.1 = P ∧ c.2.1 = s ∧ M.squareInsideMap c.2.2 = true ∧
          M.squareExplored c.2.2 = true ∧ c.2.2 ≠ s := by
  intro fuel
  induction fuel with
  | zero => intro P u2 p2 x h; cases h
  | succ fuel ih =>
    intro P u2 p2 x h
    simp only [findSecondCalls] at h
    cases hf : findAnotherSquareCalls P M s u2 p2 with
    | none => rw [hf] at h; cases h
    | some y =>
      obtain ⟨o, l⟩ := y
      have hl := calls_of_guard P M s l (findAnotherSquareCalls_guard P M s u2 p2 _ hf)
      rw [hf] at h
      cases o with
      | none =>
        cases h
        exact ⟨fun _ => rfl, hl⟩
      | some r =>
        obtain ⟨ux, px, nx⟩ := r
        dsimp only at h
        have hin : ∀ w, (if n_otherSquares > 2 then findThirdCalls M s ux 26 P ux px
            else some (P.applyComplexTests M s ux, [])) = some w →
            (w.1.1 = false → w.1.2 = P) ∧
              ∀ c ∈ w.2, c.1 = P ∧ c.2.1 = s ∧ M.squareInsideMap c.2.2 = true ∧
                M.squareExplored c.2.2 = true ∧ c.2.2 ≠ s := by
          intro w hw
          split_ifs at hw
          · exact findThirdCalls_spec M s ux 26 P ux px w hw
          · cases hw
            exact ⟨fun hb => applyComplexTests_false P M s ux hb, fun c hc => by cases hc⟩
        cases hi : (if n_otherSquares > 2 then findThirdCalls M s ux 26 P ux px
            else some (P.applyComplexTests M s ux, [])) with
        | none => rw [hi] at h; cases h
        | some w =>
          obtain ⟨w1, w2⟩ := hin w hi
          rw [hi] at h
          dsimp only at h
          by_cases ht : w.1.1 = true
          · rw [if_pos ht] at h
            cases h
            refine ⟨fun hb => (by cases hb), fun c hc => ?_⟩
            rcases List.mem_append.mp hc with h1 | h1
            · exact hl c h1
            · exact w2 c h1
          · rw [if_neg ht] at h
            have he : w.1.2 = P := w1 (by simpa using ht)
            rw [he] at h
            cases hd : findSecondCalls M s n_otherSquares u1 fuel P u1 px with
            | none => rw [hd] at h; cases h
            | some z =>
              rw [hd] at h
              cases h
              obtain ⟨z1, z2⟩ := ih P u1 px z hd
              refine ⟨z1, fun c hc => ?_⟩
              rcases List.mem_append.mp hc with h1 | h1
              · rcases List.mem_append.mp h1 with h2 | h2
                · exact hl c h2
                · exact w2 c h2
              · exact z2 c h1

theorem findFirstCalls_fst (M : mineField) (s : square) (n_otherSquares : Int) :
    ∀ (fuel : Nat) (P : mineFieldProbMap) (u1 : unknownNboursSharedRec) (p1 : square),
      (findFirstCalls M s n_otherSquares fuel P u1 p1).map Prod.fst
        = findFirst M s n_otherSquares fuel P u1 p1 := by
  intro fuel
  induction fuel with
  | zero => intro P u1 p1; rfl
  | succ fuel ih =>
    intro P u1 p1
    simp only [findFirstCalls, findFirst]
    rw [← findAnotherSquareCalls_fst P M s u1 p1]
    cases findAnotherSquareCalls P M s u1 p1 with
    | none => rfl
    | some y =>
      obtain ⟨o, l⟩ := y
      cases o with
      | none => rfl
      | some x =>
        obtain ⟨ux, px, nx⟩ := x
        dsimp only [Option.map_some']
        by_cases hk : n_otherSquares > 1
        · simp only [if_pos hk]
          rw [← findSecondCalls_fst M s n_otherSquares ux 26 P ux px]
          cases findSecondCalls M s n_otherSquares ux 26 P ux px with
          | none => rfl
          | some z =>
            dsimp only [Option.map_some']
            split_ifs
            · rfl
            · rw [Option.map_map]
              exact ih _ _ _
        · simp only [if_neg hk]
          split_ifs
          · rfl
          · rw [Option.map_map]
            exact ih _ _ _

theorem findFirstCalls_spec (M : mineField) (s : square) (n_otherSquares : Int) :
    ∀ (fuel : Nat) (P : mineFieldProbMap) (u1 : unknownNboursSharedRec) (p1 : square)
      (x : (Bool × mineFieldProbMap) × List (mineFieldProbMap × square × square)),
      findFirstCalls M s n_otherSquares fuel P u1 p1 = some x →
      (x.1.1 = false → x.1.2 = P) ∧
        ∀ c ∈ x.2, c.1 = P ∧ c.2.1 = s ∧ M.squareInsideMap c.2.2 = true ∧
          M.squareExplored c.2.2 = true ∧ c.2.2 ≠ s := by
  intro fuel
  induction fuel with
  | zero => intro P u1 p1 x h; cases h
  | succ fuel ih =>
    intro P u1 p1 x h
    simp only [findFirstCalls] at h
    cases hf : findAnotherSquareCalls P M s u1 p1 with
    | none => rw [hf] at h; cases h
    | some y =>
      obtain ⟨o, l⟩ := y
      have hl := calls_of_guard P M s l (findAnotherSquareCalls_guard P M s u1 p1 _ hf)
      rw [hf] at h
      cases o with
      | none =>
        cases h
        exact ⟨fun _ => rfl, hl⟩
      | some r =>
        obtain ⟨ux, px, nx⟩ := r
        dsimp only at h
        have hin : ∀ w, (if n_otherSquares > 1 then
              findSecondCalls M s n_otherSquares ux 26 P ux px
            else some (P.applyComplexTests M s ux, [])) = some w →
            (w.1.1 = false → w.1.2 = P) ∧
              ∀ c ∈ w.2, c.1 = P ∧ c.2.1 = s ∧ M.squareInsideMap c.2.2 = true ∧
                M.squareExplored c.2.2 = true ∧ c.2.2 ≠ s := by
          intro w hw
          split_ifs at hw
          · exact findSecondCalls_spec M s n_otherSquares ux 26 P ux px w hw
          · cases hw
            exact ⟨fun hb => applyComplexTests_false P M s ux hb, fun c hc => by cases hc⟩
        cases hi : (if n_otherSquares > 1 then
              findSecondCalls M s n_otherSquares ux 26 P ux px
            else some (P.applyComplexTests M s ux, [])) with
        | none => rw [hi] at h; cases h
        | some w =>
          obtain ⟨w1, w2⟩ := hin w hi
          rw [hi] at h
          dsimp only at h
          by_cases ht : w.1.1 = true
          · rw [if_pos ht] at h
            cases h
            refine ⟨fun hb => (by cases hb), fun c hc => ?_⟩
            rcases List.mem_append.mp hc with h1 | h1
            · exact hl c h1
            · exact w2 c h1
          · rw [if_neg ht] at h
            have he : w.1.2 = P := w1 (by simpa using ht)
            rw [he] at h
            cases hd : findFirstCalls M s n_otherSquares fuel P ux.reset px with
            | none => rw [hd] at h; cases h
            | some z =>
              rw [hd] at h
              cases h
              obtain ⟨z1, z2⟩ := ih P ux.reset px z hd
              refine ⟨z1, fun c hc => ?_⟩
              rcases List.mem_append.mp hc with h1 | h1
              · rcases List.mem_append.mp h1 with h2 | h2
                · exact hl c h2
                · exact w2 c h2
              · exact z2 c h1

theorem findAndApplyAllComplexTestsCalls_fst (P : mineFieldProbMap) (M : mineField)
    (s : square) (n_otherSquares : Int) :
    (P.findAndApplyAllComplexTestsCalls M s n_otherSquares).map Prod.fst
      = P.findAndApplyAllComplexTests M s n_otherSquares :=
  findFirstCalls_fst M s n_otherSquares 26 P _ _

theorem applyComplexTestsOverCalls_fst (M : mineField) (n_otherSquares : Int) :
    ∀ (l : List square) (P : mineFieldProbMap),
      (applyComplexTestsOverCalls M n_otherSquares l P).map Prod.fst
        = applyComplexTestsOver M n_otherSquares l P := by
  intro l
  induction l with
  | nil => intro P; rfl
  | cons a l ih =>
    intro P
    simp only [applyComplexTestsOverCalls, applyComplexTestsOver]
    split_ifs with hg
    · rw [← findAndApplyAllComplexTestsCalls_fst P M a n_otherSquares]
      cases P.findAndApplyAllComplexTestsCalls M a n_otherSquares with
      | none => rfl
      | some z =>
        dsimp only [Option.map_some']
        split_ifs
        · rfl
        · rw [Option.map_map]
          exact ih _
    · exact ih _

/-- The calls of `squareMeetsCriteria` in a pass of complex tests over the
map: each one has the map with which the pass began, an explored square `s`
of the map and a square `n` that passed the test before the call. -/
theorem applyComplexTestsOverCalls_spec (M : mineField) (n_otherSquares : Int) :
    ∀ (l : List square), (∀ s ∈ l, M.squareInsideMap s = true) →
      ∀ (P : mineFieldProbMap)
        (x : (Bool × mineFieldProbMap) × List (mineFieldProbMap × square × square)),
        applyComplexTestsOverCalls M n_otherSquares l P = some x →
        (x.1.1 = false → x.1.2 = P) ∧
          ∀ c ∈ x.2, c.1 = P ∧ M.squareInsideMap c.2.1 = true ∧
            M.squareExplored c.2.1 = true ∧ M.squareInsideMap c.2.2 = true ∧
            M.squareExplored c.2.2 = true ∧ c.2.2 ≠ c.2.1 := by
  intro l
  induction l with
  | nil =>
    intro _ P x h
    cases h
    exact ⟨fun _ => rfl, fun c hc => by cases hc⟩
  | cons a l ih =>
    intro hl P x h
    have ha := hl a (List.mem_cons_self a l)
    have hl1 : ∀ s ∈ l, M.squareInsideMap s = true :=
      fun s hs => hl s (List.mem_cons_of_mem a hs)
    simp only [applyComplexTestsOverCalls] at h
    by_cases hg : (M.squareExplored a && decide (P.n_unknownNbours M a ≠ 0)) = true
    · rw [if_pos hg] at h
      simp only [Bool.and_eq_true] at hg
      cases hf : P.findAndApplyAllComplexTestsCalls M a n_otherSquares with
      | none => rw [hf] at h; cases h
      | some w =>
        obtain ⟨w1, w2⟩ := findFirstCalls_spec M a n_otherSquares 26 P _ _ w hf
        have w3 : ∀ c ∈ w.2, c.1 = P ∧ M.squareInsideMap c.2.1 = true ∧
            M.squareExplored c.2.1 = true ∧ M.squareInsideMap c.2.2 = true ∧
            M.squareExplored c.2.2 = true ∧ c.2.2 ≠ c.2.1 := by
          intro c hc
          obtain ⟨c1, c2, c3, c4, c5⟩ := w2 c hc
          rw [c2]
          exact ⟨c1, ha, hg.1, c3, c4, c5⟩
        rw [hf] at h
        dsimp only at h
        by_cases ht : w.1.1 = true
        · rw [if_pos ht] at h
          cases h
          exact ⟨fun hb => (by cases hb), w3⟩
        · rw [if_neg ht] at h
          have he : w.1.2 = P := w1 (by simpa using ht)
          rw [he] at h
          cases hd : applyComplexTestsOverCalls M n_otherSquares l P with
          | none => rw [hd] at h; cases h
          | some z =>
            rw [hd] at h
            cases h
            obtain ⟨z1, z2⟩ := ih hl1 P z hd
            refine ⟨z1, fun c hc => ?_⟩
            rcases List.mem_append.mp hc with h1 | h1
            · exact w3 c h1
            · exact z2 c h1
    · rw [if_neg hg] at h
      exact ih hl1 P x h

theorem applyComplexTestsUntilSuccessCalls_fst (P : mineFieldProbMap) (M : mineField)
    (n_otherSquares : Int) :
    (P.applyComplexTestsUntilSuccessCalls M n_otherSquares).map Prod.fst
      = P.applyComplexTestsUntilSuccess M n_otherSquares :=
  applyComplexTestsOverCalls_fst M n_otherSquares _ P

/-- A pass of complex tests with its calls: the calls are made with the map
of the beginning, and the map stays or one successful test was made. -/
theorem applyComplexTestsUntilSuccessCalls_spec (P : mineFieldProbMap) (M : mineField)
    (n_otherSquares : Int)
    (x : (Bool × mineFieldProbMap) × List (mineFieldProbMap × square × square))
    (h : P.applyComplexTestsUntilSuccessCalls M n_otherSquares = some x) :
    ((x.1.1 = false ∧ x.1.2 = P) ∨ (x.1.1 = true ∧ RuleStep M P x.1.2)) ∧
      ∀ c ∈ x.2, c.1 = P ∧ M.squareInsideMap c.2.1 = true ∧
        M.squareExplored c.2.1 = true ∧ M.squareInsideMap c.2.2 = true ∧
        M.squareExplored c.2.2 = true ∧ c.2.2 ≠ c.2.1 := by
  have h1 := applyComplexTestsUntilSuccessCalls_fst P M n_otherSquares
  rw [h] at h1
  exact ⟨applyComplexTestsUntilSuccess_spec P M n_otherSquares x.1 h1.symm,
    (applyComplexTestsOverCalls_spec M n_otherSquares (allSquares M)
      (fun s hs => (mem_allSquares M s).mp hs) P x h).2⟩

end mineFieldProbMap

end minesweeper

namespace minesweeper

open Relation

namespace mineFieldProbMap

theorem foldl_guarded {α β : Type} (c : α → Bool) (f : β → α → β) :
    ∀ (l : List α) (b : β),
      l.foldl (fun x t => if c t then f x t else x) b = (l.filter c).foldl f b := by
  intro l
  induction l with
  | nil => intro b; rfl
  | cons a l ih =>
    intro b
    by_cases h : c a = true
    · rw [List.foldl_cons, if_pos h, List.filter_cons_of_pos h, List.foldl_cons]
      exact ih _
    · rw [List.foldl_cons, if_neg h, List.filter_cons_of_neg h]
      exact ih _

/-- The list that `squareMeetsCriteria` compiles: the offsets from `s` of the
squares of `addedSquares`, added one after the other by `addSquareToList`. -/
theorem squareMeetsCriteria_added (P : mineFieldProbMap) (M : mineField) (s n : square)
    (u W : unknownNboursSharedRec) :
    (squareMeetsCriteria P M s n u W).2
      = (addedSquares P M s n).foldl
          (fun W1 t => W1.addSquareToList ⟨t.row - s.row, t.col - s.col⟩) W := by
  have h : (squareMeetsCriteria P M s n u W).2 = (squaresAround s).foldl
      (fun W1 t => if M.squareInsideMap t && !P.squareKnown t && neighbours t n
        then W1.addSquareToList ⟨t.row - s.row, t.col - s.col⟩ else W1) W := by
    simp only [squareMeetsCriteria]
    split_ifs <;> rfl
  rw [h, addedSquares]
  exact foldl_guarded _ _ _ _

theorem updateStage_fst (M : mineField) (k : Int)
    (x : (Bool × mineFieldProbMap) × List (mineFieldProbMap × square × square)) :
    (if !x.1.1 then
        (x.1.2.applyComplexTestsUntilSuccessCalls M k).map fun y => (y.1, x.2 ++ y.2)
      else some x).map Prod.fst
      = if !x.1.1 then x.1.2.applyComplexTestsUntilSuccess M k else some x.1 := by
  split_ifs
  · rw [Option.map_map]
    exact applyComplexTestsUntilSuccessCalls_fst x.1.2 M k
  · rfl

theorem updateLoopCalls_fst (M : mineField) :
    ∀ (fuel : Nat) (P : mineFieldProbMap) (c : Bool),
      (updateLoopCalls M fuel P c).map Prod.fst = updateLoop M fuel P c := by
  intro fuel
  induction fuel with
  | zero => intro P c; rfl
  | succ fuel ih =>
    intro P c
    rw [updateLoop_succ]
    simp only [updateLoopCalls]
    cases simpleLoop M (fuel + 1) P c with
    | none => rfl
    | some r =>
      obtain ⟨P1, c1⟩ := r
      dsimp only
      rw [← applyComplexTestsUntilSuccessCalls_fst P1 M 1]
      cases P1.applyComplexTestsUntilSuccessCalls M 1 with
      | none => rfl
      | some x1 =>
        dsimp only [Option.map_some']
        rw [← updateStage_fst M 2 x1]
        cases (if !x1.1.1 then
            (x1.1.2.applyComplexTestsUntilSuccessCalls M 2).map fun y => (y.1, x1.2 ++ y.2)
          else some x1) with
        | none => rfl
        | some x2 =>
          dsimp only [Option.map_some']
          rw [← updateStage_fst M 3 x2]
          cases (if !x2.1.1 then
              (x2.1.2.applyComplexTestsUntilSuccessCalls M 3).map fun y => (y.1, x2.2 ++ y.2)
            else some x2) with
          | none => rfl
          | some x3 =>
            dsimp only [Option.map_some']
            split_ifs
            · rw [Option.map_map]
              exact ih _ _
            · rfl

theorem updateCalls_fst (P : mineFieldProbMap) (M : mineField) :
    (P.updateCalls M).map Prod.fst = P.update M :=
  updateLoopCalls_fst M _ _ _

/-- A pass of complex tests that begins with every explored square marked
clear ends so, and makes its calls of `squareMeetsCriteria` so. -/
theorem updatePass_spec (P : mineFieldProbMap) (M : mineField) (k : Int)
    (x : (Bool × mineFieldProbMap) × List (mineFieldProbMap × square × square))
    (hc : ExploredClear M P) (h : P.applyComplexTestsUntilSuccessCalls M k = some x) :
    ExploredClear M x.1.2 ∧
      ∀ e ∈ x.2, ExploredClear M e.1 ∧ M.squareInsideMap e.2.1 = true ∧
        M.squareExplored e.2.1 = true ∧ M.squareInsideMap e.2.2 = true ∧
        M.squareExplored e.2.2 = true ∧ e.2.2 ≠ e.2.1 := by
  obtain ⟨h1, h2⟩ := applyComplexTestsUntilSuccessCalls_spec P M k x h
  constructor
  · rcases h1 with ⟨-, e⟩ | ⟨-, hstep⟩
    · rw [e]
      exact hc
    · exact exploredClear_tighten (ruleStep_tighten hstep hc).1 hc
  · intro e he
    obtain ⟨e1, e2⟩ := h2 e he
    rw [e1]
    exact ⟨hc, e2⟩

theorem updateStage_spec (M : mineField) (k : Int)
    (x y : (Bool × mineFieldProbMap) × List (mineFieldProbMap × square × square))
    (hc : ExploredClear M x.1.2)
    (hx : ∀ e ∈ x.2, ExploredClear M e.1 ∧ M.squareInsideMap e.2.1 = true ∧
        M.squareExplored e.2.1 = true ∧ M.squareInsideMap e.2.2 = true ∧
        M.squareExplored e.2.2 = true ∧ e.2.2 ≠ e.2.1)
    (h : (if !x.1.1 then
        (x.1.2.applyComplexTestsUntilSuccessCalls M k).map fun z => (z.1, x.2 ++ z.2)
      else some x) = some y) :
    ExploredClear M y.1.2 ∧
      ∀ e ∈ y.2, ExploredClear M e.1 ∧ M.squareInsideMap e.2.1 = true ∧
        M.squareExplored e.2.1 = true ∧ M.squareInsideMap e.2.2 = true ∧
        M.squareExplored e.2.2 = true ∧ e.2.2 ≠ e.2.1 := by
  split_ifs at h
  · cases hd : x.1.2.applyComplexTestsUntilSuccessCalls M k with
    | none => rw [hd] at h; cases h
    | some z =>
      rw [hd] at h
      cases h
      obtain ⟨z1, z2⟩ := updatePass_spec x.1.2 M k z hc hd
      refine ⟨z1, fun e he => ?_⟩
      rcases List.mem_append.mp he with h1 | h1
      · exact hx e h1
      · exact z2 e h1
  · cases h
    exact ⟨hc, hx⟩

/-- Every call of `squareMeetsCriteria` in the loops of `update` is made
with a map that marks every explored square clear, for two different
explored squares of the map. -/
theorem updateLoopCalls_spec (M : mineField) :
    ∀ (fuel : Nat) (P : mineFieldProbMap) (c : Bool)
      (x : (Bool × mineFieldProbMap) × List (mineFieldProbMap × square × square)),
      ExploredClear M P → updateLoopCalls M fuel P c = some x →
      ∀ e ∈ x.2, ExploredClear M e.1 ∧ M.squareInsideMap e.2.1 = true ∧
        M.squareExplored e.2.1 = true ∧ M.squareInsideMap e.2.2 = true ∧
        M.squareExplored e.2.2 = true ∧ e.2.2 ≠ e.2.1 := by
  intro fuel
  induction fuel with
  | zero => intro P c x _ h; cases h
  | succ fuel ih =>
    intro P c x hc h
    simp only [updateLoopCalls] at h
    cases hs : simpleLoop M (fuel + 1) P c with
    | none => rw [hs] at h; cases h
    | some r =>
      obtain ⟨P1, c1⟩ := r
      have hc1 : ExploredClear M P1 := (steps_tighten (simpleLoop_spec M _ P c _ hs).1 hc).2.1
      rw [hs] at h
      dsimp only at h
      cases h1 : P1.applyComplexTestsUntilSuccessCalls M 1 with
      | none => rw [h1] at h; cases h
      | some x1 =>
        obtain ⟨a1, b1⟩ := updatePass_spec P1 M 1 x1 hc1 h1
        rw [h1] at h
        dsimp only at h
        cases h2 : (if !x1.1.1 then
            (x1.1.2.applyComplexTestsUntilSuccessCalls M 2).map fun y => (y.1, x1.2 ++ y.2)
          else some x1) with
        | none => rw [h2] at h; cases h
        | some x2 =>
          obtain ⟨a2, b2⟩ := updateStage_spec M 2 x1 x2 a1 b1 h2
          rw [h2] at h
          dsimp only at h
          cases h3 : (if !x2.1.1 then
              (x2.1.2.applyComplexTestsUntilSuccessCalls M 3).map fun y => (y.1, x2.2 ++ y.2)
            else some x2) with
          | none => rw [h3] at h; cases h
          | some x3 =>
            obtain ⟨a3, b3⟩ := updateStage_spec M 3 x2 x3 a2 b2 h3
            rw [h3] at h
            dsimp only at h
            split_ifs at h with ht
            · cases hd : updateLoopCalls M fuel x3.1.2 true with
              | none => rw [hd] at h; cases h
              | some z =>
                rw [hd] at h
                cases h
                intro e he
                rcases List.mem_append.mp he with h4 | h4
                · exact b3 e h4
                · exact ih x3.1.2 true z a3 hd e h4
            · cases h
              exact b3

/-- C31: `update` returns, and at every call of `squareMeetsCriteria(s, n, ...)`
that it makes, with the probability map as it is at the time of the call,
the squares `s` and `n` are explored and therefore known, the list that the
call compiles is made by `addSquareToList` from the offsets of the squares of
`addedSquares`, neither `s` nor `n` is one of these squares, and none of
the offsets is `(0, 0)`. -/
theorem update_calls (P : mineFieldProbMap) (M : mineField) :
    ∃ x, P.updateCalls M = some x ∧ P.update M = some x.1 ∧
      ∀ c ∈ x.2,
        M.squareExplored c.2.1 = true ∧ M.squareExplored c.2.2 = true ∧
        c.1.squareKnown c.2.1 = true ∧ c.1.squareKnown c.2.2 = true ∧
        (∀ u W : unknownNboursSharedRec, (squareMeetsCriteria c.1 M c.2.1 c.2.2 u W).2
          = (addedSquares c.1 M c.2.1 c.2.2).foldl
              (fun W1 t => W1.addSquareToList ⟨t.row - c.2.1.row, t.col - c.2.1.col⟩) W) ∧
        c.2.1 ∉ addedSquares c.1 M c.2.1 c.2.2 ∧ c.2.2 ∉ addedSquares c.1 M c.2.1 c.2.2 ∧
        ∀ t ∈ addedSquares c.1 M c.2.1 c.2.2,
          (⟨t.row - c.2.1.row, t.col - c.2.1.col⟩ : square) ≠ ⟨0, 0⟩ := by
  obtain ⟨b, P1, hr, -⟩ := update_spec P M
  have he := updateCalls_fst P M
  rw [hr] at he
  cases hx : P.updateCalls M with
  | none => rw [hx] at he; cases he
  | some x =>
    rw [hx] at he
    simp only [Option.map_some', Option.some.injEq] at he
    refine ⟨x, rfl, (by rw [he]; exact hr), fun c hc => ?_⟩
    obtain ⟨c1, c2, c3, c4, c5, -⟩ :=
      updateLoopCalls_spec M _ _ _ x (setZero_exploredClear P M) hx c hc
    have k1 : c.1.squareKnown c.2.1 = true := by
      simp only [squareKnown, c1 c.2.1 c2 c3, Bool.true_or]
    have k2 : c.1.squareKnown c.2.2 = true := by
      simp only [squareKnown, c1 c.2.2 c4 c5, Bool.true_or]
    have hknown : ∀ t ∈ addedSquares c.1 M c.2.1 c.2.2, c.1.squareKnown t = false := by
      intro t ht
      simp only [addedSquares, List.mem_filter, Bool.and_eq_true, Bool.not_eq_true'] at ht
      exact ht.2.1.2
    refine ⟨c3, c5, k1, k2, fun u W => squareMeetsCriteria_added c.1 M c.2.1 c.2.2 u W,
      fun h => ?_, fun h => ?_, fun t ht h0 => ?_⟩
    · have := hknown _ h
      rw [k1] at this
      cases this
    · have := hknown _ h
      rw [k2] at this
      cases this
    · have ht1 := hknown t ht
      simp only [square.mk.injEq] at h0
      have : t = c.2.1 := by
        obtain ⟨tr, tc⟩ := t
        obtain ⟨cP, ⟨sr, sc⟩, cn⟩ := c
        simp only [square.mk.injEq]
        dsimp only at h0
        omega
      rw [this, k1] at ht1
      cases ht1

/-- The calls of `squareMeetsCriteria` that `update` makes on `ledgeField`
with no square known: the squares `s` and `n` of each call. -/
theorem ledge_calls :
    (blankMap.updateCalls ledgeField).map (fun x => x.2.map fun c => (c.2.1, c.2.2))
      = some [(⟨1, 0⟩, ⟨1, 1⟩), (⟨1, 0⟩, ⟨1, 2⟩), (⟨1, 1⟩, ⟨1, 0⟩)] := by
  decide

end mineFieldProbMap

end minesweeper

/-! ## The bit positions of the shared-neighbour list -/

namespace minesweeper

namespace mineFieldProbMap

open unknownNboursSharedRec

end mineFieldProbMap

end minesweeper

